import Mathlib

/-!
# ntfy user manager: access control, pattern encoding and token store

A shallow embedding of `user/manager.go`: the relational tables become lists of
rows (list order is the storage order of the table), every SQL statement becomes
a function on those lists, and every method of `Manager` becomes a function that
takes the database state and returns the result together with the new state.
-/

namespace Ntfy

/-! ## Errors and permissions -/

/-- The error values returned by the manager (`ErrUnauthorized`, `errNoRows`, ...);
`storage` stands for an error passed through from the database driver or from a
library, `failed` for an error built on the spot with `fmt.Errorf` or `errors.New`,
`ErrConstraintUnique` for the constant `sqlite3.ErrConstraintUnique` (an error code
of type `sqlite3.ErrNoExtended`), and `sqlite3Error` for the value of type
`sqlite3.Error` that the driver returns when a statement violates a unique index
(its field `ExtendedCode` holds `sqlite3.ErrConstraintUnique`). -/
inductive Error where
  | ErrUnauthenticated
  | ErrUnauthorized
  | ErrInvalidArgument
  | ErrUserNotFound
  | ErrUserExists
  | ErrTokenNotFound
  | ErrTooManyReservations
  | errNoTokenProvided
  | errTopicOwnedByOthers
  | errNoRows
  | storage
  | ErrTierNotFound
  | failed
  | ErrConstraintUnique
  | sqlite3Error
  deriving DecidableEq, Repr

/-- The Go function `errors.Is(err, target)` on the error values of the model. None
of them wraps another error or has an `Is` method, so the test is `err == target`;
a `sqlite3.Error` and the constant `sqlite3.ErrConstraintUnique` are values of two
different types and never equal. -/
def errorsIs (err target : Error) : Bool := err == target

/-- Modelled from the spec: the `Permission` type is declared outside `manager.go`.
The spec describes it as "read/write bits"; `manager.go` builds it with
`NewPermission(read, write)` and inspects it with `IsRead()` and `IsWrite()`. -/
structure Permission where
  read : Bool
  write : Bool
  deriving DecidableEq, Repr

/-- The Go function `NewPermission(read, write)`. -/
def NewPermission (read write : Bool) : Permission := ⟨read, write⟩

/-- The method `Permission.IsRead()`: the read bit is set. -/
def Permission.IsRead (p : Permission) : Bool := p.read

/-- The method `Permission.IsWrite()`: the write bit is set. -/
def Permission.IsWrite (p : Permission) : Bool := p.write

/-- The constant `PermissionDenyAll`: no bit set. -/
def PermissionDenyAll : Permission := ⟨false, false⟩

/-- The constant `PermissionRead`: only the read bit. -/
def PermissionRead : Permission := ⟨true, false⟩

/-- The constant `PermissionWrite`: only the write bit. -/
def PermissionWrite : Permission := ⟨false, true⟩

/-- The constant `PermissionReadWrite`: both bits. -/
def PermissionReadWrite : Permission := ⟨true, true⟩

/-- The bits of `p` are a subset of the bits of `g`. -/
def Permission.subset (p g : Permission) : Prop :=
  (p.read = true → g.read = true) ∧ (p.write = true → g.write = true)

instance (p g : Permission) : Decidable (p.subset g) := by
  unfold Permission.subset; infer_instance

/-- The method `Manager.resolvePerms(base, perm)`; `none` is Go's `nil` error. -/
def resolvePerms (base perm : Permission) : Option Error :=
  if perm = PermissionRead ∧ base.IsRead = true then none
  else if perm = PermissionWrite ∧ base.IsWrite = true then none
  else some Error.ErrUnauthorized

/-! ## Pattern encoder -/

/-- The scanning loop of Go's `strings.ReplaceAll` for a non-empty `old`: walk the
text from the left; where `old` starts, emit `new` and skip the rest of `old`
(`skip` counts the characters of a match still to be dropped). -/
def replaceAllAux (old new : List Char) : Nat → List Char → List Char
  | _, [] => []
  | skip + 1, _ :: cs => replaceAllAux old new skip cs
  | 0, c :: cs =>
    if old.isPrefixOf (c :: cs) then new ++ replaceAllAux old new (old.length - 1) cs
    else c :: replaceAllAux old new 0 cs

/-- Go's `strings.ReplaceAll(s, old, new)`: every non-overlapping occurrence of
`old`, found left to right, is replaced by `new`; an empty `old` matches before
every character and at the end. -/
def ReplaceAll (s old new : String) : String :=
  if old.data = [] then ⟨new.data ++ s.data.flatMap (fun c => c :: new.data)⟩
  else ⟨replaceAllAux old.data new.data 0 s.data⟩

/-- The function `escapeUnderscore(s)`: `strings.ReplaceAll(s, "_", "\\_")`. -/
def escapeUnderscore (s : String) : String := ReplaceAll s "_" "\\_"

/-- The function `unescapeUnderscore(s)`: `strings.ReplaceAll(s, "\\_", "_")`. -/
def unescapeUnderscore (s : String) : String := ReplaceAll s "\\_" "_"

/-- The function `toSQLWildcard(s)`: `escapeUnderscore(strings.ReplaceAll(s, "*", "%"))`. -/
def toSQLWildcard (s : String) : String := escapeUnderscore (ReplaceAll s "*" "%")

/-- The function `fromSQLWildcard(s)`: `strings.ReplaceAll(unescapeUnderscore(s), "%", "*")`. -/
def fromSQLWildcard (s : String) : String := ReplaceAll (unescapeUnderscore s) "%" "*"

/-- Modelled from the spec: the pattern grammar (`AllowedTopicPattern`) is declared
outside `manager.go`; a character of a valid user-facing pattern is a letter, a
digit, `-`, `_` or `*`. -/
def validPatternChar (c : Char) : Bool :=
  c.isAlphanum || c == '-' || c == '_' || c == '*'

/-- A valid user-facing pattern is made of valid pattern characters only. -/
def validPattern (p : String) : Prop := ∀ c ∈ p.data, validPatternChar c = true

instance (p : String) : Decidable (validPattern p) := by
  unfold validPattern; infer_instance

/-- The characters of `toSQLWildcard p`: each `*` becomes `%`, each `_` becomes
`\_`, every other character stays. -/
def encodeChar (c : Char) : List Char :=
  if c = '*' then ['%'] else if c = '_' then ['\\', '_'] else [c]

/-! ## SQL text functions used by the queries -/

/-- Characters that SQLite's `LIKE` treats as equal: the same character, or two
ASCII characters that differ only in letter case (`LIKE` is case-insensitive for
ASCII by default, and `manager.go` never sets `case_sensitive_like`). -/
def likeChar (c d : Char) : Bool :=
  c == d || (decide (c.toNat < 128) && decide (d.toNat < 128) && c.toLower == d.toLower)

/-- Some suffix of the text (the text itself included) satisfies `rest`: what a
wildcard for "zero or more characters" followed by `rest` accepts. -/
def matchAnySeq (rest : List Char → Bool) : List Char → Bool
  | [] => rest []
  | c :: s => rest (c :: s) || matchAnySeq rest s

/-- SQLite's `text LIKE pattern ESCAPE '\'` on character lists, pattern first:
`%` matches zero or more characters, `_` exactly one, `\` makes the next pattern
character literal (a trailing `\` matches nothing), any other character matches
itself up to ASCII case. -/
def likeCompare : List Char → List Char → Bool
  | [], s => s.isEmpty
  | c :: p, s =>
    if c = '%' then matchAnySeq (likeCompare p) s
    else if c = '\\' then
      match p, s with
      | e :: p', d :: s' => likeChar e d && likeCompare p' s'
      | _, _ => false
    else if c = '_' then
      match s with
      | _ :: s' => likeCompare p s'
      | [] => false
    else
      match s with
      | d :: s' => likeChar c d && likeCompare p s'
      | [] => false

/-- A text as SQLite's `LIKE` reads it: the function works on NUL-terminated
strings, so it sees the characters before the first NUL only. -/
def cString (s : List Char) : List Char := s.takeWhile fun c => c != Char.ofNat 0

/-- The SQL expression `text LIKE pattern ESCAPE '\'`. -/
def like (text pattern : String) : Bool :=
  likeCompare (cString pattern.data) (cString text.data)

/-- A glob match with a chosen equality on characters: `*` matches zero or more
characters, every other pattern character (also `_`) matches one character equal
to it under `eq`. -/
def globMatchBy (eq : Char → Char → Bool) : List Char → List Char → Bool
  | [], s => s.isEmpty
  | c :: p, s =>
    if c = '*' then matchAnySeq (globMatchBy eq p) s
    else
      match s with
      | d :: s' => eq c d && globMatchBy eq p s'
      | [] => false

/-- The glob of the specification: `*` matches zero or more characters and every
other character, including `_`, matches only itself. -/
def globMatch (pattern text : String) : Bool :=
  globMatchBy (fun c d => c == d) pattern.data text.data

/-- The glob that folds ASCII letter case: as `globMatch`, but a letter also
matches its other-case form. -/
def globMatchNoCase (pattern text : String) : Bool :=
  globMatchBy likeChar pattern.data text.data

/-- Byte-wise `<` on text (SQLite's default BINARY collation, `memcmp`); on
UTF-8 text this is the lexicographic order of the code points. -/
def textLtAux : List Char → List Char → Bool
  | [], [] => false
  | [], _ :: _ => true
  | _ :: _, [] => false
  | a :: as, b :: bs =>
    decide (a.toNat < b.toNat) || (decide (a.toNat = b.toNat) && textLtAux as bs)

/-- The SQL comparison `a < b` on TEXT values. -/
def textLt (a b : String) : Bool := textLtAux a.data b.data

/-- The rows of `ORDER BY` placed one by one: `x` goes in front of the first row it
`precedes`, so rows that tie keep the order in which the scan produced them. -/
def orderedInsert {α : Type} (precedes : α → α → Bool) (x : α) : List α → List α
  | [] => [x]
  | y :: ys => if precedes x y then x :: y :: ys else y :: orderedInsert precedes x ys

/-- The SQL clause `ORDER BY`: the rows sorted so that a row stands before the rows
it `precedes`; the clause says nothing about rows that tie, they stay in the order
in which the scan produced them. -/
def orderBy {α : Type} (precedes : α → α → Bool) : List α → List α
  | [] => []
  | x :: xs => orderedInsert precedes x (orderBy precedes xs)

/-- The first row of an ordered result, computed without sorting: scanning from the
end, the running best is replaced by each row that precedes it. -/
def firstRow {α : Type} (r : α → α → Bool) : List α → Option α
  | [] => none
  | x :: xs =>
    match firstRow r xs with
    | none => some x
    | some h => if r x h then some x else some h

/-! ## Tables -/

/-- The role column of `user`: `'anonymous'`, `'admin'` or `'user'`. -/
abbrev Role := String

/-- The constant `RoleAdmin`. -/
def RoleAdmin : Role := "admin"

/-- The constant `RoleUser`. -/
def RoleUser : Role := "user"

/-- The constant `RoleAnonymous`. -/
def RoleAnonymous : Role := "anonymous"

/-- The constant `Everyone`: the username of the anonymous user. -/
def Everyone : String := "*"

/-- The constant `tokenLength`. -/
def tokenLength : Nat := 32

/-- The constant `tokenMaxCount`: only this many tokens are kept per user. -/
def tokenMaxCount : Nat := 60

/-- A row of table `user` (the billing columns, a pure pass-through, are left out). -/
structure UserRow where
  id : String
  tier_id : Option String
  user : String
  pass : String
  role : Role
  prefs : String
  sync_topic : String
  provisioned : Bool
  stats_messages : Int
  stats_emails : Int
  stats_calls : Int
  created : Int
  deleted : Option Int
  deriving DecidableEq, Repr

/-- A row of table `user_access`; `topic` holds the encoded pattern. -/
structure AccessRow where
  user_id : String
  topic : String
  read : Bool
  write : Bool
  owner_user_id : Option String
  provisioned : Bool
  deriving DecidableEq, Repr

/-- A row of table `user_token`; times are Unix seconds. -/
structure TokenRow where
  user_id : String
  token : String
  label : String
  last_access : Int
  last_origin : String
  expires : Int
  provisioned : Bool
  deriving DecidableEq, Repr

/-- The database: each table is the list of its rows in storage order. -/
structure DB where
  users : List UserRow
  access : List AccessRow
  tokens : List TokenRow
  deriving DecidableEq, Repr

/-- The fields of the Go struct `User` that the modelled methods read or set. -/
structure User where
  ID : String
  Name : String
  Hash : String
  Token : String
  Role : Role
  SyncTopic : String
  Provisioned : Bool
  Deleted : Bool
  deriving DecidableEq, Repr

/-- The Go struct `Token`; times are Unix seconds, the origin is its text form. -/
structure Token where
  Value : String
  Label : String
  LastAccess : Int
  LastOrigin : String
  Expires : Int
  Provisioned : Bool
  deriving DecidableEq, Repr

/-- The Go struct `Grant`. -/
structure Grant where
  TopicPattern : String
  Permission : Permission
  Provisioned : Bool
  deriving DecidableEq, Repr

/-- The fields of `Config` that the modelled methods read. -/
structure Config where
  DefaultAccess : Permission
  deriving DecidableEq, Repr

/-- The fields of `Config` that the provisioning reads. The Go maps `Access` and
`Tokens` (username to grants, username to tokens) are the lists of their entries in
the order in which the `range` statement visits them. -/
structure ProvisionConfig where
  ProvisionEnabled : Bool
  Users : List User
  Access : List (String × List Grant)
  Tokens : List (String × List Token)
  deriving DecidableEq, Repr

/-! ## Permission resolver -/

/-- A row of `user_access a JOIN user u ON u.id = a.user_id`, with the columns that
`selectTopicPermsQuery` reads. -/
structure PermRow where
  user : String
  topic : String
  read : Bool
  write : Bool
  deriving DecidableEq, Repr

/-- The rows of `user_access a JOIN user u ON u.id = a.user_id`, in scan order. -/
def accessJoinUser (db : DB) : List PermRow :=
  db.access.flatMap fun a =>
    (db.users.filter fun u => u.id = a.user_id).map fun u =>
      { user := u.user, topic := a.topic, read := a.read, write := a.write }

/-- The clause `ORDER BY u.user DESC, LENGTH(a.topic) DESC, a.write DESC`: row `x`
is not ranked below row `y`. -/
def permPrecedes (x y : PermRow) : Bool :=
  if x.user ≠ y.user then textLt y.user x.user
  else if x.topic.length ≠ y.topic.length then decide (y.topic.length < x.topic.length)
  else !y.write || x.write

/-- The `WHERE` clause of `selectTopicPermsQuery` with its three parameters:
`(u.user = ? OR u.user = ?) AND ? LIKE a.topic ESCAPE '\'`. -/
def topicPermsWhere (user1 user2 topic : String) (r : PermRow) : Bool :=
  (r.user == user1 || r.user == user2) && like topic r.topic

/-- The rows selected and ordered by `selectTopicPermsQuery`, all columns kept. -/
def selectTopicPermsRows (db : DB) (user1 user2 topic : String) : List PermRow :=
  orderBy permPrecedes ((accessJoinUser db).filter (topicPermsWhere user1 user2 topic))

/-- The query `selectTopicPermsQuery`: the `(read, write)` columns of the rows. -/
def selectTopicPermsQuery (db : DB) (user1 user2 topic : String) : List (Bool × Bool) :=
  (selectTopicPermsRows db user1 user2 topic).map fun r => (r.read, r.write)

/-- The method `Manager.Authorize(user, topic, perm)`; `user = none` is the `nil`
user and the result `none` is the `nil` error. -/
def Authorize (cfg : Config) (db : DB) (user : Option User) (topic : String)
    (perm : Permission) : Option Error :=
  let isAdmin : Bool := match user with
    | some u => u.Role == RoleAdmin
    | none => false
  if isAdmin then none
  else
    let username := match user with
      | some u => u.Name
      | none => Everyone
    match selectTopicPermsQuery db Everyone username topic with
    | [] => resolvePerms cfg.DefaultAccess perm
    | (read, write) :: _ => resolvePerms (NewPermission read write) perm

/-- The method `Manager.DefaultAccess()`. -/
def DefaultAccess (cfg : Config) : Permission := cfg.DefaultAccess

/-- The grants of the user called `name` whose stored pattern matches `topic`, in
scan order: the rows of the join that `selectTopicPermsQuery` selects for `name`. -/
def matchingGrants (db : DB) (name topic : String) : List PermRow :=
  (accessJoinUser db).filter fun r => r.user == name && like topic r.topic

/-- The row that decides `Authorize` for a non-admin caller called `name`: the first
row of `selectTopicPermsQuery`, if there is one. -/
def decidingRow (db : DB) (name topic : String) : Option PermRow :=
  (selectTopicPermsRows db Everyone name topic).head?

/-- The primary key of `user_access`: `PRIMARY KEY (user_id, topic)`. -/
def AccessKeysUnique (db : DB) : Prop := (db.access.map fun a => (a.user_id, a.topic)).Nodup

instance (db : DB) : Decidable (AccessKeysUnique db) := by
  unfold AccessKeysUnique; infer_instance

/-- The order of the index that SQLite keeps for `PRIMARY KEY (user_id, topic)`, two
TEXT columns compared byte-wise: row `x` does not stand after row `y`. -/
def accessKeyPrecedes (x y : AccessRow) : Bool :=
  if x.user_id ≠ y.user_id then textLt x.user_id y.user_id else !textLt y.topic x.topic

/-- The database as `selectTopicPermsQuery` reads it. The query joins `user_access`
to `user` on `a.user_id = u.id`, and SQLite finds the grant rows of a user through
the index of the primary key, so the scan yields the rows of `user_access` in the
order of their keys, whatever the order in which they were inserted. The rows that
tie in the `ORDER BY` clause of the query are then the rows of one user (`u.user`
is the first sort key), in the order of their stored patterns. -/
def indexScan (db : DB) : DB := { db with access := orderBy accessKeyPrecedes db.access }

/-- The username under which `Authorize` looks up grants: the caller's name, or
`Everyone` for the `nil` user. -/
def callerName (user : Option User) : String :=
  match user with
  | some u => u.Name
  | none => Everyone

/-- The caller is not an admin (the `nil` user never is). -/
def notAdmin (user : Option User) : Prop := ∀ u, user = some u → u.Role ≠ RoleAdmin

instance (user : Option User) : Decidable (notAdmin user) := by
  unfold notAdmin
  cases user with
  | none => exact isTrue (fun _ h => by cases h)
  | some v =>
    by_cases h : v.Role = RoleAdmin
    · exact isFalse (fun k => k v rfl h)
    · exact isTrue (fun u e => by cases e; exact h)

/-! ## Grant store -/

/-- Modelled from the spec: the validation predicates `AllowedUsername`,
`AllowedTopic`, `AllowedTopicPattern` and `AllowedRole` are declared outside
`manager.go` (the spec calls them caller-provided predicates), so they are
parameters of the model. -/
structure Predicates where
  AllowedUsername : String → Bool
  AllowedTopic : String → Bool
  AllowedTopicPattern : String → Bool
  AllowedRole : Role → Bool

/-- The scalar subquery `(SELECT id FROM user WHERE user = ?)`: the id of the first
such row, `none` (NULL) when there is none. -/
def selectUserID (db : DB) (username : String) : Option String :=
  (db.users.find? fun u => u.user == username).map fun u => u.id

/-- The statement `upsertUserAccessQuery` with its seven parameters. The user id is
looked up by name (a missing user violates `NOT NULL`); the owner is NULL when the
first owner parameter is empty; a row with the same `(user_id, topic)` gets its
other columns replaced, otherwise the row is appended. -/
def upsertUserAccessQuery (db : DB) (username topic : String) (read write : Bool)
    (owner1 owner2 : String) (provisioned : Bool) : Except Error DB :=
  match selectUserID db username with
  | none => .error Error.storage
  | some uid =>
    let ownerID := if owner1 = "" then none else selectUserID db owner2
    if db.access.any (fun a => a.user_id == uid && a.topic == topic) then
      .ok { db with access := db.access.map fun a =>
              if a.user_id = uid ∧ a.topic = topic then
                { a with read := read, write := write, owner_user_id := ownerID,
                         provisioned := provisioned }
              else a }
    else
      .ok { db with access := db.access ++
              [{ user_id := uid, topic := topic, read := read, write := write,
                 owner_user_id := ownerID, provisioned := provisioned }] }

/-- The method `Manager.allowAccessTx`; `.ok db'` is the `nil` error with the new state. -/
def allowAccessTx (v : Predicates) (db : DB) (username topicPattern : String)
    (permission : Permission) (provisioned : Bool) : Except Error DB :=
  if !v.AllowedUsername username && username != Everyone then .error Error.ErrInvalidArgument
  else if !v.AllowedTopicPattern topicPattern then .error Error.ErrInvalidArgument
  else
    let owner := ""
    upsertUserAccessQuery db username (toSQLWildcard topicPattern) permission.IsRead
      permission.IsWrite owner owner provisioned

/-- The method `Manager.AllowAccess`: `allowAccessTx` in one transaction, not provisioned. -/
def AllowAccess (v : Predicates) (db : DB) (username topicPattern : String)
    (permission : Permission) : Except Error DB :=
  allowAccessTx v db username topicPattern permission false

/-- The clause `ORDER BY LENGTH(topic) DESC, write DESC, read DESC, topic`: row `x`
is not ranked below row `y`. -/
def accessPrecedes (x y : AccessRow) : Bool :=
  if x.topic.length ≠ y.topic.length then decide (y.topic.length < x.topic.length)
  else if x.write ≠ y.write then x.write
  else if x.read ≠ y.read then x.read
  else !textLt y.topic x.topic

/-- The query `selectUserAccessQuery`: the rows of the user with that name. -/
def selectUserAccessQuery (db : DB) (username : String) : List AccessRow :=
  orderBy accessPrecedes (db.access.filter fun a => some a.user_id == selectUserID db username)

/-- The query `selectUserAllAccessQuery`: all rows. -/
def selectUserAllAccessQuery (db : DB) : List AccessRow :=
  orderBy accessPrecedes db.access

/-- The `Grant` that `Grants` and `AllGrants` build from a row. -/
def toGrant (a : AccessRow) : Grant :=
  { TopicPattern := fromSQLWildcard a.topic, Permission := NewPermission a.read a.write,
    Provisioned := a.provisioned }

/-- The method `Manager.Grants(username)`. -/
def Grants (db : DB) (username : String) : List Grant :=
  (selectUserAccessQuery db username).map toGrant

/-- The method `Manager.AllGrants()`: the Go map from user id to grants, as a function (a user
id without rows has the empty list). -/
def AllGrants (db : DB) (userID : String) : List Grant :=
  ((selectUserAllAccessQuery db).filter fun a => a.user_id == userID).map toGrant

/-! ## Token store -/

/-- The statement `upsertTokenQuery`. A row with the same `(user_id, token)` gets
its label, expiry and provisioned flag replaced; otherwise the row is appended,
unless the user is missing (foreign key) or the token value is already taken
(unique index `idx_user_token`). -/
def upsertTokenQuery (db : DB) (r : TokenRow) : Except Error DB :=
  if db.tokens.any (fun t => t.user_id == r.user_id && t.token == r.token) then
    .ok { db with tokens := db.tokens.map fun t =>
            if t.user_id = r.user_id ∧ t.token = r.token then
              { t with label := r.label, expires := r.expires, provisioned := r.provisioned }
            else t }
  else if !(db.users.any fun u => u.id == r.user_id) then .error Error.storage
  else if db.tokens.any (fun t => t.token == r.token) then .error Error.storage
  else .ok { db with tokens := db.tokens ++ [r] }

/-- The query `selectTokenCountQuery`: `COUNT(*)` of the user's token rows. -/
def selectTokenCountQuery (db : DB) (userID : String) : Nat :=
  (db.tokens.filter fun t => t.user_id == userID).length

/-- The statement `deleteExcessTokensQuery` with its three parameters: delete the
rows of user `userID1` whose `(user_id, token)` is not among the first `limit` rows
of user `userID2` taken in the order `expires DESC`. -/
def deleteExcessTokensQuery (db : DB) (userID1 userID2 : String) (limit : Nat) : DB :=
  let kept := ((orderBy (fun x y : TokenRow => decide (y.expires ≤ x.expires))
      (db.tokens.filter fun t => t.user_id == userID2)).take limit).map
        fun t => (t.user_id, t.token)
  { db with tokens := db.tokens.filter fun t =>
      !(t.user_id == userID1 && !(kept.contains (t.user_id, t.token))) }

/-- The method `Manager.createTokenTx`, run at time `now`: upsert the token, count the user's
tokens and prune when the count has reached `tokenMaxCount`. -/
def createTokenTx (db : DB) (now : Int) (userID token label : String) (expires : Int)
    (origin : String) (provisioned : Bool) : Except Error (DB × Token) :=
  match upsertTokenQuery db
      { user_id := userID, token := token, label := label, last_access := now,
        last_origin := origin, expires := expires, provisioned := provisioned } with
  | .error e => .error e
  | .ok db1 =>
    let tokenCount := selectTokenCountQuery db1 userID
    let db2 := if tokenCount ≥ tokenMaxCount then
        deleteExcessTokensQuery db1 userID userID tokenMaxCount
      else db1
    .ok (db2, { Value := token, Label := label, LastAccess := now, LastOrigin := origin,
                Expires := expires, Provisioned := provisioned })

/-- The method `Manager.CreateToken`, with the value that `GenerateToken()` drew passed in as
`token`: `createTokenTx` in one transaction (on an error nothing is committed). -/
def CreateToken (db : DB) (now : Int) (token userID label : String) (expires : Int)
    (origin : String) (provisioned : Bool) : Except Error (DB × Token) :=
  createTokenTx db now userID token label expires origin provisioned

/-- The constraint `PRIMARY KEY (user_id, token)` of table `user_token`. -/
def TokenKeysUnique (db : DB) : Prop :=
  (db.tokens.map fun t => (t.user_id, t.token)).Nodup

instance (db : DB) : Decidable (TokenKeysUnique db) := by
  unfold TokenKeysUnique; infer_instance

/-! ## Sample data -/

/-- A `user` row with the given id, name and role and default values elsewhere. -/
def mkUserRow (id name : String) (role : Role) : UserRow :=
  { id := id, tier_id := none, user := name, pass := "", role := role, prefs := "\x7b\x7d",
    sync_topic := "", provisioned := false, stats_messages := 0, stats_emails := 0,
    stats_calls := 0, created := 0, deleted := none }

/-- A Go `User` value with the given id, name and role. -/
def mkUser (id name : String) (role : Role) : User :=
  { ID := id, Name := name, Hash := "", Token := "", Role := role, SyncTopic := "",
    Provisioned := false, Deleted := false }

/-- A `user_access` row without owner, as `AllowAccess` writes it. -/
def mkGrant (userID pattern : String) (p : Permission) : AccessRow :=
  { user_id := userID, topic := toSQLWildcard pattern, read := p.IsRead, write := p.IsWrite,
    owner_user_id := none, provisioned := false }

/-- The users of the sample databases: the anonymous user, `phil` and `bob`. -/
def sampleUsers : List UserRow :=
  [mkUserRow "u_everyone" Everyone RoleAnonymous, mkUserRow "u_phil" "phil" RoleUser,
   mkUserRow "u_bob" "bob" RoleUser]

/-- The caller `phil`, role `user`. -/
def phil : User := mkUser "u_phil" "phil" RoleUser

/-- A configuration whose default access denies everything. -/
def cfgDeny : Config := ⟨PermissionDenyAll⟩

/-- A database with the sample users, the given grants and no tokens. -/
def grantsDB (access : List AccessRow) : DB := ⟨sampleUsers, access, []⟩

/-- The grants `(*, "foo*", read)` and `(phil, "foobar", write)`. -/
def fooDB : DB :=
  grantsDB [mkGrant "u_everyone" "foo*" PermissionRead, mkGrant "u_phil" "foobar" PermissionWrite]

/-- An admin caller. -/
def root : User := mkUser "u_root" "root" RoleAdmin

/-- Users of a database in which one username sorts before `*`: the anonymous
user and a user called `$ops`. -/
def opsUsers : List UserRow :=
  [mkUserRow "u_everyone" Everyone RoleAnonymous, mkUserRow "u_ops" "$ops" RoleUser]

/-- The caller `$ops`, role `user`. -/
def ops : User := mkUser "u_ops" "$ops" RoleUser

/-- The grants `(*, "foo*", read)` and `($ops, "foobar", write)`. -/
def opsDB : DB :=
  ⟨opsUsers, [mkGrant "u_everyone" "foo*" PermissionRead,
              mkGrant "u_ops" "foobar" PermissionWrite], []⟩

/-- The grants `(phil, "a_b_c", read)` and `(phil, "a*b*c*", read-write)`. -/
def underscoreDB : DB :=
  grantsDB [mkGrant "u_phil" "a_b_c" PermissionRead,
            mkGrant "u_phil" "a*b*c*" PermissionReadWrite]

/-- The grants `(phil, "a*", read)`, `(phil, "*a", write)` and `(phil, "aa*", read)`. -/
def tieDB : DB :=
  grantsDB [mkGrant "u_phil" "a*" PermissionRead, mkGrant "u_phil" "*a" PermissionWrite,
            mkGrant "u_phil" "aa*" PermissionRead]

/-- The grants `(phil, "a_", read)` and `(phil, "a*", write)`: two user-facing
patterns of equal length whose stored forms `a\_` and `a%` differ in length. -/
def maskDB : DB :=
  grantsDB [mkGrant "u_phil" "a_" PermissionRead, mkGrant "u_phil" "a*" PermissionWrite]

/-- The grants `(phil, "a*", read)` and `(phil, "*a", write)`. -/
def tieTopDB : DB :=
  grantsDB [mkGrant "u_phil" "a*" PermissionRead, mkGrant "u_phil" "*a" PermissionWrite]

/-- The grants `(phil, "alerts-*", read)` and `(phil, "*-server", deny)`, stored in
this order. -/
def orderDB1 : DB :=
  grantsDB [mkGrant "u_phil" "alerts-*" PermissionRead,
            mkGrant "u_phil" "*-server" PermissionDenyAll]

/-- The same two grants as in `orderDB1`, stored in the other order. -/
def orderDB2 : DB :=
  grantsDB [mkGrant "u_phil" "*-server" PermissionDenyAll,
            mkGrant "u_phil" "alerts-*" PermissionRead]

/-- Sixty tokens of `phil` with pairwise distinct values and the expiry times
`1, ..., 60`. -/
def sixtyTokens : List TokenRow :=
  (List.range 60).map fun i =>
    { user_id := "u_phil", token := ⟨List.replicate (i + 1) 'x'⟩, label := "",
      last_access := 0, last_origin := "0.0.0.0", expires := (i : Int) + 1,
      provisioned := false }

/-- A database in which `phil` already holds sixty tokens. -/
def fullDB : DB := ⟨sampleUsers, [], sixtyTokens⟩

/-- Validation predicates that accept every name and every valid pattern. -/
def allowAll : Predicates :=
  { AllowedUsername := fun _ => true, AllowedTopic := fun _ => true,
    AllowedTopicPattern := fun p => decide (validPattern p),
    AllowedRole := fun _ => true }

/-! ## Library functions -/

/-- The functions of external libraries that `manager.go` calls, as parameters:
`CompareHashAndPassword hash password` is true when
`bcrypt.CompareHashAndPassword` returns `nil`; `UnmarshalPrefs prefs` is true when
`json.Unmarshal` accepts the stored preferences; `ParseAddr s` is the text form of
the address that `netip.ParseAddr` reads from `s`, `none` when it fails;
`DurationSeconds d` is `int64(d.Seconds())` for a `time.Duration` of `d`
nanoseconds (the seconds as a `float64`, then converted to an integer). -/
structure Lib where
  CompareHashAndPassword : String → String → Bool
  UnmarshalPrefs : String → Bool
  ParseAddr : String → Option String
  DurationSeconds : Int → Int

/-- Modelled from the spec: the functions `ValidPasswordHash` and `hashPassword` are
declared outside `manager.go` (the spec speaks of adding a user "with pre-hashed or
plaintext password" and of a "password hash cost"), so they are parameters of the
model: `ValidPasswordHash hash` is the error it returns (`none` is `nil`),
`hashPassword password cost` the hash or the error. -/
structure Hasher where
  ValidPasswordHash : String → Option Error
  hashPassword : String → Nat → Except Error String

/-- Go's `len(s)` of a string: its number of bytes. -/
def goLen (s : String) : Nat := s.utf8ByteSize

/-- SQL `x = y` on nullable text: true only when both are present and equal. -/
def sqlEq : Option String → Option String → Bool
  | some a, some b => a == b
  | _, _ => false

/-- SQL `x != y` on nullable text: true only when both are present and differ. -/
def sqlNe : Option String → Option String → Bool
  | some a, some b => a != b
  | _, _ => false

/-! ## Token reads and removal -/

/-- The `Token` that `readToken` builds from a row; an origin that does not parse
becomes `netip.IPv4Unspecified()`. -/
def tokenOfRow (lib : Lib) (r : TokenRow) : Token :=
  { Value := r.token, Label := r.label, LastAccess := r.last_access,
    LastOrigin := (lib.ParseAddr r.last_origin).getD "0.0.0.0", Expires := r.expires,
    Provisioned := r.provisioned }

/-- The method `Manager.readToken`: the first of the remaining rows, or
`ErrTokenNotFound`. -/
def readToken (lib : Lib) (rows : List TokenRow) : Except Error Token :=
  match rows with
  | [] => .error Error.ErrTokenNotFound
  | r :: _ => .ok (tokenOfRow lib r)

/-- The query `selectTokensQuery`: the rows of the user. -/
def selectTokensQuery (db : DB) (userID : String) : List TokenRow :=
  db.tokens.filter fun t => t.user_id == userID

/-- The query `selectTokenQuery`: the rows of the user with that token value. -/
def selectTokenQuery (db : DB) (userID token : String) : List TokenRow :=
  db.tokens.filter fun t => t.user_id == userID && t.token == token

/-- The method `Manager.Tokens(userID)`: `readToken` until the rows are used up. -/
def Tokens (lib : Lib) (db : DB) (userID : String) : List Token :=
  (selectTokensQuery db userID).map (tokenOfRow lib)

/-- The method `Manager.Token(userID, token)`. -/
def Manager.Token (lib : Lib) (db : DB) (userID token : String) : Except Error Token :=
  readToken lib (selectTokenQuery db userID token)

/-- The statement `deleteTokenQuery`. -/
def deleteTokenQuery (db : DB) (userID token : String) : DB :=
  { db with tokens := db.tokens.filter fun t => !(t.user_id == userID && t.token == token) }

/-- The method `Manager.removeTokenTx`. -/
def removeTokenTx (db : DB) (userID token : String) : Except Error DB :=
  if token = "" then .error Error.errNoTokenProvided
  else .ok (deleteTokenQuery db userID token)

/-- The method `Manager.RemoveToken`: `removeTokenTx` in one transaction. -/
def RemoveToken (db : DB) (userID token : String) : Except Error DB :=
  removeTokenTx db userID token

/-- The statement `deleteAllTokenQuery`. -/
def deleteAllTokenQuery (db : DB) (userID : String) : DB :=
  { db with tokens := db.tokens.filter fun t => !(t.user_id == userID) }

/-! ## Authenticator -/

/-- The constant `userAuthIntentionalSlowDownHash`. -/
def userAuthIntentionalSlowDownHash : String :=
  "$2a$10$YFCQvqQDwIIwnJM1xkAYOeih0dg17UVGanaTStnrSzC8NCWxcLDwy"

/-- The constant `DefaultUserPasswordBcryptCost`. -/
def DefaultUserPasswordBcryptCost : Nat := 10

/-- The constant `userHardDeleteAfterDuration`, seven days, in seconds. -/
def userHardDeleteAfterDuration : Int := 7 * 24 * 3600

/-- The password of the dummy verification in `Authenticate`. -/
def slowDownPassword : String := "intentional slow-down to avoid timing attacks"

/-- The cost field of a bcrypt hash as `bcrypt` decodes it: after `$2$` or `$2x$`
(a one-character minor version), two decimal digits. -/
def decodeCost (hash : String) : Option Nat :=
  match hash.data with
  | '$' :: _ :: c :: rest =>
    let digits := if c = '$' then rest.take 2 else (rest.drop 1).take 2
    match digits with
    | [a, b] =>
      if a.isDigit && b.isDigit then some ((a.toNat - 48) * 10 + (b.toNat - 48)) else none
    | _ => none
  | _ => none

/-- The query `selectUserByNameQuery`: the rows with that name. -/
def selectUserByNameQuery (db : DB) (username : String) : List UserRow :=
  db.users.filter fun u => u.user == username

/-- The query `selectUserByTokenQuery`: the rows of
`user u JOIN user_token tk ON u.id = tk.user_id` with that token value whose token
has `expires = 0` or `expires >= now`. -/
def selectUserByTokenQuery (db : DB) (token : String) (now : Int) : List UserRow :=
  db.users.flatMap fun u =>
    (db.tokens.filter fun tk =>
      u.id == tk.user_id && tk.token == token &&
        (tk.expires == 0 || decide (tk.expires ≥ now))).map fun _ => u

/-- The `User` that `readUser` builds from a row: `Deleted` is true when the column
`deleted` is not NULL, `Token` is left empty. -/
def userOfRow (r : UserRow) : User :=
  { ID := r.id, Name := r.user, Hash := r.pass, Token := "", Role := r.role,
    SyncTopic := r.sync_topic, Provisioned := r.provisioned, Deleted := r.deleted.isSome }

/-- The method `Manager.readUser` on the rows of a user query: no row is
`ErrUserNotFound`, preferences that do not unmarshal are an error, otherwise the
first row becomes the `User`. -/
def readUser (lib : Lib) (rows : List UserRow) : Except Error User :=
  match rows with
  | [] => .error Error.ErrUserNotFound
  | r :: _ =>
    if !lib.UnmarshalPrefs r.prefs then .error Error.storage
    else .ok (userOfRow r)

/-- The method `Manager.User(username)`. -/
def Manager.User (lib : Lib) (db : DB) (username : String) : Except Error User :=
  readUser lib (selectUserByNameQuery db username)

/-- The method `Manager.userByToken(token)`, run at time `now`. -/
def userByToken (lib : Lib) (db : DB) (now : Int) (token : String) : Except Error User :=
  readUser lib (selectUserByTokenQuery db token now)

/-- One call of `bcrypt.CompareHashAndPassword(hash, password)`. -/
structure HashCheck where
  hash : String
  password : String
  deriving DecidableEq, Repr

/-- The method `Manager.Authenticate(username, password)` together with the calls
of `bcrypt.CompareHashAndPassword` it makes, in order. -/
def authenticate (lib : Lib) (db : DB) (username password : String) :
    Except Error User × List HashCheck :=
  if username = Everyone then (.error Error.ErrUnauthenticated, [])
  else
    match Manager.User lib db username with
    | .error _ =>
      (.error Error.ErrUnauthenticated, [⟨userAuthIntentionalSlowDownHash, slowDownPassword⟩])
    | .ok user =>
      if user.Deleted then
        (.error Error.ErrUnauthenticated,
          [⟨userAuthIntentionalSlowDownHash, slowDownPassword⟩])
      else if !lib.CompareHashAndPassword user.Hash password then
        (.error Error.ErrUnauthenticated, [⟨user.Hash, password⟩])
      else (.ok user, [⟨user.Hash, password⟩])

/-- The result of `Manager.Authenticate(username, password)`. -/
def Authenticate (lib : Lib) (db : DB) (username password : String) : Except Error User :=
  (authenticate lib db username password).1

/-- The method `Manager.AuthenticateToken(token)`, run at time `now`. -/
def AuthenticateToken (lib : Lib) (db : DB) (now : Int) (token : String) :
    Except Error User :=
  if goLen token ≠ tokenLength then .error Error.ErrUnauthenticated
  else
    match userByToken lib db now token with
    | .error _ => .error Error.ErrUnauthenticated
    | .ok user => .ok { user with Token := token }

/-! ## User store -/

/-- The statement `deleteUserAccessQuery` with its two parameters: delete the rows
whose user or whose owner is the user of that name. -/
def deleteUserAccessQuery (db : DB) (user1 user2 : String) : DB :=
  { db with access := db.access.filter fun a =>
      !(sqlEq (some a.user_id) (selectUserID db user1) ||
        sqlEq a.owner_user_id (selectUserID db user2)) }

/-- The statement `updateUserDeletedQuery`. -/
def updateUserDeletedQuery (db : DB) (deleted : Int) (id : String) : DB :=
  { db with users := db.users.map fun u =>
      if u.id = id then { u with deleted := some deleted } else u }

/-- The method `Manager.MarkUserRemoved(user)`, run at time `now`. -/
def MarkUserRemoved (v : Predicates) (db : DB) (now : Int) (user : User) : Except Error DB :=
  if !v.AllowedUsername user.Name then .error Error.ErrInvalidArgument
  else
    let db1 := deleteUserAccessQuery db user.Name user.Name
    let db2 := deleteAllTokenQuery db1 user.ID
    .ok (updateUserDeletedQuery db2 (now + userHardDeleteAfterDuration) user.ID)

/-- The statement `updateUserRoleQuery`; a role outside the column's `CHECK` list
is refused. -/
def updateUserRoleQuery (db : DB) (role : Role) (username : String) : Except Error DB :=
  if !(db.users.any fun u => u.user == username) then .ok db
  else if !(role == RoleAnonymous || role == RoleAdmin || role == RoleUser) then
    .error Error.storage
  else .ok { db with users := db.users.map fun u =>
      if u.user = username then { u with role := role } else u }

/-- The method `Manager.changeRoleTx`. -/
def changeRoleTx (v : Predicates) (db : DB) (username : String) (role : Role) :
    Except Error DB :=
  if !v.AllowedUsername username || !v.AllowedRole role then .error Error.ErrInvalidArgument
  else
    match updateUserRoleQuery db role username with
    | .error e => .error e
    | .ok db1 =>
      if role = RoleAdmin then .ok (deleteUserAccessQuery db1 username username)
      else .ok db1

/-- The method `Manager.ChangeRole`: `changeRoleTx` in one transaction. -/
def ChangeRole (v : Predicates) (db : DB) (username : String) (role : Role) :
    Except Error DB :=
  changeRoleTx v db username role

/-! ## Reservation store -/

/-- The statement `deleteAllAccessQuery`. -/
def deleteAllAccessQuery (db : DB) : DB := { db with access := [] }

/-- The statement `deleteTopicAccessQuery` with its three parameters: delete the
rows with that stored topic whose user or whose owner is the user of that name. -/
def deleteTopicAccessQuery (db : DB) (user1 user2 topic : String) : DB :=
  { db with access := db.access.filter fun a =>
      !((sqlEq (some a.user_id) (selectUserID db user1) ||
          sqlEq a.owner_user_id (selectUserID db user2)) && a.topic == topic) }

/-- The method `Manager.resetAccessTx`. -/
def resetAccessTx (v : Predicates) (db : DB) (username topicPattern : String) :
    Except Error DB :=
  if !v.AllowedUsername username && username != Everyone && username != "" then
    .error Error.ErrInvalidArgument
  else if !v.AllowedTopicPattern topicPattern && topicPattern != "" then
    .error Error.ErrInvalidArgument
  else if username == "" && topicPattern == "" then .ok (deleteAllAccessQuery db)
  else if topicPattern == "" then .ok (deleteUserAccessQuery db username username)
  else .ok (deleteTopicAccessQuery db username username (toSQLWildcard topicPattern))

/-- The method `Manager.ResetAccess`: `resetAccessTx` in one transaction. -/
def ResetAccess (v : Predicates) (db : DB) (username topicPattern : String) :
    Except Error DB :=
  resetAccessTx v db username topicPattern

/-- The query `selectOtherAccessCountQuery` with its three parameters: the number
of rows with `topic = ?` or `? LIKE topic ESCAPE '\'` whose owner is NULL or differs
from the id of the user of that name. -/
def selectOtherAccessCountQuery (db : DB) (topic1 topic2 username : String) : Nat :=
  (db.access.filter fun a =>
    (a.topic == topic1 || like topic2 a.topic) &&
      (a.owner_user_id.isNone || sqlNe a.owner_user_id (selectUserID db username))).length

/-- The method `Manager.AllowReservation(username, topic)`; `none` is the `nil`
error. -/
def AllowReservation (v : Predicates) (db : DB) (username topic : String) : Option Error :=
  if (!v.AllowedUsername username && username != Everyone) || !v.AllowedTopic topic then
    some Error.ErrInvalidArgument
  else
    let otherCount :=
      selectOtherAccessCountQuery db (escapeUnderscore topic) (escapeUnderscore topic) username
    if otherCount > 0 then some Error.errTopicOwnedByOthers else none

/-- The method `Manager.AddReservation(username, topic, everyone)`: the two upserts
in one transaction. -/
def AddReservation (v : Predicates) (db : DB) (username topic : String)
    (everyone : Permission) : Except Error DB :=
  if !v.AllowedUsername username || username == Everyone || !v.AllowedTopic topic then
    .error Error.ErrInvalidArgument
  else
    match upsertUserAccessQuery db username (escapeUnderscore topic) true true
        username username false with
    | .error e => .error e
    | .ok db1 =>
      upsertUserAccessQuery db1 Everyone (escapeUnderscore topic) everyone.IsRead
        everyone.IsWrite username username false

/-- The loop of `Manager.RemoveReservations`: for each topic the two deletes. -/
def removeReservationsLoop (db : DB) (username : String) : List String → DB
  | [] => db
  | topic :: topics =>
    let db1 := deleteTopicAccessQuery db username username (escapeUnderscore topic)
    let db2 := deleteTopicAccessQuery db1 Everyone Everyone (escapeUnderscore topic)
    removeReservationsLoop db2 username topics

/-- The method `Manager.RemoveReservations(username, topics...)`. -/
def RemoveReservations (v : Predicates) (db : DB) (username : String)
    (topics : List String) : Except Error DB :=
  if !v.AllowedUsername username || username == Everyone || topics.length == 0 then
    .error Error.ErrInvalidArgument
  else if topics.any (fun topic => !v.AllowedTopic topic) then .error Error.ErrInvalidArgument
  else .ok (removeReservationsLoop db username topics)

/-! ## Table constraints and invariants -/

/-- The constraint `PRIMARY KEY (id)` of table `user`. -/
def UserIdsUnique (db : DB) : Prop := (db.users.map fun u => u.id).Nodup

instance (db : DB) : Decidable (UserIdsUnique db) := by
  unfold UserIdsUnique; infer_instance

/-- The unique index `idx_user` on `user (user)`. -/
def UserNamesUnique (db : DB) : Prop := (db.users.map fun u => u.user).Nodup

instance (db : DB) : Decidable (UserNamesUnique db) := by
  unfold UserNamesUnique; infer_instance

/-- The foreign key of `user_token`: every token row belongs to a stored user. -/
def TokenOwnersExist (db : DB) : Prop :=
  ∀ t ∈ db.tokens, ∃ u ∈ db.users, u.id = t.user_id

instance (db : DB) : Decidable (TokenOwnersExist db) := by
  unfold TokenOwnersExist; infer_instance

/-- The stored preferences of every user unmarshal (they are written by
`json.Marshal` or are the column default). -/
def PrefsValid (lib : Lib) (db : DB) : Prop :=
  ∀ u ∈ db.users, lib.UnmarshalPrefs u.prefs = true

instance (lib : Lib) (db : DB) : Decidable (PrefsValid lib db) := by
  unfold PrefsValid; infer_instance

/-- The reservation-pair invariant: for every reservation (a row whose owner is its
own user) the row grants read and write, and a row of the user `*` with the same
topic and the same owner exists. -/
def ReservationPairs (db : DB) : Prop :=
  ∀ a ∈ db.access, a.owner_user_id = some a.user_id →
    a.read = true ∧ a.write = true ∧
      ∃ b ∈ db.access, some b.user_id = selectUserID db Everyone ∧ b.topic = a.topic ∧
        b.owner_user_id = some a.user_id

instance (db : DB) : Decidable (ReservationPairs db) := by
  unfold ReservationPairs; infer_instance

/-- No user other than the one called `username` holds a reservation on the stored
topic. -/
def NoOtherReservation (db : DB) (username topic : String) : Prop :=
  ∀ a ∈ db.access, a.owner_user_id = some a.user_id → a.topic = topic →
    some a.user_id = selectUserID db username

instance (db : DB) (username topic : String) :
    Decidable (NoOtherReservation db username topic) := by
  unfold NoOtherReservation; infer_instance

/-- Modelled from the spec: the topic grammar (`AllowedTopic`) is declared outside
`manager.go`; a topic is made of letters, digits, `-` and `_`. -/
def validTopicChar (c : Char) : Bool :=
  c.isAlphanum || c == '-' || c == '_'

/-- A valid topic is made of valid topic characters only. -/
def validTopic (t : String) : Prop := ∀ c ∈ t.data, validTopicChar c = true

instance (t : String) : Decidable (validTopic t) := by
  unfold validTopic; infer_instance

/-- The row that `createTokenTx` hands to `upsertTokenQuery`. -/
def insertedTokenRow (now : Int) (userID token label : String) (expires : Int)
    (origin : String) (provisioned : Bool) : TokenRow :=
  { user_id := userID, token := token, label := label, last_access := now,
    last_origin := origin, expires := expires, provisioned := provisioned }

/-- Library functions for the sample runs: a hash verifies the password equal to
it, all preferences unmarshal, every origin parses to itself, the seconds of a
duration are truncated. -/
def libToy : Lib :=
  { CompareHashAndPassword := fun h p => h == p, UnmarshalPrefs := fun _ => true,
    ParseAddr := fun s => some s, DurationSeconds := fun d => d.tdiv 1000000000 }

/-- Validation predicates for the sample runs: usernames that sort after `*`,
valid topics, valid patterns, the roles `user` and `admin`. -/
def strictPredicates : Predicates :=
  { AllowedUsername := fun n => textLt Everyone n,
    AllowedTopic := fun t => decide (validTopic t),
    AllowedTopicPattern := fun p => decide (validPattern p),
    AllowedRole := fun r => r == RoleUser || r == RoleAdmin }

/-- A database for the authenticator: `phil` with the stored hash `mypass`, `bob`
marked deleted, and one never-expiring token of `phil`. -/
def authDB : DB :=
  { users := [mkUserRow "u_everyone" Everyone RoleAnonymous,
              { mkUserRow "u_phil" "phil" RoleUser with pass := "mypass" },
              { mkUserRow "u_bob" "bob" RoleUser with pass := "bobpass", deleted := some 5 }],
    access := [],
    tokens := [insertedTokenRow 0 "u_phil" "tk_AAAAAAAAAAAAAAAAAAAAAAAAAAAAA" "" 0
      "0.0.0.0" false] }

/-- The caller `bob`, role `user`. -/
def bob : User := mkUser "u_bob" "bob" RoleUser

/-- The grant `(bob, "my_*", read-write)`, without owner. -/
def coverDB : DB := grantsDB [mkGrant "u_bob" "my_*" PermissionReadWrite]

/-- The reservation of `alerts` by `phil` with read-only access for everyone. -/
def reservedDB : DB :=
  grantsDB
    [{ user_id := "u_phil", topic := "alerts", read := true, write := true,
       owner_user_id := some "u_phil", provisioned := false },
     { user_id := "u_everyone", topic := "alerts", read := true, write := false,
       owner_user_id := some "u_phil", provisioned := false }]

/-! ## Expired tokens -/

/-- The statement `deleteExpiredTokensQuery`: delete the rows with `expires > 0` and
`expires < ?`. -/
def deleteExpiredTokensQuery (db : DB) (now : Int) : DB :=
  { db with tokens := db.tokens.filter fun t =>
      !(decide (t.expires > 0) && decide (t.expires < now)) }

/-- The method `Manager.RemoveExpiredTokens()`, run at time `now`. -/
def RemoveExpiredTokens (db : DB) (now : Int) : Except Error DB :=
  .ok (deleteExpiredTokensQuery db now)

/-! ## Schema setup -/

/-- The constant `currentSchemaVersion`. -/
def currentSchemaVersion : Int := 6

/-- The errors that `setupDB` builds with `errors.New` and `fmt.Errorf`. -/
inductive SetupError where
  | corruptSchemaVersion
  | unexpectedSchemaVersion
  | noMigrationStep
  | storage
  deriving DecidableEq, Repr

/-- The part of the database that `setupDB` reads and writes. `table` is the table
`schemaVersion`: `none` when it does not exist, `some none` when it has no row with
`id = 1`, otherwise the stored version. `ran` lists the migrations committed so
far, each by the version it migrates from, in order. -/
structure SchemaDB where
  table : Option (Option Int)
  ran : List Int
  deriving DecidableEq, Repr

/-- The statement `updateSchemaVersion`. -/
def updateSchemaVersion (s : SchemaDB) (version : Int) : Except SetupError SchemaDB :=
  match s.table with
  | none => .error SetupError.storage
  | some row => .ok { s with table := some (row.map fun _ => version) }

/-- The common shape of `migrateFrom1` ... `migrateFrom5`: one transaction that runs
the update queries of the migration from version `n` (`sqlOk n` tells whether they
succeed; their effect on the other tables is not modelled), sets the stored version
to `n + 1` and commits. On an error nothing is committed. -/
def migrateFrom (sqlOk : Int → Bool) (n : Int) (s : SchemaDB) : Except SetupError SchemaDB :=
  if !sqlOk n then .error SetupError.storage
  else
    match updateSchemaVersion s (n + 1) with
    | .error e => .error e
    | .ok s1 => .ok { s1 with ran := s1.ran ++ [n] }

/-- The function `migrateFrom1`. -/
def migrateFrom1 (sqlOk : Int → Bool) : SchemaDB → Except SetupError SchemaDB :=
  migrateFrom sqlOk 1

/-- The function `migrateFrom2`. -/
def migrateFrom2 (sqlOk : Int → Bool) : SchemaDB → Except SetupError SchemaDB :=
  migrateFrom sqlOk 2

/-- The function `migrateFrom3`. -/
def migrateFrom3 (sqlOk : Int → Bool) : SchemaDB → Except SetupError SchemaDB :=
  migrateFrom sqlOk 3

/-- The function `migrateFrom4`. -/
def migrateFrom4 (sqlOk : Int → Bool) : SchemaDB → Except SetupError SchemaDB :=
  migrateFrom sqlOk 4

/-- The function `migrateFrom5`. -/
def migrateFrom5 (sqlOk : Int → Bool) : SchemaDB → Except SetupError SchemaDB :=
  migrateFrom sqlOk 5

/-- The map `migrations`: the registered step for a version, `none` when the key is
missing. -/
def migrations (sqlOk : Int → Bool) (i : Int) :
    Option (SchemaDB → Except SetupError SchemaDB) :=
  if i = 1 then some (migrateFrom1 sqlOk)
  else if i = 2 then some (migrateFrom2 sqlOk)
  else if i = 3 then some (migrateFrom3 sqlOk)
  else if i = 4 then some (migrateFrom4 sqlOk)
  else if i = 5 then some (migrateFrom5 sqlOk)
  else none

/-- The loop `for i := schemaVersion; i < currentSchemaVersion; i++` of `setupDB`,
with `n` iterations left: the error (`none` is `nil`) and the state it leaves. -/
def migrateLoop (sqlOk : Int → Bool) : Nat → Int → SchemaDB → Option SetupError × SchemaDB
  | 0, _, s => (none, s)
  | n + 1, i, s =>
    match migrations sqlOk i with
    | none => (some SetupError.noMigrationStep, s)
    | some fn =>
      match fn s with
      | .error e => (some e, s)
      | .ok s1 => migrateLoop sqlOk n (i + 1) s1

/-- The function `setupNewDB`: create the tables and insert the current version. -/
def setupNewDB (s : SchemaDB) : Option SetupError × SchemaDB :=
  (none, { s with table := some (some currentSchemaVersion) })

/-- The function `setupDB`: the error it returns (`none` is `nil`) and the state it
leaves. -/
def setupDB (sqlOk : Int → Bool) (s : SchemaDB) : Option SetupError × SchemaDB :=
  match s.table with
  | none => setupNewDB s
  | some none => (some SetupError.corruptSchemaVersion, s)
  | some (some schemaVersion) =>
    if schemaVersion = currentSchemaVersion then (none, s)
    else if schemaVersion > currentSchemaVersion then
      (some SetupError.unexpectedSchemaVersion, s)
    else migrateLoop sqlOk (currentSchemaVersion - schemaVersion).toNat schemaVersion s

/-! ## Stats queue -/

/-- The Go struct `Stats`. -/
structure Stats where
  Messages : Int
  Emails : Int
  Calls : Int
  deriving DecidableEq, Repr

/-- The Go struct `TokenUpdate`; the time is in Unix seconds, the origin is its text
form. -/
structure TokenUpdate where
  LastAccess : Int
  LastOrigin : String
  deriving DecidableEq, Repr

/-- The Go struct `Manager`: the database and the two queues. A Go map is the list
of its entries, one per key. -/
structure Manager where
  db : DB
  statsQueue : List (String × Stats)
  tokenQueue : List (String × TokenUpdate)
  deriving DecidableEq, Repr

/-- The map assignment `m[k] = v`: the entry of key `k` is replaced, or added. -/
def mapSet {α : Type} (m : List (String × α)) (k : String) (v : α) : List (String × α) :=
  if m.any (fun e => e.1 == k) then m.map fun e => if e.1 = k then (k, v) else e
  else m ++ [(k, v)]

/-- The statement `updateUserStatsResetAllQuery`. -/
def updateUserStatsResetAllQuery (db : DB) : DB :=
  { db with users := db.users.map fun u =>
      { u with stats_messages := 0, stats_emails := 0, stats_calls := 0 } }

/-- The statement `updateUserStatsQuery`. -/
def updateUserStatsQuery (db : DB) (messages emails calls : Int) (id : String) : DB :=
  { db with users := db.users.map fun u =>
      if u.id = id then
        { u with stats_messages := messages, stats_emails := emails, stats_calls := calls }
      else u }

/-- The method `Manager.ResetStats()`, one step under the mutex: the table is zeroed
and the stats queue replaced by an empty map. (No statement of the model can fail,
so the error is `nil`.) -/
def ResetStats (a : Manager) : Manager :=
  { a with db := updateUserStatsResetAllQuery a.db, statsQueue := [] }

/-- The method `Manager.EnqueueUserStats(userID, stats)`, one step under the mutex. -/
def EnqueueUserStats (a : Manager) (userID : String) (stats : Stats) : Manager :=
  { a with statsQueue := mapSet a.statsQueue userID stats }

/-- The method `Manager.EnqueueTokenUpdate(tokenID, update)`. -/
def EnqueueTokenUpdate (a : Manager) (tokenID : String) (update : TokenUpdate) : Manager :=
  { a with tokenQueue := mapSet a.tokenQueue tokenID update }

/-- The first part of `writeUserStatsQueue`, under the mutex: with an empty queue
nothing happens (`none`), otherwise the queue is taken into the local variable
`statsQueue` and replaced by an empty map. -/
def swapStatsQueue (a : Manager) : Manager × Option (List (String × Stats)) :=
  if a.statsQueue.length = 0 then (a, none)
  else ({ a with statsQueue := [] }, some a.statsQueue)

/-- The second part of `writeUserStatsQueue`, after the mutex is released: one
transaction that runs `updateUserStatsQuery` for every entry of the local
`statsQueue`. The order in which `range` visits a Go map is not specified; `range`
gives the entries in the order of the visit. -/
def writeStatsTx (range : List (String × Stats) → List (String × Stats)) (db : DB)
    (statsQueue : List (String × Stats)) : DB :=
  (range statsQueue).foldl
    (fun db e => updateUserStatsQuery db e.2.Messages e.2.Emails e.2.Calls e.1) db

/-- The method `Manager.writeUserStatsQueue()` run without interruption. -/
def writeUserStatsQueue (range : List (String × Stats) → List (String × Stats))
    (a : Manager) : Manager :=
  match swapStatsQueue a with
  | (a1, none) => a1
  | (a1, some statsQueue) => { a1 with db := writeStatsTx range a1.db statsQueue }

/-- A sequence of `EnqueueUserStats` calls. -/
def enqueueAll (a : Manager) (calls : List (String × Stats)) : Manager :=
  calls.foldl (fun a c => EnqueueUserStats a c.1 c.2) a

/-- The stats of the last call for `userID` in a sequence of enqueue calls. -/
def lastEnqueued (calls : List (String × Stats)) (userID : String) : Option Stats :=
  (calls.reverse.find? fun c => c.1 == userID).map fun c => c.2

/-- The stats columns of a user row. -/
def persistedStats (u : UserRow) : Stats :=
  { Messages := u.stats_messages, Emails := u.stats_emails, Calls := u.stats_calls }

/-- A user row with the stats columns set. -/
def withStats (u : UserRow) (s : Stats) : UserRow :=
  { u with stats_messages := s.Messages, stats_emails := s.Emails, stats_calls := s.Calls }

/-- One atomic step of the concurrent system: a call of `EnqueueUserStats`, a call of
`ResetStats` (the mutex is held from its first to its last statement), or one of the
two parts of the flusher's `writeUserStatsQueue`. -/
inductive Action where
  | enqueue (userID : String) (stats : Stats)
  | resetStats
  | flushSwap
  | flushWrite
  deriving DecidableEq, Repr

/-- The manager together with the flusher goroutine: `pending` is the local
variable `statsQueue` of a `writeUserStatsQueue` that has released the mutex and
has not yet written. -/
structure System where
  manager : Manager
  pending : Option (List (String × Stats))
  deriving DecidableEq, Repr

/-- One step of the system; `none` when the action cannot happen in this state
(the flusher is one goroutine: it swaps only when it has nothing pending and
writes only what it has swapped out). -/
def System.step (range : List (String × Stats) → List (String × Stats)) (s : System) :
    Action → Option System
  | .enqueue userID stats => some { s with manager := EnqueueUserStats s.manager userID stats }
  | .resetStats => some { s with manager := ResetStats s.manager }
  | .flushSwap =>
    match s.pending with
    | some _ => none
    | none =>
      let r := swapStatsQueue s.manager
      some { manager := r.1, pending := r.2 }
  | .flushWrite =>
    match s.pending with
    | none => none
    | some statsQueue =>
      some { manager := { s.manager with db := writeStatsTx range s.manager.db statsQueue },
             pending := none }

/-- A run of the system: the actions happen one after the other. -/
def System.run (range : List (String × Stats) → List (String × Stats)) :
    System → List Action → Option System
  | s, [] => some s
  | s, a :: rest =>
    match s.step range a with
    | none => none
    | some s1 => System.run range s1 rest

/-- A manager over the sample users with empty queues. -/
def sampleManager : Manager := { db := grantsDB [], statsQueue := [], tokenQueue := [] }

/-! ## Tiers -/

/-- A row of table `tier`; the two durations are in seconds. -/
structure TierRow where
  id : String
  code : String
  name : String
  messages_limit : Int
  messages_expiry_duration : Int
  emails_limit : Int
  calls_limit : Int
  reservations_limit : Int
  attachment_file_size_limit : Int
  attachment_total_size_limit : Int
  attachment_expiry_duration : Int
  attachment_bandwidth_limit : Int
  stripe_monthly_price_id : Option String
  stripe_yearly_price_id : Option String
  deriving DecidableEq, Repr

/-- The Go struct `Tier`, with the fields that `readTier` sets; a `time.Duration` is
its number of nanoseconds. -/
structure Tier where
  ID : String
  Code : String
  Name : String
  MessageLimit : Int
  MessageExpiryDuration : Int
  EmailLimit : Int
  CallLimit : Int
  ReservationLimit : Int
  AttachmentFileSizeLimit : Int
  AttachmentTotalSizeLimit : Int
  AttachmentExpiryDuration : Int
  AttachmentBandwidthLimit : Int
  StripeMonthlyPriceID : String
  StripeYearlyPriceID : String
  deriving DecidableEq, Repr

/-- The value of an `int64` expression whose mathematical value is `x`: Go integer
arithmetic wraps around. -/
def wrapInt64 (x : Int) : Int :=
  (x + 9223372036854775808) % 18446744073709551616 - 9223372036854775808

/-- The values of type `int64`. -/
def inInt64 (x : Int) : Prop := -9223372036854775808 ≤ x ∧ x < 9223372036854775808

instance (x : Int) : Decidable (inInt64 x) := by
  unfold inInt64; infer_instance

/-- The constant `time.Second`, in nanoseconds. -/
def Second : Int := 1000000000

/-- The function `nullString`: the empty string becomes NULL. -/
def nullString (s : String) : Option String := if s = "" then none else some s

/-- The `Tier` that `readTier` (and `readUser`) builds from a row:
`time.Duration(seconds) * time.Second` for the durations, the empty string for a
NULL price id. -/
def tierOfRow (r : TierRow) : Tier :=
  { ID := r.id, Code := r.code, Name := r.name, MessageLimit := r.messages_limit,
    MessageExpiryDuration := wrapInt64 (r.messages_expiry_duration * Second),
    EmailLimit := r.emails_limit, CallLimit := r.calls_limit,
    ReservationLimit := r.reservations_limit,
    AttachmentFileSizeLimit := r.attachment_file_size_limit,
    AttachmentTotalSizeLimit := r.attachment_total_size_limit,
    AttachmentExpiryDuration := wrapInt64 (r.attachment_expiry_duration * Second),
    AttachmentBandwidthLimit := r.attachment_bandwidth_limit,
    StripeMonthlyPriceID := r.stripe_monthly_price_id.getD "",
    StripeYearlyPriceID := r.stripe_yearly_price_id.getD "" }

/-- The method `Manager.readTier` on the rows of a tier query: the first row, or
`ErrTierNotFound`. -/
def readTier (rows : List TierRow) : Except Error Tier :=
  match rows with
  | [] => .error Error.ErrTierNotFound
  | r :: _ => .ok (tierOfRow r)

/-- The statement `insertTierQuery`: the row is appended unless it violates the
primary key or one of the unique indexes on `code`, `stripe_monthly_price_id` and
`stripe_yearly_price_id` (a NULL price id never conflicts). -/
def insertTierQuery (tiers : List TierRow) (r : TierRow) : Except Error (List TierRow) :=
  if tiers.any (fun t => t.id == r.id) then .error Error.storage
  else if tiers.any (fun t => t.code == r.code) then .error Error.storage
  else if tiers.any (fun t => sqlEq t.stripe_monthly_price_id r.stripe_monthly_price_id) then
    .error Error.storage
  else if tiers.any (fun t => sqlEq t.stripe_yearly_price_id r.stripe_yearly_price_id) then
    .error Error.storage
  else .ok (tiers ++ [r])

/-- The method `Manager.AddTier(tier)`, with the id that `util.RandomStringPrefix`
draws passed in as `newID`: the new table and the tier as the call leaves it (the ID
is filled in when it was empty). -/
def AddTier (lib : Lib) (tiers : List TierRow) (newID : String) (tier : Tier) :
    Except Error (List TierRow × Tier) :=
  let tier1 := if tier.ID = "" then { tier with ID := newID } else tier
  match insertTierQuery tiers
      { id := tier1.ID, code := tier1.Code, name := tier1.Name,
        messages_limit := tier1.MessageLimit,
        messages_expiry_duration := lib.DurationSeconds tier1.MessageExpiryDuration,
        emails_limit := tier1.EmailLimit, calls_limit := tier1.CallLimit,
        reservations_limit := tier1.ReservationLimit,
        attachment_file_size_limit := tier1.AttachmentFileSizeLimit,
        attachment_total_size_limit := tier1.AttachmentTotalSizeLimit,
        attachment_expiry_duration := lib.DurationSeconds tier1.AttachmentExpiryDuration,
        attachment_bandwidth_limit := tier1.AttachmentBandwidthLimit,
        stripe_monthly_price_id := nullString tier1.StripeMonthlyPriceID,
        stripe_yearly_price_id := nullString tier1.StripeYearlyPriceID } with
  | .error e => .error e
  | .ok tiers1 => .ok (tiers1, tier1)

/-- The query `selectTierByCodeQuery`. -/
def selectTierByCodeQuery (tiers : List TierRow) (code : String) : List TierRow :=
  tiers.filter fun t => t.code == code

/-- The query `selectTierByPriceIDQuery` with its two parameters. -/
def selectTierByPriceIDQuery (tiers : List TierRow) (price1 price2 : String) : List TierRow :=
  tiers.filter fun t =>
    sqlEq t.stripe_monthly_price_id (some price1) || sqlEq t.stripe_yearly_price_id (some price2)

/-- The method `Manager.Tier(code)`. -/
def Manager.Tier (tiers : List TierRow) (code : String) : Except Error Tier :=
  readTier (selectTierByCodeQuery tiers code)

/-- The method `Manager.TierByStripePrice(priceID)`. -/
def TierByStripePrice (tiers : List TierRow) (priceID : String) : Except Error Tier :=
  readTier (selectTierByPriceIDQuery tiers priceID priceID)

/-- A duration that is a whole number of seconds and that the library converts to
that number. -/
def WholeSeconds (lib : Lib) (d : Int) : Prop :=
  inInt64 d ∧ d % Second = 0 ∧ lib.DurationSeconds d = d / Second

instance (lib : Lib) (d : Int) : Decidable (WholeSeconds lib d) := by
  unfold WholeSeconds; infer_instance

/-- The constraint `PRIMARY KEY (id)` of table `tier`. -/
def TierIdsUnique (tiers : List TierRow) : Prop := (tiers.map fun t => t.id).Nodup

instance (tiers : List TierRow) : Decidable (TierIdsUnique tiers) := by
  unfold TierIdsUnique; infer_instance

/-- A tier with the given code, reservation limit and price ids, 12 hours of message
expiry and 3 hours of attachment expiry. -/
def mkTier (code : String) (reservations : Int) (monthly yearly : String) : Tier :=
  { ID := "", Code := code, Name := code, MessageLimit := 1000,
    MessageExpiryDuration := 43200 * Second, EmailLimit := 10, CallLimit := 0,
    ReservationLimit := reservations, AttachmentFileSizeLimit := 1000000,
    AttachmentTotalSizeLimit := 10000000, AttachmentExpiryDuration := 10800 * Second,
    AttachmentBandwidthLimit := 100000000, StripeMonthlyPriceID := monthly,
    StripeYearlyPriceID := yearly }

/-- A tier table with the tier `pro`, whose monthly price is `price_1`. -/
def proTiers : List TierRow :=
  [{ id := "ti_pro", code := "pro", name := "pro", messages_limit := 1000,
     messages_expiry_duration := 43200, emails_limit := 10, calls_limit := 0,
     reservations_limit := 5, attachment_file_size_limit := 1000000,
     attachment_total_size_limit := 10000000, attachment_expiry_duration := 10800,
     attachment_bandwidth_limit := 100000000, stripe_monthly_price_id := some "price_1",
     stripe_yearly_price_id := none }]

/-! ## Tier assignment -/

/-- The Go struct `Reservation`. -/
structure Reservation where
  Topic : String
  Owner : Permission
  Everyone : Permission
  deriving DecidableEq, Repr

/-- The query `selectUserReservationsQuery` with its two parameters: the rows
`a_user` that are reservations of the user named by the second parameter, each
`LEFT JOIN`ed with the rows of the user named by the first parameter on the same
topic, `ORDER BY a_user.topic`. -/
def selectUserReservationsQuery (db : DB) (everyone username : String) :
    List (AccessRow × Option AccessRow) :=
  orderBy (fun x y : AccessRow × Option AccessRow => !textLt y.1.topic x.1.topic)
    ((db.access.filter fun a =>
        sqlEq (some a.user_id) a.owner_user_id &&
          sqlEq a.owner_user_id (selectUserID db username)).flatMap fun a =>
      match db.access.filter fun e =>
          a.topic == e.topic && sqlEq (some e.user_id) (selectUserID db everyone) with
      | [] => [(a, none)]
      | es => es.map fun e => (a, some e))

/-- The method `Manager.Reservations(username)`; a NULL everyone-column reads as
false. -/
def Reservations (db : DB) (username : String) : List Reservation :=
  (selectUserReservationsQuery db Everyone username).map fun r =>
    { Topic := unescapeUnderscore r.1.topic,
      Owner := NewPermission r.1.read r.1.write,
      Everyone := NewPermission ((r.2.map fun e => e.read).getD false)
        ((r.2.map fun e => e.write).getD false) }

/-- The field `Tier` of the `User` that `readUser` builds from a row of
`user u LEFT JOIN tier t on t.id = u.tier_id`: set when the join found a tier. -/
def userTier (tiers : List TierRow) (r : UserRow) : Option Tier :=
  (tiers.find? fun t => sqlEq (some t.id) r.tier_id).map tierOfRow

/-- The field `Tier` of the user that `Manager.User(username)` returns. -/
def tierOfUser (tiers : List TierRow) (db : DB) (username : String) : Option Tier :=
  (selectUserByNameQuery db username).head?.bind (userTier tiers)

/-- The method `Manager.checkReservationsLimit(username, reservationsLimit)`;
`none` is the `nil` error. -/
def checkReservationsLimit (lib : Lib) (tiers : List TierRow) (db : DB) (username : String)
    (reservationsLimit : Int) : Option Error :=
  match Manager.User lib db username with
  | .error e => some e
  | .ok _ =>
    match tierOfUser tiers db username with
    | none => none
    | some tier =>
      if reservationsLimit < tier.ReservationLimit then
        if ((Reservations db username).length : Int) > reservationsLimit then
          some Error.ErrTooManyReservations
        else none
      else none

/-- The statement `updateUserTierQuery`. -/
def updateUserTierQuery (tiers : List TierRow) (db : DB) (code username : String) : DB :=
  { db with users := db.users.map fun u =>
      if u.user = username then
        { u with tier_id := (tiers.find? fun t => t.code == code).map fun t => t.id }
      else u }

/-- The method `Manager.ChangeTier(username, tier)`. -/
def ChangeTier (v : Predicates) (lib : Lib) (tiers : List TierRow) (db : DB)
    (username tier : String) : Except Error DB :=
  if !v.AllowedUsername username then .error Error.ErrInvalidArgument
  else
    match Manager.Tier tiers tier with
    | .error e => .error e
    | .ok t =>
      match checkReservationsLimit lib tiers db username t.ReservationLimit with
      | some e => .error e
      | none => .ok (updateUserTierQuery tiers db tier username)

/-- Two tiers: `pro` with five reservations and `basic` with one. -/
def twoTiers : List TierRow :=
  proTiers ++
    [{ id := "ti_basic", code := "basic", name := "basic", messages_limit := 100,
       messages_expiry_duration := 3600, emails_limit := 1, calls_limit := 0,
       reservations_limit := 1, attachment_file_size_limit := 1000,
       attachment_total_size_limit := 10000, attachment_expiry_duration := 3600,
       attachment_bandwidth_limit := 100000, stripe_monthly_price_id := none,
       stripe_yearly_price_id := none }]

/-- The user `phil` on tier `pro` with the two reservations `alerts` and `backups`. -/
def tieredDB : DB :=
  { users := [mkUserRow "u_everyone" Everyone RoleAnonymous,
              { mkUserRow "u_phil" "phil" RoleUser with tier_id := some "ti_pro" },
              mkUserRow "u_bob" "bob" RoleUser],
    access :=
      [{ user_id := "u_phil", topic := "alerts", read := true, write := true,
         owner_user_id := some "u_phil", provisioned := false },
       { user_id := "u_everyone", topic := "alerts", read := true, write := false,
         owner_user_id := some "u_phil", provisioned := false },
       { user_id := "u_phil", topic := "backups", read := true, write := true,
         owner_user_id := some "u_phil", provisioned := false },
       { user_id := "u_everyone", topic := "backups", read := false, write := false,
         owner_user_id := some "u_phil", provisioned := false }],
    tokens := [] }

/-! ## Adding users -/

/-- The row that `insertUserQuery` writes: the seven values and the column
defaults (`prefs` `'\x7b\x7d'`, stats 0, no tier, not deleted). -/
def insertedUserRow (id user pass : String) (role : Role) (sync_topic : String)
    (provisioned : Bool) (created : Int) : UserRow :=
  { id := id, tier_id := none, user := user, pass := pass, role := role,
    prefs := "\x7b\x7d", sync_topic := sync_topic, provisioned := provisioned,
    stats_messages := 0, stats_emails := 0, stats_calls := 0, created := created,
    deleted := none }

/-- The statement `insertUserQuery`: the row is appended, unless the role violates
the `CHECK` constraint, the id the primary key (both `storage`), or the name the
unique index `idx_user` (the driver's `sqlite3Error`). -/
def insertUserQuery (db : DB) (id user pass : String) (role : Role) (sync_topic : String)
    (provisioned : Bool) (created : Int) : Except Error DB :=
  if !(role == RoleAnonymous || role == RoleAdmin || role == RoleUser) then .error Error.storage
  else if db.users.any (fun u => u.id == id) then .error Error.storage
  else if db.users.any (fun u => u.user == user) then .error Error.sqlite3Error
  else .ok { db with users := db.users ++
    [insertedUserRow id user pass role sync_topic provisioned created] }

/-- The hash that `addUserTx` and `changePasswordTx` compute from `password` and
`hashed`: the password itself when it is already hashed and `ValidPasswordHash`
accepts it, otherwise `hashPassword(password, a.config.BcryptCost)`. -/
def passwordHash (h : Hasher) (cost : Nat) (password : String) (hashed : Bool) :
    Except Error String :=
  if hashed then
    match h.ValidPasswordHash password with
    | some e => .error e
    | none => .ok password
  else h.hashPassword password cost

/-- The method `Manager.addUserTx`, run at time `now`, with the two strings that
`util.RandomStringPrefix` draws passed in as `userID` and `syncTopic`, and
`a.config.BcryptCost` as `cost`. An error of the insert is returned as
`ErrUserExists` when `errors.Is(err, sqlite3.ErrConstraintUnique)` holds, and as it
is otherwise. -/
def addUserTx (v : Predicates) (h : Hasher) (cost : Nat) (db : DB) (userID syncTopic : String)
    (now : Int) (username password : String) (role : Role) (hashed provisioned : Bool) :
    Except Error DB :=
  if !v.AllowedUsername username || !v.AllowedRole role then .error Error.ErrInvalidArgument
  else
    match passwordHash h cost password hashed with
    | .error e => .error e
    | .ok hash =>
      match insertUserQuery db userID username hash role syncTopic provisioned now with
      | .error e =>
        if errorsIs e Error.ErrConstraintUnique then .error Error.ErrUserExists else .error e
      | .ok db1 => .ok db1

/-- The method `Manager.AddUser`: `addUserTx` in one transaction, not provisioned. -/
def AddUser (v : Predicates) (h : Hasher) (cost : Nat) (db : DB) (userID syncTopic : String)
    (now : Int) (username password : String) (role : Role) (hashed : Bool) : Except Error DB :=
  addUserTx v h cost db userID syncTopic now username password role hashed false

/-- A toy hashing scheme for the sample runs: the hash of a password is the
password after the prefix `$2a$10$`; a valid hash is a string with a bcrypt cost
field. -/
def hasherSalted : Hasher :=
  { ValidPasswordHash := fun hash =>
      if (decodeCost hash).isSome then none else some Error.storage,
    hashPassword := fun password _ => .ok ("$2a$10$" ++ password) }

/-- The library functions that go with `hasherSalted`: a hash verifies the password
it was made from. -/
def libSalted : Lib :=
  { libToy with CompareHashAndPassword := fun hash password => hash == "$2a$10$" ++ password }

/-- A database with the anonymous user only. -/
def freshDB : DB := { users := [mkUserRow "u_everyone" Everyone RoleAnonymous], access := [],
                      tokens := [] }

/-! ## Provisioning -/

/-- The rank `CASE role WHEN 'admin' THEN 1 WHEN 'anonymous' THEN 3 ELSE 2 END`. -/
def roleRank (role : Role) : Nat :=
  if role = RoleAdmin then 1 else if role = RoleAnonymous then 3 else 2

/-- The query `selectUsernamesQuery`: the names, ordered by role rank and name. -/
def selectUsernamesQuery (db : DB) : List String :=
  (orderBy (fun x y : UserRow =>
      if roleRank x.role ≠ roleRank y.role then decide (roleRank x.role < roleRank y.role)
      else !textLt y.user x.user) db.users).map fun u => u.user

/-- The second loop of `Manager.Users()`: `a.User(username)` for every name, until
the first error. -/
def usersLoop (lib : Lib) (db : DB) : List String → Except Error (List User)
  | [] => .ok []
  | username :: rest =>
    match Manager.User lib db username with
    | .error e => .error e
    | .ok user =>
      match usersLoop lib db rest with
      | .error e => .error e
      | .ok users => .ok (user :: users)

/-- The method `Manager.Users()`. -/
def Users (lib : Lib) (db : DB) : Except Error (List User) :=
  usersLoop lib db (selectUsernamesQuery db)

/-- The statement `deleteUserQuery`, run with `PRAGMA foreign_keys = ON` (which
`runStartupQueries` sets before the provisioning): the rows of `user_access` and
`user_token` that reference a deleted user are deleted with it (`ON DELETE
CASCADE` on `user_id` and on `owner_user_id`). -/
def deleteUserQuery (db : DB) (username : String) : DB :=
  let gone := (db.users.filter fun u => u.user == username).map fun u => u.id
  { users := db.users.filter fun u => !(u.user == username),
    access := db.access.filter fun a =>
      !(gone.contains a.user_id) &&
        !(match a.owner_user_id with
          | some owner => gone.contains owner
          | none => false),
    tokens := db.tokens.filter fun t => !(gone.contains t.user_id) }

/-- The method `Manager.removeUserTx`. -/
def removeUserTx (v : Predicates) (db : DB) (username : String) : Except Error DB :=
  if !v.AllowedUsername username then .error Error.ErrInvalidArgument
  else .ok (deleteUserQuery db username)

/-- The statement `updateUserProvisionedQuery`. -/
def updateUserProvisionedQuery (db : DB) (provisioned : Bool) (username : String) : DB :=
  { db with users := db.users.map fun u =>
      if u.user = username then { u with provisioned := provisioned } else u }

/-- The method `Manager.changeProvisionedTx`. -/
def changeProvisionedTx (db : DB) (username : String) (provisioned : Bool) : Except Error DB :=
  .ok (updateUserProvisionedQuery db provisioned username)

/-- The statement `updateUserPassQuery`. -/
def updateUserPassQuery (db : DB) (pass username : String) : DB :=
  { db with users := db.users.map fun u =>
      if u.user = username then { u with pass := pass } else u }

/-- The method `Manager.changePasswordTx`, with `a.config.BcryptCost` as `cost`. -/
def changePasswordTx (h : Hasher) (cost : Nat) (db : DB) (username password : String)
    (hashed : Bool) : Except Error DB :=
  match passwordHash h cost password hashed with
  | .error e => .error e
  | .ok hash => .ok (updateUserPassQuery db hash username)

/-- The first loop of `maybeProvisionUsers`: remove the users that are provisioned
but not in the configuration any more. -/
def removeStaleUsers (v : Predicates) (provisionUsernames : List String) :
    List User → DB → Except Error DB
  | [], db => .ok db
  | user :: rest, db =>
    if user.Name = Everyone then removeStaleUsers v provisionUsernames rest db
    else if user.Provisioned && !provisionUsernames.contains user.Name then
      match removeUserTx v db user.Name with
      | .error _ => .error Error.failed
      | .ok db1 => removeStaleUsers v provisionUsernames rest db1
    else removeStaleUsers v provisionUsernames rest db

/-- The body of the second loop of `maybeProvisionUsers` for one configured user
other than `*`: add the user, or update the flag, the hash and the role. `rnd name`
is the pair of id and sync topic that `util.RandomStringPrefix` draws when the user
of that name is added. -/
def provisionUser (v : Predicates) (h : Hasher) (cost : Nat) (rnd : String → String × String)
    (now : Int) (existingUsers : List User) (db : DB) (user : User) : Except Error DB :=
  match existingUsers.find? fun u => u.Name == user.Name with
  | none =>
    match addUserTx v h cost db (rnd user.Name).1 (rnd user.Name).2 now user.Name user.Hash
        user.Role true true with
    | .error e => if e = Error.ErrUserExists then .ok db else .error Error.failed
    | .ok db1 => .ok db1
  | some existingUser =>
    match (if !existingUser.Provisioned then changeProvisionedTx db user.Name true
        else .ok db) with
    | .error _ => .error Error.failed
    | .ok db1 =>
      match (if existingUser.Hash != user.Hash then
          changePasswordTx h cost db1 user.Name user.Hash true
        else .ok db1) with
      | .error _ => .error Error.failed
      | .ok db2 =>
        match (if existingUser.Role != user.Role then changeRoleTx v db2 user.Name user.Role
          else .ok db2) with
        | .error _ => .error Error.failed
        | .ok db3 => .ok db3

/-- The second loop of `maybeProvisionUsers`: add or update the configured users. -/
def addOrUpdateUsers (v : Predicates) (h : Hasher) (cost : Nat) (rnd : String → String × String)
    (now : Int) (existingUsers : List User) : List User → DB → Except Error DB
  | [], db => .ok db
  | user :: rest, db =>
    if user.Name = Everyone then addOrUpdateUsers v h cost rnd now existingUsers rest db
    else
      match provisionUser v h cost rnd now existingUsers db user with
      | .error e => .error e
      | .ok db1 => addOrUpdateUsers v h cost rnd now existingUsers rest db1

/-- The method `Manager.maybeProvisionUsers`. -/
def maybeProvisionUsers (v : Predicates) (h : Hasher) (cost : Nat)
    (rnd : String → String × String) (now : Int) (cfg : ProvisionConfig) (db : DB)
    (provisionUsernames : List String) (existingUsers : List User) : Except Error DB :=
  match removeStaleUsers v provisionUsernames existingUsers db with
  | .error e => .error e
  | .ok db1 => addOrUpdateUsers v h cost rnd now existingUsers cfg.Users db1

/-- The statement `deleteUserAccessProvisionedQuery`. -/
def deleteUserAccessProvisionedQuery (db : DB) : DB :=
  { db with access := db.access.filter fun a => !a.provisioned }

/-- The inner loop of `maybeProvisionGrants`: reset and allow every grant of one
user. -/
def provisionGrantsOf (v : Predicates) (username : String) : List Grant → DB → Except Error DB
  | [], db => .ok db
  | grant :: rest, db =>
    match resetAccessTx v db username grant.TopicPattern with
    | .error _ => .error Error.failed
    | .ok db1 =>
      match allowAccessTx v db1 username grant.TopicPattern grant.Permission true with
      | .error e => .error e
      | .ok db2 => provisionGrantsOf v username rest db2

/-- The outer loop of `maybeProvisionGrants` over the entries of `a.config.Access`. -/
def provisionGrants (v : Predicates) (users : List User) :
    List (String × List Grant) → DB → Except Error DB
  | [], db => .ok db
  | (username, grants) :: rest, db =>
    let user := users.find? fun u => u.Name == username
    if user.isNone && username != Everyone then .error Error.failed
    else if (match user with
        | some u => u.Role == RoleAdmin
        | none => false) then .error Error.failed
    else
      match provisionGrantsOf v username grants db with
      | .error e => .error e
      | .ok db1 => provisionGrants v users rest db1

/-- The method `Manager.maybeProvisionGrants`. -/
def maybeProvisionGrants (v : Predicates) (cfg : ProvisionConfig) (db : DB) : Except Error DB :=
  provisionGrants v cfg.Users cfg.Access (deleteUserAccessProvisionedQuery db)

/-- The query `selectAllProvisionedTokensQuery`. -/
def selectAllProvisionedTokensQuery (db : DB) : List TokenRow :=
  db.tokens.filter fun t => t.provisioned

/-- The method `Manager.allProvisionedTokens()`. -/
def allProvisionedTokens (lib : Lib) (db : DB) : List Token :=
  (selectAllProvisionedTokensQuery db).map (tokenOfRow lib)

/-- The statement `deleteProvisionedTokenQuery`. -/
def deleteProvisionedTokenQuery (db : DB) (token : String) : DB :=
  { db with tokens := db.tokens.filter fun t => !(t.token == token) }

/-- The first loop of `maybeProvisionTokens`: delete the existing provisioned
tokens whose value is not configured. -/
def removeStaleTokens (provisionTokens : List String) : List Token → DB → DB
  | [], db => db
  | existingToken :: rest, db =>
    if !provisionTokens.contains existingToken.Value then
      removeStaleTokens provisionTokens rest (deleteProvisionedTokenQuery db existingToken.Value)
    else removeStaleTokens provisionTokens rest db

/-- The inner loop of the second part of `maybeProvisionTokens`: create every token
of one user, with `expires = time.Unix(0, 0)` and the origin
`netip.IPv4Unspecified()`. -/
def provisionTokensOf (now : Int) (userID : String) : List Token → DB → Except Error DB
  | [], db => .ok db
  | token :: rest, db =>
    match createTokenTx db now userID token.Value token.Label 0 "0.0.0.0" true with
    | .error e => .error e
    | .ok (db1, _) => provisionTokensOf now userID rest db1

/-- The outer loop of the second part of `maybeProvisionTokens` over the entries of
`a.config.Tokens`. -/
def provisionTokens (provisionUsernames : List String) (now : Int) :
    List (String × List Token) → DB → Except Error DB
  | [], db => .ok db
  | (username, tokens) :: rest, db =>
    if !provisionUsernames.contains username && username != Everyone then .error Error.failed
    else
      match selectUserID db username with
      | none => .error Error.failed
      | some userID =>
        match provisionTokensOf now userID tokens db with
        | .error e => .error e
        | .ok db1 => provisionTokens provisionUsernames now rest db1

/-- The method `Manager.maybeProvisionTokens`. It reads the existing provisioned
tokens with `a.allProvisionedTokens()`, a query on `a.db` outside the transaction,
which sees the state `committed` from before the transaction; `db` is the state
inside the transaction. -/
def maybeProvisionTokens (lib : Lib) (cfg : ProvisionConfig) (committed : DB) (now : Int)
    (db : DB) (provisionUsernames : List String) : Except Error DB :=
  let existingTokens := allProvisionedTokens lib committed
  let provisionTokenValues := cfg.Tokens.flatMap fun e => e.2.map fun t => t.Value
  provisionTokens provisionUsernames now cfg.Tokens
    (removeStaleTokens provisionTokenValues existingTokens db)

/-- The method `Manager.maybeProvisionUsersAccessAndTokens`, run at time `now`: the
three steps in one transaction; on an error nothing is committed. -/
def maybeProvisionUsersAccessAndTokens (v : Predicates) (lib : Lib) (h : Hasher) (cost : Nat)
    (rnd : String → String × String) (now : Int) (cfg : ProvisionConfig) (db : DB) :
    Except Error DB :=
  if !cfg.ProvisionEnabled then .ok db
  else
    match Users lib db with
    | .error e => .error e
    | .ok existingUsers =>
      let provisionUsernames := cfg.Users.map fun u => u.Name
      match maybeProvisionUsers v h cost rnd now cfg db provisionUsernames existingUsers with
      | .error _ => .error Error.failed
      | .ok db1 =>
        match maybeProvisionGrants v cfg db1 with
        | .error _ => .error Error.failed
        | .ok db2 =>
          match maybeProvisionTokens lib cfg db now db2 provisionUsernames with
          | .error _ => .error Error.failed
          | .ok db3 => .ok db3

/-- The draws of the sample runs: the id `u_` and the sync topic `st_` followed by
the name. -/
def rndByName (name : String) : String × String := ("u_" ++ name, "st_" ++ name)

/-- A configured user. -/
def mkConfigUser (name hash : String) (role : Role) : User :=
  { ID := "", Name := name, Hash := hash, Token := "", Role := role, SyncTopic := "",
    Provisioned := true, Deleted := false }

/-- A configured token. -/
def mkConfigToken (value label : String) : Token :=
  { Value := value, Label := label, LastAccess := 0, LastOrigin := "0.0.0.0", Expires := 0,
    Provisioned := true }

/-- The unique index `idx_user_token` on `user_token (token)`. -/
def TokenValuesUnique (db : DB) : Prop := (db.tokens.map fun t => t.token).Nodup

instance (db : DB) : Decidable (TokenValuesUnique db) := by
  unfold TokenValuesUnique; infer_instance

/-- The names that a configuration mentions: its users and the keys of its two maps. -/
def configNames (cfg : ProvisionConfig) : List String :=
  (cfg.Users.map fun u => u.Name) ++ (cfg.Access.map fun e => e.1) ++
    (cfg.Tokens.map fun e => e.1)

/-- The id belongs to a stored user that is not provisioned and that the
configuration does not mention. -/
def Unconfigured (cfg : ProvisionConfig) (db : DB) (id : String) : Prop :=
  ∃ r ∈ db.users, r.id = id ∧ r.provisioned = false ∧ r.user ∉ configNames cfg

/-- Nothing in the database carries the user id `x`: no user row, no grant row as
user or as owner, no token row. -/
def Unreferenced (x : String) (db : DB) : Prop :=
  (∀ r ∈ db.users, r.id ≠ x) ∧
    (∀ a ∈ db.access, a.user_id ≠ x ∧ a.owner_user_id ≠ some x) ∧
    ∀ t ∈ db.tokens, t.user_id ≠ x

/-- The names of the existing users that the first loop of `maybeProvisionUsers`
removes. -/
def staleNames (provisionUsernames : List String) (existingUsers : List User) : List String :=
  (existingUsers.filter fun u =>
    u.Name != Everyone && u.Provisioned && !provisionUsernames.contains u.Name).map
      fun u => u.Name

/-- What a statement that works on behalf of the user named `n` can do to the
database: the user rows of other names stay as they are, ids stay unique, grant and
token rows that do not refer to a user named `n` stay, new user rows carry a drawn
id, new or changed grant rows belong to a stored user and have no owner, and token
rows keep their user or belong to a stored user. -/
structure Touches (rnd : String → String × String) (n : String) (db db' : DB) : Prop where
  users_other : ∀ m, m ≠ n → selectUserByNameQuery db' m = selectUserByNameQuery db m
  ids_unique : UserIdsUnique db → UserIdsUnique db'
  acc_keep : ∀ a ∈ db.access,
    (∀ r ∈ db.users, r.user = n → a.user_id ≠ r.id ∧ a.owner_user_id ≠ some r.id) →
      a ∈ db'.access
  tok_keep : ∀ t ∈ db.tokens, (∀ r ∈ db.users, r.user = n → t.user_id ≠ r.id) → t ∈ db'.tokens
  ids_from : ∀ r' ∈ db'.users, (∃ r ∈ db.users, r.id = r'.id) ∨ ∃ m, r'.id = (rnd m).1
  acc_from : ∀ a' ∈ db'.access,
    a' ∈ db.access ∨ ((∃ r ∈ db.users, r.id = a'.user_id) ∧ a'.owner_user_id = none)
  tok_from : ∀ t' ∈ db'.tokens,
    (∃ t ∈ db.tokens, t.user_id = t'.user_id) ∨ ∃ r ∈ db.users, r.id = t'.user_id

/-- A sequence of statements of the provisioning: statements on behalf of users
whose names are in `N`, the deletion of all provisioned grants, the deletion of
the tokens with a value in `D`, and (only when `strict` is false) the deletion of
all grants. -/
inductive Steps (rnd : String → String × String) (strict : Bool) (N D : List String) :
    DB → DB → Prop where
  | refl (db : DB) : Steps rnd strict N D db db
  | touch (n : String) (db db1 db2 : DB) (hn : n ∈ N) (h : Touches rnd n db db1)
      (rest : Steps rnd strict N D db1 db2) : Steps rnd strict N D db db2
  | dropGrants (db db2 : DB)
      (rest : Steps rnd strict N D (deleteUserAccessProvisionedQuery db) db2) :
      Steps rnd strict N D db db2
  | dropToken (value : String) (db db2 : DB) (hv : value ∈ D)
      (rest : Steps rnd strict N D (deleteProvisionedTokenQuery db value) db2) :
      Steps rnd strict N D db db2
  | clearGrants (db db2 : DB) (hs : strict = false)
      (rest : Steps rnd strict N D (deleteAllAccessQuery db) db2) : Steps rnd strict N D db db2

/-- A database in which `phil` was added by hand, with a grant and a token of his
own; nothing is provisioned. -/
def manualDB : DB :=
  { users := [mkUserRow "u_everyone" Everyone RoleAnonymous,
              { mkUserRow "u_phil" "phil" RoleUser with pass := "$2a$10$old" },
              mkUserRow "u_bob" "bob" RoleUser],
    access := [mkGrant "u_phil" "foo*" PermissionRead, mkGrant "u_bob" "bar" PermissionRead],
    tokens := [insertedTokenRow 0 "u_bob" "tk_bob" "" 0 "0.0.0.0" false] }

/-- A configuration that names `phil` with another hash and the role `admin`. -/
def cfgPhilAdmin : ProvisionConfig :=
  { ProvisionEnabled := true, Users := [mkConfigUser "phil" "$2a$10$new" RoleAdmin],
    Access := [], Tokens := [] }

/-- Validation predicates for the provisioning runs: as `strictPredicates`, and
topics and topic patterns are not empty. -/
def provisionPredicates : Predicates :=
  { strictPredicates with
    AllowedTopic := fun t => t != "" && decide (validTopic t),
    AllowedTopicPattern := fun p => p != "" && decide (validPattern p) }

/-- The draws of a run whose new ids start with `u_new_`. -/
def rndNew (name : String) : String × String := ("u_new_" ++ name, "st_" ++ name)

/-- A database in which `phil` was added by hand and `ben` was provisioned by an
earlier configuration; `ben` has a grant and a token. -/
def staleDB : DB :=
  { users := [mkUserRow "u_everyone" Everyone RoleAnonymous,
              { mkUserRow "u_phil" "phil" RoleUser with pass := "$2a$10$old" },
              { mkUserRow "u_ben" "ben" RoleUser with pass := "$2a$10$ben",
                                                      provisioned := true }],
    access := [{ mkGrant "u_ben" "bar" PermissionRead with provisioned := true }],
    tokens := [insertedTokenRow 0 "u_ben" "tk_ben" "" 0 "0.0.0.0" true] }

/-- A configuration that names `phil` with another hash and the role `admin`, and
the new user `alice`. -/
def cfgPhilAlice : ProvisionConfig :=
  { ProvisionEnabled := true,
    Users := [mkConfigUser "phil" "$2a$10$new" RoleAdmin,
              mkConfigUser "alice" "$2a$10$alice" RoleUser],
    Access := [], Tokens := [] }

/-- A configuration that names `phil` as he is stored in the sample databases and
gives him the token `tk_provisioned`. -/
def cfgPhilToken : ProvisionConfig :=
  { ProvisionEnabled := true, Users := [mkConfigUser "phil" "" RoleUser], Access := [],
    Tokens := [("phil", [mkConfigToken "tk_provisioned" "backup"])] }

/-! ## Lemmas: permissions -/

theorem resolvePerms_eq (g p : Permission) :
    resolvePerms g p =
      if (p = PermissionRead ∨ p = PermissionWrite) ∧ p.subset g then none
      else some Error.ErrUnauthorized := by
  rcases g with ⟨_ | _, _ | _⟩ <;> rcases p with ⟨_ | _, _ | _⟩ <;> decide

/-! ## Lemmas: pattern encoder -/

theorem replaceAllAux_single (o : Char) (new l : List Char) :
    replaceAllAux [o] new 0 l = l.flatMap fun c => if c = o then new else [c] := by
  induction l with
  | nil => rfl
  | cons c cs ih =>
    by_cases h : c = o
    · subst h
      simp [replaceAllAux, List.isPrefixOf, ih]
    · have h' : ¬ o = c := fun e => h e.symm
      simp [replaceAllAux, List.isPrefixOf, ih, h, h']

theorem replaceAllAux_unescape (l : List Char) (h : '\\' ∉ l) :
    replaceAllAux ['\\', '_'] ['_'] 0
      (l.flatMap fun c => if c = '_' then ['\\', '_'] else [c]) = l := by
  induction l with
  | nil => rfl
  | cons c cs ih =>
    have hc : c ≠ '\\' := fun e => h (by simp [e])
    have hcs : '\\' ∉ cs := fun m => h (List.mem_cons_of_mem _ m)
    by_cases hu : c = '_'
    · subst hu
      simpa [replaceAllAux, List.isPrefixOf] using ih hcs
    · have hc' : ¬ '\\' = c := fun e => hc e.symm
      simpa [replaceAllAux, List.isPrefixOf, hu, hc'] using ih hcs

theorem validPatternChar_ne_percent {c : Char} (h : validPatternChar c = true) : c ≠ '%' := by
  intro e; subst e; revert h; decide

theorem validPatternChar_ne_backslash {c : Char} (h : validPatternChar c = true) :
    c ≠ '\\' := by
  intro e; subst e; revert h; decide

theorem toSQLWildcard_data (p : String) :
    (toSQLWildcard p).data = p.data.flatMap encodeChar := by
  have h1 : ("*" : String).data = ['*'] := rfl
  have h2 : ("%" : String).data = ['%'] := rfl
  have h3 : ("_" : String).data = ['_'] := rfl
  have h4 : ("\\_" : String).data = ['\\', '_'] := rfl
  simp only [toSQLWildcard, escapeUnderscore, ReplaceAll, h1, h2, h3, h4,
    replaceAllAux_single]
  simp only [List.cons_ne_nil, if_false]
  induction p.data with
  | nil => rfl
  | cons c cs ih =>
    simp only [List.flatMap_cons, List.flatMap_append, ih, encodeChar]
    by_cases hs : c = '*'
    · subst hs; simp
    · by_cases hu : c = '_'
      · subst hu; simp
      · simp [hs, hu]

theorem decode_encode_data (l : List Char)
    (h : ∀ c ∈ l, validPatternChar c = true) :
    (replaceAllAux ['\\', '_'] ['_'] 0 (l.flatMap encodeChar)).flatMap
      (fun c => if c = '%' then ['*'] else [c]) = l := by
  have key : l.flatMap encodeChar =
      (l.map fun c => if c = '*' then '%' else c).flatMap
        fun c => if c = '_' then ['\\', '_'] else [c] := by
    clear h
    induction l with
    | nil => rfl
    | cons c cs ih =>
      simp only [List.flatMap_cons, List.map_cons, ih, encodeChar]
      by_cases hs : c = '*'
      · subst hs; simp
      · simp [hs]
  rw [key, replaceAllAux_unescape]
  · clear key
    induction l with
    | nil => rfl
    | cons c cs ih =>
      have hc := validPatternChar_ne_percent (h c (by simp))
      simp only [List.map_cons, List.flatMap_cons]
      rw [ih fun d hd => h d (List.mem_cons_of_mem _ hd)]
      by_cases hs : c = '*'
      · subst hs; simp
      · simp [hs, hc]
  · intro hm
    rcases List.mem_map.1 hm with ⟨c, hc, e⟩
    have hb := validPatternChar_ne_backslash (h c hc)
    by_cases hs : c = '*'
    · subst hs; simp at e
    · simp [hs] at e; exact hb e

/-! ## Lemmas: `LIKE` on encoded patterns -/

theorem likeCompare_cons (c : Char) (p s : List Char) :
    likeCompare (c :: p) s =
      if c = '%' then matchAnySeq (likeCompare p) s
      else if c = '\\' then
        match p, s with
        | e :: p', d :: s' => likeChar e d && likeCompare p' s'
        | _, _ => false
      else if c = '_' then
        match s with
        | _ :: s' => likeCompare p s'
        | [] => false
      else
        match s with
        | d :: s' => likeChar c d && likeCompare p s'
        | [] => false := by
  rw [likeCompare.eq_def]

theorem globMatchBy_cons (eq : Char → Char → Bool) (c : Char) (p s : List Char) :
    globMatchBy eq (c :: p) s =
      if c = '*' then matchAnySeq (globMatchBy eq p) s
      else
        match s with
        | d :: s' => eq c d && globMatchBy eq p s'
        | [] => false := by
  rw [globMatchBy.eq_def]

theorem likeCompare_encode (p : List Char) (hp : ∀ c ∈ p, validPatternChar c = true) :
    ∀ t, likeCompare (p.flatMap encodeChar) t = globMatchBy likeChar p t := by
  induction p with
  | nil => intro t; rfl
  | cons c cs ih =>
    have ih' := ih fun d hd => hp d (List.mem_cons_of_mem _ hd)
    have hfun : likeCompare (cs.flatMap encodeChar) = globMatchBy likeChar cs := funext ih'
    have hc := hp c (by simp)
    intro t
    by_cases hs : c = '*'
    · subst hs
      have e : encodeChar '*' = ['%'] := rfl
      simp only [List.flatMap_cons, e, List.cons_append, List.nil_append,
        likeCompare_cons, globMatchBy_cons, if_true, hfun]
    · by_cases hu : c = '_'
      · subst hu
        have e : encodeChar '_' = ['\\', '_'] := rfl
        have n1 : ¬ ('\\' : Char) = '%' := by decide
        have n2 : ¬ ('_' : Char) = '*' := by decide
        simp only [List.flatMap_cons, e, List.cons_append, List.nil_append]
        rw [likeCompare_cons, globMatchBy_cons, if_neg n1, if_pos rfl, if_neg n2]
        cases t with
        | nil => rfl
        | cons d s => simp only [ih' s]
      · have h1 := validPatternChar_ne_percent hc
        have h2 := validPatternChar_ne_backslash hc
        have e : encodeChar c = [c] := by simp [encodeChar, hs, hu]
        simp only [List.flatMap_cons, e, List.cons_append, List.nil_append]
        rw [likeCompare_cons, globMatchBy_cons, if_neg h1, if_neg h2, if_neg hu, if_neg hs]
        cases t with
        | nil => rfl
        | cons d s => simp only [ih' s]

/-! ## Lemmas: text order -/

theorem char_toNat_inj {a b : Char} (h : a.toNat = b.toNat) : a = b := by
  apply Char.ext
  cases a with | mk av ah => cases b with | mk bv bh =>
  simp only [Char.toNat] at h
  cases av with | mk av => cases bv with | mk bv =>
  simp only [UInt32.toNat] at h
  congr
  exact BitVec.eq_of_toNat_eq h

theorem textLtAux_irrefl (a : List Char) : textLtAux a a = false := by
  induction a with
  | nil => rfl
  | cons c cs ih => simp [textLtAux, ih]

theorem textLtAux_trans : ∀ a b c : List Char,
    textLtAux a b = true → textLtAux b c = true → textLtAux a c = true := by
  intro a
  induction a with
  | nil =>
    intro b c h1 h2
    cases b with
    | nil => simp [textLtAux] at h1
    | cons y ys =>
      cases c with
      | nil => simp [textLtAux] at h2
      | cons z zs => rfl
  | cons x xs ih =>
    intro b c h1 h2
    cases b with
    | nil => simp [textLtAux] at h1
    | cons y ys =>
      cases c with
      | nil => simp [textLtAux] at h2
      | cons z zs =>
        simp only [textLtAux, Bool.or_eq_true, Bool.and_eq_true, decide_eq_true_eq] at h1 h2 ⊢
        rcases h1 with h1 | ⟨e1, h1⟩
        · rcases h2 with h2 | ⟨e2, _⟩
          · left; omega
          · left; omega
        · rcases h2 with h2 | ⟨e2, h2⟩
          · left; omega
          · right; exact ⟨by omega, ih ys zs h1 h2⟩

theorem textLtAux_total : ∀ a b : List Char,
    a ≠ b → textLtAux a b = true ∨ textLtAux b a = true := by
  intro a
  induction a with
  | nil =>
    intro b h
    cases b with
    | nil => exact absurd rfl h
    | cons y ys => left; rfl
  | cons x xs ih =>
    intro b h
    cases b with
    | nil => right; rfl
    | cons y ys =>
      simp only [textLtAux, Bool.or_eq_true, Bool.and_eq_true, decide_eq_true_eq]
      rcases Nat.lt_trichotomy x.toNat y.toNat with hlt | heq | hgt
      · left; left; exact hlt
      · have hxy : x = y := char_toNat_inj heq
        have hne : xs ≠ ys := fun e => h (by rw [hxy, e])
        rcases ih ys hne with h' | h'
        · left; right; exact ⟨heq, h'⟩
        · right; right; exact ⟨heq.symm, h'⟩
      · right; left; exact hgt

theorem textLt_irrefl (a : String) : textLt a a = false := textLtAux_irrefl a.data

theorem textLt_trans {a b c : String} (h1 : textLt a b = true) (h2 : textLt b c = true) :
    textLt a c = true := textLtAux_trans _ _ _ h1 h2

theorem textLt_total {a b : String} (h : a ≠ b) : textLt a b = true ∨ textLt b a = true :=
  textLtAux_total _ _ fun e => h (String.ext e)

theorem textLt_asymm {a b : String} (h : textLt a b = true) : textLt b a = false := by
  cases hba : textLt b a with
  | false => rfl
  | true =>
    have := textLt_trans h hba
    rw [textLt_irrefl] at this
    exact absurd this (by decide)

/-- A name whose first character comes after `*` (as every letter, every digit and
each of `-`, `_`, `.`, `+`, `@` does) sorts after `Everyone`. -/
theorem textLt_Everyone_of_head (name : String) (c : Char) (cs : List Char)
    (h : name.data = c :: cs) (hc : 42 < c.toNat) : textLt Everyone name = true := by
  have he : Everyone.data = ['*'] := rfl
  have hs : ('*' : Char).toNat = 42 := rfl
  simp only [textLt, h, he, textLtAux, hs, Bool.or_eq_true, decide_eq_true_eq]
  left; exact hc

/-! ## Lemmas: `ORDER BY` -/

theorem orderedInsert_perm {α : Type} (r : α → α → Bool) (x : α) (l : List α) :
    (orderedInsert r x l).Perm (x :: l) := by
  induction l with
  | nil => exact List.Perm.refl _
  | cons y ys ih =>
    simp only [orderedInsert]
    split
    · exact List.Perm.refl _
    · exact (List.Perm.cons y ih).trans (List.Perm.swap x y ys)

theorem orderBy_perm {α : Type} (r : α → α → Bool) (l : List α) : (orderBy r l).Perm l := by
  induction l with
  | nil => exact List.Perm.refl _
  | cons x xs ih => exact (orderedInsert_perm r x _).trans (List.Perm.cons x ih)

theorem mem_orderBy {α : Type} (r : α → α → Bool) (l : List α) (x : α) :
    x ∈ orderBy r l ↔ x ∈ l := (orderBy_perm r l).mem_iff

theorem length_orderBy {α : Type} (r : α → α → Bool) (l : List α) :
    (orderBy r l).length = l.length := (orderBy_perm r l).length_eq

theorem head?_orderedInsert {α : Type} (r : α → α → Bool) (x : α) (l : List α) :
    (orderedInsert r x l).head? =
      match l.head? with
      | none => some x
      | some h => if r x h then some x else some h := by
  cases l with
  | nil => rfl
  | cons y ys =>
    simp only [orderedInsert, List.head?_cons]
    split <;> rfl

theorem head?_orderBy {α : Type} (r : α → α → Bool) (l : List α) :
    (orderBy r l).head? = firstRow r l := by
  induction l with
  | nil => rfl
  | cons x xs ih => simp only [orderBy, head?_orderedInsert, ih, firstRow]

theorem firstRow_mem {α : Type} (r : α → α → Bool) :
    ∀ (l : List α) (h : α), firstRow r l = some h → h ∈ l := by
  intro l
  induction l with
  | nil => intro h e; simp [firstRow] at e
  | cons x xs ih =>
    intro h e
    simp only [firstRow] at e
    cases hx : firstRow r xs with
    | none =>
      rw [hx] at e
      simp only [Option.some.injEq] at e
      simp [e]
    | some b =>
      rw [hx] at e
      simp only at e
      split at e
      · simp only [Option.some.injEq] at e
        simp [e]
      · simp only [Option.some.injEq] at e
        exact List.mem_cons_of_mem _ (ih h (by rw [hx, e]))

theorem firstRow_eq_none {α : Type} (r : α → α → Bool) (l : List α) :
    firstRow r l = none ↔ l = [] := by
  cases l with
  | nil => simp [firstRow]
  | cons x xs =>
    simp only [firstRow]
    cases firstRow r xs with
    | none => simp
    | some b => simp only; split <;> simp

theorem firstRow_precedes {α : Type} (r : α → α → Bool)
    (total : ∀ a b, r a b = true ∨ r b a = true)
    (trans : ∀ a b c, r a b = true → r b c = true → r a c = true) :
    ∀ (l : List α) (h : α), firstRow r l = some h → ∀ y ∈ l, r h y = true := by
  intro l
  induction l with
  | nil => intro h e; simp [firstRow] at e
  | cons x xs ih =>
    intro h e y hy
    have hxx : r x x = true := (total x x).elim id id
    simp only [firstRow] at e
    cases hx : firstRow r xs with
    | none =>
      rw [hx] at e
      simp only [Option.some.injEq] at e
      have hnil := (firstRow_eq_none r xs).1 hx
      subst hnil
      subst e
      simp only [List.mem_singleton] at hy
      rw [hy]; exact hxx
    | some b =>
      rw [hx] at e
      simp only at e
      have hb := ih b hx
      by_cases hp : r x b = true
      · rw [if_pos hp] at e
        simp only [Option.some.injEq] at e
        rw [← e]
        rcases List.mem_cons.1 hy with hy | hy
        · rw [hy]; exact hxx
        · exact trans _ _ _ hp (hb y hy)
      · rw [if_neg hp] at e
        simp only [Option.some.injEq] at e
        rw [← e]
        rcases List.mem_cons.1 hy with hy | hy
        · rw [hy]
          rcases total x b with t | t
          · exact absurd t hp
          · exact t
        · exact hb y hy

/-- Rows that satisfy `P` and strictly outrank every row that does not: the first
row is then the first row of the `P`-rows alone. -/
theorem firstRow_filter {α : Type} (r : α → α → Bool) (P : α → Bool) :
    ∀ l : List α,
      (∀ a ∈ l, ∀ b ∈ l, P a = true → P b = false → r a b = true ∧ r b a = false) →
      (∃ x ∈ l, P x = true) → firstRow r l = firstRow r (l.filter P) := by
  intro l
  induction l with
  | nil => intro _ h; obtain ⟨x, hx, _⟩ := h; simp at hx
  | cons x xs ih =>
    intro strict hx0
    have strict' : ∀ a ∈ xs, ∀ b ∈ xs, P a = true → P b = false →
        r a b = true ∧ r b a = false :=
      fun a ha b hb => strict a (List.mem_cons_of_mem _ ha) b (List.mem_cons_of_mem _ hb)
    by_cases hex : ∃ y ∈ xs, P y = true
    · have ih' := ih strict' hex
      cases hPx : P x with
      | true =>
        simp only [List.filter_cons, hPx, if_true, firstRow, ih']
      | false =>
        simp only [List.filter_cons, hPx, firstRow, ih']
        cases hf : firstRow r (xs.filter P) with
        | none =>
          have := (firstRow_eq_none r _).1 hf
          obtain ⟨y, hy, hPy⟩ := hex
          have : y ∈ xs.filter P := List.mem_filter.2 ⟨hy, hPy⟩
          simp_all
        | some b =>
          have hb := firstRow_mem r _ _ hf
          have hPb : P b = true := (List.mem_filter.1 hb).2
          have hbx : b ∈ xs := (List.mem_filter.1 hb).1
          have := (strict b (List.mem_cons_of_mem _ hbx) x (by simp) hPb hPx).2
          simp [this, hf]
    · have hnone : ∀ y ∈ xs, P y = false := by
        intro y hy
        cases hPy : P y with
        | false => rfl
        | true => exact absurd ⟨y, hy, hPy⟩ hex
      have hPx : P x = true := by
        obtain ⟨y, hy, hPy⟩ := hx0
        rcases List.mem_cons.1 hy with e | hy
        · rw [← e]; exact hPy
        · rw [hnone y hy] at hPy; exact absurd hPy (by decide)
      have hfil : xs.filter P = [] := List.filter_eq_nil_iff.2 fun y hy => by simp [hnone y hy]
      simp only [List.filter_cons, hPx, if_true, hfil, firstRow]
      cases hf : firstRow r xs with
      | none => rfl
      | some b =>
        have hb := firstRow_mem r _ _ hf
        have := (strict x (by simp) b (List.mem_cons_of_mem _ hb) hPx (hnone b hb)).1
        simp [this]

/-! ## Lemmas: the permission resolver -/

theorem permPrecedes_total (a b : PermRow) :
    permPrecedes a b = true ∨ permPrecedes b a = true := by
  unfold permPrecedes
  by_cases hu : a.user = b.user
  · by_cases hl : a.topic.length = b.topic.length
    · simp only [hu, hl, ne_eq, not_true_eq_false, if_false]
      cases a.write <;> cases b.write <;> simp
    · have hl' : ¬ b.topic.length = a.topic.length := fun e => hl e.symm
      simp only [hu, ne_eq, not_true_eq_false, if_false, hl, hl', not_false_eq_true, if_true,
        decide_eq_true_eq]
      omega
  · have hu' : ¬ b.user = a.user := fun e => hu e.symm
    simp only [ne_eq, hu, hu', not_false_eq_true, if_true]
    exact (textLt_total hu).symm

theorem permPrecedes_same_user {a b : PermRow} (hu : a.user = b.user)
    (h : permPrecedes a b = true) :
    b.topic.length ≤ a.topic.length ∧
      (b.topic.length = a.topic.length → b.write = true → a.write = true) := by
  unfold permPrecedes at h
  by_cases hl : a.topic.length = b.topic.length
  · simp only [hu, hl, ne_eq, not_true_eq_false, if_false] at h
    refine ⟨by omega, fun _ hw => ?_⟩
    rw [hw] at h
    simpa using h
  · simp only [hu, ne_eq, not_true_eq_false, if_false, hl, not_false_eq_true, if_true,
      decide_eq_true_eq] at h
    exact ⟨by omega, fun e => absurd e.symm hl⟩

theorem permPrecedes_trans (a b c : PermRow) (h1 : permPrecedes a b = true)
    (h2 : permPrecedes b c = true) : permPrecedes a c = true := by
  by_cases hab : a.user = b.user
  · by_cases hbc : b.user = c.user
    · have s1 := permPrecedes_same_user hab h1
      have s2 := permPrecedes_same_user hbc h2
      have hac : a.user = c.user := hab.trans hbc
      unfold permPrecedes
      by_cases hl : a.topic.length = c.topic.length
      · simp only [hac, hl, ne_eq, not_true_eq_false, if_false]
        cases hw : c.write with
        | false => simp
        | true =>
          have e1 : c.topic.length = b.topic.length := by omega
          have e2 : b.topic.length = a.topic.length := by omega
          simp [s1.2 e2 (s2.2 e1 hw)]
      · simp only [hac, ne_eq, not_true_eq_false, if_false, hl, not_false_eq_true, if_true,
          decide_eq_true_eq]
        omega
    · have hac : ¬ a.user = c.user := fun e => hbc (hab.symm.trans e)
      unfold permPrecedes at h2 ⊢
      simp only [ne_eq, hbc, not_false_eq_true, if_true] at h2
      simp only [ne_eq, hac, not_false_eq_true, if_true]
      rw [hab]; exact h2
  · unfold permPrecedes at h1
    simp only [ne_eq, hab, not_false_eq_true, if_true] at h1
    by_cases hbc : b.user = c.user
    · have hac : ¬ a.user = c.user := fun e => hab (e.trans hbc.symm)
      unfold permPrecedes
      simp only [ne_eq, hac, not_false_eq_true, if_true]
      rw [← hbc]; exact h1
    · unfold permPrecedes at h2
      simp only [ne_eq, hbc, not_false_eq_true, if_true] at h2
      have hca := textLt_trans h2 h1
      have hac : ¬ a.user = c.user := by
        intro e
        rw [e, textLt_irrefl] at hca
        exact absurd hca (by decide)
      unfold permPrecedes
      simp only [ne_eq, hac, not_false_eq_true, if_true]
      exact hca

theorem Authorize_eq_decidingRow (cfg : Config) (db : DB) (user : Option User)
    (topic : String) (perm : Permission) (h : notAdmin user) :
    Authorize cfg db user topic perm =
      match decidingRow db (callerName user) topic with
      | none => resolvePerms cfg.DefaultAccess perm
      | some g => resolvePerms (NewPermission g.read g.write) perm := by
  cases user with
  | none =>
    simp only [Authorize, callerName, selectTopicPermsQuery, decidingRow]
    cases selectTopicPermsRows db Everyone Everyone topic <;> simp
  | some u =>
    have hr : (u.Role == RoleAdmin) = false := by simpa using h u rfl
    simp only [Authorize, callerName, selectTopicPermsQuery, decidingRow, hr]
    cases selectTopicPermsRows db Everyone u.Name topic <;> simp

theorem decidingRow_eq_firstRow (db : DB) (name topic : String) :
    decidingRow db name topic =
      firstRow permPrecedes ((accessJoinUser db).filter (topicPermsWhere Everyone name topic)) := by
  simp only [decidingRow, selectTopicPermsRows, head?_orderBy]

theorem mem_matchingGrants {db : DB} {name topic : String} {r : PermRow} :
    r ∈ matchingGrants db name topic ↔
      r ∈ accessJoinUser db ∧ r.user = name ∧ like topic r.topic = true := by
  simp [matchingGrants, List.mem_filter]

theorem mem_topicPermsRows {db : DB} {name topic : String} {r : PermRow} :
    r ∈ (accessJoinUser db).filter (topicPermsWhere Everyone name topic) ↔
      (r.user = Everyone ∨ r.user = name) ∧ r ∈ matchingGrants db r.user topic := by
  simp only [List.mem_filter, topicPermsWhere, Bool.and_eq_true, Bool.or_eq_true, beq_iff_eq,
    mem_matchingGrants]
  tauto

theorem topicPermsRows_filter_own (db : DB) (name topic : String) :
    ((accessJoinUser db).filter (topicPermsWhere Everyone name topic)).filter
      (fun r => r.user == name) = matchingGrants db name topic := by
  simp only [matchingGrants, List.filter_filter]
  apply List.filter_congr
  intro r _
  simp only [topicPermsWhere]
  cases h : (r.user == name) <;> simp

theorem Authorize_of_admin (cfg : Config) (db : DB) (user : Option User) (topic : String)
    (perm : Permission) (h : ¬ notAdmin user) : Authorize cfg db user topic perm = none := by
  cases user with
  | none => exact absurd (fun _ e => by cases e) h
  | some u =>
    have hr : u.Role = RoleAdmin := by
      by_contra hne
      exact h fun v e => by cases e; exact hne
    simp [Authorize, hr]

theorem permPrecedes_write_eq {a b : PermRow} (h1 : permPrecedes a b = true)
    (h2 : permPrecedes b a = true) : a.write = b.write := by
  by_cases hu : a.user = b.user
  · have s1 := permPrecedes_same_user hu h1
    have s2 := permPrecedes_same_user hu.symm h2
    have e : a.topic.length = b.topic.length := by omega
    cases ha : a.write <;> cases hb : b.write
    · rfl
    · have := s1.2 e.symm hb
      rw [ha] at this; exact this
    · have := s2.2 e ha
      rw [hb] at this; exact this.symm
    · rfl
  · have hu' : ¬ b.user = a.user := fun e => hu e.symm
    unfold permPrecedes at h1 h2
    simp only [ne_eq, hu, hu', not_false_eq_true, if_true] at h1 h2
    rw [textLt_asymm h1] at h2
    exact absurd h2 (by decide)

theorem accessJoinUser_perm (db1 db2 : DB) (hu : db1.users = db2.users)
    (ha : db1.access.Perm db2.access) : (accessJoinUser db1).Perm (accessJoinUser db2) := by
  unfold accessJoinUser
  rw [hu]
  exact List.Perm.flatMap_right _ ha

/-- A write request does not depend on the storage order of the grants: the rows
that tie for the first place agree on their write bit. -/
theorem Authorize_write_order_independent (cfg : Config) (db1 db2 : DB)
    (user : Option User) (topic : String) (hu : db1.users = db2.users)
    (ha : db1.access.Perm db2.access) :
    Authorize cfg db1 user topic PermissionWrite =
      Authorize cfg db2 user topic PermissionWrite := by
  by_cases h : notAdmin user
  · rw [Authorize_eq_decidingRow cfg db1 user topic _ h,
      Authorize_eq_decidingRow cfg db2 user topic _ h,
      decidingRow_eq_firstRow, decidingRow_eq_firstRow]
    have hperm := (accessJoinUser_perm db1 db2 hu ha).filter
      (topicPermsWhere Everyone (callerName user) topic)
    cases h1 : firstRow permPrecedes
        ((accessJoinUser db1).filter (topicPermsWhere Everyone (callerName user) topic)) with
    | none =>
      have hnil := (firstRow_eq_none _ _).1 h1
      rw [hnil] at hperm
      rw [← hperm.nil_eq]
      rfl
    | some g1 =>
      cases h2 : firstRow permPrecedes
          ((accessJoinUser db2).filter (topicPermsWhere Everyone (callerName user) topic)) with
      | none =>
        have hnil := (firstRow_eq_none _ _).1 h2
        rw [hnil] at hperm
        have := hperm.eq_nil
        rw [this] at h1
        simp [firstRow] at h1
      | some g2 =>
        have m1 := firstRow_mem _ _ _ h1
        have m2 := firstRow_mem _ _ _ h2
        have p1 := firstRow_precedes permPrecedes permPrecedes_total permPrecedes_trans
          _ g1 h1 g2 (hperm.mem_iff.2 m2)
        have p2 := firstRow_precedes permPrecedes permPrecedes_total permPrecedes_trans
          _ g2 h2 g1 (hperm.mem_iff.1 m1)
        have hw := permPrecedes_write_eq p1 p2
        simp only [resolvePerms_eq, NewPermission, Permission.subset, PermissionWrite,
          PermissionRead, hw]
        simp
  · rw [Authorize_of_admin cfg db1 user topic _ h, Authorize_of_admin cfg db2 user topic _ h]

/-! ## Lemmas: the grant store -/

theorem upsertUserAccessQuery_stores (db db' : DB) (username topic : String)
    (read write : Bool) (provisioned : Bool)
    (h : upsertUserAccessQuery db username topic read write "" "" provisioned = .ok db') :
    ∃ uid, selectUserID db' username = some uid ∧
      ({ user_id := uid, topic := topic, read := read, write := write,
         owner_user_id := none, provisioned := provisioned } : AccessRow) ∈ db'.access := by
  unfold upsertUserAccessQuery at h
  cases hid : selectUserID db username with
  | none => rw [hid] at h; cases h
  | some uid =>
    rw [hid] at h
    simp only [if_true] at h
    refine ⟨uid, ?_, ?_⟩
    · split at h <;>
      · injection h with h
        subst h
        exact hid
    · split at h
      · rename_i hany
        injection h with h
        subst h
        simp only [List.any_eq_true, Bool.and_eq_true, beq_iff_eq] at hany
        obtain ⟨a, ha, h1, h2⟩ := hany
        apply List.mem_map.2
        refine ⟨a, ha, ?_⟩
        rw [if_pos ⟨h1, h2⟩, ← h1, ← h2]
      · injection h with h
        subst h
        simp

theorem AllowAccess_stores (v : Predicates) (db db' : DB) (username p : String)
    (perm : Permission) (h : AllowAccess v db username p perm = .ok db') :
    ∃ uid, selectUserID db' username = some uid ∧
      ({ user_id := uid, topic := toSQLWildcard p, read := perm.IsRead,
         write := perm.IsWrite, owner_user_id := none, provisioned := false } : AccessRow) ∈
        db'.access := by
  unfold AllowAccess allowAccessTx at h
  split at h
  · cases h
  · split at h
    · cases h
    · exact upsertUserAccessQuery_stores db db' username _ _ _ _ h

/-! ## Lemmas: the token store -/

theorem upsertTokenQuery_keys (db db1 : DB) (r : TokenRow) (hpk : TokenKeysUnique db)
    (h : upsertTokenQuery db r = .ok db1) : TokenKeysUnique db1 := by
  unfold upsertTokenQuery at h
  split at h
  · injection h with h
    subst h
    unfold TokenKeysUnique at hpk ⊢
    have : (db.tokens.map fun t =>
        if t.user_id = r.user_id ∧ t.token = r.token then
          { t with label := r.label, expires := r.expires, provisioned := r.provisioned }
        else t).map (fun t => (t.user_id, t.token)) =
        db.tokens.map fun t => (t.user_id, t.token) := by
      rw [List.map_map]
      apply List.map_congr_left
      intro t _
      simp only [Function.comp]
      split <;> rfl
    simp only [this]
    exact hpk
  · rename_i hany
    split at h
    · cases h
    · split at h
      · cases h
      · injection h with h
        subst h
        unfold TokenKeysUnique at hpk ⊢
        simp only [List.map_append, List.map_cons, List.map_nil]
        apply List.Nodup.append hpk (List.nodup_singleton _)
        intro k hk hk'
        simp only [List.mem_singleton] at hk'
        subst hk'
        rcases List.mem_map.1 hk with ⟨t, ht, e⟩
        apply hany
        simp only [List.any_eq_true, Bool.and_eq_true, beq_iff_eq]
        simp only [Prod.mk.injEq] at e
        exact ⟨t, ht, e.1, e.2⟩

theorem deleteExcessTokensQuery_count (db : DB) (userID : String) (limit : Nat)
    (hpk : TokenKeysUnique db) :
    selectTokenCountQuery (deleteExcessTokensQuery db userID userID limit) userID ≤ limit := by
  unfold selectTokenCountQuery deleteExcessTokensQuery
  simp only [List.filter_filter]
  generalize hk : ((orderBy (fun x y : TokenRow => decide (y.expires ≤ x.expires))
      (db.tokens.filter fun t => t.user_id == userID)).take limit).map
        (fun t => (t.user_id, t.token)) = kept
  have hlen : kept.length ≤ limit := by
    rw [← hk, List.length_map, List.length_take]
    exact Nat.min_le_left _ _
  have hnd : ((db.tokens.filter fun t =>
      (t.user_id == userID &&
        !(t.user_id == userID && !(kept.contains (t.user_id, t.token))))).map
        fun t => (t.user_id, t.token)).Nodup :=
    List.Nodup.sublist (List.Sublist.map _ (List.filter_sublist _)) hpk
  have hsub : ((db.tokens.filter fun t =>
      (t.user_id == userID &&
        !(t.user_id == userID && !(kept.contains (t.user_id, t.token))))).map
        fun t => (t.user_id, t.token)) ⊆ kept := by
    intro k hk'
    rcases List.mem_map.1 hk' with ⟨t, ht, e⟩
    have hc := (List.mem_filter.1 ht).2
    subst e
    cases hu : (t.user_id == userID) with
    | false => simp [hu] at hc
    | true =>
      simp only [hu, Bool.true_and, Bool.not_not] at hc
      simpa using hc
  have := (List.subperm_of_subset hnd hsub).length_le
  rw [List.length_map] at this
  omega

/-! ## Lemmas: lists with unique keys -/

theorem filter_key_eq_singleton {α β : Type} [DecidableEq β] (f : α → β) :
    ∀ (l : List α), (l.map f).Nodup → ∀ r ∈ l, l.filter (fun x => f x == f r) = [r] := by
  intro l
  induction l with
  | nil => intro _ r hr; simp at hr
  | cons x xs ih =>
    intro hnd r hr
    rw [List.map_cons, List.nodup_cons] at hnd
    rcases List.mem_cons.1 hr with e | hr'
    · subst e
      have hnil : xs.filter (fun x => f x == f r) = [] := by
        apply List.filter_eq_nil_iff.2
        intro y hy hfy
        have : f y = f r := by simpa using hfy
        exact hnd.1 (this ▸ List.mem_map_of_mem f hy)
      simp [List.filter_cons, hnil]
    · have hne : ¬ f x = f r := fun e => hnd.1 (e ▸ List.mem_map_of_mem f hr')
      simp [List.filter_cons, hne, ih hnd.2 r hr']

theorem find?_key_of_nodup {α β : Type} [DecidableEq β] (f : α → β) :
    ∀ (l : List α), (l.map f).Nodup → ∀ r ∈ l, l.find? (fun x => f x == f r) = some r := by
  intro l
  induction l with
  | nil => intro _ r hr; simp at hr
  | cons x xs ih =>
    intro hnd r hr
    rw [List.map_cons, List.nodup_cons] at hnd
    rcases List.mem_cons.1 hr with e | hr'
    · subst e
      simp [List.find?_cons]
    · have hne : ¬ f x = f r := fun e => hnd.1 (e ▸ List.mem_map_of_mem f hr')
      simp [List.find?_cons, hne, ih hnd.2 r hr']

/-! ## Lemmas: sorted results -/

theorem orderedInsert_pairwise {α : Type} (r : α → α → Bool)
    (total : ∀ a b, r a b = true ∨ r b a = true)
    (trans : ∀ a b c, r a b = true → r b c = true → r a c = true) (x : α) :
    ∀ l : List α, l.Pairwise (fun a b => r a b = true) →
      (orderedInsert r x l).Pairwise (fun a b => r a b = true) := by
  intro l
  induction l with
  | nil => intro _; simp [orderedInsert]
  | cons y ys ih =>
    intro h
    have hy := List.pairwise_cons.1 h
    simp only [orderedInsert]
    by_cases hxy : r x y = true
    · rw [if_pos hxy]
      refine List.Pairwise.cons ?_ h
      intro z hz
      rcases List.mem_cons.1 hz with e | hz'
      · rw [e]; exact hxy
      · exact trans _ _ _ hxy (hy.1 z hz')
    · rw [if_neg hxy]
      refine List.Pairwise.cons ?_ (ih hy.2)
      intro z hz
      rcases List.mem_cons.1 ((orderedInsert_perm r x ys).mem_iff.1 hz) with e | hz'
      · rw [e]
        rcases total y x with t | t
        · exact t
        · exact absurd t hxy
      · exact hy.1 z hz'

theorem orderBy_pairwise {α : Type} (r : α → α → Bool)
    (total : ∀ a b, r a b = true ∨ r b a = true)
    (trans : ∀ a b c, r a b = true → r b c = true → r a c = true) :
    ∀ l : List α, (orderBy r l).Pairwise (fun a b => r a b = true) := by
  intro l
  induction l with
  | nil => simp [orderBy]
  | cons x xs ih => exact orderedInsert_pairwise r total trans x _ ih

theorem orderBy_take_precedes {α : Type} (r : α → α → Bool)
    (total : ∀ a b, r a b = true ∨ r b a = true)
    (trans : ∀ a b c, r a b = true → r b c = true → r a c = true) (l : List α) (k : Nat)
    (s d : α) (hs : s ∈ (orderBy r l).take k) (hd : d ∈ l) (hnd : d ∉ (orderBy r l).take k) :
    r s d = true := by
  have hp := orderBy_pairwise r total trans l
  rw [← List.take_append_drop k (orderBy r l)] at hp
  have hd' : d ∈ (orderBy r l).take k ++ (orderBy r l).drop k := by
    rw [List.take_append_drop]; exact (mem_orderBy r l d).2 hd
  rcases List.mem_append.1 hd' with h | h
  · exact absurd h hnd
  · exact (List.pairwise_append.1 hp).2.2 s hs d h

/-! ## Lemmas: token pruning -/

/-- The order `expires DESC` of `deleteExcessTokensQuery`. -/
theorem expiresDesc_total (a b : TokenRow) :
    decide (b.expires ≤ a.expires) = true ∨ decide (a.expires ≤ b.expires) = true := by
  simp only [decide_eq_true_eq]
  omega

theorem expiresDesc_trans (a b c : TokenRow) (h1 : decide (b.expires ≤ a.expires) = true)
    (h2 : decide (c.expires ≤ b.expires) = true) : decide (c.expires ≤ a.expires) = true := by
  simp only [decide_eq_true_eq] at *
  omega

theorem deleteExcessTokensQuery_rows (db : DB) (userID : String) (limit : Nat)
    (hpk : TokenKeysUnique db) :
    selectTokensQuery (deleteExcessTokensQuery db userID userID limit) userID =
      (selectTokensQuery db userID).filter fun t =>
        decide (t ∈ (orderBy (fun x y : TokenRow => decide (y.expires ≤ x.expires))
          (selectTokensQuery db userID)).take limit) := by
  unfold selectTokensQuery deleteExcessTokensQuery
  simp only [List.filter_filter]
  apply List.filter_congr
  intro t ht
  cases hu : (t.user_id == userID) with
  | false => simp
  | true =>
    simp only [Bool.true_and, Bool.not_not, Bool.and_true]
    generalize hS : (orderBy (fun x y : TokenRow => decide (y.expires ≤ x.expires))
      (db.tokens.filter fun t => t.user_id == userID)).take limit = S
    have hSsub : ∀ s ∈ S, s ∈ db.tokens := by
      intro s hs
      rw [← hS] at hs
      exact (List.mem_filter.1 ((mem_orderBy _ _ s).1 (List.mem_of_mem_take hs))).1
    by_cases hin : t ∈ S
    · have : (t.user_id, t.token) ∈ S.map fun t => (t.user_id, t.token) :=
        List.mem_map_of_mem _ hin
      simp [hin, this]
    · have : (t.user_id, t.token) ∉ S.map fun t => (t.user_id, t.token) := by
        intro hk
        rcases List.mem_map.1 hk with ⟨s, hs, e⟩
        have := List.inj_on_of_nodup_map hpk (hSsub s hs) ht e
        exact hin (this ▸ hs)
      simp [hin, this]

theorem deleteExcessTokensQuery_others (db : DB) (userID other : String) (limit : Nat)
    (h : other ≠ userID) :
    selectTokensQuery (deleteExcessTokensQuery db userID userID limit) other =
      selectTokensQuery db other := by
  unfold selectTokensQuery deleteExcessTokensQuery
  simp only [List.filter_filter]
  apply List.filter_congr
  intro t _
  cases hu : (t.user_id == other) with
  | false => simp
  | true =>
    have e : t.user_id = other := by simpa using hu
    have : (t.user_id == userID) = false := by
      simp only [beq_eq_false_iff_ne, ne_eq]
      rw [e]; exact h
    simp [this]

theorem upsertTokenQuery_fresh (db : DB) (r : TokenRow)
    (huser : ∃ u ∈ db.users, u.id = r.user_id) (hfresh : ∀ t ∈ db.tokens, t.token ≠ r.token) :
    upsertTokenQuery db r = .ok { db with tokens := db.tokens ++ [r] } := by
  unfold upsertTokenQuery
  have h1 : db.tokens.any (fun t => t.user_id == r.user_id && t.token == r.token) = false := by
    rw [List.any_eq_false]
    intro t ht
    simp [hfresh t ht]
  have h2 : (db.users.any fun u => u.id == r.user_id) = true := by
    obtain ⟨u, hu, e⟩ := huser
    exact List.any_eq_true.2 ⟨u, hu, by simp [e]⟩
  have h3 : db.tokens.any (fun t => t.token == r.token) = false := by
    rw [List.any_eq_false]
    intro t ht
    simp [hfresh t ht]
  simp [h1, h2, h3]

/-! ## Lemmas: the authenticator -/

theorem readUser_ok (lib : Lib) (r : UserRow) (rows : List UserRow)
    (h : lib.UnmarshalPrefs r.prefs = true) : readUser lib (r :: rows) = .ok (userOfRow r) := by
  simp [readUser, h]

theorem mem_selectUserByTokenQuery {db : DB} {token : String} {now : Int} {u : UserRow} :
    u ∈ selectUserByTokenQuery db token now ↔
      u ∈ db.users ∧ ∃ tk ∈ db.tokens, u.id = tk.user_id ∧ tk.token = token ∧
        (tk.expires = 0 ∨ now ≤ tk.expires) := by
  unfold selectUserByTokenQuery
  simp only [List.mem_flatMap, List.mem_map, List.mem_filter, Bool.and_eq_true, beq_iff_eq,
    Bool.or_eq_true, decide_eq_true_eq, ge_iff_le]
  constructor
  · rintro ⟨a, ha, tk, ⟨htk, ⟨h1, h2⟩, h3⟩, e⟩
    subst e
    exact ⟨ha, tk, htk, h1, h2, h3⟩
  · rintro ⟨hu, tk, htk, h1, h2, h3⟩
    exact ⟨u, hu, tk, ⟨htk, ⟨h1, h2⟩, h3⟩, rfl⟩

theorem AuthenticateToken_ok_iff (lib : Lib) (db : DB) (now : Int) (v : String) (u : User)
    (hprefs : PrefsValid lib db) :
    AuthenticateToken lib db now v = .ok u ↔
      goLen v = 32 ∧ ∃ r, (selectUserByTokenQuery db v now).head? = some r ∧
        u = { userOfRow r with Token := v } := by
  unfold AuthenticateToken userByToken
  by_cases hl : goLen v = 32
  · have hl' : ¬ goLen v ≠ tokenLength := by simpa [tokenLength] using hl
    rw [if_neg hl']
    cases hrows : selectUserByTokenQuery db v now with
    | nil => simp [readUser, hl]
    | cons r rs =>
      have hr : r ∈ db.users := by
        have : r ∈ selectUserByTokenQuery db v now := by rw [hrows]; simp
        exact (mem_selectUserByTokenQuery.1 this).1
      rw [readUser_ok lib r rs (hprefs r hr)]
      simp only [Except.ok.injEq, List.head?_cons, Option.some.injEq, hl, true_and]
      constructor
      · intro e; exact ⟨r, rfl, e.symm⟩
      · rintro ⟨r', e1, e2⟩; rw [e2, e1]
  · have hl' : goLen v ≠ tokenLength := by simpa [tokenLength] using hl
    rw [if_pos hl']
    simp [hl]

theorem AuthenticateToken_error (lib : Lib) (db : DB) (now : Int) (v : String) (e : Error)
    (h : AuthenticateToken lib db now v = .error e) : e = Error.ErrUnauthenticated := by
  unfold AuthenticateToken at h
  split at h
  · injection h with h; exact h.symm
  · split at h
    · injection h with h; exact h.symm
    · cases h

theorem selectUserID_of_unique (db : DB) (hn : UserNamesUnique db) (r : UserRow)
    (hr : r ∈ db.users) : selectUserID db r.user = some r.id := by
  unfold selectUserID
  rw [find?_key_of_nodup (fun u : UserRow => u.user) db.users hn r hr]
  rfl

theorem selectUserByNameQuery_of_unique (db : DB) (hn : UserNamesUnique db) (r : UserRow)
    (hr : r ∈ db.users) : selectUserByNameQuery db r.user = [r] :=
  filter_key_eq_singleton (fun u : UserRow => u.user) db.users hn r hr

theorem selectUserByNameQuery_eq_nil (db : DB) (username : String)
    (h : ∀ r ∈ db.users, r.user ≠ username) : selectUserByNameQuery db username = [] := by
  unfold selectUserByNameQuery
  apply List.filter_eq_nil_iff.2
  intro r hr
  simp [h r hr]

theorem authenticate_fst_error (lib : Lib) (db : DB) (username password : String) (e : Error)
    (h : (authenticate lib db username password).1 = .error e) :
    e = Error.ErrUnauthenticated := by
  unfold authenticate at h
  split at h
  · injection h with h; exact h.symm
  · split at h
    · injection h with h; exact h.symm
    · split at h
      · injection h with h; exact h.symm
      · split at h
        · injection h with h; exact h.symm
        · cases h

/-! ## Lemmas: the user store -/

theorem selectUserID_map_users (db : DB) (f : UserRow → UserRow)
    (hf : ∀ x, (f x).user = x.user ∧ (f x).id = x.id) (name : String) :
    selectUserID { db with users := db.users.map f } name = selectUserID db name := by
  unfold selectUserID
  simp only [List.find?_map, Option.map_map]
  have h1 : ((fun u : UserRow => u.user == name) ∘ f) = fun u : UserRow => u.user == name := by
    funext x; simp [Function.comp, (hf x).1]
  have h2 : ((fun u : UserRow => u.id) ∘ f) = fun u : UserRow => u.id := by
    funext x; simp [Function.comp, (hf x).2]
  rw [h1, h2]

theorem Manager_User_ok (lib : Lib) (db : DB) (name : String) (user : User)
    (h : Manager.User lib db name = .ok user) :
    ∃ r, (selectUserByNameQuery db name).head? = some r ∧ user = userOfRow r := by
  unfold Manager.User readUser at h
  split at h
  · cases h
  · rename_i r rs hrows
    split at h
    · cases h
    · injection h with h
      exact ⟨r, by rw [hrows]; rfl, h.symm⟩

theorem deleteUserAccessQuery_access (db : DB) (name : String) (uid : String)
    (h : selectUserID db name = some uid) :
    (deleteUserAccessQuery db name name).access =
      db.access.filter fun a => a.user_id != uid && a.owner_user_id != some uid := by
  unfold deleteUserAccessQuery
  rw [h]
  simp only
  apply List.filter_congr
  intro a _
  cases ho : a.owner_user_id with
  | none => by_cases h1 : a.user_id = uid <;> simp [sqlEq, bne, h1]
  | some o =>
    by_cases h1 : a.user_id = uid <;> by_cases h2 : o = uid <;> simp [sqlEq, bne, h1, h2]

theorem deleteUserAccessQuery_none (db : DB) (name : String)
    (h : selectUserID db name = none) : (deleteUserAccessQuery db name name).access = db.access := by
  unfold deleteUserAccessQuery
  rw [h]
  simp only
  apply List.filter_eq_self.2
  intro a _
  cases a.owner_user_id <;> simp [sqlEq]

theorem updateUserRoleQuery_selectUserID (db db1 : DB) (role : Role) (username name : String)
    (h : updateUserRoleQuery db role username = .ok db1) :
    selectUserID db1 name = selectUserID db name ∧ db1.access = db.access ∧
      db1.tokens = db.tokens := by
  unfold updateUserRoleQuery at h
  split at h
  · injection h with h; subst h; exact ⟨rfl, rfl, rfl⟩
  · split at h
    · cases h
    · injection h with h
      subst h
      refine ⟨?_, rfl, rfl⟩
      apply selectUserID_map_users
      intro x
      split <;> exact ⟨rfl, rfl⟩

/-! ## Lemmas: topics and user ids -/

theorem escapeUnderscore_data (s : String) :
    (escapeUnderscore s).data =
      s.data.flatMap fun c => if c = '_' then ['\\', '_'] else [c] := by
  have h3 : ("_" : String).data = ['_'] := rfl
  have h4 : ("\\_" : String).data = ['\\', '_'] := rfl
  simp only [escapeUnderscore, ReplaceAll, h3, h4, replaceAllAux_single]
  simp only [List.cons_ne_nil, if_false]

theorem validTopicChar_valid {c : Char} (h : validTopicChar c = true) :
    validPatternChar c = true ∧ c ≠ '*' := by
  constructor
  · unfold validTopicChar at h
    unfold validPatternChar
    rw [h]; rfl
  · intro e; subst e; revert h; decide

theorem escapeUnderscore_eq_toSQLWildcard (t : String) (h : validTopic t) :
    escapeUnderscore t = toSQLWildcard t := by
  apply String.ext
  rw [escapeUnderscore_data, toSQLWildcard_data]
  have : ∀ l : List Char, (∀ c ∈ l, validTopicChar c = true) →
      (l.flatMap fun c => if c = '_' then ['\\', '_'] else [c]) = l.flatMap encodeChar := by
    intro l
    induction l with
    | nil => intro _; rfl
    | cons c cs ih =>
      intro hl
      have hc := (validTopicChar_valid (hl c (by simp))).2
      simp only [List.flatMap_cons, ih fun d hd => hl d (List.mem_cons_of_mem _ hd), encodeChar,
        if_neg hc]
  exact this t.data h

theorem likeChar_self (c : Char) : likeChar c c = true := by simp [likeChar]

theorem globMatchBy_self : ∀ l : List Char, (∀ c ∈ l, c ≠ '*') →
    globMatchBy likeChar l l = true := by
  intro l
  induction l with
  | nil => intro _; rfl
  | cons c cs ih =>
    intro h
    rw [globMatchBy_cons, if_neg (h c (by simp))]
    simp only [likeChar_self, Bool.true_and]
    exact ih fun d hd => h d (List.mem_cons_of_mem _ hd)

/-- A text without a NUL is read whole. -/
theorem cString_of_not_mem {l : List Char} (h : Char.ofNat 0 ∉ l) : cString l = l := by
  unfold cString
  apply List.takeWhile_eq_self_iff.2
  intro c hc
  have : c ≠ Char.ofNat 0 := fun e => h (by rw [← e]; exact hc)
  simpa using this

/-- The stored form of a valid pattern holds no NUL. -/
theorem nul_not_mem_encode (p : List Char) (hp : ∀ c ∈ p, validPatternChar c = true) :
    Char.ofNat 0 ∉ p.flatMap encodeChar := by
  intro hin
  obtain ⟨c, hc, hx⟩ := List.mem_flatMap.1 hin
  have hv := hp c hc
  unfold encodeChar at hx
  split at hx
  · rw [List.mem_singleton] at hx
    exact absurd hx (by decide)
  · split at hx
    · simp only [List.mem_cons, List.mem_singleton, List.not_mem_nil, or_false] at hx
      rcases hx with hx | hx <;> exact absurd hx (by decide)
    · rw [List.mem_singleton] at hx
      rw [← hx] at hv
      exact absurd hv (by decide)

/-- The match of `LIKE` on the stored form of a valid pattern and a text without a
NUL is the glob match up to ASCII case. -/
theorem like_encode (p t : String) (hp : validPattern p) (ht : Char.ofNat 0 ∉ t.data) :
    like t (toSQLWildcard p) = globMatchBy likeChar p.data t.data := by
  unfold like
  rw [toSQLWildcard_data, cString_of_not_mem (nul_not_mem_encode p.data hp),
    cString_of_not_mem ht, likeCompare_encode p.data hp]

theorem like_escapeUnderscore_self (t : String) (h : validTopic t) :
    like t (escapeUnderscore t) = true := by
  rw [escapeUnderscore_eq_toSQLWildcard t h,
    like_encode t t (fun c hc => (validTopicChar_valid (h c hc)).1) (fun hin => by
      have := (validTopicChar_valid (h _ hin)).1
      exact absurd this (by decide))]
  exact globMatchBy_self t.data fun c hc => (validTopicChar_valid (h c hc)).2

theorem escapeUnderscore_of_no_underscore (t : String) (h : '_' ∉ t.data) :
    escapeUnderscore t = t := by
  apply String.ext
  rw [escapeUnderscore_data]
  have : ∀ l : List Char, '_' ∉ l →
      (l.flatMap fun c => if c = '_' then ['\\', '_'] else [c]) = l := by
    intro l
    induction l with
    | nil => intro _; rfl
    | cons c cs ih =>
      intro hl
      have hc : c ≠ '_' := fun e => hl (by simp [e])
      simp only [List.flatMap_cons, if_neg hc, ih fun m => hl (List.mem_cons_of_mem _ m)]
      rfl
  exact this t.data h

theorem selectUserID_some {db : DB} {name uid : String} (h : selectUserID db name = some uid) :
    ∃ r ∈ db.users, r.user = name ∧ r.id = uid := by
  unfold selectUserID at h
  cases hf : db.users.find? (fun u => u.user == name) with
  | none => rw [hf] at h; cases h
  | some r =>
    rw [hf] at h
    simp only [Option.map_some', Option.some.injEq] at h
    have hp := List.find?_some hf
    exact ⟨r, List.mem_of_find?_eq_some hf, by simpa using hp, h⟩

theorem selectUserID_ne {db : DB} (hids : UserIdsUnique db) {n1 n2 i1 i2 : String}
    (h1 : selectUserID db n1 = some i1) (h2 : selectUserID db n2 = some i2) (hne : n1 ≠ n2) :
    i1 ≠ i2 := by
  obtain ⟨r1, hr1, e1, d1⟩ := selectUserID_some h1
  obtain ⟨r2, hr2, e2, d2⟩ := selectUserID_some h2
  intro e
  have : r1 = r2 := List.inj_on_of_nodup_map hids hr1 hr2 (by rw [d1, d2, e])
  exact hne (by rw [← e1, ← e2, this])

theorem users_filter_id (db : DB) (hids : UserIdsUnique db) (r : UserRow) (hr : r ∈ db.users) :
    (db.users.filter fun u => decide (u.id = r.id)) = [r] := by
  have := filter_key_eq_singleton (fun u : UserRow => u.id) db.users hids r hr
  rw [← this]
  apply List.filter_congr
  intro x _
  by_cases h : x.id = r.id <;> simp [h]

/-! ## Lemmas: upserts of grants -/

/-- The effect of a successful `upsertUserAccessQuery`: the user exists, the users and
tokens tables are unchanged, and the access table holds the written row (owner NULL
for an empty owner name, otherwise the id of the user of that name) together with
the old rows of every other `(user_id, topic)` key; the row is appended when the key
is new. -/
theorem upsertUserAccessQuery_sound (db db' : DB) (name topic : String) (r w : Bool)
    (o1 o2 : String) (p : Bool)
    (h : upsertUserAccessQuery db name topic r w o1 o2 p = .ok db') :
    ∃ uid, selectUserID db name = some uid ∧ db'.users = db.users ∧ db'.tokens = db.tokens ∧
      (∀ x, x ∈ db'.access ↔
        (x = { user_id := uid, topic := topic, read := r, write := w,
               owner_user_id := if o1 = "" then none else selectUserID db o2,
               provisioned := p } ∨
          (x ∈ db.access ∧ ¬ (x.user_id = uid ∧ x.topic = topic)))) ∧
      ((∀ a ∈ db.access, ¬ (a.user_id = uid ∧ a.topic = topic)) →
        db'.access = db.access ++
          [{ user_id := uid, topic := topic, read := r, write := w,
             owner_user_id := if o1 = "" then none else selectUserID db o2,
             provisioned := p }]) := by
  unfold upsertUserAccessQuery at h
  cases hid : selectUserID db name with
  | none => rw [hid] at h; cases h
  | some uid =>
    rw [hid] at h
    simp only at h
    refine ⟨uid, rfl, ?_⟩
    split at h
    · rename_i hany
      injection h with h
      subst h
      refine ⟨rfl, rfl, ?_, ?_⟩
      · intro x
        simp only [List.mem_map]
        constructor
        · rintro ⟨a, ha, e⟩
          by_cases hk : a.user_id = uid ∧ a.topic = topic
          · rw [if_pos hk] at e
            left
            rw [← e, hk.1, hk.2]
          · rw [if_neg hk] at e
            right
            rw [← e]; exact ⟨ha, hk⟩
        · rintro (e | ⟨hx, hk⟩)
          · simp only [List.any_eq_true, Bool.and_eq_true, beq_iff_eq] at hany
            obtain ⟨a, ha, h1, h2⟩ := hany
            refine ⟨a, ha, ?_⟩
            rw [if_pos ⟨h1, h2⟩, e, ← h1, ← h2]
          · exact ⟨x, hx, by rw [if_neg hk]⟩
      · intro hno
        exfalso
        simp only [List.any_eq_true, Bool.and_eq_true, beq_iff_eq] at hany
        obtain ⟨a, ha, h1, h2⟩ := hany
        exact hno a ha ⟨h1, h2⟩
    · rename_i hany
      injection h with h
      subst h
      refine ⟨rfl, rfl, ?_, fun _ => rfl⟩
      intro x
      simp only [List.mem_append, List.mem_singleton]
      constructor
      · rintro (hx | e)
        · right
          refine ⟨hx, fun hk => hany ?_⟩
          simp only [List.any_eq_true, Bool.and_eq_true, beq_iff_eq]
          exact ⟨x, hx, hk.1, hk.2⟩
        · left; exact e
      · rintro (e | ⟨hx, _⟩)
        · right; exact e
        · left; exact hx

/-! ## Lemmas: reservations -/

/-- For a topic without `_` the check of `AllowReservation` is the one the
resolver would make: it reports the topic as owned by others iff some grant whose
stored pattern equals the topic or matches it has no owner or another owner. -/
theorem AllowReservation_no_underscore (v : Predicates) (db : DB) (username topic uid : String)
    (hu : v.AllowedUsername username = true ∨ username = Everyone)
    (ht : v.AllowedTopic topic = true) (hno : '_' ∉ topic.data)
    (hid : selectUserID db username = some uid) :
    (AllowReservation v db username topic = some Error.errTopicOwnedByOthers ↔
        ∃ a ∈ db.access, (a.topic = topic ∨ like topic a.topic = true) ∧
          a.owner_user_id ≠ some uid) ∧
      ((¬ ∃ a ∈ db.access, (a.topic = topic ∨ like topic a.topic = true) ∧
          a.owner_user_id ≠ some uid) → AllowReservation v db username topic = none) := by
  have hcond : ((!v.AllowedUsername username && username != Everyone) ||
      !v.AllowedTopic topic) = false := by
    rcases hu with e | e <;> simp [e, ht]
  have hfil : ∀ a : AccessRow,
      ((a.topic == topic || like topic a.topic) &&
        (a.owner_user_id.isNone || sqlNe a.owner_user_id (some uid))) = true ↔
      (a.topic = topic ∨ like topic a.topic = true) ∧ a.owner_user_id ≠ some uid := by
    intro a
    cases ho : a.owner_user_id with
    | none => simp [sqlNe]
    | some o => simp [sqlNe]
  have hpos : selectOtherAccessCountQuery db topic topic username > 0 ↔
      ∃ a ∈ db.access, (a.topic = topic ∨ like topic a.topic = true) ∧
        a.owner_user_id ≠ some uid := by
    unfold selectOtherAccessCountQuery
    rw [hid, gt_iff_lt, List.length_pos_iff_exists_mem]
    constructor
    · rintro ⟨a, ha⟩
      exact ⟨a, (List.mem_filter.1 ha).1, (hfil a).1 (List.mem_filter.1 ha).2⟩
    · rintro ⟨a, ha, hp⟩
      exact ⟨a, List.mem_filter.2 ⟨ha, (hfil a).2 hp⟩⟩
  unfold AllowReservation
  rw [hcond, escapeUnderscore_of_no_underscore topic hno]
  simp only [Bool.false_eq_true, if_false]
  constructor
  · constructor
    · intro h
      by_cases hc : selectOtherAccessCountQuery db topic topic username > 0
      · exact hpos.1 hc
      · rw [if_neg hc] at h; cases h
    · intro h
      rw [if_pos (hpos.2 h)]
  · intro h
    rw [if_neg fun hc => h (hpos.1 hc)]

theorem selectUserID_congr (db1 db : DB) (name : String) (h : db1.users = db.users) :
    selectUserID db1 name = selectUserID db name := by
  unfold selectUserID
  rw [h]

theorem accessJoinUser_topic {db : DB} {r : PermRow} (h : r ∈ accessJoinUser db) :
    ∃ a ∈ db.access, r.topic = a.topic := by
  unfold accessJoinUser at h
  simp only [List.mem_flatMap, List.mem_map, List.mem_filter] at h
  obtain ⟨a, ha, u, _, e⟩ := h
  exact ⟨a, ha, by rw [← e]⟩

/-- On a table without a grant that matches the topic, a successful
`AddReservation` appends the two rows of the reservation and changes nothing else. -/
theorem AddReservation_fresh (v : Predicates) (db db' : DB) (username topic : String)
    (everyone : Permission) (hids : UserIdsUnique db)
    (hlike : like topic (escapeUnderscore topic) = true)
    (hno : ∀ a ∈ db.access, like topic a.topic = false)
    (h : AddReservation v db username topic everyone = .ok db') :
    ∃ rU rE n1 n2, rU ∈ db.users ∧ rU.user = username ∧ rE ∈ db.users ∧ rE.user = Everyone ∧
      username ≠ Everyone ∧ v.AllowedUsername username = true ∧
      v.AllowedTopic topic = true ∧ db'.users = db.users ∧
      db'.access = db.access ++ [n1, n2] ∧
      n1.user_id = rU.id ∧ n1.topic = escapeUnderscore topic ∧ n1.read = true ∧
      n1.write = true ∧ n2.user_id = rE.id ∧ n2.topic = escapeUnderscore topic ∧
      n2.read = everyone.IsRead ∧ n2.write = everyone.IsWrite := by
  unfold AddReservation at h
  split at h
  · cases h
  · rename_i hcond
    have hcond' : v.AllowedUsername username = true ∧ username ≠ Everyone ∧
        v.AllowedTopic topic = true := by
      simp only [Bool.or_eq_true, Bool.not_eq_true', beq_iff_eq, not_or,
        Bool.not_eq_false] at hcond
      exact ⟨hcond.1.1, hcond.1.2, hcond.2⟩
    split at h
    · cases h
    · rename_i db1 hup1
      obtain ⟨uid, hid, husers1, _, _, happ1⟩ :=
        upsertUserAccessQuery_sound db db1 _ _ _ _ _ _ _ hup1
      have hacc1 := happ1 (by
        intro a ha hk
        have := hno a ha
        rw [hk.2, hlike] at this
        cases this)
      obtain ⟨eid, heid, husers2, _, _, happ2⟩ :=
        upsertUserAccessQuery_sound db1 db' _ _ _ _ _ _ _ h
      have heid' : selectUserID db Everyone = some eid := by
        rw [← selectUserID_congr db1 db Everyone husers1]; exact heid
      have hne : uid ≠ eid := selectUserID_ne hids hid heid' hcond'.2.1
      have hacc2 := happ2 (by
        intro a ha hk
        rw [hacc1] at ha
        rcases List.mem_append.1 ha with ha | ha
        · have := hno a ha
          rw [hk.2, hlike] at this
          cases this
        · simp only [List.mem_singleton] at ha
          rw [ha] at hk
          exact hne hk.1)
      obtain ⟨rU, hrU, hrUn, hrUi⟩ := selectUserID_some hid
      obtain ⟨rE, hrE, hrEn, hrEi⟩ := selectUserID_some heid'
      refine ⟨rU, rE,
        { user_id := uid, topic := escapeUnderscore topic, read := true, write := true,
          owner_user_id := if username = "" then none else selectUserID db username,
          provisioned := false },
        { user_id := eid, topic := escapeUnderscore topic, read := everyone.IsRead,
          write := everyone.IsWrite,
          owner_user_id := if username = "" then none else selectUserID db1 username,
          provisioned := false },
        hrU, hrUn, hrE, hrEn, hcond'.2.1, hcond'.1, hcond'.2.2,
        husers2.trans husers1, ?_, hrUi.symm, rfl, rfl, rfl, hrEi.symm, rfl, rfl, rfl⟩
      rw [hacc2, hacc1, List.append_assoc]
      rfl

theorem topicPermsRows_after_AddReservation (db db' : DB) (name topic : String)
    (rU rE : UserRow) (n1 n2 : AccessRow) (hids : UserIdsUnique db)
    (hrU : rU ∈ db.users) (hrE : rE ∈ db.users) (hE : rE.user = Everyone)
    (hUE : rU.user ≠ Everyone)
    (hlike : like topic (escapeUnderscore topic) = true)
    (hno : ∀ a ∈ db.access, like topic a.topic = false)
    (husers : db'.users = db.users) (hacc : db'.access = db.access ++ [n1, n2])
    (h1 : n1.user_id = rU.id) (h1t : n1.topic = escapeUnderscore topic)
    (h2 : n2.user_id = rE.id) (h2t : n2.topic = escapeUnderscore topic) :
    (accessJoinUser db').filter (topicPermsWhere Everyone name topic) =
      (if rU.user = name then
        [{ user := rU.user, topic := n1.topic, read := n1.read, write := n1.write }]
      else []) ++
      [{ user := Everyone, topic := n2.topic, read := n2.read, write := n2.write }] := by
  have hold : (accessJoinUser db).filter (topicPermsWhere Everyone name topic) = [] := by
    apply List.filter_eq_nil_iff.2
    intro r hr hw
    obtain ⟨a, ha, e⟩ := accessJoinUser_topic hr
    unfold topicPermsWhere at hw
    rw [e, hno a ha] at hw
    simp at hw
  have hjoin : accessJoinUser db' = accessJoinUser db ++
      [{ user := rU.user, topic := n1.topic, read := n1.read, write := n1.write },
       { user := Everyone, topic := n2.topic, read := n2.read, write := n2.write }] := by
    unfold accessJoinUser
    rw [hacc, husers]
    simp only [List.flatMap_append, List.flatMap_cons, List.flatMap_nil, List.append_nil,
      h1, h2, users_filter_id db hids rU hrU, users_filter_id db hids rE hrE, List.map_cons,
      List.map_nil, hE]
    rfl
  rw [hjoin, List.filter_append, hold, List.nil_append]
  have hw2 : topicPermsWhere Everyone name topic
      { user := Everyone, topic := n2.topic, read := n2.read, write := n2.write } = true := by
    simp [topicPermsWhere, h2t, hlike]
  by_cases hn : rU.user = name
  · subst hn
    have hw1 : topicPermsWhere Everyone rU.user topic
        { user := rU.user, topic := n1.topic, read := n1.read, write := n1.write } = true := by
      simp [topicPermsWhere, h1t, hlike]
    simp [List.filter_cons, hw1, hw2]
  · have hw1 : topicPermsWhere Everyone name topic
        { user := rU.user, topic := n1.topic, read := n1.read, write := n1.write } = false := by
      simp [topicPermsWhere, hn, hUE]
    simp [List.filter_cons, hw1, hw2, hn]

theorem AddReservation_allowed (v : Predicates) (db db' : DB) (username topic : String)
    (everyone : Permission) (h : AddReservation v db username topic everyone = .ok db') :
    v.AllowedUsername username = true ∧ username ≠ Everyone ∧ v.AllowedTopic topic = true := by
  unfold AddReservation at h
  split at h
  · cases h
  · rename_i hcond
    simp only [Bool.or_eq_true, Bool.not_eq_true', beq_iff_eq, not_or,
      Bool.not_eq_false] at hcond
    exact ⟨hcond.1.1, hcond.1.2, hcond.2⟩

/-! ## Lemmas: the reservation-pair invariant -/

theorem ReservationPairs_of_filter (db db' : DB) (keep : AccessRow → Bool)
    (hacc : db'.access = db.access.filter keep)
    (hsel : selectUserID db' Everyone = selectUserID db Everyone)
    (hinv : ReservationPairs db)
    (htwin : ∀ a ∈ db.access, ∀ b ∈ db.access, a.owner_user_id = some a.user_id →
      keep a = true → some b.user_id = selectUserID db Everyone → b.topic = a.topic →
      b.owner_user_id = some a.user_id → keep b = true) :
    ReservationPairs db' := by
  intro a ha hres
  rw [hacc] at ha
  obtain ⟨ha0, hk⟩ := List.mem_filter.1 ha
  obtain ⟨hr, hw, b, hb, hbu, hbt, hbo⟩ := hinv a ha0 hres
  refine ⟨hr, hw, b, ?_, by rw [hsel]; exact hbu, hbt, hbo⟩
  rw [hacc]
  exact List.mem_filter.2 ⟨hb, htwin a ha0 b hb hres hk hbu hbt hbo⟩

theorem ReservationPairs_congr (db db' : DB) (hacc : db'.access = db.access)
    (hsel : selectUserID db' Everyone = selectUserID db Everyone)
    (hinv : ReservationPairs db) : ReservationPairs db' := by
  intro a ha hres
  rw [hacc] at ha
  obtain ⟨hr, hw, b, hb, hbu, hbt, hbo⟩ := hinv a ha hres
  exact ⟨hr, hw, b, by rw [hacc]; exact hb, by rw [hsel]; exact hbu, hbt, hbo⟩

/-- Deleting the rows of a user other than `*`, for one topic or for all, never
deletes the twin of a reservation that stays. -/
theorem delete_keeps_twin (db : DB) (id? : Option String) (topicOK : AccessRow → Bool)
    (hE : ∀ eid, selectUserID db Everyone = some eid → id? ≠ some eid)
    (a b : AccessRow)
    (hka : (!((sqlEq (some a.user_id) id? || sqlEq a.owner_user_id id?) && topicOK a)) = true)
    (hbu : some b.user_id = selectUserID db Everyone)
    (hbt : topicOK b = topicOK a) (hbo : b.owner_user_id = some a.user_id) :
    (!((sqlEq (some b.user_id) id? || sqlEq b.owner_user_id id?) && topicOK b)) = true := by
  cases hid : id? with
  | none => simp [sqlEq]
  | some uid =>
    have hne : b.user_id ≠ uid := by
      intro e
      exact hE b.user_id hbu.symm (by rw [hid, e])
    rw [hid] at hka
    rw [hbo, hbt]
    cases ht : topicOK a with
    | false => simp
    | true =>
      rw [ht] at hka
      have ha : a.user_id ≠ uid := by
        intro e
        simp [sqlEq, e] at hka
      simp [sqlEq, hne, ha]

theorem deleteUserAccessQuery_pairs (db : DB) (name : String) (hids : UserIdsUnique db)
    (hne : name ≠ Everyone) (hinv : ReservationPairs db) :
    ReservationPairs (deleteUserAccessQuery db name name) := by
  refine ReservationPairs_of_filter db (deleteUserAccessQuery db name name) _ rfl rfl hinv ?_
  intro a _ b _ _ hka hbu _ hbo
  have := delete_keeps_twin db (selectUserID db name) (fun _ => true)
    (fun eid he e => selectUserID_ne hids e he hne rfl) a b (by simpa using hka) hbu rfl hbo
  simpa using this

theorem deleteTopicAccessQuery_pairs (db : DB) (name topic : String) (hids : UserIdsUnique db)
    (hne : name ≠ Everyone) (hinv : ReservationPairs db) :
    ReservationPairs (deleteTopicAccessQuery db name name topic) := by
  refine ReservationPairs_of_filter db (deleteTopicAccessQuery db name name topic) _ rfl rfl
    hinv ?_
  intro a _ b _ _ hka hbu hbt hbo
  exact delete_keeps_twin db (selectUserID db name) (fun x => x.topic == topic)
    (fun eid he e => selectUserID_ne hids e he hne rfl) a b hka hbu (by simp [hbt]) hbo

theorem NoOtherReservation_of_subset (db db' : DB) (username topic : String)
    (husers : db'.users = db.users) (hsub : ∀ x ∈ db'.access, x ∈ db.access)
    (h : NoOtherReservation db username topic) : NoOtherReservation db' username topic := by
  intro a ha hres ht
  rw [selectUserID_congr db' db username husers]
  exact h a (hsub a ha) hres ht

/-- One round of the loop of `RemoveReservations` keeps the invariant when nobody
else holds a reservation on the topic. -/
theorem removeReservations_step_pairs (db : DB) (username topic : String)
    (hids : UserIdsUnique db) (hne : username ≠ Everyone) (hinv : ReservationPairs db)
    (hno : NoOtherReservation db username topic) :
    ReservationPairs
      (deleteTopicAccessQuery (deleteTopicAccessQuery db username username topic)
        Everyone Everyone topic) := by
  have h1 := deleteTopicAccessQuery_pairs db username topic hids hne hinv
  generalize hdb1 : deleteTopicAccessQuery db username username topic = db1 at h1
  have husers : db1.users = db.users := by rw [← hdb1]; rfl
  have hacc1 : db1.access = db.access.filter fun a =>
      !((sqlEq (some a.user_id) (selectUserID db username) ||
          sqlEq a.owner_user_id (selectUserID db username)) && a.topic == topic) := by
    rw [← hdb1]; rfl
  refine ReservationPairs_of_filter db1 (deleteTopicAccessQuery db1 Everyone Everyone topic) _
    rfl rfl h1 ?_
  intro a ha b _ hres _ _ hbt _
  have ha0 : a ∈ db.access := by
    rw [hacc1] at ha; exact (List.mem_filter.1 ha).1
  have hka : (!((sqlEq (some a.user_id) (selectUserID db username) ||
      sqlEq a.owner_user_id (selectUserID db username)) && a.topic == topic)) = true := by
    rw [hacc1] at ha; exact (List.mem_filter.1 ha).2
  have hat : a.topic ≠ topic := by
    intro e
    have hu := hno a ha0 hres e
    rw [← hu, e] at hka
    simp [sqlEq] at hka
  have hbt' : ¬ b.topic = topic := by rw [hbt]; exact hat
  simp [hbt']

theorem removeReservationsLoop_pairs (username : String) (hne : username ≠ Everyone) :
    ∀ (topics : List String) (db : DB), UserIdsUnique db → ReservationPairs db →
      (∀ t ∈ topics, NoOtherReservation db username (escapeUnderscore t)) →
      ReservationPairs (removeReservationsLoop db username topics) := by
  intro topics
  induction topics with
  | nil => intro db _ hinv _; exact hinv
  | cons t ts ih =>
    intro db hids hinv hno
    unfold removeReservationsLoop
    simp only
    apply ih
    · exact hids
    · exact removeReservations_step_pairs db username (escapeUnderscore t) hids hne hinv
        (hno t (by simp))
    · intro t' ht'
      refine NoOtherReservation_of_subset db
        (deleteTopicAccessQuery
          (deleteTopicAccessQuery db username username (escapeUnderscore t))
          Everyone Everyone (escapeUnderscore t))
        username (escapeUnderscore t') rfl ?_ (hno t' (List.mem_cons_of_mem _ ht'))
      intro x hx
      exact (List.mem_filter.1 (List.mem_filter.1 hx).1).1

theorem AllowAccess_pairs (v : Predicates) (db db' : DB) (name pattern : String)
    (perm : Permission) (hids : UserIdsUnique db) (hinv : ReservationPairs db)
    (hne : name ≠ Everyone) (h : AllowAccess v db name pattern perm = .ok db') :
    ReservationPairs db' := by
  unfold AllowAccess allowAccessTx at h
  split at h
  · cases h
  · split at h
    · cases h
    · obtain ⟨uid, hid, husers, _, hmem, _⟩ :=
        upsertUserAccessQuery_sound db db' _ _ _ _ _ _ _ h
      intro a ha hres
      rcases (hmem a).1 ha with e | ⟨ha0, _⟩
      · rw [e] at hres
        simp at hres
      · obtain ⟨hr, hw, b, hb, hbu, hbt, hbo⟩ := hinv a ha0 hres
        refine ⟨hr, hw, b, (hmem b).2 (Or.inr ⟨hb, fun hk => ?_⟩),
          by rw [selectUserID_congr db' db Everyone husers]; exact hbu, hbt, hbo⟩
        exact selectUserID_ne hids hid hbu.symm hne hk.1.symm

theorem AddReservation_pairs (v : Predicates) (db db' : DB) (username topic : String)
    (everyone : Permission) (hids : UserIdsUnique db) (hinv : ReservationPairs db)
    (hno : NoOtherReservation db username (escapeUnderscore topic))
    (h : AddReservation v db username topic everyone = .ok db') :
    ReservationPairs db' ∧
      (username ≠ "" →
        ∃ a ∈ db'.access, ∃ b ∈ db'.access, some a.user_id = selectUserID db' username ∧
          a.owner_user_id = some a.user_id ∧ a.topic = escapeUnderscore topic ∧
          a.read = true ∧ a.write = true ∧ some b.user_id = selectUserID db' Everyone ∧
          b.topic = escapeUnderscore topic ∧ b.owner_user_id = some a.user_id) := by
  obtain ⟨_, hneE, _⟩ := AddReservation_allowed v db db' username topic everyone h
  unfold AddReservation at h
  split at h
  · cases h
  · split at h
    · cases h
    · rename_i db1 hup1
      obtain ⟨uid, hid, husers1, _, hmem1, _⟩ :=
        upsertUserAccessQuery_sound db db1 _ _ _ _ _ _ _ hup1
      obtain ⟨eid, heid1, husers2, _, hmem2, _⟩ :=
        upsertUserAccessQuery_sound db1 db' _ _ _ _ _ _ _ h
      have heid : selectUserID db Everyone = some eid := by
        rw [← selectUserID_congr db1 db Everyone husers1]; exact heid1
      have hne : uid ≠ eid := selectUserID_ne hids hid heid hneE
      have hsel1 : selectUserID db1 username = some uid := by
        rw [selectUserID_congr db1 db username husers1]; exact hid
      have hselE : selectUserID db' Everyone = some eid := by
        rw [selectUserID_congr db' db1 Everyone husers2]; exact heid1
      have hselU : selectUserID db' username = some uid := by
        rw [selectUserID_congr db' db1 username husers2]; exact hsel1
      rw [hid] at hmem1
      rw [hsel1] at hmem2
      constructor
      · intro a ha hres
        rcases (hmem2 a).1 ha with e | ⟨ha1, hk2⟩
        · exfalso
          rw [e] at hres
          simp only at hres
          by_cases hu : username = ""
          · rw [if_pos hu] at hres; cases hres
          · rw [if_neg hu] at hres
            injection hres with hres
            exact hne hres
        · rcases (hmem1 a).1 ha1 with e | ⟨ha0, hk1⟩
          · have hown : (if username = "" then none else some uid) = some uid := by
              rw [e] at hres; exact hres
            rw [e]
            refine ⟨rfl, rfl, _, (hmem2 _).2 (Or.inl rfl), ?_, rfl, ?_⟩
            · rw [hselE]
            · simp only
              exact hown
          · obtain ⟨hr, hw, b, hb, hbu, hbt, hbo⟩ := hinv a ha0 hres
            rw [heid] at hbu
            have hbid : b.user_id = eid := by injection hbu
            refine ⟨hr, hw, b, ?_, by rw [hselE, hbid], hbt, hbo⟩
            apply (hmem2 b).2
            right
            constructor
            · apply (hmem1 b).2
              right
              exact ⟨hb, fun hk => hne (by rw [← hk.1, hbid])⟩
            · intro hk
              have hat : a.topic = escapeUnderscore topic := by rw [← hbt]; exact hk.2
              have hu := hno a ha0 hres hat
              rw [hid] at hu
              injection hu with hu
              exact hk1 ⟨hu, hat⟩
      · intro hu
        refine ⟨_, (hmem2 _).2 (Or.inr ⟨(hmem1 _).2 (Or.inl rfl), fun hk => hne hk.1⟩),
          _, (hmem2 _).2 (Or.inl rfl), ?_, ?_, rfl, rfl, rfl, ?_, rfl, ?_⟩
        · rw [hselU]
        · simp only [if_neg hu]
        · rw [hselE]
        · simp only [if_neg hu]

theorem updateUserRoleQuery_ids (db db1 : DB) (role : Role) (username : String)
    (hids : UserIdsUnique db) (h : updateUserRoleQuery db role username = .ok db1) :
    UserIdsUnique db1 := by
  unfold updateUserRoleQuery at h
  split at h
  · injection h with h; subst h; exact hids
  · split at h
    · cases h
    · injection h with h
      subst h
      unfold UserIdsUnique at hids ⊢
      simp only [List.map_map]
      have : ((fun u : UserRow => u.id) ∘ fun u : UserRow =>
          if u.user = username then { u with role := role } else u) =
          fun u : UserRow => u.id := by
        funext x
        simp only [Function.comp]
        split <;> rfl
      rw [this]; exact hids

theorem ResetAccess_pairs (v : Predicates) (db db' : DB) (name pattern : String)
    (hids : UserIdsUnique db) (hinv : ReservationPairs db) (hne : name ≠ Everyone)
    (h : ResetAccess v db name pattern = .ok db') : ReservationPairs db' := by
  unfold ResetAccess resetAccessTx at h
  split at h
  · cases h
  · split at h
    · cases h
    · split at h
      · injection h with h
        subst h
        intro a ha
        simp [deleteAllAccessQuery] at ha
      · split at h
        · injection h with h
          subst h
          exact deleteUserAccessQuery_pairs db name hids hne hinv
        · injection h with h
          subst h
          exact deleteTopicAccessQuery_pairs db name _ hids hne hinv

theorem ChangeRole_pairs (v : Predicates) (db db' : DB) (name : String) (role : Role)
    (hids : UserIdsUnique db) (hinv : ReservationPairs db) (hne : name ≠ Everyone)
    (h : ChangeRole v db name role = .ok db') : ReservationPairs db' := by
  unfold ChangeRole changeRoleTx at h
  split at h
  · cases h
  · cases hup : updateUserRoleQuery db role name with
    | error e => rw [hup] at h; cases h
    | ok db1 =>
      rw [hup] at h
      simp only at h
      obtain ⟨hsel, hacc, _⟩ := updateUserRoleQuery_selectUserID db db1 role name Everyone hup
      have hinv1 : ReservationPairs db1 := ReservationPairs_congr db db1 hacc hsel hinv
      have hids1 := updateUserRoleQuery_ids db db1 role name hids hup
      by_cases hr : role = RoleAdmin
      · rw [if_pos hr] at h
        injection h with h
        subst h
        exact deleteUserAccessQuery_pairs db1 name hids1 hne hinv1
      · rw [if_neg hr] at h
        injection h with h
        subst h
        exact hinv1

theorem RemoveReservations_pairs (v : Predicates) (db db' : DB) (username : String)
    (topics : List String) (hids : UserIdsUnique db) (hinv : ReservationPairs db)
    (hno : ∀ t ∈ topics, NoOtherReservation db username (escapeUnderscore t))
    (h : RemoveReservations v db username topics = .ok db') : ReservationPairs db' := by
  unfold RemoveReservations at h
  split at h
  · cases h
  · rename_i hcond
    have hne : username ≠ Everyone := by
      intro e
      apply hcond
      simp [e]
    split at h
    · cases h
    · injection h with h
      subst h
      exact removeReservationsLoop_pairs username hne topics db hids hinv hno

/-! ## Lemmas: expired tokens -/

/-- Deleting the expired tokens at `now` does not change what `selectUserByTokenQuery`
returns at `now`. -/
theorem selectUserByTokenQuery_deleteExpired (db : DB) (now : Int) (v : String) :
    selectUserByTokenQuery (deleteExpiredTokensQuery db now) v now =
      selectUserByTokenQuery db v now := by
  unfold selectUserByTokenQuery deleteExpiredTokensQuery
  simp only [List.filter_filter]
  congr 1
  funext u
  congr 1
  apply List.filter_congr
  intro tk _
  by_cases h0 : tk.expires = 0
  · simp [h0]
  · by_cases h1 : now ≤ tk.expires
    · have : ¬ tk.expires < now := by omega
      simp [h1, this]
    · simp [h0, h1]

/-! ## Lemmas: schema setup -/

/-- A registered migration step whose queries succeed sets the stored version to the
next one and is recorded. -/
theorem migrations_step (sqlOk : Int → Bool) (i x : Int) (ran : List Int)
    (h1 : 1 ≤ i) (h5 : i < 6) (hok : sqlOk i = true) :
    ∃ fn, migrations sqlOk i = some fn ∧
      fn { table := some (some x), ran := ran } =
        .ok { table := some (some (i + 1)), ran := ran ++ [i] } := by
  have hi : i = 1 ∨ i = 2 ∨ i = 3 ∨ i = 4 ∨ i = 5 := by omega
  rcases hi with h | h | h | h | h <;> subst h <;>
    simp [migrations, migrateFrom1, migrateFrom2, migrateFrom3, migrateFrom4, migrateFrom5,
      migrateFrom, hok, updateSchemaVersion]

/-- The loop runs the steps `i, i + 1, ...` in order when they are registered and
their queries succeed. -/
theorem migrateLoop_run (sqlOk : Int → Bool) :
    ∀ (n : Nat) (i x : Int) (ran : List Int), 1 ≤ i → i + n ≤ 6 →
      (∀ j, i ≤ j → j < 6 → sqlOk j = true) →
      migrateLoop sqlOk n i { table := some (some x), ran := ran } =
        (none, { table := some (some (if n = 0 then x else i + n)),
                 ran := ran ++ (List.range n).map fun (k : Nat) => i + (k : Int) }) := by
  intro n
  induction n with
  | zero => intro i x ran _ _ _; simp [migrateLoop]
  | succ n ih =>
    intro i x ran h1 h6 hok
    obtain ⟨fn, hfn, hrun⟩ := migrations_step sqlOk i x ran h1 (by omega) (hok i le_rfl (by omega))
    rw [migrateLoop, hfn]
    simp only [hrun]
    rw [ih (i + 1) (i + 1) (ran ++ [i]) (by omega) (by omega)
      (fun j hj hj6 => hok j (by omega) hj6)]
    congr 2
    · congr 2
      by_cases hn : n = 0
      · simp [hn]
      · simp only [hn, if_false, Nat.succ_ne_zero]; push_cast; ring
    · rw [List.range_succ_eq_map, List.map_cons, List.map_map, List.append_assoc]
      congr 1
      simp only [Nat.cast_zero, add_zero, List.singleton_append, List.cons.injEq, true_and]
      apply List.map_congr_left
      intro k _
      simp only [Function.comp, Nat.succ_eq_add_one]
      push_cast; ring

/-! ## Lemmas: the stats queue -/

theorem mem_mapSet {α : Type} (m : List (String × α)) (k0 : String) (v0 : α) (k : String)
    (v : α) :
    (k, v) ∈ mapSet m k0 v0 ↔ (k = k0 ∧ v = v0) ∨ (k ≠ k0 ∧ (k, v) ∈ m) := by
  unfold mapSet
  split
  · rename_i hany
    simp only [List.mem_map]
    constructor
    · rintro ⟨e, he, heq⟩
      by_cases hk : e.1 = k0
      · rw [if_pos hk] at heq
        injection heq with h1 h2
        exact Or.inl ⟨h1.symm, h2.symm⟩
      · rw [if_neg hk] at heq
        subst heq
        exact Or.inr ⟨hk, he⟩
    · rintro (⟨h1, h2⟩ | ⟨h1, h2⟩)
      · obtain ⟨e, he, hek⟩ := List.any_eq_true.1 hany
        have hek' : e.1 = k0 := by simpa using hek
        exact ⟨e, he, by rw [if_pos hek', h1, h2]⟩
      · exact ⟨(k, v), h2, by rw [if_neg h1]⟩
  · rename_i hany
    have hno : ∀ e ∈ m, e.1 ≠ k0 := by
      intro e he hek
      apply hany
      exact List.any_eq_true.2 ⟨e, he, by simpa using hek⟩
    simp only [List.mem_append, List.mem_singleton, Prod.mk.injEq]
    constructor
    · rintro (h | ⟨h1, h2⟩)
      · exact Or.inr ⟨hno _ h, h⟩
      · exact Or.inl ⟨h1, h2⟩
    · rintro (⟨h1, h2⟩ | ⟨_, h2⟩)
      · exact Or.inr ⟨h1, h2⟩
      · exact Or.inl h2

theorem mapSet_keys_nodup {α : Type} (m : List (String × α)) (k0 : String) (v0 : α)
    (h : (m.map fun e => e.1).Nodup) : ((mapSet m k0 v0).map fun e => e.1).Nodup := by
  unfold mapSet
  split
  · have : (List.map (fun e : String × α => e.1)
        (List.map (fun e => if e.1 = k0 then (k0, v0) else e) m)) =
        m.map fun e => e.1 := by
      rw [List.map_map]
      apply List.map_congr_left
      intro e _
      simp only [Function.comp]
      split
      · rename_i hk; exact hk.symm
      · rfl
    rw [this]; exact h
  · rename_i hany
    rw [List.map_append, List.map_singleton]
    apply List.Nodup.append h (List.nodup_singleton _)
    intro k hk1 hk2
    simp only [List.mem_singleton] at hk2
    subst hk2
    obtain ⟨e, he, hek⟩ := List.mem_map.1 hk1
    apply hany
    exact List.any_eq_true.2 ⟨e, he, by simpa using hek⟩

theorem lastEnqueued_cons (c : String × Stats) (cs : List (String × Stats)) (k : String) :
    lastEnqueued (c :: cs) k =
      match lastEnqueued cs k with
      | some s => some s
      | none => if c.1 = k then some c.2 else none := by
  unfold lastEnqueued
  rw [List.reverse_cons, List.find?_append]
  cases h : List.find? (fun c => c.1 == k) cs.reverse with
  | some e => simp
  | none =>
    by_cases hk : c.1 = k <;> simp [hk]

theorem enqueueAll_frame (calls : List (String × Stats)) :
    ∀ a : Manager, (enqueueAll a calls).db = a.db ∧
      (enqueueAll a calls).tokenQueue = a.tokenQueue := by
  induction calls with
  | nil => intro a; exact ⟨rfl, rfl⟩
  | cons c cs ih =>
    intro a
    have := ih (EnqueueUserStats a c.1 c.2)
    exact this

theorem enqueueAll_keys_nodup (calls : List (String × Stats)) :
    ∀ a : Manager, (a.statsQueue.map fun e => e.1).Nodup →
      ((enqueueAll a calls).statsQueue.map fun e => e.1).Nodup := by
  induction calls with
  | nil => intro a h; exact h
  | cons c cs ih =>
    intro a h
    exact ih (EnqueueUserStats a c.1 c.2) (mapSet_keys_nodup _ _ _ h)

theorem mem_enqueueAll (calls : List (String × Stats)) :
    ∀ (a : Manager) (k : String) (s : Stats),
      (k, s) ∈ (enqueueAll a calls).statsQueue ↔
        lastEnqueued calls k = some s ∨ (lastEnqueued calls k = none ∧ (k, s) ∈ a.statsQueue) := by
  induction calls with
  | nil =>
    intro a k s
    simp [enqueueAll, lastEnqueued]
  | cons c cs ih =>
    intro a k s
    have h := ih (EnqueueUserStats a c.1 c.2) k s
    have hq : (EnqueueUserStats a c.1 c.2).statsQueue = mapSet a.statsQueue c.1 c.2 := rfl
    rw [hq, mem_mapSet] at h
    have he : enqueueAll a (c :: cs) = enqueueAll (EnqueueUserStats a c.1 c.2) cs := rfl
    rw [he, h, lastEnqueued_cons]
    cases hl : lastEnqueued cs k with
    | some s1 => simp
    | none =>
      simp only [reduceCtorEq, false_or, true_and]
      by_cases hk : c.1 = k
      · have hk' : k = c.1 := hk.symm
        rw [if_pos hk]
        constructor
        · rintro (⟨_, h2⟩ | ⟨h1, _⟩)
          · exact Or.inl (by rw [h2])
          · exact absurd hk' h1
        · rintro (h1 | ⟨h1, _⟩)
          · injection h1 with h1
            exact Or.inl ⟨hk', h1.symm⟩
          · cases h1
      · have hk' : ¬ k = c.1 := fun e => hk e.symm
        rw [if_neg hk]
        constructor
        · rintro (⟨h1, _⟩ | ⟨_, h2⟩)
          · exact absurd h1 hk'
          · exact Or.inr ⟨rfl, h2⟩
        · rintro (h1 | ⟨_, h2⟩)
          · cases h1
          · exact Or.inr ⟨hk', h2⟩

/-- The effect of the writes of a flush on one row. -/
theorem writeStats_users (es : List (String × Stats)) :
    ∀ db : DB,
      (es.foldl (fun db e => updateUserStatsQuery db e.2.Messages e.2.Emails e.2.Calls e.1)
          db) =
        { db with users := db.users.map fun u =>
            match lastEnqueued es u.id with
            | some s => withStats u s
            | none => u } := by
  induction es with
  | nil =>
    intro db
    simp [lastEnqueued]
  | cons e es ih =>
    intro db
    rw [List.foldl_cons, ih]
    simp only [updateUserStatsQuery, List.map_map]
    congr 1
    apply List.map_congr_left
    intro u _
    simp only [Function.comp]
    rw [lastEnqueued_cons]
    by_cases hk : u.id = e.1
    · have hk' : e.1 = u.id := hk.symm
      rw [if_pos hk, if_pos hk']
      cases lastEnqueued es u.id with
      | some s => simp only [withStats]
      | none => simp only [withStats]
    · have hk' : ¬ e.1 = u.id := fun h => hk h.symm
      rw [if_neg hk, if_neg hk']
      cases lastEnqueued es u.id with
      | some s => rfl
      | none => rfl

theorem lastEnqueued_eq_none (es : List (String × Stats)) (k : String) :
    lastEnqueued es k = none ↔ ∀ s, (k, s) ∉ es := by
  unfold lastEnqueued
  simp only [Option.map_eq_none', List.find?_eq_none, List.mem_reverse, beq_iff_eq]
  constructor
  · intro h s hs
    exact h (k, s) hs rfl
  · intro h e he hk
    apply h e.2
    rw [← hk]
    exact he

theorem lastEnqueued_of_nodup (es : List (String × Stats)) (k : String) (s : Stats)
    (hn : (es.map fun e => e.1).Nodup) (hmem : (k, s) ∈ es) : lastEnqueued es k = some s := by
  cases h : lastEnqueued es k with
  | none => exact absurd hmem ((lastEnqueued_eq_none es k).1 h s)
  | some s1 =>
    unfold lastEnqueued at h
    obtain ⟨e, he, hes⟩ := Option.map_eq_some'.1 h
    have hemem : e ∈ es := List.mem_reverse.1 (List.mem_of_find?_eq_some he)
    have hek : e.1 = k := by simpa using List.find?_some he
    have := List.inj_on_of_nodup_map hn hemem hmem (by simpa using hek)
    rw [← hes, this]

theorem lastEnqueued_perm (es es' : List (String × Stats)) (k : String)
    (hn : (es.map fun e => e.1).Nodup) (hp : es'.Perm es) :
    lastEnqueued es' k = lastEnqueued es k := by
  have hn' : (es'.map fun e => e.1).Nodup := (hp.map _).nodup_iff.2 hn
  cases h : lastEnqueued es k with
  | none =>
    rw [lastEnqueued_eq_none] at h ⊢
    intro s hs
    exact h s (hp.mem_iff.1 hs)
  | some s =>
    have hmem : (k, s) ∈ es := by
      unfold lastEnqueued at h
      obtain ⟨e, he, hes⟩ := Option.map_eq_some'.1 h
      have hemem : e ∈ es := List.mem_reverse.1 (List.mem_of_find?_eq_some he)
      have hek : e.1 = k := by simpa using List.find?_some he
      rw [← hek, ← hes]
      exact hemem
    exact lastEnqueued_of_nodup es' k s hn' (hp.mem_iff.2 hmem)

theorem lastEnqueued_queue (calls : List (String × Stats)) (a : Manager)
    (hempty : a.statsQueue = []) (k : String) :
    lastEnqueued (enqueueAll a calls).statsQueue k = lastEnqueued calls k := by
  have hn : ((enqueueAll a calls).statsQueue.map fun e => e.1).Nodup :=
    enqueueAll_keys_nodup calls a (by rw [hempty]; exact List.nodup_nil)
  cases h : lastEnqueued calls k with
  | none =>
    rw [lastEnqueued_eq_none]
    intro s hs
    rcases (mem_enqueueAll calls a k s).1 hs with h1 | ⟨_, h1⟩
    · rw [h] at h1; cases h1
    · rw [hempty] at h1; cases h1
  | some s =>
    exact lastEnqueued_of_nodup _ k s hn ((mem_enqueueAll calls a k s).2 (Or.inl h))

/-! ## Lemmas: tiers -/

theorem wrapInt64_of_inInt64 (x : Int) (h : inInt64 x) : wrapInt64 x = x := by
  unfold inInt64 at h
  unfold wrapInt64
  omega

/-- A whole number of seconds is read back as written. -/
theorem wrapInt64_seconds (lib : Lib) (d : Int) (h : WholeSeconds lib d) :
    wrapInt64 (lib.DurationSeconds d * Second) = d := by
  obtain ⟨hr, hmod, hlib⟩ := h
  have hd : d / Second * Second = d := by
    unfold Second at hmod ⊢
    omega
  rw [hlib, hd]
  exact wrapInt64_of_inInt64 d hr

/-- No duration read from the table is one and a half seconds. -/
theorem wrapInt64_seconds_ne (x : Int) : wrapInt64 (x * Second) ≠ 1500000000 := by
  unfold wrapInt64 Second
  omega

theorem nullString_getD (s : String) : (nullString s).getD "" = s := by
  unfold nullString
  split
  · rename_i h; rw [h]; rfl
  · rfl

theorem nullString_eq_some (s p : String) (hp : p ≠ "") : nullString s = some p ↔ s = p := by
  unfold nullString
  split
  · rename_i h
    subst h
    constructor
    · intro h; cases h
    · intro h; exact absurd h.symm hp
  · simp

theorem sqlEq_some_iff (a : Option String) (p : String) : sqlEq a (some p) = true ↔ a = some p := by
  cases a with
  | none => simp [sqlEq]
  | some x => simp [sqlEq]

/-- A successful `insertTierQuery` appends the row, and no old row has its code. -/
theorem insertTierQuery_ok (tiers tiers' : List TierRow) (r : TierRow)
    (h : insertTierQuery tiers r = .ok tiers') :
    tiers' = tiers ++ [r] ∧ (∀ t ∈ tiers, t.id ≠ r.id) ∧ (∀ t ∈ tiers, t.code ≠ r.code) := by
  unfold insertTierQuery at h
  split at h
  · cases h
  · rename_i hid
    split at h
    · cases h
    · rename_i hcode
      split at h
      · cases h
      · split at h
        · cases h
        · injection h with h
          refine ⟨h.symm, ?_, ?_⟩
          · intro t ht e
            exact hid (List.any_eq_true.2 ⟨t, ht, by simpa using e⟩)
          · intro t ht e
            exact hcode (List.any_eq_true.2 ⟨t, ht, by simpa using e⟩)

/-- The tier that `readTier` builds from the row that `AddTier` writes. -/
theorem tierOfRow_AddTier (lib : Lib) (t : Tier)
    (hm : WholeSeconds lib t.MessageExpiryDuration)
    (ha : WholeSeconds lib t.AttachmentExpiryDuration) :
    tierOfRow
      { id := t.ID, code := t.Code, name := t.Name, messages_limit := t.MessageLimit,
        messages_expiry_duration := lib.DurationSeconds t.MessageExpiryDuration,
        emails_limit := t.EmailLimit, calls_limit := t.CallLimit,
        reservations_limit := t.ReservationLimit,
        attachment_file_size_limit := t.AttachmentFileSizeLimit,
        attachment_total_size_limit := t.AttachmentTotalSizeLimit,
        attachment_expiry_duration := lib.DurationSeconds t.AttachmentExpiryDuration,
        attachment_bandwidth_limit := t.AttachmentBandwidthLimit,
        stripe_monthly_price_id := nullString t.StripeMonthlyPriceID,
        stripe_yearly_price_id := nullString t.StripeYearlyPriceID } = t := by
  simp only [tierOfRow, wrapInt64_seconds lib _ hm, wrapInt64_seconds lib _ ha, nullString_getD]

/-- A filter that rejects the old rows and accepts the appended one. -/
theorem filter_append_new {α : Type} (p : α → Bool) (l : List α) (r : α)
    (hold : ∀ x ∈ l, p x = false) (hnew : p r = true) : (l ++ [r]).filter p = [r] := by
  rw [List.filter_append]
  have h1 : l.filter p = [] := by
    rw [List.filter_eq_nil_iff]
    intro x hx
    rw [hold x hx]
    exact Bool.false_ne_true
  rw [h1]
  simp [List.filter, hnew]

/-! ## Lemmas: tier assignment -/

theorem head?_filter_eq_find? {α : Type} (p : α → Bool) :
    ∀ l : List α, (l.filter p).head? = l.find? p := by
  intro l
  induction l with
  | nil => rfl
  | cons x xs ih =>
    by_cases h : p x = true
    · simp [List.filter, List.find?, h]
    · have h' : p x = false := by simpa using h
      simp only [List.filter, List.find?, h']
      exact ih

/-- The first user row of a name after `updateUserTierQuery` for that name. -/
theorem selectUserByNameQuery_updateUserTierQuery (tiers : List TierRow) (db : DB)
    (code username : String) :
    (selectUserByNameQuery (updateUserTierQuery tiers db code username) username).head? =
      (selectUserByNameQuery db username).head?.map fun u =>
        { u with tier_id := (tiers.find? fun t => t.code == code).map fun t => t.id } := by
  unfold selectUserByNameQuery updateUserTierQuery
  simp only [head?_filter_eq_find?, List.find?_map]
  have hf : ((fun u : UserRow => u.user == username) ∘ fun u : UserRow =>
      if u.user = username then
        { u with tier_id := (tiers.find? fun t => t.code == code).map fun t => t.id }
      else u) = fun u : UserRow => u.user == username := by
    funext u
    simp only [Function.comp]
    split <;> rfl
  rw [hf]
  cases hfind : db.users.find? (fun u => u.user == username) with
  | none => rfl
  | some u =>
    have hu : u.user = username := by simpa using List.find?_some hfind
    simp only [Option.map_some', hu, if_true]

/-- The user of an existing name whose preferences unmarshal is read without error. -/
theorem Manager_User_of_head (lib : Lib) (db : DB) (username : String) (r : UserRow)
    (hr : (selectUserByNameQuery db username).head? = some r)
    (hp : lib.UnmarshalPrefs r.prefs = true) :
    Manager.User lib db username = .ok (userOfRow r) := by
  unfold Manager.User
  cases hrows : selectUserByNameQuery db username with
  | nil => rw [hrows] at hr; cases hr
  | cons r0 rest =>
    rw [hrows] at hr
    injection hr with hr
    subst hr
    exact readUser_ok lib r0 rest hp

/-- The tier that the join finds for a row whose `tier_id` is the id of a row of a
table with unique ids. -/
theorem userTier_of_id (tiers : List TierRow) (hids : TierIdsUnique tiers) (t : TierRow)
    (ht : t ∈ tiers) (u : UserRow) (hu : u.tier_id = some t.id) :
    userTier tiers u = some (tierOfRow t) := by
  unfold userTier
  rw [hu]
  have h := find?_key_of_nodup (fun x : TierRow => x.id) tiers hids t ht
  have hfun : (fun x : TierRow => sqlEq (some x.id) (some t.id)) =
      fun x : TierRow => x.id == t.id := by
    funext x; rfl
  rw [hfun, h]
  rfl

/-! ## Lemmas: adding users -/

/-- The three outcomes of `insertUserQuery` for a role of the column's list and a
fresh id. -/
theorem insertUserQuery_eq (db : DB) (id user pass : String) (role : Role) (sync_topic : String)
    (provisioned : Bool) (created : Int)
    (hrole : role = RoleAnonymous ∨ role = RoleAdmin ∨ role = RoleUser)
    (hid : ∀ r ∈ db.users, r.id ≠ id) :
    insertUserQuery db id user pass role sync_topic provisioned created =
      if db.users.any (fun u => u.user == user) then .error Error.sqlite3Error
      else .ok { db with users := db.users ++
        [insertedUserRow id user pass role sync_topic provisioned created] } := by
  unfold insertUserQuery
  have h1 : (role == RoleAnonymous || role == RoleAdmin || role == RoleUser) = true := by
    rcases hrole with h | h | h <;> simp [h]
  have h2 : db.users.any (fun u => u.id == id) = false := by
    rw [← Bool.not_eq_true, List.any_eq_true]
    rintro ⟨r, hr, he⟩
    exact hid r hr (by simpa using he)
  simp only [h1, h2, Bool.not_true, Bool.false_eq_true, if_false]

theorem any_user_eq_true (db : DB) (username : String) :
    db.users.any (fun u => u.user == username) = true ↔ ∃ r ∈ db.users, r.user = username := by
  simp [List.any_eq_true]

/-- The user query finds exactly the appended row when no other row has its name. -/
theorem selectUserByNameQuery_append (db : DB) (row : UserRow)
    (hno : ∀ r ∈ db.users, r.user ≠ row.user) :
    selectUserByNameQuery { db with users := db.users ++ [row] } row.user = [row] := by
  unfold selectUserByNameQuery
  apply filter_append_new
  · intro x hx
    simpa using hno x hx
  · simp

/-- Authenticating as a user that was just inserted under a new name. -/
theorem Authenticate_inserted (lib : Lib) (db : DB) (row : UserRow) (p : String)
    (hno : ∀ r ∈ db.users, r.user ≠ row.user) (hne : row.user ≠ Everyone)
    (hprefs : lib.UnmarshalPrefs row.prefs = true) (hdel : row.deleted = none) :
    Authenticate lib { db with users := db.users ++ [row] } row.user p =
      if lib.CompareHashAndPassword row.pass p then .ok (userOfRow row)
      else .error Error.ErrUnauthenticated := by
  unfold Authenticate authenticate Manager.User
  rw [if_neg hne, selectUserByNameQuery_append db row hno]
  simp only [readUser, hprefs, Bool.not_true, Bool.false_eq_true, if_false, userOfRow, hdel,
    Option.isSome_none]
  by_cases hc : lib.CompareHashAndPassword row.pass p = true
  · simp [hc]
  · simp [hc]

/-- The errors of `insertUserQuery`: a driver error, never `ErrUserExists` and never
the constant `sqlite3.ErrConstraintUnique`. -/
theorem insertUserQuery_error (db : DB) (id user pass : String) (role : Role)
    (sync_topic : String) (provisioned : Bool) (created : Int) (e : Error)
    (h : insertUserQuery db id user pass role sync_topic provisioned created = .error e) :
    e = Error.storage ∨ e = Error.sqlite3Error := by
  unfold insertUserQuery at h
  split at h
  · injection h with h
    exact Or.inl h.symm
  · split at h
    · injection h with h
      exact Or.inl h.symm
    · split at h
      · injection h with h
        exact Or.inr h.symm
      · cases h

/-- The method `addUserTx` returns `ErrUserExists` only when the hashing does. -/
theorem addUserTx_ne_ErrUserExists (v : Predicates) (h : Hasher) (cost : Nat) (db : DB)
    (userID syncTopic : String) (now : Int) (username password : String) (role : Role)
    (hashed provisioned : Bool)
    (hhash : passwordHash h cost password hashed ≠ .error Error.ErrUserExists) :
    addUserTx v h cost db userID syncTopic now username password role hashed provisioned ≠
      .error Error.ErrUserExists := by
  intro hrun
  unfold addUserTx at hrun
  split at hrun
  · cases hrun
  · cases hh : passwordHash h cost password hashed with
    | error e =>
      rw [hh] at hrun hhash
      simp only at hrun
      injection hrun with hrun
      subst hrun
      exact hhash rfl
    | ok hash =>
      rw [hh] at hrun
      simp only at hrun
      cases hins : insertUserQuery db userID username hash role syncTopic provisioned now with
      | ok db1 => rw [hins] at hrun; cases hrun
      | error e =>
        rw [hins] at hrun
        simp only at hrun
        rcases insertUserQuery_error _ _ _ _ _ _ _ _ e hins with he | he <;> subst he <;>
          cases hrun

/-! ## Lemmas: statements on behalf of one user -/

theorem mem_selectUserByNameQuery {db : DB} {m : String} {r : UserRow} :
    r ∈ selectUserByNameQuery db m ↔ r ∈ db.users ∧ r.user = m := by
  unfold selectUserByNameQuery
  simp [List.mem_filter]

theorem eq_of_id_eq {db : DB} (hids : UserIdsUnique db) {r1 r2 : UserRow} (h1 : r1 ∈ db.users)
    (h2 : r2 ∈ db.users) (h : r1.id = r2.id) : r1 = r2 :=
  List.inj_on_of_nodup_map hids h1 h2 h

theorem eq_of_name_eq {db : DB} (hn : UserNamesUnique db) {r1 r2 : UserRow} (h1 : r1 ∈ db.users)
    (h2 : r2 ∈ db.users) (h : r1.user = r2.user) : r1 = r2 :=
  List.inj_on_of_nodup_map hn h1 h2 h

/-- A statement that changes nothing. -/
theorem Touches.same (rnd : String → String × String) (n : String) (db : DB) :
    Touches rnd n db db :=
  { users_other := fun _ _ => rfl
    ids_unique := fun h => h
    acc_keep := fun _ ha _ => ha
    tok_keep := fun _ ht _ => ht
    ids_from := fun r hr => Or.inl ⟨r, hr, rfl⟩
    acc_from := fun _ ha => Or.inl ha
    tok_from := fun t ht => Or.inl ⟨t, ht, rfl⟩ }

theorem gone_contains (db : DB) (n x : String) :
    ((db.users.filter fun u => u.user == n).map fun u => u.id).contains x = true ↔
      ∃ r ∈ db.users, r.user = n ∧ r.id = x := by
  rw [List.contains_iff_exists_mem_beq]
  simp only [List.mem_map, List.mem_filter, beq_iff_eq]
  constructor
  · rintro ⟨y, ⟨r, ⟨hr, hn⟩, hy⟩, hx⟩
    exact ⟨r, hr, hn, by rw [hy, hx]⟩
  · rintro ⟨r, hr, hn, hx⟩
    exact ⟨r.id, ⟨r, ⟨hr, hn⟩, rfl⟩, hx.symm⟩

theorem gone_contains_false (db : DB) (n x : String) (h : ∀ r ∈ db.users, r.user = n → x ≠ r.id) :
    ((db.users.filter fun u => u.user == n).map fun u => u.id).contains x = false := by
  rw [← Bool.not_eq_true, gone_contains]
  rintro ⟨r, hr, hn, hx⟩
  exact h r hr hn hx.symm

/-- The statement `deleteUserQuery` for the name `n`. -/
theorem Touches.deleteUserQuery (rnd : String → String × String) (n : String) (db : DB) :
    Touches rnd n db (deleteUserQuery db n) := by
  refine ⟨?_, ?_, ?_, ?_, ?_, ?_, ?_⟩
  · intro m hm
    unfold selectUserByNameQuery Ntfy.deleteUserQuery
    simp only [List.filter_filter]
    apply List.filter_congr
    intro r _
    by_cases h : r.user = m
    · have : ¬ r.user = n := fun e => hm (h.symm.trans e)
      simp [h, hm]
    · simp [h]
  · intro h
    unfold UserIdsUnique at h ⊢
    exact h.sublist ((List.filter_sublist _).map _)
  · intro a ha hno
    simp only [Ntfy.deleteUserQuery, List.mem_filter, Bool.and_eq_true, Bool.not_eq_true']
    refine ⟨ha, ?_, ?_⟩
    · exact gone_contains_false db n a.user_id fun r hr hn => (hno r hr hn).1
    · cases ho : a.owner_user_id with
      | none => rfl
      | some o =>
        simp only
        apply gone_contains_false
        intro r hr hn e
        have := (hno r hr hn).2
        rw [ho, e] at this
        exact this rfl
  · intro t ht hno
    simp only [Ntfy.deleteUserQuery, List.mem_filter, Bool.not_eq_true']
    exact ⟨ht, gone_contains_false db n t.user_id hno⟩
  · intro r' hr'
    exact Or.inl ⟨r', (List.mem_filter.1 hr').1, rfl⟩
  · intro a' ha'
    exact Or.inl (List.mem_filter.1 ha').1
  · intro t' ht'
    exact Or.inl ⟨t', (List.mem_filter.1 ht').1, rfl⟩

/-- A statement that rewrites the user rows named `n`, keeping ids and names. -/
theorem Touches.mapUsers (rnd : String → String × String) (n : String) (db : DB)
    (f : UserRow → UserRow) (hf : ∀ r, (f r).id = r.id ∧ (f r).user = r.user)
    (hfix : ∀ r, r.user ≠ n → f r = r) :
    Touches rnd n db { db with users := db.users.map f } := by
  refine ⟨?_, ?_, ?_, ?_, ?_, ?_, ?_⟩
  · intro m hm
    unfold selectUserByNameQuery
    simp only [List.filter_map]
    have hcomp : ((fun u : UserRow => u.user == m) ∘ f) = fun u : UserRow => u.user == m := by
      funext r
      simp only [Function.comp, (hf r).2]
    rw [hcomp]
    conv_rhs => rw [← List.map_id (List.filter (fun u : UserRow => u.user == m) db.users)]
    apply List.map_congr_left
    intro r hr
    have hrm : r.user = m := by simpa using (List.mem_filter.1 hr).2
    rw [hfix r (by rw [hrm]; exact hm)]
    rfl
  · intro h
    unfold UserIdsUnique at h ⊢
    simp only [List.map_map]
    have : ((fun u : UserRow => u.id) ∘ f) = fun u : UserRow => u.id := by
      funext r
      simp only [Function.comp, (hf r).1]
    rw [this]
    exact h
  · intro a ha _; exact ha
  · intro t ht _; exact ht
  · intro r' hr'
    obtain ⟨r, hr, rfl⟩ := List.mem_map.1 hr'
    exact Or.inl ⟨r, hr, ((hf r).1).symm⟩
  · intro a' ha'; exact Or.inl ha'
  · intro t' ht'; exact Or.inl ⟨t', ht', rfl⟩

/-- A statement that deletes grant rows that refer to a user named `n`. -/
theorem Touches.filterAccess (rnd : String → String × String) (n : String) (db : DB)
    (p : AccessRow → Bool)
    (hp : ∀ a ∈ db.access,
      (∀ r ∈ db.users, r.user = n → a.user_id ≠ r.id ∧ a.owner_user_id ≠ some r.id) →
        p a = true) :
    Touches rnd n db { db with access := db.access.filter p } := by
  refine ⟨fun _ _ => rfl, fun h => h, ?_, fun _ ht _ => ht, fun r hr => Or.inl ⟨r, hr, rfl⟩,
    ?_, fun t ht => Or.inl ⟨t, ht, rfl⟩⟩
  · intro a ha hno
    exact List.mem_filter.2 ⟨ha, hp a ha hno⟩
  · intro a' ha'
    exact Or.inl (List.mem_filter.1 ha').1

/-- A successful `addUserTx` appends one row, under a name and an id that were not
in the table, with the hash made from the password. -/
theorem addUserTx_ok (v : Predicates) (h : Hasher) (cost : Nat) (db db' : DB)
    (userID syncTopic : String) (now : Int) (username password : String) (role : Role)
    (hashed provisioned : Bool)
    (hrun : addUserTx v h cost db userID syncTopic now username password role hashed
      provisioned = .ok db') :
    ∃ hash, passwordHash h cost password hashed = .ok hash ∧
      db' = { db with users := db.users ++
        [insertedUserRow userID username hash role syncTopic provisioned now] } ∧
      (∀ r ∈ db.users, r.id ≠ userID) ∧ (∀ r ∈ db.users, r.user ≠ username) := by
  unfold addUserTx at hrun
  split at hrun
  · cases hrun
  · cases hh : passwordHash h cost password hashed with
    | error e => rw [hh] at hrun; cases hrun
    | ok hash =>
      rw [hh] at hrun
      simp only at hrun
      cases hins : insertUserQuery db userID username hash role syncTopic provisioned now with
      | error e =>
        rw [hins] at hrun
        simp only at hrun
        split at hrun <;> cases hrun
      | ok db1 =>
        rw [hins] at hrun
        simp only at hrun
        injection hrun with hrun
        subst hrun
        unfold insertUserQuery at hins
        split at hins
        · cases hins
        · split at hins
          · cases hins
          · rename_i hid
            split at hins
            · cases hins
            · rename_i hname
              injection hins with hins
              refine ⟨hash, rfl, hins.symm, ?_, ?_⟩
              · intro r hr e
                exact hid (List.any_eq_true.2 ⟨r, hr, by simpa using e⟩)
              · intro r hr e
                exact hname (List.any_eq_true.2 ⟨r, hr, by simpa using e⟩)

/-- When `addUserTx` fails with `ErrUserExists` and the hashing does not, a user of
that name exists. -/
theorem addUserTx_exists (v : Predicates) (h : Hasher) (cost : Nat) (db : DB)
    (userID syncTopic : String) (now : Int) (username password : String) (role : Role)
    (hashed provisioned : Bool)
    (hhash : passwordHash h cost password hashed ≠ .error Error.ErrUserExists)
    (hrun : addUserTx v h cost db userID syncTopic now username password role hashed
      provisioned = .error Error.ErrUserExists) :
    ∃ r ∈ db.users, r.user = username := by
  unfold addUserTx at hrun
  split at hrun
  · cases hrun
  · cases hh : passwordHash h cost password hashed with
    | error e =>
      rw [hh] at hrun hhash
      simp only at hrun
      injection hrun with hrun
      subst hrun
      exact absurd rfl hhash
    | ok hash =>
      rw [hh] at hrun
      simp only at hrun
      cases hins : insertUserQuery db userID username hash role syncTopic provisioned now with
      | ok db1 => rw [hins] at hrun; cases hrun
      | error e =>
        unfold insertUserQuery at hins
        split at hins
        · injection hins with hins
          subst hins
          rw [insertUserQuery, if_pos (by assumption)] at hrun
          simp only [reduceCtorEq, if_false] at hrun
          injection hrun with hrun
          cases hrun
        · split at hins
          · injection hins with hins
            subst hins
            rename_i h1 h2
            rw [insertUserQuery, if_neg h1, if_pos h2] at hrun
            simp only [reduceCtorEq, if_false] at hrun
            injection hrun with hrun
            cases hrun
          · split at hins
            · rename_i hname
              obtain ⟨r, hr, hx⟩ := List.any_eq_true.1 hname
              exact ⟨r, hr, by simpa using hx⟩
            · cases hins

/-- The statement of `addUserTx` for the name `n` with a drawn id. -/
theorem Touches.appendUser (rnd : String → String × String) (n : String) (db : DB)
    (row : UserRow) (hname : row.user = n) (hid : ∃ m, row.id = (rnd m).1)
    (hfresh : ∀ r ∈ db.users, r.id ≠ row.id) :
    Touches rnd n db { db with users := db.users ++ [row] } := by
  refine ⟨?_, ?_, fun _ ha _ => ha, fun _ ht _ => ht, ?_, fun _ ha => Or.inl ha,
    fun t ht => Or.inl ⟨t, ht, rfl⟩⟩
  · intro m hm
    unfold selectUserByNameQuery
    rw [List.filter_append]
    have : List.filter (fun u : UserRow => u.user == m) [row] = [] := by
      have hne : (row.user == m) = false := by
        rw [hname]
        simpa using fun e : n = m => hm e.symm
      simp [List.filter, hne]
    rw [this, List.append_nil]
  · intro h
    unfold UserIdsUnique at h ⊢
    rw [List.map_append, List.map_singleton]
    apply List.Nodup.append h (List.nodup_singleton _)
    intro x hx1 hx2
    simp only [List.mem_singleton] at hx2
    subst hx2
    obtain ⟨r, hr, he⟩ := List.mem_map.1 hx1
    exact hfresh r hr he
  · intro r' hr'
    rcases List.mem_append.1 hr' with h | h
    · exact Or.inl ⟨r', h, rfl⟩
    · simp only [List.mem_singleton] at h
      subst h
      exact Or.inr hid

/-- The statement `deleteUserAccessQuery` for the name `n`. -/
theorem Touches.deleteUserAccessQuery (rnd : String → String × String) (n : String) (db : DB) :
    Touches rnd n db (deleteUserAccessQuery db n n) := by
  apply Touches.filterAccess
  intro a _ hno
  cases hsel : selectUserID db n with
  | none => simp [sqlEq]
  | some uid =>
    obtain ⟨r, hr, hrn, hrid⟩ := selectUserID_some hsel
    obtain ⟨h1, h2⟩ := hno r hr hrn
    rw [hrid] at h1 h2
    cases ho : a.owner_user_id with
    | none => simp [sqlEq, h1]
    | some o =>
      rw [ho] at h2
      have h2' : o ≠ uid := fun e => h2 (by rw [e])
      simp [sqlEq, h1, h2']

/-- The statement `deleteTopicAccessQuery` for the name `n`. -/
theorem Touches.deleteTopicAccessQuery (rnd : String → String × String) (n topic : String)
    (db : DB) : Touches rnd n db (deleteTopicAccessQuery db n n topic) := by
  apply Touches.filterAccess
  intro a _ hno
  cases hsel : selectUserID db n with
  | none => simp [sqlEq]
  | some uid =>
    obtain ⟨r, hr, hrn, hrid⟩ := selectUserID_some hsel
    obtain ⟨h1, h2⟩ := hno r hr hrn
    rw [hrid] at h1 h2
    cases ho : a.owner_user_id with
    | none => simp [sqlEq, h1]
    | some o =>
      rw [ho] at h2
      have h2' : o ≠ uid := fun e => h2 (by rw [e])
      simp [sqlEq, h1, h2']

/-- The statement `upsertUserAccessQuery` for the name `n` without owner. -/
theorem Touches.upsertUserAccessQuery (rnd : String → String × String) (n topic : String)
    (r w p : Bool) (db db' : DB)
    (h : upsertUserAccessQuery db n topic r w "" "" p = .ok db') : Touches rnd n db db' := by
  obtain ⟨uid, hsel, husers, htokens, hmem, _⟩ := upsertUserAccessQuery_sound db db' n topic r w
    "" "" p h
  obtain ⟨ru, hru, hrun, hruid⟩ := selectUserID_some hsel
  refine ⟨?_, ?_, ?_, ?_, ?_, ?_, ?_⟩
  · intro m _
    unfold selectUserByNameQuery
    rw [husers]
  · intro hu
    unfold UserIdsUnique at hu ⊢
    rw [husers]; exact hu
  · intro a ha hno
    rw [hmem]
    right
    refine ⟨ha, ?_⟩
    rintro ⟨h1, _⟩
    exact (hno ru hru hrun).1 (by rw [h1, hruid])
  · intro t ht _
    rw [htokens]; exact ht
  · intro r' hr'
    rw [husers] at hr'
    exact Or.inl ⟨r', hr', rfl⟩
  · intro a' ha'
    rcases (hmem a').1 ha' with h1 | h1
    · right
      rw [h1]
      exact ⟨⟨ru, hru, hruid⟩, rfl⟩
    · exact Or.inl h1.1
  · intro t' ht'
    rw [htokens] at ht'
    exact Or.inl ⟨t', ht', rfl⟩

/-- The token rows after `createTokenTx`: rows of other users stay, and every row
keeps its user or belongs to the user of the call. -/
theorem createTokenTx_tokens (db db' : DB) (now : Int) (userID token label : String)
    (expires : Int) (origin : String) (provisioned : Bool) (tok : Token)
    (h : createTokenTx db now userID token label expires origin provisioned = .ok (db', tok)) :
    db'.users = db.users ∧ db'.access = db.access ∧
      (∀ t ∈ db.tokens, t.user_id ≠ userID → t ∈ db'.tokens) ∧
      ∀ t' ∈ db'.tokens, (∃ t ∈ db.tokens, t.user_id = t'.user_id) ∨
        (t'.user_id = userID ∧ ∃ r ∈ db.users, r.id = userID) := by
  unfold createTokenTx at h
  split at h
  · cases h
  · rename_i db1 hup
    injection h with h
    injection h with h _
    have h1 : db1.users = db.users ∧ db1.access = db.access ∧
        (∀ t ∈ db.tokens, t.user_id ≠ userID → t ∈ db1.tokens) ∧
        ∀ t' ∈ db1.tokens, (∃ t ∈ db.tokens, t.user_id = t'.user_id) ∨
          (t'.user_id = userID ∧ ∃ r ∈ db.users, r.id = userID) := by
      unfold upsertTokenQuery at hup
      split at hup
      · injection hup with hup
        subst hup
        refine ⟨rfl, rfl, ?_, ?_⟩
        · intro t ht hne
          simp only [List.mem_map]
          refine ⟨t, ht, ?_⟩
          rw [if_neg]
          rintro ⟨e, _⟩
          exact hne e
        · intro t' ht'
          simp only [List.mem_map] at ht'
          obtain ⟨t, ht, rfl⟩ := ht'
          left
          refine ⟨t, ht, ?_⟩
          split <;> rfl
      · split at hup
        · cases hup
        · rename_i huser
          split at hup
          · cases hup
          · injection hup with hup
            subst hup
            refine ⟨rfl, rfl, ?_, ?_⟩
            · intro t ht _
              exact List.mem_append_left _ ht
            · intro t' ht'
              rcases List.mem_append.1 ht' with h2 | h2
              · exact Or.inl ⟨t', h2, rfl⟩
              · simp only [List.mem_singleton] at h2
                subst h2
                right
                refine ⟨rfl, ?_⟩
                have : (db.users.any fun u => u.id == userID) = true := by
                  simpa using huser
                obtain ⟨r, hr, he⟩ := List.any_eq_true.1 this
                exact ⟨r, hr, by simpa using he⟩
    obtain ⟨hu, ha, hk, hf⟩ := h1
    have hsub : ∀ t, t ∈ db'.tokens → t ∈ db1.tokens := by
      intro t ht
      rw [← h] at ht
      split at ht
      · exact (List.mem_filter.1 ht).1
      · exact ht
    have hkeep : ∀ t ∈ db1.tokens, t.user_id ≠ userID → t ∈ db'.tokens := by
      intro t ht hne
      rw [← h]
      split
      · simp only [deleteExcessTokensQuery, List.mem_filter]
        refine ⟨ht, ?_⟩
        simp [hne]
      · exact ht
    refine ⟨?_, ?_, ?_, ?_⟩
    · rw [← h, ← hu]; split <;> rfl
    · rw [← h, ← ha]; split <;> rfl
    · intro t ht hne
      exact hkeep t (hk t ht hne) hne
    · intro t' ht'
      exact hf t' (hsub t' ht')

/-- The statements of `createTokenTx` for the id of the user named `n`. -/
theorem Touches.createTokenTx (rnd : String → String × String) (n : String) (db db' : DB)
    (now : Int) (userID token label : String) (expires : Int) (origin : String)
    (provisioned : Bool) (tok : Token) (hsel : selectUserID db n = some userID)
    (h : createTokenTx db now userID token label expires origin provisioned = .ok (db', tok)) :
    Touches rnd n db db' := by
  obtain ⟨hu, ha, hk, hf⟩ := createTokenTx_tokens db db' now userID token label expires origin
    provisioned tok h
  obtain ⟨ru, hru, hrun, hruid⟩ := selectUserID_some hsel
  refine ⟨?_, ?_, ?_, ?_, ?_, ?_, ?_⟩
  · intro m _
    unfold selectUserByNameQuery
    rw [hu]
  · intro h1
    unfold UserIdsUnique at h1 ⊢
    rw [hu]; exact h1
  · intro a ha' _
    rw [ha]; exact ha'
  · intro t ht hno
    exact hk t ht (by rw [← hruid]; exact hno ru hru hrun)
  · intro r' hr'
    rw [hu] at hr'
    exact Or.inl ⟨r', hr', rfl⟩
  · intro a' ha'
    rw [ha] at ha'
    exact Or.inl ha'
  · intro t' ht'
    rcases hf t' ht' with h1 | ⟨h1, h2⟩
    · exact Or.inl h1
    · right
      obtain ⟨r, hr, he⟩ := h2
      exact ⟨r, hr, by rw [he, h1]⟩

/-! ## Lemmas: sequences of statements -/

theorem Steps.trans {rnd : String → String × String} {strict : Bool} {N D : List String}
    {db db1 db2 : DB} (h1 : Steps rnd strict N D db db1) (h2 : Steps rnd strict N D db1 db2) :
    Steps rnd strict N D db db2 := by
  induction h1 with
  | refl => exact h2
  | touch n a b c hn h _ ih => exact Steps.touch n a b db2 hn h (ih h2)
  | dropGrants a c _ ih => exact Steps.dropGrants a db2 (ih h2)
  | dropToken value a c hv _ ih => exact Steps.dropToken value a db2 hv (ih h2)
  | clearGrants a c hs _ ih => exact Steps.clearGrants a db2 hs (ih h2)

theorem Steps.one {rnd : String → String × String} {strict : Bool} {N D : List String}
    {n : String} {db db1 : DB} (hn : n ∈ N) (h : Touches rnd n db db1) :
    Steps rnd strict N D db db1 :=
  Steps.touch n db db1 db1 hn h (Steps.refl db1)

theorem Steps.mono {rnd : String → String × String} {strict : Bool} {N D N2 D2 : List String}
    {db db1 : DB} (hN : ∀ n ∈ N, n ∈ N2) (hD : ∀ x ∈ D, x ∈ D2)
    (h : Steps rnd strict N D db db1) : Steps rnd strict N2 D2 db db1 := by
  induction h with
  | refl => exact Steps.refl _
  | touch n a b c hn h _ ih => exact Steps.touch n a b c (hN n hn) h ih
  | dropGrants a c _ ih => exact Steps.dropGrants a c ih
  | dropToken value a c hv _ ih => exact Steps.dropToken value a c (hD value hv) ih
  | clearGrants a c hs _ ih => exact Steps.clearGrants a c hs ih

theorem updateUserRoleQuery_touches (rnd : String → String × String) (db db1 : DB) (role : Role)
    (n : String) (h : updateUserRoleQuery db role n = .ok db1) : Touches rnd n db db1 := by
  unfold updateUserRoleQuery at h
  split at h
  · injection h with h
    subst h
    exact Touches.same rnd n db
  · split at h
    · cases h
    · injection h with h
      subst h
      apply Touches.mapUsers
      · intro r
        split <;> exact ⟨rfl, rfl⟩
      · intro r hr
        rw [if_neg hr]

theorem changeRoleTx_steps (rnd : String → String × String) (strict : Bool) (N D : List String)
    (v : Predicates) (db db' : DB) (n : String) (role : Role) (hn : n ∈ N)
    (h : changeRoleTx v db n role = .ok db') : Steps rnd strict N D db db' := by
  unfold changeRoleTx at h
  split at h
  · cases h
  · cases hup : updateUserRoleQuery db role n with
    | error e => rw [hup] at h; cases h
    | ok db1 =>
      rw [hup] at h
      simp only at h
      have h1 := updateUserRoleQuery_touches rnd db db1 role n hup
      split at h
      · injection h with h
        subst h
        exact Steps.touch n db db1 _ hn h1
          (Steps.one hn (Touches.deleteUserAccessQuery rnd n db1))
      · injection h with h
        subst h
        exact Steps.one hn h1

theorem updateUserProvisionedQuery_touches (rnd : String → String × String) (db : DB)
    (p : Bool) (n : String) : Touches rnd n db (updateUserProvisionedQuery db p n) := by
  unfold updateUserProvisionedQuery
  apply Touches.mapUsers
  · intro r
    split <;> exact ⟨rfl, rfl⟩
  · intro r hr
    rw [if_neg hr]

theorem updateUserPassQuery_touches (rnd : String → String × String) (db : DB)
    (pass n : String) : Touches rnd n db (updateUserPassQuery db pass n) := by
  unfold updateUserPassQuery
  apply Touches.mapUsers
  · intro r
    split <;> exact ⟨rfl, rfl⟩
  · intro r hr
    rw [if_neg hr]

theorem provisionUser_steps (rnd : String → String × String) (strict : Bool) (N D : List String)
    (v : Predicates) (h : Hasher) (cost : Nat) (now : Int) (existingUsers : List User)
    (db db' : DB) (user : User) (hn : user.Name ∈ N)
    (hrun : provisionUser v h cost rnd now existingUsers db user = .ok db') :
    Steps rnd strict N D db db' := by
  unfold provisionUser at hrun
  split at hrun
  · -- the user is added
    split at hrun
    · split at hrun
      · injection hrun with hrun
        subst hrun
        exact Steps.refl _
      · cases hrun
    · rename_i db1 hadd
      injection hrun with hrun
      subst hrun
      obtain ⟨hash, _, hdb, hid, _⟩ := addUserTx_ok _ _ _ _ _ _ _ _ _ _ _ _ _ hadd
      rw [hdb]
      exact Steps.one hn (Touches.appendUser rnd user.Name db _ rfl ⟨user.Name, rfl⟩ hid)
  · -- the user is updated
    rename_i existingUser _
    split at hrun
    · cases hrun
    · rename_i db1 h1
      have s1 : Steps rnd strict N D db db1 := by
        split at h1
        · injection h1 with h1
          subst h1
          exact Steps.one hn (updateUserProvisionedQuery_touches rnd db true user.Name)
        · injection h1 with h1
          subst h1
          exact Steps.refl _
      split at hrun
      · cases hrun
      · rename_i db2 h2
        have s2 : Steps rnd strict N D db1 db2 := by
          split at h2
          · unfold changePasswordTx at h2
            split at h2
            · cases h2
            · injection h2 with h2
              subst h2
              exact Steps.one hn (updateUserPassQuery_touches rnd db1 _ user.Name)
          · injection h2 with h2
            subst h2
            exact Steps.refl _
        split at hrun
        · cases hrun
        · rename_i db3 h3
          injection hrun with hrun
          subst hrun
          have s3 : Steps rnd strict N D db2 db3 := by
            split at h3
            · exact changeRoleTx_steps rnd strict N D v db2 db3 user.Name user.Role hn h3
            · injection h3 with h3
              subst h3
              exact Steps.refl _
          exact (s1.trans s2).trans s3

theorem addOrUpdateUsers_steps (rnd : String → String × String) (strict : Bool)
    (N D : List String) (v : Predicates) (h : Hasher) (cost : Nat) (now : Int)
    (existingUsers : List User) :
    ∀ (users : List User) (db db' : DB),
      (∀ u ∈ users, u.Name ≠ Everyone → u.Name ∈ N) →
      addOrUpdateUsers v h cost rnd now existingUsers users db = .ok db' →
      Steps rnd strict N D db db' := by
  intro users
  induction users with
  | nil =>
    intro db db' _ hrun
    simp only [addOrUpdateUsers] at hrun
    injection hrun with hrun
    subst hrun
    exact Steps.refl _
  | cons u rest ih =>
    intro db db' hN hrun
    rw [addOrUpdateUsers] at hrun
    have hrest : ∀ u ∈ rest, u.Name ≠ Everyone → u.Name ∈ N :=
      fun x hx => hN x (List.mem_cons_of_mem _ hx)
    split at hrun
    · exact ih db db' hrest hrun
    · rename_i hne
      split at hrun
      · cases hrun
      · rename_i db1 h1
        exact (provisionUser_steps rnd strict N D v h cost now existingUsers db db1 u
          (hN u (List.mem_cons_self _ _) hne) h1).trans (ih db1 db' hrest hrun)

theorem mem_staleNames {provisionUsernames : List String} {existingUsers : List User}
    {n : String} :
    n ∈ staleNames provisionUsernames existingUsers ↔
      ∃ u ∈ existingUsers, u.Name = n ∧ n ≠ Everyone ∧ u.Provisioned = true ∧
        n ∉ provisionUsernames := by
  unfold staleNames
  simp only [List.mem_map, List.mem_filter, Bool.and_eq_true, bne_iff_ne, ne_eq,
    Bool.not_eq_true', List.contains_eq_any_beq, List.any_eq_false, beq_iff_eq]
  constructor
  · rintro ⟨u, ⟨hu, ⟨h1, h2⟩, h3⟩, rfl⟩
    exact ⟨u, hu, rfl, h1, h2, fun hin => h3 _ hin rfl⟩
  · rintro ⟨u, hu, rfl, h1, h2, h3⟩
    exact ⟨u, ⟨hu, ⟨h1, h2⟩, fun x hx e => h3 (by rw [← e] at hx; exact hx)⟩, rfl⟩

theorem removeStaleUsers_steps (rnd : String → String × String) (strict : Bool)
    (N D : List String) (v : Predicates) (provisionUsernames : List String) :
    ∀ (existingUsers : List User) (db db' : DB),
      (∀ n ∈ staleNames provisionUsernames existingUsers, n ∈ N) →
      removeStaleUsers v provisionUsernames existingUsers db = .ok db' →
      Steps rnd strict N D db db' := by
  intro existingUsers
  induction existingUsers with
  | nil =>
    intro db db' _ hrun
    simp only [removeStaleUsers] at hrun
    injection hrun with hrun
    subst hrun
    exact Steps.refl _
  | cons u rest ih =>
    intro db db' hN hrun
    rw [removeStaleUsers] at hrun
    have hrest : ∀ n ∈ staleNames provisionUsernames rest, n ∈ N := by
      intro n hn
      apply hN
      obtain ⟨x, hx, h1⟩ := mem_staleNames.1 hn
      exact mem_staleNames.2 ⟨x, List.mem_cons_of_mem _ hx, h1⟩
    split at hrun
    · exact ih db db' hrest hrun
    · rename_i hne
      split at hrun
      · rename_i hcond
        split at hrun
        · cases hrun
        · rename_i db1 h1
          have hmem : u.Name ∈ N := by
            apply hN
            simp only [Bool.and_eq_true, Bool.not_eq_true', List.contains_eq_any_beq,
              List.any_eq_false, beq_iff_eq] at hcond
            exact mem_staleNames.2 ⟨u, List.mem_cons_self _ _, rfl, hne, hcond.1,
              fun hin => hcond.2 _ hin rfl⟩
          unfold removeUserTx at h1
          split at h1
          · cases h1
          · injection h1 with h1
            subst h1
            exact (Steps.one hmem (Touches.deleteUserQuery rnd u.Name db)).trans
              (ih _ db' hrest hrun)
      · exact ih db db' hrest hrun

theorem allowAccessTx_ok (v : Predicates) (db db' : DB) (n pattern : String) (perm : Permission)
    (p : Bool) (h : allowAccessTx v db n pattern perm p = .ok db') :
    v.AllowedTopicPattern pattern = true ∧
      upsertUserAccessQuery db n (toSQLWildcard pattern) perm.IsRead perm.IsWrite "" "" p =
        .ok db' := by
  unfold allowAccessTx at h
  split at h
  · cases h
  · split at h
    · cases h
    · rename_i hp
      exact ⟨by simpa using hp, h⟩

theorem provisionGrantsOf_steps (rnd : String → String × String) (strict : Bool)
    (N D : List String) (v : Predicates) (n : String) (hn : n ∈ N)
    (hpat : strict = true → v.AllowedTopicPattern "" = false) :
    ∀ (grants : List Grant) (db db' : DB),
      provisionGrantsOf v n grants db = .ok db' →
      Steps rnd strict N D db db' ∧ db'.users = db.users := by
  intro grants
  induction grants with
  | nil =>
    intro db db' hrun
    simp only [provisionGrantsOf] at hrun
    injection hrun with hrun
    subst hrun
    exact ⟨Steps.refl _, rfl⟩
  | cons g rest ih =>
    intro db db' hrun
    rw [provisionGrantsOf] at hrun
    split at hrun
    · cases hrun
    · rename_i db1 hreset
      split at hrun
      · cases hrun
      · rename_i db2 hallow
        obtain ⟨hallowed, hup⟩ := allowAccessTx_ok v db1 db2 n g.TopicPattern g.Permission true
          hallow
        have s2 : Steps rnd strict N D db1 db2 :=
          Steps.one hn (Touches.upsertUserAccessQuery rnd n _ _ _ _ db1 db2 hup)
        have hu2 : db2.users = db1.users := by
          obtain ⟨_, _, hu, _⟩ := upsertUserAccessQuery_sound db1 db2 n _ _ _ "" "" true hup
          exact hu
        have s1 : Steps rnd strict N D db db1 ∧ db1.users = db.users := by
          unfold resetAccessTx at hreset
          split at hreset
          · cases hreset
          · split at hreset
            · cases hreset
            · split at hreset
              · rename_i hboth
                injection hreset with hreset
                subst hreset
                by_cases hs : strict = true
                · have hp : g.TopicPattern = "" := by
                    simp only [Bool.and_eq_true, beq_iff_eq] at hboth
                    exact hboth.2
                  rw [hp, hpat hs] at hallowed
                  cases hallowed
                · exact ⟨Steps.clearGrants db _ (by simpa using hs) (Steps.refl _), rfl⟩
              · split at hreset
                · injection hreset with hreset
                  subst hreset
                  exact ⟨Steps.one hn (Touches.deleteUserAccessQuery rnd n db), rfl⟩
                · injection hreset with hreset
                  subst hreset
                  exact ⟨Steps.one hn (Touches.deleteTopicAccessQuery rnd n _ db), rfl⟩
        obtain ⟨s3, hu3⟩ := ih db2 db' hrun
        exact ⟨(s1.1.trans s2).trans s3, by rw [hu3, hu2, s1.2]⟩

theorem provisionGrants_steps (rnd : String → String × String) (strict : Bool)
    (N D : List String) (v : Predicates) (users : List User)
    (hpat : strict = true → v.AllowedTopicPattern "" = false) :
    ∀ (access : List (String × List Grant)) (db db' : DB),
      (∀ e ∈ access, e.1 ∈ N) →
      provisionGrants v users access db = .ok db' →
      Steps rnd strict N D db db' ∧ db'.users = db.users := by
  intro access
  induction access with
  | nil =>
    intro db db' _ hrun
    simp only [provisionGrants] at hrun
    injection hrun with hrun
    subst hrun
    exact ⟨Steps.refl _, rfl⟩
  | cons e rest ih =>
    intro db db' hN hrun
    obtain ⟨username, grants⟩ := e
    rw [provisionGrants] at hrun
    split at hrun
    · cases hrun
    · split at hrun
      · cases hrun
      · split at hrun
        · cases hrun
        · rename_i db1 h1
          obtain ⟨s1, hu1⟩ := provisionGrantsOf_steps rnd strict N D v username
            (hN (username, grants) (List.mem_cons_self _ _)) hpat grants db db1 h1
          obtain ⟨s2, hu2⟩ := ih db1 db' (fun x hx => hN x (List.mem_cons_of_mem _ hx)) hrun
          exact ⟨s1.trans s2, by rw [hu2, hu1]⟩

theorem removeStaleTokens_steps (rnd : String → String × String) (strict : Bool)
    (N D : List String) (provisionTokens : List String) :
    ∀ (existingTokens : List Token) (db : DB),
      (∀ t ∈ existingTokens, t.Value ∈ D) →
      Steps rnd strict N D db (removeStaleTokens provisionTokens existingTokens db) ∧
        (removeStaleTokens provisionTokens existingTokens db).users = db.users := by
  intro existingTokens
  induction existingTokens with
  | nil =>
    intro db _
    exact ⟨Steps.refl _, rfl⟩
  | cons t rest ih =>
    intro db hD
    rw [removeStaleTokens]
    have hrest : ∀ x ∈ rest, x.Value ∈ D := fun x hx => hD x (List.mem_cons_of_mem _ hx)
    split
    · obtain ⟨s, hu⟩ := ih (deleteProvisionedTokenQuery db t.Value) hrest
      exact ⟨Steps.dropToken t.Value db _ (hD t (List.mem_cons_self _ _)) s, hu⟩
    · exact ih db hrest

theorem provisionTokensOf_steps (rnd : String → String × String) (strict : Bool)
    (N D : List String) (now : Int) (n userID : String) (hn : n ∈ N) :
    ∀ (tokens : List Token) (db db' : DB), selectUserID db n = some userID →
      provisionTokensOf now userID tokens db = .ok db' →
      Steps rnd strict N D db db' ∧ db'.users = db.users := by
  intro tokens
  induction tokens with
  | nil =>
    intro db db' _ hrun
    simp only [provisionTokensOf] at hrun
    injection hrun with hrun
    subst hrun
    exact ⟨Steps.refl _, rfl⟩
  | cons t rest ih =>
    intro db db' hsel hrun
    rw [provisionTokensOf] at hrun
    split at hrun
    · cases hrun
    · rename_i db1 tok h1
      have hu := (createTokenTx_tokens db db1 now userID _ _ _ _ _ tok h1).1
      have hsel1 : selectUserID db1 n = some userID := by
        rw [selectUserID_congr db1 db n hu]; exact hsel
      obtain ⟨s2, hu2⟩ := ih db1 db' hsel1 hrun
      exact ⟨(Steps.one hn (Touches.createTokenTx rnd n db db1 now userID _ _ _ _ _ tok hsel
        h1)).trans s2, by rw [hu2, hu]⟩

theorem provisionTokens_steps (rnd : String → String × String) (strict : Bool)
    (N D : List String) (provisionUsernames : List String) (now : Int) :
    ∀ (tokens : List (String × List Token)) (db db' : DB),
      (∀ e ∈ tokens, e.1 ∈ N) →
      provisionTokens provisionUsernames now tokens db = .ok db' →
      Steps rnd strict N D db db' ∧ db'.users = db.users := by
  intro tokens
  induction tokens with
  | nil =>
    intro db db' _ hrun
    simp only [provisionTokens] at hrun
    injection hrun with hrun
    subst hrun
    exact ⟨Steps.refl _, rfl⟩
  | cons e rest ih =>
    intro db db' hN hrun
    obtain ⟨username, toks⟩ := e
    rw [provisionTokens] at hrun
    split at hrun
    · cases hrun
    · split at hrun
      · cases hrun
      · rename_i userID hsel
        split at hrun
        · cases hrun
        · rename_i db1 h1
          obtain ⟨s1, hu1⟩ := provisionTokensOf_steps rnd strict N D now username userID
            (hN (username, toks) (List.mem_cons_self _ _)) toks db db1 hsel h1
          obtain ⟨s2, hu2⟩ := ih db1 db' (fun x hx => hN x (List.mem_cons_of_mem _ hx)) hrun
          exact ⟨s1.trans s2, by rw [hu2, hu1]⟩

/-- The user rows of a name outside `N` are the same before and after. -/
theorem Steps.users_other {rnd : String → String × String} {strict : Bool} {N D : List String}
    {db db' : DB} (h : Steps rnd strict N D db db') :
    ∀ m, m ∉ N → selectUserByNameQuery db' m = selectUserByNameQuery db m := by
  induction h with
  | refl => intro m _; rfl
  | touch n a b c hn ht _ ih =>
    intro m hm
    rw [ih m hm]
    exact ht.users_other m (fun e => hm (by rw [e]; exact hn))
  | dropGrants a c _ ih => intro m hm; rw [ih m hm]; rfl
  | dropToken value a c _ _ ih => intro m hm; rw [ih m hm]; rfl
  | clearGrants a c _ _ ih => intro m hm; rw [ih m hm]; rfl

theorem Steps.ids_unique {rnd : String → String × String} {strict : Bool} {N D : List String}
    {db db' : DB} (h : Steps rnd strict N D db db') : UserIdsUnique db → UserIdsUnique db' := by
  induction h with
  | refl => exact fun h => h
  | touch n a b c _ ht _ ih => exact fun h => ih (ht.ids_unique h)
  | dropGrants a c _ ih => exact fun h => ih h
  | dropToken value a c _ _ ih => exact fun h => ih h
  | clearGrants a c _ _ ih => exact fun h => ih h

/-- A user row of a name outside `N` stays. -/
theorem Steps.user_stays {rnd : String → String × String} {strict : Bool} {N D : List String}
    {db db' : DB} (h : Steps rnd strict N D db db') (r : UserRow) (hr : r ∈ db.users)
    (hn : r.user ∉ N) : r ∈ db'.users := by
  have : r ∈ selectUserByNameQuery db' r.user := by
    rw [h.users_other r.user hn]
    exact mem_selectUserByNameQuery.2 ⟨hr, rfl⟩
  exact (mem_selectUserByNameQuery.1 this).1

/-- A user row of a name outside `N` was there before. -/
theorem Steps.user_was {rnd : String → String × String} {strict : Bool} {N D : List String}
    {db db' : DB} (h : Steps rnd strict N D db db') (r : UserRow) (hr : r ∈ db'.users)
    (hn : r.user ∉ N) : r ∈ db.users := by
  have : r ∈ selectUserByNameQuery db r.user := by
    rw [← h.users_other r.user hn]
    exact mem_selectUserByNameQuery.2 ⟨hr, rfl⟩
  exact (mem_selectUserByNameQuery.1 this).1

/-- The frame of a strict sequence of statements: the unprovisioned grant rows and
the token rows that belong to users outside `N` stay (for a token: when its value
is not in `D`). -/
theorem Steps.frame {rnd : String → String × String} {N D : List String} {db db' : DB}
    (h : Steps rnd true N D db db') (hids : UserIdsUnique db) :
    (∀ a ∈ db.access, a.provisioned = false →
        (∃ r ∈ db.users, r.id = a.user_id ∧ r.user ∉ N) →
        (∀ o, a.owner_user_id = some o → ∃ r ∈ db.users, r.id = o ∧ r.user ∉ N) →
        a ∈ db'.access) ∧
      (∀ t ∈ db.tokens, (∃ r ∈ db.users, r.id = t.user_id ∧ r.user ∉ N) → t.token ∉ D →
        t ∈ db'.tokens) := by
  generalize hs : true = strict at h
  induction h with
  | refl => exact ⟨fun _ ha _ _ _ => ha, fun _ ht _ _ => ht⟩
  | touch n a b c hn ht rest ih =>
    obtain ⟨ih1, ih2⟩ := ih (ht.ids_unique hids)
    have hstay : ∀ r ∈ a.users, r.user ∉ N → r ∈ b.users := by
      intro r hr hrn
      have : r ∈ selectUserByNameQuery b r.user := by
        rw [ht.users_other r.user (fun e => hrn (by rw [e]; exact hn))]
        exact mem_selectUserByNameQuery.2 ⟨hr, rfl⟩
      exact (mem_selectUserByNameQuery.1 this).1
    have hdiff : ∀ r ∈ a.users, r.user ∉ N → ∀ r2 ∈ a.users, r2.user = n → r.id ≠ r2.id := by
      intro r hr hrn r2 hr2 hr2n e
      have := eq_of_id_eq hids hr hr2 e
      rw [this, hr2n] at hrn
      exact hrn hn
    constructor
    · intro x hx hp hu ho
      apply ih1 x
      · apply ht.acc_keep x hx
        intro r2 hr2 hr2n
        obtain ⟨r, hr, hrid, hrn⟩ := hu
        refine ⟨by rw [← hrid]; exact hdiff r hr hrn r2 hr2 hr2n, ?_⟩
        intro e
        obtain ⟨ro, hro, hroid, hron⟩ := ho r2.id e
        exact hdiff ro hro hron r2 hr2 hr2n hroid
      · exact hp
      · obtain ⟨r, hr, hrid, hrn⟩ := hu
        exact ⟨r, hstay r hr hrn, hrid, hrn⟩
      · intro o e
        obtain ⟨r, hr, hrid, hrn⟩ := ho o e
        exact ⟨r, hstay r hr hrn, hrid, hrn⟩
    · intro t htm hu hd
      apply ih2 t
      · apply ht.tok_keep t htm
        intro r2 hr2 hr2n
        obtain ⟨r, hr, hrid, hrn⟩ := hu
        rw [← hrid]
        exact hdiff r hr hrn r2 hr2 hr2n
      · obtain ⟨r, hr, hrid, hrn⟩ := hu
        exact ⟨r, hstay r hr hrn, hrid, hrn⟩
      · exact hd
  | dropGrants a c rest ih =>
    obtain ⟨ih1, ih2⟩ := ih hids
    constructor
    · intro x hx hp hu ho
      exact ih1 x (List.mem_filter.2 ⟨hx, by simp [hp]⟩) hp hu ho
    · intro t htm hu hd
      exact ih2 t htm hu hd
  | dropToken value a c hv rest ih =>
    obtain ⟨ih1, ih2⟩ := ih hids
    constructor
    · intro x hx hp hu ho
      exact ih1 x hx hp hu ho
    · intro t htm hu hd
      apply ih2 t _ hu hd
      apply List.mem_filter.2
      refine ⟨htm, ?_⟩
      have : ¬ t.token = value := fun e => hd (by rw [e]; exact hv)
      simp [this]
  | clearGrants a c hstrict rest ih =>
    exact absurd (hs.trans hstrict) (by decide)

/-- A user id that nothing carries, and that is never drawn, stays unreferenced. -/
theorem Steps.unreferenced {rnd : String → String × String} {strict : Bool}
    {N D : List String} {db db' : DB} (h : Steps rnd strict N D db db') (x : String)
    (hrnd : ∀ m, (rnd m).1 ≠ x) : Unreferenced x db → Unreferenced x db' := by
  induction h with
  | refl => exact fun h => h
  | touch n a b c _ ht _ ih =>
    intro hu
    apply ih
    obtain ⟨h1, h2, h3⟩ := hu
    refine ⟨?_, ?_, ?_⟩
    · intro r' hr'
      rcases ht.ids_from r' hr' with ⟨r, hr, e⟩ | ⟨m, e⟩
      · rw [← e]; exact h1 r hr
      · rw [e]; exact hrnd m
    · intro a' ha'
      rcases ht.acc_from a' ha' with h | ⟨⟨r, hr, e⟩, ho⟩
      · exact h2 a' h
      · refine ⟨by rw [← e]; exact h1 r hr, ?_⟩
        rw [ho]
        intro h; cases h
    · intro t' ht'
      rcases ht.tok_from t' ht' with ⟨t, htm, e⟩ | ⟨r, hr, e⟩
      · rw [← e]; exact h3 t htm
      · rw [← e]; exact h1 r hr
  | dropGrants a c _ ih =>
    intro hu
    apply ih
    exact ⟨hu.1, fun a' ha' => hu.2.1 a' (List.mem_filter.1 ha').1, hu.2.2⟩
  | dropToken value a c _ _ ih =>
    intro hu
    apply ih
    exact ⟨hu.1, hu.2.1, fun t' ht' => hu.2.2 t' (List.mem_filter.1 ht').1⟩
  | clearGrants a c _ _ ih =>
    intro hu
    apply ih
    exact ⟨hu.1, fun a' ha' => by simp [deleteAllAccessQuery] at ha', hu.2.2⟩

/-! ## Lemmas: the provisioning run -/

/-- The parts of a successful provisioning run. -/
theorem provision_parts (v : Predicates) (lib : Lib) (h : Hasher) (cost : Nat)
    (rnd : String → String × String) (now : Int) (cfg : ProvisionConfig) (db db' : DB)
    (hen : cfg.ProvisionEnabled = true)
    (hrun : maybeProvisionUsersAccessAndTokens v lib h cost rnd now cfg db = .ok db') :
    ∃ existingUsers db0 db1 db2,
      Users lib db = .ok existingUsers ∧
      removeStaleUsers v (cfg.Users.map fun u => u.Name) existingUsers db = .ok db0 ∧
      addOrUpdateUsers v h cost rnd now existingUsers cfg.Users db0 = .ok db1 ∧
      provisionGrants v cfg.Users cfg.Access (deleteUserAccessProvisionedQuery db1) = .ok db2 ∧
      provisionTokens (cfg.Users.map fun u => u.Name) now cfg.Tokens
        (removeStaleTokens (cfg.Tokens.flatMap fun e => e.2.map fun t => t.Value)
          (allProvisionedTokens lib db) db2) = .ok db' := by
  unfold maybeProvisionUsersAccessAndTokens at hrun
  rw [hen] at hrun
  simp only [Bool.not_true, Bool.false_eq_true, if_false] at hrun
  split at hrun
  · cases hrun
  · rename_i existingUsers hE
    split at hrun
    · cases hrun
    · rename_i db1 h1
      split at hrun
      · cases hrun
      · rename_i db2 h2
        split at hrun
        · cases hrun
        · rename_i db3 h3
          injection hrun with hrun
          subst hrun
          unfold maybeProvisionUsers at h1
          split at h1
          · cases h1
          · rename_i db0 h0
            exact ⟨existingUsers, db0, db1, db2, hE, h0, h1, h2, h3⟩

theorem usersLoop_mem (lib : Lib) (db : DB) :
    ∀ (names : List String) (users : List User), usersLoop lib db names = .ok users →
      (∀ u ∈ users, ∃ n ∈ names, Manager.User lib db n = .ok u) ∧
      (∀ n ∈ names, ∃ u ∈ users, Manager.User lib db n = .ok u) := by
  intro names
  induction names with
  | nil =>
    intro users h
    simp only [usersLoop] at h
    injection h with h
    subst h
    exact ⟨fun u hu => (by cases hu), fun n hn => (by cases hn)⟩
  | cons n rest ih =>
    intro users h
    rw [usersLoop] at h
    split at h
    · cases h
    · rename_i u hu
      split at h
      · cases h
      · rename_i us hus
        injection h with h
        subst h
        obtain ⟨h1, h2⟩ := ih us hus
        constructor
        · intro x hx
          rcases List.mem_cons.1 hx with e | hx
          · exact ⟨n, List.mem_cons_self _ _, by rw [e]; exact hu⟩
          · obtain ⟨m, hm, hxm⟩ := h1 x hx
            exact ⟨m, List.mem_cons_of_mem _ hm, hxm⟩
        · intro m hm
          rcases List.mem_cons.1 hm with e | hm
          · exact ⟨u, List.mem_cons_self _ _, by rw [e]; exact hu⟩
          · obtain ⟨x, hx, hxm⟩ := h2 m hm
            exact ⟨x, List.mem_cons_of_mem _ hx, hxm⟩

/-- The users that `Users()` returns: each is read from a stored row, and with
unique names every stored row is read. -/
theorem Users_mem (lib : Lib) (db : DB) (users : List User) (h : Users lib db = .ok users) :
    (∀ u ∈ users, ∃ r ∈ db.users, u = userOfRow r) ∧
      (UserNamesUnique db → ∀ r ∈ db.users, userOfRow r ∈ users) := by
  unfold Users at h
  obtain ⟨h1, h2⟩ := usersLoop_mem lib db _ users h
  constructor
  · intro u hu
    obtain ⟨n, _, hn⟩ := h1 u hu
    obtain ⟨r, hr, e⟩ := Manager_User_ok lib db n u hn
    have : r ∈ selectUserByNameQuery db n := List.mem_of_mem_head? hr
    exact ⟨r, (mem_selectUserByNameQuery.1 this).1, e⟩
  · intro hnames r hr
    have hin : r.user ∈ selectUsernamesQuery db := by
      unfold selectUsernamesQuery
      exact List.mem_map.2 ⟨r, (mem_orderBy _ _ _).2 hr, rfl⟩
    obtain ⟨u, hu, hun⟩ := h2 r.user hin
    obtain ⟨r', hr', e⟩ := Manager_User_ok lib db r.user u hun
    rw [selectUserByNameQuery_of_unique db hnames r hr] at hr'
    injection hr' with hr'
    rw [hr', ← e]
    exact hu

/-- With unique names, a stored row that is not provisioned does not carry a name
that the first loop removes. -/
theorem not_stale_of_unprovisioned (lib : Lib) (db : DB) (users : List User)
    (provisionUsernames : List String) (hE : Users lib db = .ok users)
    (hnames : UserNamesUnique db) (r : UserRow) (hr : r ∈ db.users)
    (hp : r.provisioned = false) : r.user ∉ staleNames provisionUsernames users := by
  intro hin
  obtain ⟨u, hu, hun, _, hprov, _⟩ := mem_staleNames.1 hin
  obtain ⟨r', hr', e⟩ := (Users_mem lib db users hE).1 u hu
  have hname : r'.user = r.user := by rw [← hun, e]; rfl
  have := eq_of_name_eq hnames hr' hr hname
  rw [e, this] at hprov
  have : r.provisioned = true := hprov
  rw [hp] at this
  cases this

/-- A successful provisioning run as a sequence of statements: the first step works
on behalf of the configured users and of the users it removes and determines the
user table; the whole run works on behalf of the names of the configuration and of
the removed users. -/
theorem provision_steps (strict : Bool) (v : Predicates) (lib : Lib) (h : Hasher) (cost : Nat)
    (rnd : String → String × String) (now : Int) (cfg : ProvisionConfig) (db db' : DB)
    (hpat : strict = true → v.AllowedTopicPattern "" = false)
    (hen : cfg.ProvisionEnabled = true)
    (hrun : maybeProvisionUsersAccessAndTokens v lib h cost rnd now cfg db = .ok db') :
    ∃ existingUsers db0 db1,
      Users lib db = .ok existingUsers ∧
      removeStaleUsers v (cfg.Users.map fun u => u.Name) existingUsers db = .ok db0 ∧
      addOrUpdateUsers v h cost rnd now existingUsers cfg.Users db0 = .ok db1 ∧
      db'.users = db1.users ∧
      Steps rnd strict (configNames cfg ++ staleNames (cfg.Users.map fun u => u.Name)
          existingUsers) ((allProvisionedTokens lib db).map fun t => t.Value) db1 db' ∧
      Steps rnd strict (configNames cfg ++ staleNames (cfg.Users.map fun u => u.Name)
          existingUsers) ((allProvisionedTokens lib db).map fun t => t.Value) db db' := by
  obtain ⟨E, db0, db1, db2, hE, h0, h1, h2, h3⟩ :=
    provision_parts v lib h cost rnd now cfg db db' hen hrun
  refine ⟨E, db0, db1, hE, h0, h1, ?_⟩
  generalize hN : configNames cfg ++ staleNames (cfg.Users.map fun u => u.Name) E = N
  generalize hD : ((allProvisionedTokens lib db).map fun t => t.Value) = D
  have hNu : ∀ u ∈ cfg.Users, u.Name ∈ N := by
    intro u hu
    rw [← hN]
    unfold configNames
    simp only [List.mem_append, List.mem_map]
    exact Or.inl (Or.inl (Or.inl ⟨u, hu, rfl⟩))
  have s0 : Steps rnd strict N D db db0 :=
    removeStaleUsers_steps rnd strict N D v _ E db db0
      (fun n hn => by rw [← hN]; exact List.mem_append_right _ hn) h0
  have s1 : Steps rnd strict N D db0 db1 :=
    addOrUpdateUsers_steps rnd strict N D v h cost now E cfg.Users db0 db1
      (fun u hu _ => hNu u hu) h1
  obtain ⟨s2, hu2⟩ := provisionGrants_steps rnd strict N D v cfg.Users hpat cfg.Access _ db2
    (fun e he => by
      rw [← hN]
      unfold configNames
      simp only [List.mem_append, List.mem_map]
      exact Or.inl (Or.inl (Or.inr ⟨e, he, rfl⟩))) h2
  obtain ⟨s3, hu3⟩ := removeStaleTokens_steps rnd strict N D
    (cfg.Tokens.flatMap fun e => e.2.map fun t => t.Value) (allProvisionedTokens lib db) db2
    (fun t ht => by rw [← hD]; exact List.mem_map.2 ⟨t, ht, rfl⟩)
  obtain ⟨s4, hu4⟩ := provisionTokens_steps rnd strict N D _ now cfg.Tokens _ db'
    (fun e he => by
      rw [← hN]
      unfold configNames
      simp only [List.mem_append, List.mem_map]
      exact Or.inl (Or.inr ⟨e, he, rfl⟩)) h3
  have s14 : Steps rnd strict N D db1 db' :=
    ((Steps.dropGrants db1 db2 s2).trans s3).trans s4
  refine ⟨?_, s14, (s0.trans s1).trans s14⟩
  rw [hu4, hu3, hu2]
  rfl

/-! ## Lemmas: the users after a provisioning run -/

theorem mem_staleNames_cons {provisionUsernames : List String} {u : User} {rest : List User}
    {n : String} :
    n ∈ staleNames provisionUsernames (u :: rest) ↔
      (u.Name = n ∧ n ≠ Everyone ∧ u.Provisioned = true ∧ n ∉ provisionUsernames) ∨
        n ∈ staleNames provisionUsernames rest := by
  rw [mem_staleNames, mem_staleNames]
  constructor
  · rintro ⟨x, hx, h1⟩
    rcases List.mem_cons.1 hx with e | hx
    · subst e; exact Or.inl h1
    · exact Or.inr ⟨x, hx, h1⟩
  · rintro (h1 | ⟨x, hx, h1⟩)
    · exact ⟨u, List.mem_cons_self _ _, h1⟩
    · exact ⟨x, List.mem_cons_of_mem _ hx, h1⟩

/-- The first loop of `maybeProvisionUsers` only deletes grant and token rows. -/
theorem removeStaleUsers_subset (v : Predicates) (provisionUsernames : List String) :
    ∀ (existingUsers : List User) (db db0 : DB),
      removeStaleUsers v provisionUsernames existingUsers db = .ok db0 →
      (∀ a ∈ db0.access, a ∈ db.access) ∧ ∀ t ∈ db0.tokens, t ∈ db.tokens := by
  intro existingUsers
  induction existingUsers with
  | nil =>
    intro db db0 hrun
    simp only [removeStaleUsers] at hrun
    injection hrun with hrun
    subst hrun
    exact ⟨fun _ h => h, fun _ h => h⟩
  | cons u rest ih =>
    intro db db0 hrun
    rw [removeStaleUsers] at hrun
    split at hrun
    · exact ih db db0 hrun
    · split at hrun
      · split at hrun
        · cases hrun
        · rename_i db1 h1
          unfold removeUserTx at h1
          split at h1
          · cases h1
          · injection h1 with h1
            subst h1
            obtain ⟨i1, i2⟩ := ih _ db0 hrun
            exact ⟨fun a ha => (List.mem_filter.1 (i1 a ha)).1,
              fun t ht => (List.mem_filter.1 (i2 t ht)).1⟩
      · exact ih db db0 hrun

/-- What the first loop of `maybeProvisionUsers` leaves: a part of every table, no
user row with a removed name, and no grant or token row that refers to a removed
user. -/
theorem removeStaleUsers_result (v : Predicates) (provisionUsernames : List String) :
    ∀ (existingUsers : List User) (db db0 : DB),
      removeStaleUsers v provisionUsernames existingUsers db = .ok db0 →
      (∀ r ∈ db0.users, r ∈ db.users) ∧
      (∀ r ∈ db0.users, r.user ∉ staleNames provisionUsernames existingUsers) ∧
      ∀ r ∈ db.users, r.user ∈ staleNames provisionUsernames existingUsers →
        (∀ a ∈ db0.access, a.user_id ≠ r.id ∧ a.owner_user_id ≠ some r.id) ∧
        ∀ t ∈ db0.tokens, t.user_id ≠ r.id := by
  intro existingUsers
  induction existingUsers with
  | nil =>
    intro db db0 hrun
    simp only [removeStaleUsers] at hrun
    injection hrun with hrun
    subst hrun
    refine ⟨fun _ h => h, ?_, ?_⟩
    · intro r _ hin
      obtain ⟨u, hu, _⟩ := mem_staleNames.1 hin
      cases hu
    · intro r _ hin
      obtain ⟨u, hu, _⟩ := mem_staleNames.1 hin
      cases hu
  | cons u rest ih =>
    intro db db0 hrun
    rw [removeStaleUsers] at hrun
    have hskip : ¬ (u.Name ≠ Everyone ∧ u.Provisioned = true ∧ u.Name ∉ provisionUsernames) →
        removeStaleUsers v provisionUsernames rest db = .ok db0 →
        (∀ r ∈ db0.users, r ∈ db.users) ∧
        (∀ r ∈ db0.users, r.user ∉ staleNames provisionUsernames (u :: rest)) ∧
        ∀ r ∈ db.users, r.user ∈ staleNames provisionUsernames (u :: rest) →
          (∀ a ∈ db0.access, a.user_id ≠ r.id ∧ a.owner_user_id ≠ some r.id) ∧
          ∀ t ∈ db0.tokens, t.user_id ≠ r.id := by
      intro hno hrun'
      obtain ⟨h1, h2, h3⟩ := ih db db0 hrun'
      have hst : ∀ n, n ∈ staleNames provisionUsernames (u :: rest) →
          n ∈ staleNames provisionUsernames rest := by
        intro n hn
        rcases mem_staleNames_cons.1 hn with ⟨e, ha, hb, hc⟩ | h
        · subst e
          exact absurd ⟨ha, hb, hc⟩ hno
        · exact h
      exact ⟨h1, fun r hr hin => h2 r hr (hst _ hin), fun r hr hin => h3 r hr (hst _ hin)⟩
    split at hrun
    · rename_i he
      exact hskip (fun h => h.1 he) hrun
    · rename_i hne
      split at hrun
      · rename_i hcond
        split at hrun
        · cases hrun
        · rename_i db1 h1
          unfold removeUserTx at h1
          split at h1
          · cases h1
          · injection h1 with h1
            subst h1
            obtain ⟨i1, i2, i3⟩ := ih _ db0 hrun
            have hsubU : ∀ r ∈ (deleteUserQuery db u.Name).users, r ∈ db.users ∧ r.user ≠ u.Name := by
              intro r hr
              obtain ⟨hr1, hr2⟩ := List.mem_filter.1 hr
              exact ⟨hr1, by simpa using hr2⟩
            refine ⟨fun r hr => (hsubU r (i1 r hr)).1, ?_, ?_⟩
            · intro r hr hin
              rcases mem_staleNames_cons.1 hin with ⟨e, _⟩ | h
              · exact (hsubU r (i1 r hr)).2 e.symm
              · exact i2 r hr h
            · intro r hr hin
              by_cases hname : r.user = u.Name
              · -- the rows that refer to `r` go with this statement
                have hgone : ((db.users.filter fun x => x.user == u.Name).map
                    fun x => x.id).contains r.id = true :=
                  (gone_contains db u.Name r.id).2 ⟨r, hr, hname, rfl⟩
                have hacc : ∀ a ∈ (deleteUserQuery db u.Name).access,
                    a.user_id ≠ r.id ∧ a.owner_user_id ≠ some r.id := by
                  intro a ha
                  obtain ⟨_, hp⟩ := List.mem_filter.1 ha
                  simp only [Bool.and_eq_true, Bool.not_eq_true'] at hp
                  constructor
                  · intro e
                    rw [e, hgone] at hp
                    exact Bool.noConfusion hp.1
                  · intro e
                    rw [e] at hp
                    simp only [hgone] at hp
                    exact Bool.noConfusion hp.2
                have htok : ∀ t ∈ (deleteUserQuery db u.Name).tokens, t.user_id ≠ r.id := by
                  intro t ht
                  obtain ⟨_, hp⟩ := List.mem_filter.1 ht
                  simp only [Bool.not_eq_true'] at hp
                  intro e
                  rw [e, hgone] at hp
                  exact Bool.noConfusion hp
                -- later statements only delete
                have hdel : (∀ a ∈ db0.access, a ∈ (deleteUserQuery db u.Name).access) ∧
                    ∀ t ∈ db0.tokens, t ∈ (deleteUserQuery db u.Name).tokens :=
                  removeStaleUsers_subset v provisionUsernames rest _ db0 hrun
                exact ⟨fun a ha => hacc a (hdel.1 a ha), fun t ht => htok t (hdel.2 t ht)⟩
              · have hr1 : r ∈ (deleteUserQuery db u.Name).users :=
                  List.mem_filter.2 ⟨hr, by simpa using hname⟩
                rcases mem_staleNames_cons.1 hin with ⟨e, _⟩ | h
                · exact absurd e.symm hname
                · exact i3 r hr1 h
      · rename_i hcond
        apply hskip _ hrun
        rintro ⟨_, hb, hc⟩
        apply hcond
        have h2 : provisionUsernames.contains u.Name = false := by
          rw [← Bool.not_eq_true, List.contains_iff_exists_mem_beq]
          rintro ⟨y, hy, hyx⟩
          exact hc (by rw [beq_iff_eq] at hyx; rw [hyx]; exact hy)
        rw [hb, h2]
        rfl

theorem passwordHash_hashed (h : Hasher) (cost : Nat) (password hash : String)
    (hh : passwordHash h cost password true = .ok hash) : hash = password := by
  unfold passwordHash at hh
  simp only [if_true] at hh
  split at hh
  · cases hh
  · injection hh with hh
    exact hh.symm

theorem passwordHash_hashed_ne (h : Hasher) (cost : Nat) (password : String)
    (hhash : ∀ p, h.ValidPasswordHash p ≠ some Error.ErrUserExists) :
    passwordHash h cost password true ≠ .error Error.ErrUserExists := by
  unfold passwordHash
  simp only [if_true]
  intro hx
  split at hx
  · rename_i e he
    injection hx with hx
    subst hx
    exact hhash password he
  · cases hx

/-- The rows of the name `n` after a statement that rewrites exactly these rows. -/
theorem selectUserByNameQuery_update (db : DB) (n : String) (f : UserRow → UserRow)
    (hf : ∀ r, (f r).user = r.user) :
    selectUserByNameQuery
        { db with users := db.users.map fun u => if u.user = n then f u else u } n =
      (selectUserByNameQuery db n).map f := by
  unfold selectUserByNameQuery
  simp only [List.filter_map]
  have hcomp : ((fun u : UserRow => u.user == n) ∘ fun u : UserRow =>
      if u.user = n then f u else u) = fun u : UserRow => u.user == n := by
    funext r
    simp only [Function.comp]
    split
    · rw [hf r]
    · rfl
  rw [hcomp]
  apply List.map_congr_left
  intro r hr
  have : r.user = n := by simpa using (List.mem_filter.1 hr).2
  rw [if_pos this]

/-- After `provisionUser` for a configured user, exactly one row carries the name,
and it is provisioned with the configured role and hash. -/
theorem provisionUser_good (v : Predicates) (lib : Lib) (h : Hasher) (cost : Nat)
    (rnd : String → String × String) (now : Int) (existingUsers : List User)
    (db dbc db2 : DB) (user : User) (hE : Users lib db = .ok existingUsers)
    (hnames : UserNamesUnique db)
    (hhash : ∀ p, h.ValidPasswordHash p ≠ some Error.ErrUserExists)
    (hsame : selectUserByNameQuery dbc user.Name = selectUserByNameQuery db user.Name)
    (hrun : provisionUser v h cost rnd now existingUsers dbc user = .ok db2) :
    ∃ r, selectUserByNameQuery db2 user.Name = [r] ∧ r.provisioned = true ∧
      r.role = user.Role ∧ r.pass = user.Hash := by
  obtain ⟨hE1, hE2⟩ := Users_mem lib db existingUsers hE
  unfold provisionUser at hrun
  split at hrun
  · -- the user is not among the existing users
    rename_i hfind
    have hnone : selectUserByNameQuery dbc user.Name = [] := by
      rw [hsame]
      apply selectUserByNameQuery_eq_nil
      intro r hr e
      have := List.find?_eq_none.1 hfind (userOfRow r) (hE2 hnames r hr)
      apply this
      simp [userOfRow, e]
    split at hrun
    · rename_i e hadd
      split at hrun
      · rename_i he
        subst he
        obtain ⟨r, hr, hrn⟩ := addUserTx_exists _ _ _ _ _ _ _ _ _ _ _ _
          (passwordHash_hashed_ne h cost user.Hash hhash) hadd
        have : r ∈ selectUserByNameQuery dbc user.Name := mem_selectUserByNameQuery.2 ⟨hr, hrn⟩
        rw [hnone] at this
        cases this
      · cases hrun
    · rename_i db1 hadd
      injection hrun with hrun
      subst hrun
      obtain ⟨hash, hh, hdb, _, hno⟩ := addUserTx_ok _ _ _ _ _ _ _ _ _ _ _ _ _ hadd
      have hhash' := passwordHash_hashed h cost user.Hash hash hh
      subst hhash'
      rw [hdb]
      exact ⟨_, selectUserByNameQuery_append dbc
        (insertedUserRow (rnd user.Name).1 user.Name user.Hash user.Role (rnd user.Name).2 true
          now) hno, rfl, rfl, rfl⟩
  · -- the user exists
    rename_i existingUser hfind
    have hmemE : existingUser ∈ existingUsers := List.mem_of_find?_eq_some hfind
    have hnameE : existingUser.Name = user.Name := by simpa using List.find?_some hfind
    obtain ⟨r0, hr0, hr0e⟩ := hE1 existingUser hmemE
    have hr0n : r0.user = user.Name := by rw [← hnameE, hr0e]; rfl
    have hsel : selectUserByNameQuery dbc user.Name = [r0] := by
      rw [hsame, ← hr0n]
      exact selectUserByNameQuery_of_unique db hnames r0 hr0
    have hp0 : existingUser.Provisioned = r0.provisioned := by rw [hr0e]; rfl
    have hh0 : existingUser.Hash = r0.pass := by rw [hr0e]; rfl
    have hro0 : existingUser.Role = r0.role := by rw [hr0e]; rfl
    split at hrun
    · cases hrun
    · rename_i db1 h1
      have g1 : ∃ r1, selectUserByNameQuery db1 user.Name = [r1] ∧ r1.provisioned = true ∧
          r1.role = r0.role ∧ r1.pass = r0.pass := by
        split at h1
        · injection h1 with h1
          subst h1
          unfold updateUserProvisionedQuery
          rw [selectUserByNameQuery_update dbc user.Name (fun u => { u with provisioned := true })
            (fun _ => rfl), hsel]
          exact ⟨_, rfl, rfl, rfl, rfl⟩
        · rename_i hc
          injection h1 with h1
          subst h1
          refine ⟨r0, hsel, ?_, rfl, rfl⟩
          rw [← hp0]
          simpa using hc
      obtain ⟨r1, hs1, hp1, hro1, hpa1⟩ := g1
      split at hrun
      · cases hrun
      · rename_i db2' h2
        have g2 : ∃ r2, selectUserByNameQuery db2' user.Name = [r2] ∧ r2.provisioned = true ∧
            r2.role = r0.role ∧ r2.pass = user.Hash := by
          split at h2
          · unfold changePasswordTx at h2
            split at h2
            · cases h2
            · rename_i hash hh
              injection h2 with h2
              subst h2
              have := passwordHash_hashed h cost user.Hash hash hh
              subst this
              unfold updateUserPassQuery
              rw [selectUserByNameQuery_update db1 user.Name
                (fun u => { u with pass := user.Hash }) (fun _ => rfl), hs1]
              exact ⟨_, rfl, hp1, hro1, rfl⟩
          · rename_i hc
            injection h2 with h2
            subst h2
            refine ⟨r1, hs1, hp1, hro1, ?_⟩
            rw [hpa1, ← hh0]
            simpa using hc
        obtain ⟨r2, hs2, hp2, hro2, hpa2⟩ := g2
        split at hrun
        · cases hrun
        · rename_i db3 h3
          injection hrun with hrun
          subst hrun
          split at h3
          · unfold changeRoleTx at h3
            split at h3
            · cases h3
            · cases hup : updateUserRoleQuery db2' user.Role user.Name with
              | error e => rw [hup] at h3; cases h3
              | ok db3a =>
                rw [hup] at h3
                simp only at h3
                have g3 : ∃ r3, selectUserByNameQuery db3a user.Name = [r3] ∧
                    r3.provisioned = true ∧ r3.role = user.Role ∧ r3.pass = user.Hash := by
                  unfold updateUserRoleQuery at hup
                  split at hup
                  · rename_i hany
                    exfalso
                    have hmem : r2 ∈ selectUserByNameQuery db2' user.Name := by
                      rw [hs2]; exact List.mem_cons_self _ _
                    obtain ⟨hm1, hm2⟩ := mem_selectUserByNameQuery.1 hmem
                    have hex : (db2'.users.any fun u => u.user == user.Name) = true :=
                      List.any_eq_true.2 ⟨r2, hm1, by simpa using hm2⟩
                    rw [hex] at hany
                    cases hany
                  · split at hup
                    · cases hup
                    · injection hup with hup
                      subst hup
                      rw [selectUserByNameQuery_update db2' user.Name
                        (fun u => { u with role := user.Role }) (fun _ => rfl), hs2]
                      exact ⟨_, rfl, hp2, rfl, hpa2⟩
                obtain ⟨r3, hs3, hp3, hro3, hpa3⟩ := g3
                split at h3
                · injection h3 with h3
                  subst h3
                  exact ⟨r3, hs3, hp3, hro3, hpa3⟩
                · injection h3 with h3
                  subst h3
                  exact ⟨r3, hs3, hp3, hro3, hpa3⟩
          · rename_i hc
            injection h3 with h3
            subst h3
            refine ⟨r2, hs2, hp2, ?_, hpa2⟩
            rw [hro2, ← hro0]
            simpa using hc

/-- After the second loop of `maybeProvisionUsers`, every configured user other
than `*` has exactly one row, provisioned, with the configured role and hash. -/
theorem addOrUpdateUsers_good (v : Predicates) (lib : Lib) (h : Hasher) (cost : Nat)
    (rnd : String → String × String) (now : Int) (existingUsers : List User) (db : DB)
    (hE : Users lib db = .ok existingUsers) (hnames : UserNamesUnique db)
    (hhash : ∀ p, h.ValidPasswordHash p ≠ some Error.ErrUserExists) :
    ∀ (users : List User) (dbc db1 : DB), (users.map fun u => u.Name).Nodup →
      (∀ u ∈ users, u.Name ≠ Everyone →
        selectUserByNameQuery dbc u.Name = selectUserByNameQuery db u.Name) →
      addOrUpdateUsers v h cost rnd now existingUsers users dbc = .ok db1 →
      ∀ u ∈ users, u.Name ≠ Everyone →
        ∃ r, selectUserByNameQuery db1 u.Name = [r] ∧ r.provisioned = true ∧
          r.role = u.Role ∧ r.pass = u.Hash := by
  intro users
  induction users with
  | nil => intro dbc db1 _ _ _ u hu; cases hu
  | cons x rest ih =>
    intro dbc db1 hnd hsame hrun u hu hne
    rw [List.map_cons, List.nodup_cons] at hnd
    obtain ⟨hx, hndr⟩ := hnd
    have hsame_rest : ∀ u ∈ rest, u.Name ≠ Everyone →
        selectUserByNameQuery dbc u.Name = selectUserByNameQuery db u.Name :=
      fun y hy => hsame y (List.mem_cons_of_mem _ hy)
    rw [addOrUpdateUsers] at hrun
    split at hrun
    · rename_i hxe
      rcases List.mem_cons.1 hu with e | hu
      · subst e; exact absurd hxe hne
      · exact ih dbc db1 hndr hsame_rest hrun u hu hne
    · rename_i hxne
      split at hrun
      · cases hrun
      · rename_i db2 h2
        have hother : ∀ y ∈ rest, y.Name ≠ x.Name := by
          intro y hy e
          exact hx (List.mem_map.2 ⟨y, hy, e⟩)
        have s2 := provisionUser_steps rnd false [x.Name] [] v h cost now existingUsers dbc db2 x
          (List.mem_singleton.2 rfl) h2
        have srest := addOrUpdateUsers_steps rnd false (rest.map fun u => u.Name) [] v h cost now
          existingUsers rest db2 db1 (fun y hy _ => List.mem_map.2 ⟨y, hy, rfl⟩) hrun
        rcases List.mem_cons.1 hu with e | hu
        · subst e
          obtain ⟨r, hr, hgood⟩ := provisionUser_good v lib h cost rnd now existingUsers db dbc
            db2 u hE hnames hhash (hsame u (List.mem_cons_self _ _) hne) h2
          exact ⟨r, by rw [srest.users_other u.Name hx]; exact hr, hgood⟩
        · apply ih db2 db1 hndr _ hrun u hu hne
          intro y hy hye
          rw [s2.users_other y.Name (by
            intro hin
            exact hother y hy (List.mem_singleton.1 hin))]
          exact hsame_rest y hy hye

/-- A successful `provisionTokens` has met only configured users and `*`. -/
theorem provisionTokens_known_users (provisionUsernames : List String) (now : Int) :
    ∀ (tokens : List (String × List Token)) (db db' : DB),
      provisionTokens provisionUsernames now tokens db = .ok db' →
      ∀ e ∈ tokens, e.1 ∈ provisionUsernames ∨ e.1 = Everyone := by
  intro tokens
  induction tokens with
  | nil => intro db db' _ e he; cases he
  | cons x rest ih =>
    intro db db' hrun e he
    obtain ⟨username, toks⟩ := x
    rw [provisionTokens] at hrun
    split at hrun
    · cases hrun
    · rename_i hcond
      split at hrun
      · cases hrun
      · split at hrun
        · cases hrun
        · rename_i db1 _
          rcases List.mem_cons.1 he with h1 | h1
          · subst h1
            by_cases hc : username ∈ provisionUsernames
            · exact Or.inl hc
            · right
              by_contra hne
              apply hcond
              have h2 : provisionUsernames.contains username = false := by
                rw [← Bool.not_eq_true, List.contains_iff_exists_mem_beq]
                rintro ⟨y, hy, hyx⟩
                exact hc (by rw [beq_iff_eq] at hyx; rw [hyx]; exact hy)
              have hne2 : ¬ username = Everyone := hne
              rw [h2]
              simp [hne2]
          · exact ih db1 db' hrun e h1

/-! ## Lemmas: the scan order of the resolver -/

theorem accessKeyPrecedes_total (a b : AccessRow) :
    accessKeyPrecedes a b = true ∨ accessKeyPrecedes b a = true := by
  unfold accessKeyPrecedes
  by_cases hu : a.user_id = b.user_id
  · rw [if_neg (not_not.2 hu), if_neg (not_not.2 hu.symm)]
    simp only [Bool.not_eq_true']
    cases hba : textLt b.topic a.topic with
    | false => exact Or.inl rfl
    | true => exact Or.inr (textLt_asymm hba)
  · have hu' : ¬ b.user_id = a.user_id := fun e => hu e.symm
    simp only [ne_eq, hu, hu', not_false_eq_true, if_true]
    exact textLt_total hu

theorem accessKeyPrecedes_trans (a b c : AccessRow) (h1 : accessKeyPrecedes a b = true)
    (h2 : accessKeyPrecedes b c = true) : accessKeyPrecedes a c = true := by
  unfold accessKeyPrecedes at h1 h2 ⊢
  by_cases hab : a.user_id = b.user_id
  · by_cases hbc : b.user_id = c.user_id
    · have hac : a.user_id = c.user_id := hab.trans hbc
      simp only [ne_eq, hab, hbc, hac, not_true_eq_false, if_false, Bool.not_eq_true'] at h1 h2 ⊢
      cases hca : textLt c.topic a.topic with
      | false => rfl
      | true =>
        by_cases e : b.topic = c.topic
        · rw [e] at h1
          rw [h1] at hca
          exact absurd hca (by decide)
        · rcases textLt_total e with h | h
          · have := textLt_trans h hca
            rw [h1] at this
            exact absurd this (by decide)
          · rw [h2] at h
            exact absurd h (by decide)
    · have hac : ¬ a.user_id = c.user_id := fun e => hbc (hab.symm.trans e)
      simp only [ne_eq, hbc, hac, not_false_eq_true, if_true] at h2 ⊢
      rw [hab]
      exact h2
  · by_cases hbc : b.user_id = c.user_id
    · have hac : ¬ a.user_id = c.user_id := fun e => hab (e.trans hbc.symm)
      simp only [ne_eq, hab, hac, not_false_eq_true, if_true] at h1 ⊢
      rw [← hbc]
      exact h1
    · simp only [ne_eq, hab, hbc, not_false_eq_true, if_true] at h1 h2
      have hlt := textLt_trans h1 h2
      have hac : ¬ a.user_id = c.user_id := by
        intro e
        rw [e, textLt_irrefl] at hlt
        exact absurd hlt (by decide)
      simp only [ne_eq, hac, not_false_eq_true, if_true]
      exact hlt

/-- Two rows that stand before each other in the order of the index have the same
key. -/
theorem accessKeyPrecedes_antisymm (a b : AccessRow) (h1 : accessKeyPrecedes a b = true)
    (h2 : accessKeyPrecedes b a = true) : (a.user_id, a.topic) = (b.user_id, b.topic) := by
  unfold accessKeyPrecedes at h1 h2
  by_cases hu : a.user_id = b.user_id
  · rw [if_neg (not_not.2 hu)] at h1
    rw [if_neg (not_not.2 hu.symm)] at h2
    simp only [Bool.not_eq_true'] at h1 h2
    by_cases e : a.topic = b.topic
    · rw [hu, e]
    · rcases textLt_total e with h | h
      · rw [h2] at h
        exact absurd h (by decide)
      · rw [h1] at h
        exact absurd h (by decide)
  · have hu' : ¬ b.user_id = a.user_id := fun e => hu e.symm
    simp only [ne_eq, hu, hu', not_false_eq_true, if_true] at h1 h2
    rw [textLt_asymm h1] at h2
    exact absurd h2 (by decide)

/-- With unique keys, the order of the index does not depend on the order in which
the rows are stored. -/
theorem orderBy_accessKey_eq_of_perm (l1 l2 : List AccessRow) (hp : l1.Perm l2)
    (hkeys : (l1.map fun a => (a.user_id, a.topic)).Nodup) :
    orderBy accessKeyPrecedes l1 = orderBy accessKeyPrecedes l2 := by
  have p1 := orderBy_perm accessKeyPrecedes l1
  have p2 := orderBy_perm accessKeyPrecedes l2
  have hperm : (orderBy accessKeyPrecedes l1).Perm (orderBy accessKeyPrecedes l2) :=
    p1.trans (hp.trans p2.symm)
  have hnd : ∀ l : List AccessRow, l.Perm l1 →
      l.Pairwise fun a b => (a.user_id, a.topic) ≠ (b.user_id, b.topic) := by
    intro l hl
    have : (l.map fun a => (a.user_id, a.topic)).Nodup :=
      (hl.map fun a => (a.user_id, a.topic)).nodup_iff.2 hkeys
    exact List.pairwise_map.1 this
  have hs : ∀ l : List AccessRow, l.Perm l1 →
      (orderBy accessKeyPrecedes l).Pairwise fun a b =>
        accessKeyPrecedes a b = true ∧ (a.user_id, a.topic) ≠ (b.user_id, b.topic) := by
    intro l hl
    exact (orderBy_pairwise accessKeyPrecedes accessKeyPrecedes_total accessKeyPrecedes_trans
      l).and (hnd _ ((orderBy_perm accessKeyPrecedes l).trans hl))
  haveI : IsAntisymm AccessRow fun a b =>
      accessKeyPrecedes a b = true ∧ (a.user_id, a.topic) ≠ (b.user_id, b.topic) :=
    ⟨fun a b h1 h2 => absurd (accessKeyPrecedes_antisymm a b h1.1 h2.1) h1.2⟩
  exact List.eq_of_perm_of_sorted hperm (hs l1 (List.Perm.refl _)) (hs l2 hp.symm)

/-- The method `Authorize` reads the tables `user` and `user_access` only. -/
theorem Authorize_congr (cfg : Config) (db1 db2 : DB) (user : Option User) (topic : String)
    (perm : Permission) (hu : db1.users = db2.users) (ha : db1.access = db2.access) :
    Authorize cfg db1 user topic perm = Authorize cfg db2 user topic perm := by
  have hj : accessJoinUser db1 = accessJoinUser db2 := by
    unfold accessJoinUser
    rw [hu, ha]
  unfold Authorize selectTopicPermsQuery selectTopicPermsRows
  rw [hj]

/-! ## Claims -/

/-- On the hypothesis of C1: the query ranks the caller before `*` with
`ORDER BY u.user DESC`, which needs the caller's name to sort after `*`. In a table
with a user row `$ops` (a name that sorts before `*`; no method stores such a row,
every one of them checks `AllowedUsername` first) the caller holds a matching write
grant on `foobar`, yet the read-only grant of `*` on `foo*` decides and the write
is refused. -/
theorem Authorize_name_order_needed :
    ops.Role ≠ RoleAdmin ∧ ops.Name ≠ Everyone ∧
      matchingGrants opsDB ops.Name "foobar" ≠ [] ∧
      Authorize cfgDeny opsDB (some ops) "foobar" PermissionWrite =
        some Error.ErrUnauthorized ∧
      ¬ ∃ g ∈ matchingGrants opsDB ops.Name "foobar",
          Authorize cfgDeny opsDB (some ops) "foobar" PermissionWrite =
            resolvePerms (NewPermission g.read g.write) PermissionWrite := by
  decide

/-- C1: for a non-admin caller other than `*`, that is, a caller whose username
sorts after `*` in byte order (as every name that `AllowedUsername` lets into the
table does: it is made of letters, digits, `-`, `_`, `.`, `+`, `@`), if at least one
grant of the caller matches the topic then `Authorize` is decided by one of the
caller's own matching grants, namely the first row of the caller's matching grants
taken alone in the query's order, whatever grants `*` holds. -/
theorem Authorize_own_grants (cfg : Config) (db : DB) (u : User) (topic : String)
    (p : Permission) (hrole : u.Role ≠ RoleAdmin) (hname : textLt Everyone u.Name = true)
    (hown : matchingGrants db u.Name topic ≠ []) :
    ∃ g ∈ matchingGrants db u.Name topic,
      (orderBy permPrecedes (matchingGrants db u.Name topic)).head? = some g ∧
      Authorize cfg db (some u) topic p = resolvePerms (NewPermission g.read g.write) p := by
  have hna : notAdmin (some u) := fun v e => by cases e; exact hrole
  have hA := Authorize_eq_decidingRow cfg db (some u) topic p hna
  have hne : u.Name ≠ Everyone := by
    intro e; rw [e, textLt_irrefl] at hname; exact absurd hname (by decide)
  obtain ⟨x, hx⟩ := List.exists_mem_of_ne_nil _ hown
  have hfil := firstRow_filter permPrecedes (fun r : PermRow => r.user == u.Name)
    ((accessJoinUser db).filter (topicPermsWhere Everyone u.Name topic))
    (by
      intro a ha b hb hPa hPb
      have hau : a.user = u.Name := by simpa using hPa
      have hbn : b.user ≠ u.Name := by simpa using hPb
      have hbe : b.user = Everyone := by
        rcases (mem_topicPermsRows.1 hb).1 with e | e
        · exact e
        · exact absurd e hbn
      have hne' : ¬ Everyone = u.Name := fun e => hne e.symm
      have hne2 : ¬ u.Name = Everyone := hne
      simp only [permPrecedes, hau, hbe, ne_eq, hne', hne2, not_false_eq_true, if_true]
      exact ⟨hname, textLt_asymm hname⟩)
    ⟨x, mem_topicPermsRows.2 ⟨Or.inr (mem_matchingGrants.1 hx).2.1, by
        rw [(mem_matchingGrants.1 hx).2.1]; exact hx⟩, by
        simpa using (mem_matchingGrants.1 hx).2.1⟩
  rw [topicPermsRows_filter_own] at hfil
  have hd : decidingRow db u.Name topic =
      firstRow permPrecedes (matchingGrants db u.Name topic) := by
    rw [decidingRow_eq_firstRow, hfil]
  cases hf : firstRow permPrecedes (matchingGrants db u.Name topic) with
  | none => exact absurd ((firstRow_eq_none _ _).1 hf) hown
  | some g =>
    refine ⟨g, firstRow_mem _ _ _ hf, ?_, ?_⟩
    · rw [head?_orderBy, hf]
    · simp only [callerName] at hA
      rw [hA, hd, hf]

/-- C1, witness: with grants `(*, "foo*", read)` and `(phil, "foobar", write)`, the
write of `phil` to `foobar` is decided by his own grant and is ok; with only the
first grant his write is refused and his read is ok. -/
theorem Authorize_own_grants_witness :
    Authorize cfgDeny fooDB (some phil) "foobar" PermissionWrite = none ∧
      (∃ g ∈ matchingGrants fooDB phil.Name "foobar",
        (orderBy permPrecedes (matchingGrants fooDB phil.Name "foobar")).head? = some g ∧
        Authorize cfgDeny fooDB (some phil) "foobar" PermissionWrite =
          resolvePerms (NewPermission g.read g.write) PermissionWrite) ∧
      Authorize cfgDeny (grantsDB [mkGrant "u_everyone" "foo*" PermissionRead]) (some phil)
        "foobar" PermissionWrite = some Error.ErrUnauthorized ∧
      Authorize cfgDeny (grantsDB [mkGrant "u_everyone" "foo*" PermissionRead]) (some phil)
        "foobar" PermissionRead = none :=
  ⟨by decide, Authorize_own_grants cfgDeny fooDB phil "foobar" PermissionWrite
    (by decide) (by decide) (by decide), by decide, by decide⟩

/-- C2, counterexample: `phil` holds `a_b_c` (read) and the longer user-facing
pattern `a*b*c*` (read-write); both match the topic `a_b_c`, yet the write is refused,
because the stored form `a\_b\_c` of the shorter pattern is the longer one. -/
theorem Authorize_longest_pattern_counterexample :
    like "a_b_c" (toSQLWildcard "a_b_c") = true ∧
      like "a_b_c" (toSQLWildcard "a*b*c*") = true ∧
      ("a_b_c" : String).length < ("a*b*c*" : String).length ∧
      resolvePerms PermissionReadWrite PermissionWrite = none ∧
      Authorize cfgDeny underscoreDB (some phil) "a_b_c" PermissionWrite =
        some Error.ErrUnauthorized := by
  decide

/-- C2, amended: when a grant of the caller or of `*` matches the topic, `Authorize`
(for a non-admin caller) returns the verdict of a matching grant of the deciding
identity whose stored pattern, in which every `_` counts as the two characters `\_`,
is at least as long as that of every matching grant of that identity. -/
theorem Authorize_longest_stored_pattern (cfg : Config) (db : DB) (user : Option User)
    (topic : String) (p : Permission) (h : notAdmin user)
    (hm : matchingGrants db (callerName user) topic ≠ [] ∨
      matchingGrants db Everyone topic ≠ []) :
    ∃ g, decidingRow db (callerName user) topic = some g ∧
      (g.user = callerName user ∨ g.user = Everyone) ∧
      g ∈ matchingGrants db g.user topic ∧
      (∀ g' ∈ matchingGrants db g.user topic, g'.topic.length ≤ g.topic.length) ∧
      Authorize cfg db user topic p = resolvePerms (NewPermission g.read g.write) p := by
  have hA := Authorize_eq_decidingRow cfg db user topic p h
  have hd := decidingRow_eq_firstRow db (callerName user) topic
  cases hf : firstRow permPrecedes
      ((accessJoinUser db).filter (topicPermsWhere Everyone (callerName user) topic)) with
  | none =>
    have hnil := (firstRow_eq_none _ _).1 hf
    exfalso
    rcases hm with hm | hm
    · obtain ⟨x, hx⟩ := List.exists_mem_of_ne_nil _ hm
      have : x ∈ (accessJoinUser db).filter (topicPermsWhere Everyone (callerName user) topic) :=
        mem_topicPermsRows.2 ⟨Or.inr (mem_matchingGrants.1 hx).2.1, by
          rw [(mem_matchingGrants.1 hx).2.1]; exact hx⟩
      rw [hnil] at this; simp at this
    · obtain ⟨x, hx⟩ := List.exists_mem_of_ne_nil _ hm
      have : x ∈ (accessJoinUser db).filter (topicPermsWhere Everyone (callerName user) topic) :=
        mem_topicPermsRows.2 ⟨Or.inl (mem_matchingGrants.1 hx).2.1, by
          rw [(mem_matchingGrants.1 hx).2.1]; exact hx⟩
      rw [hnil] at this; simp at this
  | some g =>
    have hg := mem_topicPermsRows.1 (firstRow_mem _ _ _ hf)
    refine ⟨g, by rw [hd, hf], hg.1.symm, hg.2, ?_, by rw [hA, hd, hf]⟩
    intro g' hg'
    have hu : g'.user = g.user := (mem_matchingGrants.1 hg').2.1
    have hin : g' ∈ (accessJoinUser db).filter
        (topicPermsWhere Everyone (callerName user) topic) :=
      mem_topicPermsRows.2 ⟨by rw [hu]; exact hg.1, by rw [hu]; exact hg'⟩
    have hp := firstRow_precedes permPrecedes permPrecedes_total permPrecedes_trans _ g hf g' hin
    exact (permPrecedes_same_user hu.symm hp).1

/-- C2, witness: for `phil` and the topic `a_b_c` the deciding grant is the stored
pattern `a\_b\_c`, of length 7, and the write is refused. -/
theorem Authorize_longest_stored_pattern_witness :
    Authorize cfgDeny underscoreDB (some phil) "a_b_c" PermissionWrite =
        some Error.ErrUnauthorized ∧
      ∃ g, decidingRow underscoreDB (callerName (some phil)) "a_b_c" = some g ∧
        (g.user = callerName (some phil) ∨ g.user = Everyone) ∧
        g ∈ matchingGrants underscoreDB g.user "a_b_c" ∧
        (∀ g' ∈ matchingGrants underscoreDB g.user "a_b_c",
          g'.topic.length ≤ g.topic.length) ∧
        Authorize cfgDeny underscoreDB (some phil) "a_b_c" PermissionWrite =
          resolvePerms (NewPermission g.read g.write) PermissionWrite :=
  ⟨by decide, Authorize_longest_stored_pattern cfgDeny underscoreDB (some phil) "a_b_c"
    PermissionWrite (by decide) (Or.inl (by decide))⟩

/-- C3, counterexample: `phil` holds `a*` (read) and `*a` (write), two patterns of
equal length that both match `aa`, and the longer `aa*` (read); the deciding identity
is `phil`, and the write to `aa` is refused. Likewise with `a_` (read) and `a*`
(write) alone, two user-facing patterns of equal length that both match `a_`: the
read-only grant, whose stored form is longer, masks the write grant. -/
theorem Authorize_write_tie_counterexample :
    ((decidingRow tieDB phil.Name "aa").map (fun g => g.user) = some phil.Name ∧
      like "aa" (toSQLWildcard "a*") = true ∧ like "aa" (toSQLWildcard "*a") = true ∧
      (toSQLWildcard "a*").length = (toSQLWildcard "*a").length ∧
      ("a*" : String).length = ("*a" : String).length ∧
      Authorize cfgDeny tieDB (some phil) "aa" PermissionWrite =
        some Error.ErrUnauthorized) ∧
    ((decidingRow maskDB phil.Name "a_").map (fun g => g.user) = some phil.Name ∧
      like "a_" (toSQLWildcard "a_") = true ∧ like "a_" (toSQLWildcard "a*") = true ∧
      ("a_" : String).length = ("a*" : String).length ∧
      Authorize cfgDeny maskDB (some phil) "a_" PermissionWrite =
        some Error.ErrUnauthorized) := by
  decide

/-- C3, amended: if two grants of the deciding identity both match the topic, have
stored patterns of equal length, no matching grant of that identity has a longer
stored pattern, and one of the two grants write while the other does not, then the
write-granting grant decides: `Authorize(caller, t, write)` is ok. -/
theorem Authorize_write_tie (cfg : Config) (db : DB) (user : Option User) (topic : String)
    (d w r : PermRow)
    (hd : decidingRow db (callerName user) topic = some d)
    (hw : w ∈ matchingGrants db d.user topic) (_hr : r ∈ matchingGrants db d.user topic)
    (hlen : w.topic.length = r.topic.length)
    (hww : w.write = true) (_hrw : r.write = false)
    (hmax : ∀ g ∈ matchingGrants db d.user topic, g.topic.length ≤ w.topic.length) :
    Authorize cfg db user topic PermissionWrite = none := by
  by_cases h : notAdmin user
  · have hA := Authorize_eq_decidingRow cfg db user topic PermissionWrite h
    rw [hd] at hA
    simp only at hA
    rw [decidingRow_eq_firstRow] at hd
    have hdm := mem_topicPermsRows.1 (firstRow_mem _ _ _ hd)
    have hu : w.user = d.user := (mem_matchingGrants.1 hw).2.1
    have hin : w ∈ (accessJoinUser db).filter
        (topicPermsWhere Everyone (callerName user) topic) :=
      mem_topicPermsRows.2 ⟨by rw [hu]; exact hdm.1, by rw [hu]; exact hw⟩
    have hp := firstRow_precedes permPrecedes permPrecedes_total permPrecedes_trans _ d hd w hin
    have hs := permPrecedes_same_user hu.symm hp
    have hle := hmax d hdm.2
    have hdw : d.write = true := hs.2 (by omega) hww
    rw [hA, hdw]
    rfl
  · exact Authorize_of_admin cfg db user topic _ h

/-- C3, witness: `phil` holds `a*` (read) and `*a` (write) and nothing longer; the
write to `aa` is ok. -/
theorem Authorize_write_tie_witness :
    Authorize cfgDeny tieTopDB (some phil) "aa" PermissionWrite = none :=
  Authorize_write_tie cfgDeny tieTopDB (some phil) "aa"
    ⟨"phil", "%a", false, true⟩ ⟨"phil", "%a", false, true⟩ ⟨"phil", "a%", true, false⟩
    (by decide) (by decide) (by decide) (by decide) (by decide) (by decide) (by decide)

/-- C4: two databases hold the same users and the same grant rows, stored in a
different order, and the grant rows have unique keys (`PRIMARY KEY (user_id,
topic)`). Then `Authorize`, on the tables as the query reads them, returns the same
result on both, for every user, topic and permission. -/
theorem Authorize_storage_order_independent (cfg : Config) (db1 db2 : DB)
    (user : Option User) (topic : String) (perm : Permission)
    (hu : db1.users = db2.users) (ha : db1.access.Perm db2.access)
    (hkeys : AccessKeysUnique db1) :
    Authorize cfg (indexScan db1) user topic perm =
      Authorize cfg (indexScan db2) user topic perm :=
  Authorize_congr cfg (indexScan db1) (indexScan db2) user topic perm hu
    (orderBy_accessKey_eq_of_perm db1.access db2.access ha hkeys)

/-- C4, witness: the grants `(phil, "alerts-*", read)` and `(phil, "*-server", deny)`
tie on user, stored length and write bit. Stored in either order, the read of
`alerts-server` is refused: the stored pattern `%-server` stands first in the
index. -/
theorem Authorize_storage_order_independent_witness :
    Authorize cfgDeny (indexScan orderDB1) (some phil) "alerts-server" PermissionRead =
        Authorize cfgDeny (indexScan orderDB2) (some phil) "alerts-server" PermissionRead ∧
      Authorize cfgDeny (indexScan orderDB1) (some phil) "alerts-server" PermissionRead =
        some Error.ErrUnauthorized ∧
      Authorize cfgDeny (indexScan orderDB2) (some phil) "alerts-server" PermissionRead =
        some Error.ErrUnauthorized :=
  ⟨Authorize_storage_order_independent cfgDeny orderDB1 orderDB2 (some phil) "alerts-server"
    PermissionRead rfl (List.Perm.swap _ _ _) (by decide), by decide, by decide⟩

/-- C5, counterexample: a request for read and write together is refused although
its bits are a subset of the bits of a read-write grant. -/
theorem resolvePerms_subset_counterexample :
    PermissionReadWrite.subset PermissionReadWrite ∧
      resolvePerms PermissionReadWrite PermissionReadWrite = some Error.ErrUnauthorized ∧
      PermissionDenyAll.subset PermissionRead ∧
      resolvePerms PermissionRead PermissionDenyAll = some Error.ErrUnauthorized := by
  decide

/-- C5, amended: `resolvePerms g p` is ok exactly when `p` is the read permission or
the write permission and its bit is set in `g`; in every other case, also when `p`
has no bit or both bits, it is `ErrUnauthorized`. -/
theorem resolvePerms_spec (g p : Permission) :
    resolvePerms g p =
      if (p = PermissionRead ∨ p = PermissionWrite) ∧ p.subset g then none
      else some Error.ErrUnauthorized := by
  rcases g with ⟨_ | _, _ | _⟩ <;> rcases p with ⟨_ | _, _ | _⟩ <;> decide

/-- C6: for an admin caller `Authorize` returns ok, whatever the grant table, the
default access, the topic and the requested permission are. -/
theorem Authorize_admin (cfg : Config) (db : DB) (u : User) (topic : String)
    (perm : Permission) (h : u.Role = RoleAdmin) :
    Authorize cfg db (some u) topic perm = none := by
  simp [Authorize, h]

/-- C6, witness: the admin `root` may write to `secret` on a database without grants
and with a default access that denies everything. -/
theorem Authorize_admin_witness :
    root.Role = RoleAdmin ∧
      Authorize cfgDeny (grantsDB []) (some root) "secret" PermissionWrite = none :=
  ⟨by decide, Authorize_admin cfgDeny (grantsDB []) root "secret" PermissionWrite (by decide)⟩

/-- C7: when no grant of a non-admin (or anonymous) caller and no grant of `*`
matches the topic, `Authorize` answers from the configured default access: for a
read or a write request it is ok iff the default access includes the request. -/
theorem Authorize_default_access (cfg : Config) (db : DB) (user : Option User)
    (topic : String) (p : Permission) (h : notAdmin user)
    (hown : matchingGrants db (callerName user) topic = [])
    (hall : matchingGrants db Everyone topic = [])
    (hp : p = PermissionRead ∨ p = PermissionWrite) :
    Authorize cfg db user topic p = resolvePerms (DefaultAccess cfg) p ∧
      (Authorize cfg db user topic p = none ↔ p.subset (DefaultAccess cfg)) ∧
      (Authorize cfg db user topic p ≠ none →
        Authorize cfg db user topic p = some Error.ErrUnauthorized) := by
  have hrows : (accessJoinUser db).filter (topicPermsWhere Everyone (callerName user) topic)
      = [] := by
    apply List.filter_eq_nil_iff.2
    intro r hr hw
    have hm := (@mem_topicPermsRows db (callerName user) topic r).1
      (List.mem_filter.2 ⟨hr, hw⟩)
    rcases hm.1 with e | e
    · have := hm.2; rw [e, hall] at this; simp at this
    · have := hm.2; rw [e, hown] at this; simp at this
  have hd : decidingRow db (callerName user) topic = none := by
    rw [decidingRow_eq_firstRow, hrows]; rfl
  have hA := Authorize_eq_decidingRow cfg db user topic p h
  rw [hd] at hA
  simp only at hA
  rw [hA, DefaultAccess, resolvePerms_eq]
  by_cases hs : p.subset cfg.DefaultAccess
  · simp [hp, hs]
  · simp [hs]

/-- C7, witness: `phil` has no matching grant on `news` and neither has `*`; with a
read-only default access he may read and may not write. -/
theorem Authorize_default_access_witness :
    Authorize ⟨PermissionRead⟩ fooDB (some phil) "news" PermissionRead = none ∧
      Authorize ⟨PermissionRead⟩ fooDB (some phil) "news" PermissionWrite =
        some Error.ErrUnauthorized := by
  have h1 := Authorize_default_access ⟨PermissionRead⟩ fooDB (some phil) "news" PermissionRead
    (by decide) (by decide) (by decide) (by decide)
  have h2 := Authorize_default_access ⟨PermissionRead⟩ fooDB (some phil) "news" PermissionWrite
    (by decide) (by decide) (by decide) (by decide)
  exact ⟨h1.2.1.2 (by decide), h2.2.2 (fun e => absurd (h2.2.1.1 e) (by decide))⟩

/-- C8, counterexample: the stored form of the valid pattern `alerts*` matches the
topic `ALERTS1` under `LIKE`, but the glob in which every character other than `*`
matches only itself does not. And the stored form of the valid pattern `a` matches
the text `a`, NUL, `b` under `LIKE`, which stops at the NUL, while the glob does
not match it, with or without the letter case. -/
theorem like_glob_counterexample :
    validPattern "alerts*" ∧ like "ALERTS1" (toSQLWildcard "alerts*") = true ∧
      globMatch "alerts*" "ALERTS1" = false ∧
      validPattern "a" ∧ like "a\x00b" (toSQLWildcard "a") = true ∧
      globMatch "a" "a\x00b" = false ∧ globMatchNoCase "a" "a\x00b" = false := by
  decide

/-- C8, amended: for a valid user-facing pattern `p` and any topic `t` without a NUL
character, the match `t LIKE toSQLWildcard(p) ESCAPE '\'` holds iff `t` matches `p`
as a glob in which `*` matches zero or more characters and every other character,
including `_`, matches itself or, for an ASCII letter, its other-case form. -/
theorem like_toSQLWildcard_iff_glob (p t : String) (hp : validPattern p)
    (ht : Char.ofNat 0 ∉ t.data) :
    like t (toSQLWildcard p) = true ↔ globMatchNoCase p t = true := by
  unfold globMatchNoCase
  rw [like_encode p t hp ht]

/-- C8, witness: `my_topic*` matches `my_topic1` and does not match `myxtopic1`, both
under `LIKE` on the stored form and as a glob. -/
theorem like_toSQLWildcard_iff_glob_witness :
    (like "my_topic1" (toSQLWildcard "my_topic*") = true ↔
        globMatchNoCase "my_topic*" "my_topic1" = true) ∧
      like "my_topic1" (toSQLWildcard "my_topic*") = true ∧
      like "myxtopic1" (toSQLWildcard "my_topic*") = false :=
  ⟨like_toSQLWildcard_iff_glob "my_topic*" "my_topic1" (by decide) (by decide), by decide,
    by decide⟩

/-- C9: for every valid user-facing pattern `p`, decoding the encoded pattern gives
`p` back, `fromSQLWildcard (toSQLWildcard p) = p`; so after `AllowAccess` has stored
`p` for a user, `Grants` of that user and `AllGrants` list a grant whose pattern is
`p` unchanged, with the permission given. -/
theorem fromSQLWildcard_toSQLWildcard (p : String) (hp : validPattern p) :
    fromSQLWildcard (toSQLWildcard p) = p ∧
      ∀ (v : Predicates) (db db' : DB) (username : String) (perm : Permission),
        AllowAccess v db username p perm = .ok db' →
          ({ TopicPattern := p, Permission := perm, Provisioned := false } : Grant) ∈
              Grants db' username ∧
            ∃ uid, selectUserID db' username = some uid ∧
              ({ TopicPattern := p, Permission := perm, Provisioned := false } : Grant) ∈
                AllGrants db' uid := by
  have hround : fromSQLWildcard (toSQLWildcard p) = p := by
    apply String.ext
    have h1 : ("%" : String).data = ['%'] := rfl
    have h2 : ("*" : String).data = ['*'] := rfl
    have h3 : ("_" : String).data = ['_'] := rfl
    have h4 : ("\\_" : String).data = ['\\', '_'] := rfl
    have hd := toSQLWildcard_data p
    simp only [fromSQLWildcard, unescapeUnderscore, ReplaceAll, h1, h2, h3, h4,
      List.cons_ne_nil, if_false, replaceAllAux_single, hd]
    exact decode_encode_data p.data hp
  refine ⟨hround, ?_⟩
  intro v db db' username perm h
  obtain ⟨uid, hid, hmem⟩ := AllowAccess_stores v db db' username p perm h
  have hg : toGrant
      { user_id := uid, topic := toSQLWildcard p, read := perm.IsRead,
        write := perm.IsWrite, owner_user_id := none, provisioned := false } =
      { TopicPattern := p, Permission := perm, Provisioned := false } := by
    simp only [toGrant, hround, NewPermission, Permission.IsRead, Permission.IsWrite]
  refine ⟨?_, uid, hid, ?_⟩
  · rw [← hg]
    apply List.mem_map_of_mem
    rw [selectUserAccessQuery, mem_orderBy]
    exact List.mem_filter.2 ⟨hmem, by simp [hid]⟩
  · rw [← hg]
    apply List.mem_map_of_mem
    apply List.mem_filter.2
    refine ⟨?_, by simp⟩
    rw [selectUserAllAccessQuery, mem_orderBy]
    exact hmem

/-- C9, witness: `my_topic*` is stored as `my\_topic%` and read back unchanged, and
after `AllowAccess(phil, "my_topic*", read)` the grants of `phil` are that one. -/
theorem fromSQLWildcard_toSQLWildcard_witness :
    validPattern "my_topic*" ∧ toSQLWildcard "my_topic*" = "my\\_topic%" ∧
      fromSQLWildcard (toSQLWildcard "my_topic*") = "my_topic*" ∧
      ∃ db', AllowAccess allowAll (grantsDB []) "phil" "my_topic*" PermissionRead = .ok db' ∧
        ({ TopicPattern := "my_topic*", Permission := PermissionRead,
           Provisioned := false } : Grant) ∈ Grants db' "phil" :=
  ⟨by decide, by decide, (fromSQLWildcard_toSQLWildcard "my_topic*" (by decide)).1,
    _, rfl, ((fromSQLWildcard_toSQLWildcard "my_topic*" (by decide)).2 allowAll
      (grantsDB []) _ "phil" PermissionRead rfl).1⟩

/-- C10: on a token table that satisfies its primary key, whenever `CreateToken`
returns successfully the number of token rows of that user is at most 60, however
many tokens the user held before. -/
theorem CreateToken_count_le (db db' : DB) (now : Int) (token userID label : String)
    (expires : Int) (origin : String) (provisioned : Bool) (tok : Token)
    (hpk : TokenKeysUnique db)
    (h : CreateToken db now token userID label expires origin provisioned = .ok (db', tok)) :
    selectTokenCountQuery db' userID ≤ 60 := by
  unfold CreateToken createTokenTx at h
  split at h
  · cases h
  · rename_i db1 hup
    have hpk1 := upsertTokenQuery_keys _ _ _ hpk hup
    simp only [Except.ok.injEq, Prod.mk.injEq] at h
    obtain ⟨hdb, _⟩ := h
    subst hdb
    split
    · exact deleteExcessTokensQuery_count db1 userID tokenMaxCount hpk1
    · rename_i hlt
      simp only [tokenMaxCount] at hlt
      omega

/-- C10, witness: `phil` holds sixty tokens; `CreateToken` succeeds and leaves him
with sixty. -/
theorem CreateToken_count_le_witness :
    selectTokenCountQuery fullDB "u_phil" = 60 ∧
      ∃ db' tok, CreateToken fullDB 100 "tk_new" "u_phil" "" 1000 "0.0.0.0" false
          = .ok (db', tok) ∧
        selectTokenCountQuery db' "u_phil" ≤ 60 :=
  ⟨by decide, _, _, rfl,
    CreateToken_count_le fullDB _ 100 "tk_new" "u_phil" "" 1000 "0.0.0.0" false _
      (by decide) rfl⟩

/-- C11: a user holds `n` tokens and one more token with a fresh value is created,
the `n + 1` expiry times being pairwise distinct. `CreateToken` succeeds; the user's
surviving tokens are `min (n + 1) 60` of the `n + 1`, unchanged, and every dropped
token expires before every surviving one, so the survivors are exactly those with
the largest `expires`; the tokens of every other user are unchanged. -/
theorem CreateToken_keeps_largest (db : DB) (now : Int) (token userID label : String)
    (expires : Int) (origin : String) (provisioned : Bool)
    (hpk : TokenKeysUnique db) (huser : ∃ u ∈ db.users, u.id = userID)
    (hfresh : ∀ t ∈ db.tokens, t.token ≠ token)
    (hdist : ((selectTokensQuery db userID).map (fun t => t.expires) ++ [expires]).Nodup) :
    ∃ db' tok,
      CreateToken db now token userID label expires origin provisioned = .ok (db', tok) ∧
      (selectTokensQuery db' userID).length =
        min ((selectTokensQuery db userID).length + 1) 60 ∧
      (selectTokensQuery db' userID).Sublist (selectTokensQuery db userID ++
        [insertedTokenRow now userID token label expires origin provisioned]) ∧
      (∀ s ∈ selectTokensQuery db' userID,
        ∀ d ∈ selectTokensQuery db userID ++
            [insertedTokenRow now userID token label expires origin provisioned],
          d ∉ selectTokensQuery db' userID → d.expires < s.expires) ∧
      ∀ other, other ≠ userID → selectTokensQuery db' other = selectTokensQuery db other := by
  generalize hnew : insertedTokenRow now userID token label expires origin provisioned = new
  have hnu : new.user_id = userID := by rw [← hnew]; rfl
  have hnt : new.token = token := by rw [← hnew]; rfl
  have hne : new.expires = expires := by rw [← hnew]; rfl
  have hup : upsertTokenQuery db new = .ok { db with tokens := db.tokens ++ [new] } :=
    upsertTokenQuery_fresh db new (by rw [hnu]; exact huser) (by rw [hnt]; exact hfresh)
  generalize hdb1 : ({ db with tokens := db.tokens ++ [new] } : DB) = db1 at hup
  have hall : selectTokensQuery db1 userID = selectTokensQuery db userID ++ [new] := by
    rw [← hdb1]
    simp [selectTokensQuery, List.filter_append, hnu]
  have hoth : ∀ other, other ≠ userID →
      selectTokensQuery db1 other = selectTokensQuery db other := by
    intro other ho
    rw [← hdb1]
    have : ¬ new.user_id = other := by rw [hnu]; exact fun e => ho e.symm
    simp [selectTokensQuery, List.filter_append, this]
  have hpk1 : TokenKeysUnique db1 := upsertTokenQuery_keys _ _ _ hpk hup
  have hcreate : CreateToken db now token userID label expires origin provisioned =
      .ok (if selectTokenCountQuery db1 userID ≥ tokenMaxCount then
            deleteExcessTokensQuery db1 userID userID tokenMaxCount else db1,
          { Value := token, Label := label, LastAccess := now, LastOrigin := origin,
            Expires := expires, Provisioned := provisioned }) := by
    have hup' := hup
    rw [← hnew, insertedTokenRow] at hup'
    unfold CreateToken createTokenTx
    rw [hup']
  have hcount : selectTokenCountQuery db1 userID = (selectTokensQuery db userID).length + 1 := by
    have : selectTokenCountQuery db1 userID = (selectTokensQuery db1 userID).length := rfl
    rw [this, hall]; simp
  refine ⟨_, _, hcreate, ?_⟩
  by_cases hc : selectTokenCountQuery db1 userID ≥ tokenMaxCount
  · rw [if_pos hc]
    have hrows := deleteExcessTokensQuery_rows db1 userID tokenMaxCount hpk1
    rw [hall] at hrows
    generalize hS : (orderBy (fun x y : TokenRow => decide (y.expires ≤ x.expires))
      (selectTokensQuery db userID ++ [new])).take tokenMaxCount = S at hrows
    have hallnd : (selectTokensQuery db userID ++ [new]).Nodup := by
      rw [← hall]
      exact (List.Nodup.of_map _ hpk1).sublist (List.filter_sublist _)
    have hSsub : ∀ s ∈ S, s ∈ selectTokensQuery db userID ++ [new] := by
      intro s hs
      rw [← hS] at hs
      exact (mem_orderBy _ _ s).1 (List.mem_of_mem_take hs)
    have hSnd : S.Nodup := by
      rw [← hS]
      exact ((orderBy_perm _ _).nodup_iff.2 hallnd).sublist (List.take_sublist _ _)
    have hSlen : S.length = 60 := by
      rw [← hS, List.length_take, length_orderBy]
      have : (selectTokensQuery db userID ++ [new]).length =
          (selectTokensQuery db userID).length + 1 := by simp
      rw [this]
      simp only [tokenMaxCount] at hc ⊢
      omega
    have hperm : ((selectTokensQuery db userID ++ [new]).filter fun t => decide (t ∈ S)).Perm S := by
      apply (List.perm_ext_iff_of_nodup (hallnd.filter _) hSnd).2
      intro a
      simp only [List.mem_filter, decide_eq_true_eq]
      exact ⟨fun h => h.2, fun h => ⟨hSsub a h, h⟩⟩
    rw [hrows]
    refine ⟨?_, List.filter_sublist _, ?_, ?_⟩
    · rw [hperm.length_eq, hSlen]
      simp only [tokenMaxCount] at hc
      omega
    · intro s hs d hd hnd
      have hsS : s ∈ S := by simpa using (List.mem_filter.1 hs).2
      have hdS : d ∉ S := fun h => hnd (List.mem_filter.2 ⟨hd, by simpa using h⟩)
      have hle := orderBy_take_precedes _ expiresDesc_total expiresDesc_trans
        (selectTokensQuery db userID ++ [new]) tokenMaxCount s d (by rw [hS]; exact hsS) hd
        (by rw [hS]; exact hdS)
      have hle' : d.expires ≤ s.expires := by simpa using hle
      have hinj : (List.map (fun t : TokenRow => t.expires)
          (selectTokensQuery db userID ++ [new])).Nodup := by
        simpa [hne] using hdist
      have hneq : d.expires ≠ s.expires := by
        intro e
        have := List.inj_on_of_nodup_map hinj hd (hSsub s hsS) e
        exact hdS (this ▸ hsS)
      omega
    · intro other ho
      rw [deleteExcessTokensQuery_others db1 userID other _ ho, hoth other ho]
  · rw [if_neg hc, hall]
    refine ⟨?_, List.Sublist.refl _, ?_, hoth⟩
    · simp only [tokenMaxCount] at hc
      simp only [List.length_append, List.length_singleton]
      omega
    · intro s _ d hd hnd
      exact absurd hd hnd

/-- C11, witness: `phil` holds sixty tokens with the expiry times `1, ..., 60`; after
one more token with expiry time `1000`, sixty remain and the one dropped is the token
with expiry time `1`. -/
theorem CreateToken_keeps_largest_witness :
    (match CreateToken fullDB 100 "tk_new" "u_phil" "" 1000 "0.0.0.0" false with
      | .ok (db', _) => (selectTokensQuery db' "u_phil").map fun t => t.expires
      | .error _ => []) = ((List.range 59).map fun i => (i : Int) + 2) ++ [1000] ∧
    ∃ db' tok,
      CreateToken fullDB 100 "tk_new" "u_phil" "" 1000 "0.0.0.0" false = .ok (db', tok) ∧
      (selectTokensQuery db' "u_phil").length =
        min ((selectTokensQuery fullDB "u_phil").length + 1) 60 ∧
      (selectTokensQuery db' "u_phil").Sublist (selectTokensQuery fullDB "u_phil" ++
        [insertedTokenRow 100 "u_phil" "tk_new" "" 1000 "0.0.0.0" false]) ∧
      (∀ s ∈ selectTokensQuery db' "u_phil",
        ∀ d ∈ selectTokensQuery fullDB "u_phil" ++
            [insertedTokenRow 100 "u_phil" "tk_new" "" 1000 "0.0.0.0" false],
          d ∉ selectTokensQuery db' "u_phil" → d.expires < s.expires) ∧
      ∀ other, other ≠ "u_phil" →
        selectTokensQuery db' other = selectTokensQuery fullDB other :=
  ⟨by decide, CreateToken_keeps_largest fullDB 100 "tk_new" "u_phil" "" 1000 "0.0.0.0" false
    (by decide) (by decide) (by decide) (by decide)⟩

/-- C12, failing input: `phil` holds sixty tokens with finite expiry times; a token
that never expires (`expires = 0`) is created for him. `CreateToken` returns the token
without error, yet the row was pruned in the same transaction: `Tokens` does not list
the returned value and `Token` does not find it. -/
theorem CreateToken_returned_token_not_listed :
    (∃ u ∈ fullDB.users, u.id = "u_phil") ∧
    ∃ db' tok,
      CreateToken fullDB 100 "tk_new" "u_phil" "" 0 "0.0.0.0" false = .ok (db', tok) ∧
      tok.Value = "tk_new" ∧ tok.Expires = 0 ∧
      (∀ t ∈ Tokens libToy db' "u_phil", t.Value ≠ "tk_new") ∧
      Manager.Token libToy db' "u_phil" "tk_new" = .error Error.ErrTokenNotFound :=
  ⟨by decide, _, _, rfl, by decide, by decide, by decide, by rfl⟩

/-- C13: on a store whose token rows belong to stored users and whose preferences
unmarshal, `AuthenticateToken(v)` at time `now` returns a user iff `len(v) = 32` and
a token row with value `v` exists whose `expires` is `0` or `>= now`; the user
returned is the owner of such a row with its `Token` field set to `v`; in every other
case the result is `ErrUnauthenticated`. -/
theorem AuthenticateToken_spec (lib : Lib) (db : DB) (now : Int) (v : String)
    (hfk : TokenOwnersExist db) (hprefs : PrefsValid lib db) :
    ((∃ u, AuthenticateToken lib db now v = .ok u) ↔
        goLen v = 32 ∧ ∃ t ∈ db.tokens, t.token = v ∧ (t.expires = 0 ∨ now ≤ t.expires)) ∧
      (∀ u, AuthenticateToken lib db now v = .ok u →
        u.Token = v ∧ ∃ t ∈ db.tokens, t.token = v ∧ (t.expires = 0 ∨ now ≤ t.expires) ∧
          ∃ r ∈ db.users, r.id = t.user_id ∧ u = { userOfRow r with Token := v }) ∧
      ((¬ ∃ u, AuthenticateToken lib db now v = .ok u) →
        AuthenticateToken lib db now v = .error Error.ErrUnauthenticated) := by
  have hown : ∀ u, AuthenticateToken lib db now v = .ok u →
      u.Token = v ∧ ∃ t ∈ db.tokens, t.token = v ∧ (t.expires = 0 ∨ now ≤ t.expires) ∧
        ∃ r ∈ db.users, r.id = t.user_id ∧ u = { userOfRow r with Token := v } := by
    intro u hu
    obtain ⟨_, r, hr, e⟩ := (AuthenticateToken_ok_iff lib db now v u hprefs).1 hu
    have hmem : r ∈ selectUserByTokenQuery db v now := List.mem_of_mem_head? hr
    obtain ⟨hru, tk, htk, h1, h2, h3⟩ := mem_selectUserByTokenQuery.1 hmem
    exact ⟨by rw [e], tk, htk, h2, h3, r, hru, h1, e⟩
  refine ⟨⟨?_, ?_⟩, hown, ?_⟩
  · rintro ⟨u, hu⟩
    obtain ⟨_, t, ht, h1, h2, _⟩ := hown u hu
    exact ⟨((AuthenticateToken_ok_iff lib db now v u hprefs).1 hu).1, t, ht, h1, h2⟩
  · rintro ⟨hl, t, ht, h1, h2⟩
    obtain ⟨u0, hu0, e0⟩ := hfk t ht
    have hmem : u0 ∈ selectUserByTokenQuery db v now :=
      mem_selectUserByTokenQuery.2 ⟨hu0, t, ht, e0, h1, h2⟩
    cases hrows : selectUserByTokenQuery db v now with
    | nil => rw [hrows] at hmem; simp at hmem
    | cons r rs =>
      exact ⟨_, (AuthenticateToken_ok_iff lib db now v _ hprefs).2
        ⟨hl, r, by rw [hrows]; rfl, rfl⟩⟩
  · intro hno
    cases hres : AuthenticateToken lib db now v with
    | ok u => exact absurd ⟨u, hres⟩ hno
    | error e => rw [AuthenticateToken_error lib db now v e hres]

/-- C13, witness: the never-expiring 32-byte token of `phil` authenticates as `phil`
with the token stamped on the user; a 31-byte value does not. -/
theorem AuthenticateToken_spec_witness :
    goLen "tk_AAAAAAAAAAAAAAAAAAAAAAAAAAAAA" = 32 ∧
      ((∃ u, AuthenticateToken libToy authDB 1000 "tk_AAAAAAAAAAAAAAAAAAAAAAAAAAAAA" = .ok u) ↔
        goLen "tk_AAAAAAAAAAAAAAAAAAAAAAAAAAAAA" = 32 ∧
          ∃ t ∈ authDB.tokens, t.token = "tk_AAAAAAAAAAAAAAAAAAAAAAAAAAAAA" ∧
            (t.expires = 0 ∨ (1000 : Int) ≤ t.expires)) ∧
      (∃ u, AuthenticateToken libToy authDB 1000 "tk_AAAAAAAAAAAAAAAAAAAAAAAAAAAAA" = .ok u ∧
        u.Name = "phil" ∧ u.Token = "tk_AAAAAAAAAAAAAAAAAAAAAAAAAAAAA") ∧
      AuthenticateToken libToy authDB 1000 "tk_AAAAAAAAAAAAAAAAAAAAAAAAAAAA" =
        .error Error.ErrUnauthenticated :=
  ⟨by decide,
    (AuthenticateToken_spec libToy authDB 1000 "tk_AAAAAAAAAAAAAAAAAAAAAAAAAAAAA"
      (by decide) (by decide)).1,
    ⟨_, rfl, by decide, by decide⟩, by rfl⟩

/-- C14: on a store with unique usernames whose preferences unmarshal,
`Authenticate` returns the stored user iff the username is not `*`, a user with that
name exists, is not marked deleted, and the password verifies against the stored
hash; in every other case it returns `ErrUnauthenticated`, the same value whichever
precondition failed. In particular `Authenticate("*", pw)` fails for every `pw`. -/
theorem Authenticate_spec (lib : Lib) (db : DB) (username password : String)
    (hn : UserNamesUnique db) (hprefs : PrefsValid lib db) :
    (∀ u, Authenticate lib db username password = .ok u ↔
        username ≠ Everyone ∧ ∃ r ∈ db.users, r.user = username ∧ r.deleted = none ∧
          lib.CompareHashAndPassword r.pass password = true ∧ u = userOfRow r) ∧
      ((¬ ∃ u, Authenticate lib db username password = .ok u) →
        Authenticate lib db username password = .error Error.ErrUnauthenticated) ∧
      (∀ pw, Authenticate lib db Everyone pw = .error Error.ErrUnauthenticated) := by
  refine ⟨?_, ?_, ?_⟩
  · intro u
    unfold Authenticate authenticate
    by_cases he : username = Everyone
    · simp [he]
    · rw [if_neg he]
      by_cases hex : ∃ r ∈ db.users, r.user = username
      · obtain ⟨r, hr, hru⟩ := hex
        subst hru
        have hq := selectUserByNameQuery_of_unique db hn r hr
        have hU : Manager.User lib db r.user = .ok (userOfRow r) := by
          unfold Manager.User
          rw [hq, readUser_ok lib r [] (hprefs r hr)]
        have huniq : ∀ r' ∈ db.users, r'.user = r.user → r' = r :=
          fun r' hr' e => List.inj_on_of_nodup_map hn hr' hr e
        rw [hU]
        simp only [userOfRow]
        cases hd : r.deleted with
        | some d =>
          simp only [Option.isSome_some, if_true]
          constructor
          · intro h; cases h
          · rintro ⟨_, r', hr', e, hdel, _⟩
            rw [huniq r' hr' e, hd] at hdel
            cases hdel
        | none =>
          simp only [Option.isSome_none, Bool.false_eq_true, if_false]
          cases hc : lib.CompareHashAndPassword r.pass password with
          | false =>
            simp only [Bool.not_false, if_true]
            constructor
            · intro h; cases h
            · rintro ⟨_, r', hr', e, _, hv, _⟩
              rw [huniq r' hr' e, hc] at hv
              cases hv
          | true =>
            simp only [Bool.not_true, Bool.false_eq_true, if_false, Except.ok.injEq]
            constructor
            · intro e
              exact ⟨he, r, hr, rfl, hd, hc, by rw [← e, hd]; rfl⟩
            · rintro ⟨_, r', hr', e, _, _, hu⟩
              rw [hu, huniq r' hr' e, hd]; rfl
      · have hnil := selectUserByNameQuery_eq_nil db username
          (fun r hr e => hex ⟨r, hr, e⟩)
        have hU : Manager.User lib db username = .error Error.ErrUserNotFound := by
          unfold Manager.User
          rw [hnil]; rfl
        rw [hU]
        simp only
        constructor
        · intro h; cases h
        · rintro ⟨_, r, hr, e, _⟩
          exact absurd ⟨r, hr, e⟩ hex
  · intro hno
    cases hres : Authenticate lib db username password with
    | ok u => exact absurd ⟨u, hres⟩ hno
    | error e => rw [authenticate_fst_error lib db username password e hres]
  · intro pw
    simp [Authenticate, authenticate]

/-- C14, witness: `phil` authenticates with the password that verifies and fails
with another one; the deleted user `bob` and the anonymous user fail. -/
theorem Authenticate_spec_witness :
    (∃ u, Authenticate libToy authDB "phil" "mypass" = .ok u ∧ u.Name = "phil" ∧
        u.Role = RoleUser) ∧
      Authenticate libToy authDB "phil" "wrong" = .error Error.ErrUnauthenticated ∧
      Authenticate libToy authDB "bob" "bobpass" = .error Error.ErrUnauthenticated ∧
      Authenticate libToy authDB Everyone "" = .error Error.ErrUnauthenticated :=
  ⟨⟨_, ((Authenticate_spec libToy authDB "phil" "mypass" (by decide) (by decide)).1 _).2
      ⟨by decide, { mkUserRow "u_phil" "phil" RoleUser with pass := "mypass" }, by decide,
        by decide, by decide, by decide, rfl⟩, by decide, by decide⟩,
    by rfl, by rfl,
    (Authenticate_spec libToy authDB Everyone "" (by decide) (by decide)).2.2 ""⟩

/-- C15: for a username other than `*`, on every path of `Authenticate` (user
missing, user marked deleted, hash mismatch, success) exactly one password-hash
verification is made; when the user is missing or marked deleted it is the dummy
verification against the fixed hash, whose encoded cost is
`DefaultUserPasswordBcryptCost`, 10; otherwise it is the verification of the
password against the stored hash. -/
theorem authenticate_hash_checks (lib : Lib) (db : DB) (username password : String)
    (hne : username ≠ Everyone) :
    (authenticate lib db username password).2.length = 1 ∧
      (∀ e, Manager.User lib db username = .error e →
        (authenticate lib db username password).2 =
          [⟨userAuthIntentionalSlowDownHash, slowDownPassword⟩]) ∧
      (∀ u, Manager.User lib db username = .ok u → u.Deleted = true →
        (authenticate lib db username password).2 =
          [⟨userAuthIntentionalSlowDownHash, slowDownPassword⟩]) ∧
      (∀ u, Manager.User lib db username = .ok u → u.Deleted = false →
        (authenticate lib db username password).2 = [⟨u.Hash, password⟩]) ∧
      decodeCost userAuthIntentionalSlowDownHash = some DefaultUserPasswordBcryptCost ∧
      DefaultUserPasswordBcryptCost = 10 := by
  have hcost : decodeCost userAuthIntentionalSlowDownHash =
      some DefaultUserPasswordBcryptCost := by decide
  refine ⟨?_, ?_, ?_, ?_, hcost, rfl⟩
  · unfold authenticate
    rw [if_neg hne]
    split
    · rfl
    · split
      · rfl
      · split <;> rfl
  · intro e h
    unfold authenticate
    rw [if_neg hne, h]
  · intro u h hd
    unfold authenticate
    rw [if_neg hne, h]
    simp only [hd, if_true]
  · intro u h hd
    unfold authenticate
    rw [if_neg hne, h]
    simp only [hd, Bool.false_eq_true, if_false]
    split <;> rfl

/-- C15, witness: a missing user, the deleted user `bob`, `phil` with a wrong and
with the right password: one verification each, the dummy one in the first two. -/
theorem authenticate_hash_checks_witness :
    (authenticate libToy authDB "nobody" "x").2 =
        [⟨userAuthIntentionalSlowDownHash, slowDownPassword⟩] ∧
      (authenticate libToy authDB "bob" "bobpass").2 =
        [⟨userAuthIntentionalSlowDownHash, slowDownPassword⟩] ∧
      (authenticate libToy authDB "phil" "wrong").2 = [⟨"mypass", "wrong"⟩] ∧
      (authenticate libToy authDB "phil" "mypass").2.length = 1 :=
  ⟨by decide, by decide, by decide,
    (authenticate_hash_checks libToy authDB "phil" "mypass" (by decide)).1⟩

/-- C16: for a stored user `u` (the store has unique usernames), after
`MarkUserRemoved(u)` succeeds at time `now`: `Authenticate(u.Name, pw)` fails for
every `pw`; `Tokens(u.ID)` and `Grants(u.Name)` are empty; no grant row has `u` as
user or as owner; the row of `u` is still there, with `deleted` set to `now` plus
seven days; the token rows of the other users, and the grant rows that neither
belong to `u` nor are owned by `u`, are unchanged. -/
theorem MarkUserRemoved_spec (v : Predicates) (lib : Lib) (db db' : DB) (now : Int)
    (u : User) (hn : UserNamesUnique db)
    (hstored : ∃ r ∈ db.users, r.id = u.ID ∧ r.user = u.Name)
    (h : MarkUserRemoved v db now u = .ok db') :
    (∀ pw, Authenticate lib db' u.Name pw = .error Error.ErrUnauthenticated) ∧
      Tokens lib db' u.ID = [] ∧
      Grants db' u.Name = [] ∧
      (∀ a ∈ db'.access, a.user_id ≠ u.ID ∧ a.owner_user_id ≠ some u.ID) ∧
      (∃ r ∈ db'.users, r.id = u.ID ∧ r.user = u.Name ∧
        r.deleted = some (now + 7 * 24 * 3600)) ∧
      db'.tokens = db.tokens.filter (fun t => t.user_id != u.ID) ∧
      db'.access = db.access.filter
        (fun a => a.user_id != u.ID && a.owner_user_id != some u.ID) := by
  obtain ⟨r, hr, hrid, hrname⟩ := hstored
  have hid : selectUserID db u.Name = some u.ID := by
    rw [← hrname, ← hrid]; exact selectUserID_of_unique db hn r hr
  unfold MarkUserRemoved at h
  split at h
  · cases h
  · injection h with h
    have hacc : db'.access = db.access.filter
        (fun a => a.user_id != u.ID && a.owner_user_id != some u.ID) := by
      rw [← h]
      exact deleteUserAccessQuery_access db u.Name u.ID hid
    have htok : db'.tokens = db.tokens.filter (fun t => t.user_id != u.ID) := by
      rw [← h]; rfl
    have husers : db'.users = db.users.map fun x =>
        if x.id = u.ID then { x with deleted := some (now + userHardDeleteAfterDuration) }
        else x := by
      rw [← h]; rfl
    have hfprop : ∀ x : UserRow,
        ((if x.id = u.ID then
            { x with deleted := some (now + userHardDeleteAfterDuration) } else x).user =
          x.user) ∧
        ((if x.id = u.ID then
            { x with deleted := some (now + userHardDeleteAfterDuration) } else x).id =
          x.id) := by
      intro x; split <;> exact ⟨rfl, rfl⟩
    have hn' : UserNamesUnique db' := by
      unfold UserNamesUnique at hn ⊢
      rw [husers, List.map_map]
      have : ((fun u : UserRow => u.user) ∘ fun x : UserRow =>
          if x.id = u.ID then { x with deleted := some (now + userHardDeleteAfterDuration) }
          else x) = fun u : UserRow => u.user := by
        funext x; exact (hfprop x).1
      rw [this]; exact hn
    have hr' : ({ r with deleted := some (now + userHardDeleteAfterDuration) } : UserRow) ∈
        db'.users := by
      rw [husers]
      apply List.mem_map.2
      exact ⟨r, hr, by rw [if_pos hrid]⟩
    have hid' : selectUserID db' u.Name = some u.ID := by
      have := selectUserID_of_unique db' hn' _ hr'
      simp only at this
      rw [← hrname, ← hrid]; exact this
    have hnone : ∀ a ∈ db'.access, a.user_id ≠ u.ID ∧ a.owner_user_id ≠ some u.ID := by
      intro a ha
      rw [hacc] at ha
      simpa using (List.mem_filter.1 ha).2
    refine ⟨?_, ?_, ?_, hnone, ?_, htok, hacc⟩
    · intro pw
      unfold Authenticate authenticate
      split
      · rfl
      · split
        · rfl
        · rename_i user hU
          obtain ⟨r2, hr2, hu2⟩ := Manager_User_ok lib db' u.Name user hU
          have hq := selectUserByNameQuery_of_unique db' hn' _ hr'
          simp only at hq
          rw [hrname] at hq
          rw [hq] at hr2
          simp only [List.head?_cons, Option.some.injEq] at hr2
          have hdel : user.Deleted = true := by
            rw [hu2, ← hr2]; rfl
          simp [hdel]
    · unfold Tokens selectTokensQuery
      rw [htok, List.filter_filter]
      have : (db.tokens.filter fun a => (a.user_id == u.ID && a.user_id != u.ID)) = [] := by
        apply List.filter_eq_nil_iff.2
        intro t _
        cases hc : (t.user_id == u.ID) <;> simp [bne, hc]
      rw [this]; rfl
    · unfold Grants selectUserAccessQuery
      rw [hid']
      have : (db'.access.filter fun a => some a.user_id == some u.ID) = [] := by
        apply List.filter_eq_nil_iff.2
        intro a ha
        simp [(hnone a ha).1]
      rw [this]; rfl
    · exact ⟨_, hr', hrid, hrname, rfl⟩

/-- C16, witness: `phil` holds a token and a grant; after `MarkUserRemoved(phil)` at
time `1000` he has neither, cannot authenticate, and his row carries the deadline
`605800`. -/
theorem MarkUserRemoved_spec_witness :
    ∃ db', MarkUserRemoved strictPredicates
        { authDB with access := [mkGrant "u_phil" "foo*" PermissionRead] } 1000
        (mkUser "u_phil" "phil" RoleUser) = .ok db' ∧
      db'.tokens = [] ∧ db'.access = [] ∧
      (∀ pw, Authenticate libToy db' "phil" pw = .error Error.ErrUnauthenticated) ∧
      ∃ r ∈ db'.users, r.id = "u_phil" ∧ r.user = "phil" ∧ r.deleted = some 605800 :=
  ⟨_, rfl, by decide, by decide,
    (MarkUserRemoved_spec strictPredicates libToy
      { authDB with access := [mkGrant "u_phil" "foo*" PermissionRead] } _ 1000
      (mkUser "u_phil" "phil" RoleUser) (by decide) (by decide) rfl).1,
    (MarkUserRemoved_spec strictPredicates libToy
      { authDB with access := [mkGrant "u_phil" "foo*" PermissionRead] } _ 1000
      (mkUser "u_phil" "phil" RoleUser) (by decide) (by decide) rfl).2.2.2.2.1⟩

/-- C20: `ChangeRole(u, admin)`, when it succeeds, deletes exactly the grant rows
whose user or owner is `u` (none is left) and leaves every other grant row
unchanged; with a role other than admin it leaves the grant table unchanged; with a
username or role that is not allowed it returns `ErrInvalidArgument` (and no new
state); with allowed arguments and a role of the column's list it succeeds. -/
theorem ChangeRole_spec (v : Predicates) (db : DB) (username : String) (role : Role) :
    (∀ db' uid, ChangeRole v db username role = .ok db' → role = RoleAdmin →
        selectUserID db username = some uid →
          db'.access = db.access.filter
            (fun a => a.user_id != uid && a.owner_user_id != some uid) ∧
          ∀ a ∈ db'.access, a.user_id ≠ uid ∧ a.owner_user_id ≠ some uid) ∧
      (∀ db', ChangeRole v db username role = .ok db' → role ≠ RoleAdmin →
        db'.access = db.access) ∧
      ((v.AllowedUsername username = false ∨ v.AllowedRole role = false) →
        ChangeRole v db username role = .error Error.ErrInvalidArgument) ∧
      (v.AllowedUsername username = true → v.AllowedRole role = true →
        (role = RoleAnonymous ∨ role = RoleAdmin ∨ role = RoleUser) →
        ∃ db', ChangeRole v db username role = .ok db') := by
  refine ⟨?_, ?_, ?_, ?_⟩
  · intro db' uid h hrole hid
    unfold ChangeRole changeRoleTx at h
    split at h
    · cases h
    · split at h
      · cases h
      · rename_i db1 hup
        obtain ⟨hsel, hacc, _⟩ :=
          updateUserRoleQuery_selectUserID db db1 role username username hup
        injection h with h
        have hfil : db'.access = db.access.filter
            (fun a => a.user_id != uid && a.owner_user_id != some uid) := by
          rw [← h, deleteUserAccessQuery_access db1 username uid (by rw [hsel]; exact hid), hacc]
        refine ⟨hfil, ?_⟩
        intro a ha
        rw [hfil] at ha
        simpa using (List.mem_filter.1 ha).2
  · intro db' h hrole
    unfold ChangeRole changeRoleTx at h
    split at h
    · cases h
    · split at h
      · cases h
      · rename_i db1 hup
        injection h with h
        rw [← h]
        exact (updateUserRoleQuery_selectUserID db db1 role username username hup).2.1
  · intro hbad
    unfold ChangeRole changeRoleTx
    have : (!v.AllowedUsername username || !v.AllowedRole role) = true := by
      rcases hbad with e | e <;> simp [e]
    rw [if_pos this]
  · intro h1 h2 h3
    unfold ChangeRole changeRoleTx
    have hok : (!v.AllowedUsername username || !v.AllowedRole role) = false := by
      simp [h1, h2]
    have hcheck : (!(role == RoleAnonymous || role == RoleAdmin || role == RoleUser)) = false := by
      rcases h3 with e | e | e <;> simp [e]
    simp only [hok, Bool.false_eq_true, if_false]
    cases hres : updateUserRoleQuery db role username with
    | error e =>
      exfalso
      unfold updateUserRoleQuery at hres
      split at hres
      · cases hres
      · split at hres
        · rename_i hbad
          rw [hcheck] at hbad
          cases hbad
        · cases hres
    | ok db1 =>
      simp only
      by_cases hr : role = RoleAdmin
      · rw [if_pos hr]; exact ⟨_, rfl⟩
      · rw [if_neg hr]; exact ⟨_, rfl⟩

/-- C20, witness: `phil` holds `foo*` and `bob` holds `bar`; after
`ChangeRole(phil, admin)` only the grant of `bob` is left, and after
`ChangeRole(phil, user)` both are. -/
theorem ChangeRole_spec_witness :
    (∃ db', ChangeRole strictPredicates
        (grantsDB [mkGrant "u_phil" "foo*" PermissionRead, mkGrant "u_bob" "bar" PermissionRead])
        "phil" RoleAdmin = .ok db' ∧
      db'.access = [mkGrant "u_bob" "bar" PermissionRead]) ∧
    (∀ db', ChangeRole strictPredicates
        (grantsDB [mkGrant "u_phil" "foo*" PermissionRead, mkGrant "u_bob" "bar" PermissionRead])
        "phil" RoleUser = .ok db' → RoleUser ≠ RoleAdmin →
      db'.access =
        [mkGrant "u_phil" "foo*" PermissionRead, mkGrant "u_bob" "bar" PermissionRead]) :=
  ⟨⟨_, rfl, by decide⟩,
    (ChangeRole_spec strictPredicates
      (grantsDB [mkGrant "u_phil" "foo*" PermissionRead, mkGrant "u_bob" "bar" PermissionRead])
      "phil" RoleUser).2.1⟩

/-- C19, failing input: `bob` holds the grant `my_*` (read-write, no owner), which
covers the topic `my_topic` in the sense of `Authorize` (his write is allowed by it),
yet `AllowReservation(phil, "my_topic")` returns `nil`: the query matches the escaped
topic `my\_topic`, not the topic, against the stored pattern `my\_%`. -/
theorem AllowReservation_misses_covering_grant :
    validTopic "my_topic" ∧ selectUserID coverDB "phil" = some "u_phil" ∧
      (∀ a ∈ coverDB.access, a.owner_user_id = none) ∧
      (∃ a ∈ coverDB.access, like "my_topic" a.topic = true) ∧
      Authorize cfgDeny coverDB (some bob) "my_topic" PermissionWrite = none ∧
      AllowReservation strictPredicates coverDB "phil" "my_topic" = none := by
  decide

/-- C17: allowed usernames sort after `*` and allowed topics are made of letters,
digits, `-` and `_`. On a table without a grant whose stored pattern matches `T`,
after `AddReservation(owner, T, everyone)` succeeds, `Authorize(owner, T, read)` and
`Authorize(owner, T, write)` are ok, and for every other non-admin caller and for
the anonymous caller `Authorize(v, T, p)` is ok iff `everyone` includes `p`, for `p`
read or write. -/
theorem AddReservation_then_Authorize (v : Predicates) (cfg : Config) (db db' : DB)
    (owner topic : String) (everyone : Permission)
    (hv : ∀ n, v.AllowedUsername n = true → textLt Everyone n = true)
    (ht : ∀ t, v.AllowedTopic t = true → validTopic t)
    (hids : UserIdsUnique db)
    (hno : ∀ a ∈ db.access, like topic a.topic = false)
    (h : AddReservation v db owner topic everyone = .ok db') :
    (∀ u : User, u.Name = owner →
        Authorize cfg db' (some u) topic PermissionRead = none ∧
        Authorize cfg db' (some u) topic PermissionWrite = none) ∧
      (∀ user : Option User, notAdmin user → callerName user ≠ owner →
        ∀ p, p = PermissionRead ∨ p = PermissionWrite →
          (Authorize cfg db' user topic p = none ↔ p.subset everyone)) := by
  obtain ⟨hau, _, hat⟩ := AddReservation_allowed v db db' owner topic everyone h
  have hlike := like_escapeUnderscore_self topic (ht topic hat)
  obtain ⟨rU, rE, n1, n2, hrU, hrUn, hrE, hrEn, hne, _, _, husers, hacc, h1, h1t, h1r, h1w,
    h2, h2t, h2r, h2w⟩ := AddReservation_fresh v db db' owner topic everyone hids hlike hno h
  have hrows := fun name => topicPermsRows_after_AddReservation db db' name topic rU rE n1 n2
    hids hrU hrE hrEn (by rw [hrUn]; exact hne) hlike hno husers hacc h1 h1t h2 h2t
  constructor
  · intro u hu
    by_cases hadm : notAdmin (some u)
    · have hd : decidingRow db' u.Name topic =
          some { user := rU.user, topic := n1.topic, read := true, write := true } := by
        rw [decidingRow_eq_firstRow, hrows u.Name, if_pos (by rw [hrUn, hu])]
        have hp : permPrecedes
            { user := rU.user, topic := n1.topic, read := true, write := true }
            { user := Everyone, topic := n2.topic, read := n2.read, write := n2.write } =
            true := by
          have hne1 : ¬ rU.user = Everyone := by rw [hrUn]; exact hne
          simp only [permPrecedes, ne_eq, hne1, not_false_eq_true, if_true]
          rw [hrUn]; exact hv owner hau
        simp only [List.singleton_append, firstRow, h1r, h1w, hp, if_true]
      constructor
      · rw [Authorize_eq_decidingRow cfg db' (some u) topic _ hadm]
        simp only [callerName, hd]
        rfl
      · rw [Authorize_eq_decidingRow cfg db' (some u) topic _ hadm]
        simp only [callerName, hd]
        rfl
    · exact ⟨Authorize_of_admin cfg db' (some u) topic _ hadm,
        Authorize_of_admin cfg db' (some u) topic _ hadm⟩
  · intro user hadm hother p hp
    have hd : decidingRow db' (callerName user) topic =
        some { user := Everyone, topic := n2.topic, read := everyone.IsRead,
               write := everyone.IsWrite } := by
      rw [decidingRow_eq_firstRow, hrows (callerName user),
        if_neg (by rw [hrUn]; exact fun e => hother e.symm)]
      simp only [List.nil_append, firstRow, h2r, h2w]
    rw [Authorize_eq_decidingRow cfg db' user topic p hadm, hd]
    simp only
    have he : NewPermission everyone.IsRead everyone.IsWrite = everyone := rfl
    rw [he, resolvePerms_eq]
    by_cases hs : p.subset everyone
    · simp [hp, hs]
    · simp [hs]

/-- C17, witness: `alerts` is reserved for `phil` with read-only access for everyone;
`bob` may read and may not write, `phil` may write. -/
theorem AddReservation_then_Authorize_witness :
    ∃ db', AddReservation strictPredicates (grantsDB []) "phil" "alerts" PermissionRead =
        .ok db' ∧
      Authorize cfgDeny db' (some bob) "alerts" PermissionRead = none ∧
      Authorize cfgDeny db' (some bob) "alerts" PermissionWrite = some Error.ErrUnauthorized ∧
      Authorize cfgDeny db' (some phil) "alerts" PermissionWrite = none ∧
      Authorize cfgDeny db' none "alerts" PermissionRead = none :=
  ⟨_, rfl,
    ((AddReservation_then_Authorize strictPredicates cfgDeny (grantsDB []) _ "phil" "alerts"
      PermissionRead (fun _ h => h) (fun _ h => of_decide_eq_true h) (by decide)
      (by decide) rfl).2 (some bob) (by decide) (by decide) PermissionRead
      (Or.inl rfl)).2 (by decide),
    by decide,
    ((AddReservation_then_Authorize strictPredicates cfgDeny (grantsDB []) _ "phil" "alerts"
      PermissionRead (fun _ h => h) (fun _ h => of_decide_eq_true h) (by decide)
      (by decide) rfl).1 phil rfl).2,
    by decide⟩

/-- C18, counterexample: `alerts` is reserved by `phil` and the invariant holds. After
`RemoveReservations(bob, alerts)`, after `AllowAccess(*, alerts, deny)`, after
`ResetAccess(*, alerts)` and after `AddReservation(bob, alerts, read)`, each of
which succeeds, the reservation row of `phil` is still there and no row of `*` on
`alerts` is owned by `phil`: the invariant fails. -/
theorem ReservationPairs_counterexample :
    UserIdsUnique reservedDB ∧ ReservationPairs reservedDB ∧
      (∃ db', RemoveReservations strictPredicates reservedDB "bob" ["alerts"] = .ok db' ∧
        ¬ ReservationPairs db') ∧
      (∃ db', AllowAccess strictPredicates reservedDB Everyone "alerts" PermissionDenyAll =
          .ok db' ∧ ¬ ReservationPairs db') ∧
      (∃ db', ResetAccess strictPredicates reservedDB Everyone "alerts" = .ok db' ∧
        ¬ ReservationPairs db') ∧
      (∃ db', AddReservation strictPredicates reservedDB "bob" "alerts" PermissionRead =
          .ok db' ∧ ¬ ReservationPairs db') :=
  ⟨by decide, by decide, ⟨_, rfl, by decide⟩, ⟨_, rfl, by decide⟩, ⟨_, rfl, by decide⟩,
    ⟨_, rfl, by decide⟩⟩

/-- C18, amended: on a store with unique user ids that satisfies the reservation-pair
invariant, the invariant holds again after `ChangeRole`, `AllowAccess` and
`ResetAccess` for a user other than `*`, and after `AddReservation(U, T)` and
`RemoveReservations(U, T...)` when no user other than `U` holds a reservation on the
topics; and after `AddReservation(U, T)` the reservation of `U` on `T` has both of
its rows. -/
theorem ReservationPairs_preserved (v : Predicates) (db : DB) (hids : UserIdsUnique db)
    (hinv : ReservationPairs db) :
    (∀ U T e db', AddReservation v db U T e = .ok db' →
        NoOtherReservation db U (escapeUnderscore T) →
        ReservationPairs db' ∧
          (U ≠ "" →
            ∃ a ∈ db'.access, ∃ b ∈ db'.access, some a.user_id = selectUserID db' U ∧
              a.owner_user_id = some a.user_id ∧ a.topic = escapeUnderscore T ∧
              a.read = true ∧ a.write = true ∧ some b.user_id = selectUserID db' Everyone ∧
              b.topic = escapeUnderscore T ∧ b.owner_user_id = some a.user_id)) ∧
      (∀ name p perm db', name ≠ Everyone → AllowAccess v db name p perm = .ok db' →
        ReservationPairs db') ∧
      (∀ name p db', name ≠ Everyone → ResetAccess v db name p = .ok db' →
        ReservationPairs db') ∧
      (∀ U topics db', (∀ t ∈ topics, NoOtherReservation db U (escapeUnderscore t)) →
        RemoveReservations v db U topics = .ok db' → ReservationPairs db') ∧
      (∀ name role db', name ≠ Everyone → ChangeRole v db name role = .ok db' →
        ReservationPairs db') :=
  ⟨fun U T e db' h hno => AddReservation_pairs v db db' U T e hids hinv hno h,
    fun name p perm db' hne h => AllowAccess_pairs v db db' name p perm hids hinv hne h,
    fun name p db' hne h => ResetAccess_pairs v db db' name p hids hinv hne h,
    fun U topics db' hno h => RemoveReservations_pairs v db db' U topics hids hinv hno h,
    fun name role db' hne h => ChangeRole_pairs v db db' name role hids hinv hne h⟩

/-- C18, witness: on the store in which `phil` has reserved `alerts`, the invariant
holds after `RemoveReservations(phil, alerts)`, after `AllowAccess(bob, alerts, read)`
and after `ChangeRole(phil, admin)`. -/
theorem ReservationPairs_preserved_witness :
    (∃ db', RemoveReservations strictPredicates reservedDB "phil" ["alerts"] = .ok db' ∧
        db'.access = [] ∧ ReservationPairs db') ∧
      (∃ db', AllowAccess strictPredicates reservedDB "bob" "alerts" PermissionRead = .ok db' ∧
        ReservationPairs db') ∧
      (∃ db', ChangeRole strictPredicates reservedDB "phil" RoleAdmin = .ok db' ∧
        ReservationPairs db') :=
  ⟨⟨_, rfl, by decide,
      (ReservationPairs_preserved strictPredicates reservedDB (by decide) (by decide)).2.2.2.1
        "phil" ["alerts"] _ (by decide) rfl⟩,
    ⟨_, rfl,
      (ReservationPairs_preserved strictPredicates reservedDB (by decide) (by decide)).2.1
        "bob" "alerts" PermissionRead _ (by decide) rfl⟩,
    ⟨_, rfl,
      (ReservationPairs_preserved strictPredicates reservedDB (by decide) (by decide)).2.2.2.2
        "phil" RoleAdmin _ (by decide) rfl⟩⟩

/-- C30: `RemoveExpiredTokens` run at `now` succeeds, leaves the users alone and
keeps the token rows in order; it deletes exactly the rows with
`0 < expires < now`. `AuthenticateToken` at `now` therefore gives the same result
before and after, for every token value: no token it accepts is deleted. Among the
rows with `expires >= 0` the deleted ones are exactly those that the filter of
`AuthenticateToken` (`expires = 0` or `expires >= now`) rejects, and a row with
`expires = 0` is always kept. -/
theorem RemoveExpiredTokens_spec (lib : Lib) (db : DB) (now : Int) :
    ∃ db', RemoveExpiredTokens db now = .ok db' ∧
      db'.users = db.users ∧ db'.access = db.access ∧ db'.tokens.Sublist db.tokens ∧
      (∀ t, t ∈ db'.tokens ↔ t ∈ db.tokens ∧ ¬ (0 < t.expires ∧ t.expires < now)) ∧
      (∀ v, AuthenticateToken lib db' now v = AuthenticateToken lib db now v) ∧
      (∀ t ∈ db.tokens, (t.expires = 0 ∨ now ≤ t.expires) → t ∈ db'.tokens) ∧
      (∀ t ∈ db.tokens, 0 ≤ t.expires →
        (t ∉ db'.tokens ↔ ¬ (t.expires = 0 ∨ now ≤ t.expires))) ∧
      (∀ t ∈ db.tokens, t.expires = 0 → t ∈ db'.tokens) := by
  have hmem : ∀ t, t ∈ (deleteExpiredTokensQuery db now).tokens ↔
      t ∈ db.tokens ∧ ¬ (0 < t.expires ∧ t.expires < now) := by
    intro t
    simp only [deleteExpiredTokensQuery, List.mem_filter, Bool.not_eq_true', Bool.and_eq_false_imp,
      decide_eq_true_eq, decide_eq_false_iff_not, gt_iff_lt, not_and, not_lt]
  refine ⟨deleteExpiredTokensQuery db now, rfl, rfl, rfl, List.filter_sublist _, hmem, ?_,
    ?_, ?_, ?_⟩
  · intro v
    unfold AuthenticateToken userByToken
    rw [selectUserByTokenQuery_deleteExpired]
  · intro t ht h
    exact (hmem t).2 ⟨ht, by omega⟩
  · intro t ht h0
    rw [hmem]
    constructor
    · intro h hacc
      exact h ⟨ht, by omega⟩
    · intro h hin
      exact h (by omega)
  · intro t ht h0
    exact (hmem t).2 ⟨ht, by omega⟩

/-- C26: `setupDB` reads the stored schema version `v`. With `v = 6` it returns `nil`
and runs no migration; with `v > 6` it fails with the unexpected-schema-version
error and runs no migration; with `1 <= v < 6`, when the queries of the steps
succeed, it runs exactly the steps `v, v + 1, ..., 5`, once each and in this order,
and leaves the stored version at 6, every step `i` setting the stored version to
`i + 1`; with `v < 1` it fails because no migration step is registered, and runs no
migration. -/
theorem setupDB_spec (sqlOk : Int → Bool) (s : SchemaDB) (v : Int)
    (hv : s.table = some (some v)) :
    (v = 6 → setupDB sqlOk s = (none, s)) ∧
      (v > 6 → setupDB sqlOk s = (some SetupError.unexpectedSchemaVersion, s)) ∧
      (1 ≤ v → v < 6 → (∀ i, v ≤ i → i < 6 → sqlOk i = true) →
        setupDB sqlOk s =
          (none, { table := some (some 6),
                   ran := s.ran ++ (List.range (6 - v).toNat).map fun (k : Nat) => v + (k : Int) })) ∧
      (∀ i x ran, 1 ≤ i → i < 6 → sqlOk i = true →
        ∃ fn, migrations sqlOk i = some fn ∧
          fn { table := some (some x), ran := ran } =
            .ok { table := some (some (i + 1)), ran := ran ++ [i] }) ∧
      (v < 1 → setupDB sqlOk s = (some SetupError.noMigrationStep, s)) := by
  obtain ⟨table, ran⟩ := s
  simp only at hv
  subst hv
  refine ⟨?_, ?_, ?_, ?_, ?_⟩
  · intro h
    simp [setupDB, h, currentSchemaVersion]
  · intro h
    have h6 : ¬ v = 6 := by omega
    simp [setupDB, currentSchemaVersion, h6, h]
  · intro h1 h6 hok
    have hne : ¬ v = 6 := by omega
    have hgt : ¬ v > 6 := by omega
    simp only [setupDB, currentSchemaVersion, hne, hgt, if_false]
    rw [migrateLoop_run sqlOk (6 - v).toNat v v ran h1 (by omega) hok]
    have hn : ¬ (6 - v).toNat = 0 := by omega
    have hsum : v + ((6 - v).toNat : Int) = 6 := by omega
    simp only [hn, if_false, hsum]
  · intro i x ran h1 h6 hok
    exact migrations_step sqlOk i x ran h1 h6 hok
  · intro h
    have hne : ¬ v = 6 := by omega
    have hgt : ¬ v > 6 := by omega
    obtain ⟨n, hn⟩ : ∃ n, (6 - v).toNat = n + 1 := ⟨(6 - v).toNat - 1, by omega⟩
    have hm : migrations sqlOk v = none := by
      have : ¬ v = 1 ∧ ¬ v = 2 ∧ ¬ v = 3 ∧ ¬ v = 4 ∧ ¬ v = 5 := by omega
      simp [migrations, this]
    simp only [setupDB, currentSchemaVersion, hne, hgt, if_false, hn, migrateLoop, hm]

/-- C26, witness: from the stored version 3 the steps 3, 4 and 5 run, in this order,
and the stored version ends at 6. -/
theorem setupDB_spec_witness :
    setupDB (fun _ => true) { table := some (some 3), ran := [] } =
      (none, { table := some (some 6), ran := [3, 4, 5] }) :=
  (setupDB_spec (fun _ => true) { table := some (some 3), ran := [] } 3 rfl).2.2.1
    (by decide) (by decide) (fun _ _ _ => rfl)

/-- C27: the stats queue is empty, then `EnqueueUserStats` is called any number of
times and `writeUserStatsQueue` runs once, visiting the queue in any order. Every
user row whose id was enqueued then carries the stats of the last call for that id,
every other row is unchanged, the stats queue is empty and the token queue is as it
was. After `ResetStats`, from any state, the stats of every row are 0, the stats
queue is empty and the token queue is unchanged, and a flush that follows without
a new enqueue changes nothing. -/
theorem writeUserStatsQueue_spec (range : List (String × Stats) → List (String × Stats))
    (hrange : ∀ q, (range q).Perm q) (a : Manager) (hempty : a.statsQueue = [])
    (calls : List (String × Stats)) :
    writeUserStatsQueue range (enqueueAll a calls) =
        { db := { a.db with users := a.db.users.map fun u =>
                    match lastEnqueued calls u.id with
                    | some s => withStats u s
                    | none => u },
          statsQueue := [], tokenQueue := a.tokenQueue } ∧
      ∀ b : Manager,
        (ResetStats b).db.users = b.db.users.map (fun u => withStats u ⟨0, 0, 0⟩) ∧
        (∀ u ∈ (ResetStats b).db.users, persistedStats u = ⟨0, 0, 0⟩) ∧
        (ResetStats b).statsQueue = [] ∧ (ResetStats b).tokenQueue = b.tokenQueue ∧
        writeUserStatsQueue range (ResetStats b) = ResetStats b := by
  constructor
  · obtain ⟨hdb, htq⟩ := enqueueAll_frame calls a
    unfold writeUserStatsQueue swapStatsQueue
    by_cases hq : (enqueueAll a calls).statsQueue.length = 0
    · rw [if_pos hq]
      have hq' : (enqueueAll a calls).statsQueue = [] := List.length_eq_zero.1 hq
      have hnone : ∀ k, lastEnqueued calls k = none := by
        intro k
        rw [← lastEnqueued_queue calls a hempty k, hq']
        rfl
      have hmap : (a.db.users.map fun u =>
          match lastEnqueued calls u.id with
          | some s => withStats u s
          | none => u) = a.db.users := by
        conv_rhs => rw [← List.map_id a.db.users]
        apply List.map_congr_left
        intro u _
        rw [hnone u.id]
        rfl
      rw [hmap]
      cases hm : enqueueAll a calls with
      | mk db sq tq =>
        rw [hm] at hdb htq hq'
        simp only at hdb htq hq'
        subst hdb htq hq'
        rfl
    · rw [if_neg hq]
      simp only [writeStatsTx, writeStats_users, hdb, htq]
      congr 2
      apply List.map_congr_left
      intro u _
      have hn : ((enqueueAll a calls).statsQueue.map fun e => e.1).Nodup :=
        enqueueAll_keys_nodup calls a (by rw [hempty]; exact List.nodup_nil)
      rw [lastEnqueued_perm _ _ u.id hn (hrange _), lastEnqueued_queue calls a hempty]
  · intro b
    refine ⟨rfl, ?_, rfl, rfl, rfl⟩
    intro u hu
    simp only [ResetStats, updateUserStatsResetAllQuery, List.mem_map] at hu
    obtain ⟨u0, _, rfl⟩ := hu
    rfl

/-- C27, witness: `{msgs=3}` and then `{msgs=5}` are enqueued for `phil`; after the
flush the persisted value is 5 and the queue is empty. -/
theorem writeUserStatsQueue_spec_witness :
    (writeUserStatsQueue id
        (enqueueAll sampleManager [("u_phil", ⟨3, 0, 0⟩), ("u_phil", ⟨5, 0, 0⟩)])).db.users.map
        (fun u => (u.id, persistedStats u)) =
      [("u_everyone", ⟨0, 0, 0⟩), ("u_phil", ⟨5, 0, 0⟩), ("u_bob", ⟨0, 0, 0⟩)] ∧
    (writeUserStatsQueue id
        (enqueueAll sampleManager [("u_phil", ⟨3, 0, 0⟩), ("u_phil", ⟨5, 0, 0⟩)])).statsQueue =
      [] := by
  have h := (writeUserStatsQueue_spec id (fun _ => List.Perm.refl _) sampleManager rfl
    [("u_phil", ⟨3, 0, 0⟩), ("u_phil", ⟨5, 0, 0⟩)]).1
  rw [h]
  exact ⟨by decide, rfl⟩

/-- C28, failing interleaving: `{msgs=3}` is enqueued for `phil`, the flusher swaps
the queue out and releases the mutex, `ResetStats` runs from its first to its last
statement (every row is 0 and the queue is empty when it returns), and then the
flusher writes what it had swapped out: the row of `phil` now stores `msgs=3`, a
value that was enqueued before `ResetStats` began, and nothing was enqueued after
it. -/
theorem ResetStats_then_stale_write :
    ∃ s1 s2,
      System.run id ⟨sampleManager, none⟩
          [.enqueue "u_phil" ⟨3, 0, 0⟩, .flushSwap, .resetStats] = some s1 ∧
        (∀ u ∈ s1.manager.db.users, persistedStats u = ⟨0, 0, 0⟩) ∧
        s1.manager.statsQueue = [] ∧
        System.run id s1 [.flushWrite] = some s2 ∧
        s2.manager.statsQueue = [] ∧
        ∃ u ∈ s2.manager.db.users, u.id = "u_phil" ∧ persistedStats u = ⟨3, 0, 0⟩ :=
  ⟨_, _, rfl, by decide, rfl, rfl, rfl, by decide⟩

/-- C29, counterexample: a tier with a message expiry of one and a half seconds is
added to an empty table; whatever the library returns for its seconds, `Tier(code)`
returns a tier whose message expiry is another duration. And a tier whose yearly
price id is `price_1` is added to a table in which the tier `pro` has the monthly
price id `price_1`: `AddTier` succeeds and `TierByStripePrice("price_1")` returns
`pro`, not the tier added. -/
theorem AddTier_then_Tier_counterexample :
    (∀ lib : Lib, ∃ tiers t,
      AddTier lib [] "ti_x" { mkTier "biz" 5 "" "" with MessageExpiryDuration := 1500000000 } =
          .ok (tiers, t) ∧
        t.MessageExpiryDuration = 1500000000 ∧
        ∃ t1, Manager.Tier tiers "biz" = .ok t1 ∧ t1.MessageExpiryDuration ≠ 1500000000) ∧
      ∃ tiers t,
        AddTier libToy proTiers "ti_x" (mkTier "biz" 5 "" "price_1") = .ok (tiers, t) ∧
          t.Code = "biz" ∧ t.StripeYearlyPriceID = "price_1" ∧
          ∃ t1, TierByStripePrice tiers "price_1" = .ok t1 ∧ t1.Code = "pro" :=
  ⟨fun _ => ⟨_, _, rfl, rfl, _, rfl, wrapInt64_seconds_ne _⟩,
    ⟨_, _, rfl, rfl, rfl, _, rfl, rfl⟩⟩

/-- C29, amended: the two expiry durations of the tier are whole numbers of seconds
(which the library converts exactly). After `AddTier(t)` succeeds, `Tier(t.Code)`
returns the tier as `AddTier` left it (`t` with the drawn ID when its ID was
empty), equal field by field; and `TierByStripePrice(p)` returns the same tier for
a non-empty monthly or yearly price id `p` of `t` that no other tier carries in
either of its two price columns. -/
theorem AddTier_then_Tier (lib : Lib) (tiers tiers' : List TierRow) (newID : String)
    (t t' : Tier) (hm : WholeSeconds lib t.MessageExpiryDuration)
    (ha : WholeSeconds lib t.AttachmentExpiryDuration)
    (h : AddTier lib tiers newID t = .ok (tiers', t')) :
    t' = (if t.ID = "" then { t with ID := newID } else t) ∧
      Manager.Tier tiers' t.Code = .ok t' ∧
      ∀ p, p ≠ "" → (p = t.StripeMonthlyPriceID ∨ p = t.StripeYearlyPriceID) →
        (∀ r ∈ tiers, r.stripe_monthly_price_id ≠ some p ∧ r.stripe_yearly_price_id ≠ some p) →
        TierByStripePrice tiers' p = .ok t' := by
  unfold AddTier at h
  generalize ht1 : (if t.ID = "" then { t with ID := newID } else t) = t1 at h
  have hcode : t1.Code = t.Code := by rw [← ht1]; split <;> rfl
  have hmon : t1.StripeMonthlyPriceID = t.StripeMonthlyPriceID := by rw [← ht1]; split <;> rfl
  have hyear : t1.StripeYearlyPriceID = t.StripeYearlyPriceID := by rw [← ht1]; split <;> rfl
  have hm1 : WholeSeconds lib t1.MessageExpiryDuration := by
    rw [← ht1]; split <;> exact hm
  have ha1 : WholeSeconds lib t1.AttachmentExpiryDuration := by
    rw [← ht1]; split <;> exact ha
  simp only at h
  split at h
  · cases h
  · rename_i tiers1 hins
    injection h with h
    injection h with h1 h2
    subst h1 h2
    obtain ⟨happ, _, hcodes⟩ := insertTierQuery_ok _ _ _ hins
    have hrow := tierOfRow_AddTier lib t1 hm1 ha1
    refine ⟨rfl, ?_, ?_⟩
    · unfold Manager.Tier selectTierByCodeQuery
      rw [happ, filter_append_new _ _ _ _ (by simp only [hcode, beq_self_eq_true])]
      · simp only [readTier]
        rw [hrow]
      · intro r hr
        have := hcodes r hr
        simp only [hcode] at this
        simpa using this
    · intro p hp hor hno
      unfold TierByStripePrice selectTierByPriceIDQuery
      rw [happ, filter_append_new]
      · simp only [readTier]
        rw [hrow]
      · intro r hr
        obtain ⟨h1, h2⟩ := hno r hr
        rw [Bool.or_eq_false_iff]
        constructor
        · rw [← Bool.not_eq_true, sqlEq_some_iff]; exact h1
        · rw [← Bool.not_eq_true, sqlEq_some_iff]; exact h2
      · simp only [Bool.or_eq_true, sqlEq_some_iff, nullString_eq_some _ _ hp, hmon, hyear]
        rcases hor with h | h
        · exact Or.inl h.symm
        · exact Or.inr h.symm

/-- C29, witness: the tier `biz` (12 hours of message expiry, yearly price
`price_2`) is added next to `pro`; `Tier("biz")` and `TierByStripePrice("price_2")`
return it with the drawn ID. -/
theorem AddTier_then_Tier_witness :
    ∃ tiers t, AddTier libToy proTiers "ti_biz" (mkTier "biz" 10 "" "price_2") = .ok (tiers, t) ∧
      t = { mkTier "biz" 10 "" "price_2" with ID := "ti_biz" } ∧
      Manager.Tier tiers "biz" = .ok t ∧ TierByStripePrice tiers "price_2" = .ok t :=
  ⟨_, _, rfl, rfl,
    (AddTier_then_Tier libToy proTiers _ "ti_biz" (mkTier "biz" 10 "" "price_2") _
      (by decide) (by decide) rfl).2.1,
    (AddTier_then_Tier libToy proTiers _ "ti_biz" (mkTier "biz" 10 "" "price_2") _
      (by decide) (by decide) rfl).2.2 "price_2" (by decide) (Or.inr rfl) (by decide)⟩

/-- C21: the username is allowed, a user of that name exists (and the stored
preferences unmarshal), the tier code exists, and tier ids are unique.
`ChangeTier(u, c)` fails with `ErrTooManyReservations` iff `u` has a tier, the
reservation limit of the tier `c` is strictly less than that of the current tier,
and the number of `u`'s reservations exceeds the new limit. Otherwise it succeeds:
the rows of `u` get the id of the tier `c`, so that the tier of `u` is then the
tier `c`, and nothing else changes. (A failure returns no new state.) -/
theorem ChangeTier_spec (v : Predicates) (lib : Lib) (tiers : List TierRow) (db : DB)
    (username code : String) (hallowed : v.AllowedUsername username = true)
    (huser : ∃ r ∈ db.users, r.user = username) (hprefs : PrefsValid lib db)
    (htier : ∃ t ∈ tiers, t.code = code) (hids : TierIdsUnique tiers) :
    ∃ newTier, Manager.Tier tiers code = .ok newTier ∧ newTier.Code = code ∧
      (ChangeTier v lib tiers db username code = .error Error.ErrTooManyReservations ↔
        ∃ cur, tierOfUser tiers db username = some cur ∧
          newTier.ReservationLimit < cur.ReservationLimit ∧
          ((Reservations db username).length : Int) > newTier.ReservationLimit) ∧
      (ChangeTier v lib tiers db username code ≠ .error Error.ErrTooManyReservations →
        ∃ db', ChangeTier v lib tiers db username code = .ok db' ∧
          tierOfUser tiers db' username = some newTier ∧
          db'.users = db.users.map (fun u =>
            if u.user = username then { u with tier_id := some newTier.ID } else u) ∧
          db'.access = db.access ∧ db'.tokens = db.tokens) := by
  -- the tier row found by code
  obtain ⟨t0, ht0, hc0⟩ := htier
  cases hsel : selectTierByCodeQuery tiers code with
  | nil =>
    have : t0 ∈ selectTierByCodeQuery tiers code := by
      unfold selectTierByCodeQuery
      exact List.mem_filter.2 ⟨ht0, by simpa using hc0⟩
    rw [hsel] at this
    cases this
  | cons trow rest =>
    have htrow : trow ∈ selectTierByCodeQuery tiers code := by rw [hsel]; exact List.mem_cons_self _ _
    have htmem : trow ∈ tiers := (List.mem_filter.1 htrow).1
    have htcode : trow.code = code := by simpa using (List.mem_filter.1 htrow).2
    have hfind : tiers.find? (fun t => t.code == code) = some trow := by
      rw [← head?_filter_eq_find?]
      show (selectTierByCodeQuery tiers code).head? = some trow
      rw [hsel]; rfl
    have hTier : Manager.Tier tiers code = .ok (tierOfRow trow) := by
      unfold Manager.Tier
      rw [hsel]; rfl
    -- the user row
    obtain ⟨r1, hr1, hn1⟩ := huser
    cases hrows : selectUserByNameQuery db username with
    | nil =>
      have : r1 ∈ selectUserByNameQuery db username := by
        unfold selectUserByNameQuery
        exact List.mem_filter.2 ⟨hr1, by simpa using hn1⟩
      rw [hrows] at this
      cases this
    | cons r0 rest0 =>
      have hr0 : r0 ∈ db.users := by
        have : r0 ∈ selectUserByNameQuery db username := by
          rw [hrows]; exact List.mem_cons_self _ _
        exact (List.mem_filter.1 this).1
      have hhead : (selectUserByNameQuery db username).head? = some r0 := by rw [hrows]; rfl
      have hUser := Manager_User_of_head lib db username r0 hhead (hprefs r0 hr0)
      have hCT : ChangeTier v lib tiers db username code =
          match tierOfUser tiers db username with
          | none => .ok (updateUserTierQuery tiers db code username)
          | some tier =>
            if (tierOfRow trow).ReservationLimit < tier.ReservationLimit then
              if ((Reservations db username).length : Int) > (tierOfRow trow).ReservationLimit then
                .error Error.ErrTooManyReservations
              else .ok (updateUserTierQuery tiers db code username)
            else .ok (updateUserTierQuery tiers db code username) := by
        unfold ChangeTier checkReservationsLimit
        simp only [hallowed, Bool.not_true, Bool.false_eq_true, if_false, hTier, hUser]
        cases tierOfUser tiers db username with
        | none => rfl
        | some tier =>
          by_cases h1 : (tierOfRow trow).ReservationLimit < tier.ReservationLimit
          · by_cases h2 : ((Reservations db username).length : Int) >
                (tierOfRow trow).ReservationLimit
            · simp only [h1, h2, if_true]
            · simp only [h1, h2, if_true, if_false]
          · simp only [h1, if_false]
      have hafter : tierOfUser tiers (updateUserTierQuery tiers db code username) username =
          some (tierOfRow trow) := by
        unfold tierOfUser
        rw [selectUserByNameQuery_updateUserTierQuery, hhead, hfind]
        simp only [Option.map_some', Option.some_bind]
        exact userTier_of_id tiers hids trow htmem _ rfl
      have husers : (updateUserTierQuery tiers db code username).users =
          db.users.map (fun u =>
            if u.user = username then { u with tier_id := some (tierOfRow trow).ID } else u) := by
        unfold updateUserTierQuery
        rw [hfind]
        rfl
      refine ⟨tierOfRow trow, hTier, htcode, ?_, ?_⟩
      · rw [hCT]
        cases hcur : tierOfUser tiers db username with
        | none => simp
        | some cur =>
          simp only [Option.some.injEq, exists_eq_left']
          by_cases h1 : (tierOfRow trow).ReservationLimit < cur.ReservationLimit
          · by_cases h2 : ((Reservations db username).length : Int) >
                (tierOfRow trow).ReservationLimit
            · simp [h1, h2]
            · simp [h1, h2]
          · simp [h1]
      · intro hne
        rw [hCT] at hne ⊢
        cases hcur : tierOfUser tiers db username with
        | none => exact ⟨_, rfl, hafter, husers, rfl, rfl⟩
        | some cur =>
          rw [hcur] at hne
          simp only at hne ⊢
          by_cases h1 : (tierOfRow trow).ReservationLimit < cur.ReservationLimit
          · by_cases h2 : ((Reservations db username).length : Int) >
                (tierOfRow trow).ReservationLimit
            · rw [if_pos h1, if_pos h2] at hne
              exact absurd rfl hne
            · rw [if_pos h1, if_neg h2]
              exact ⟨_, rfl, hafter, husers, rfl, rfl⟩
          · rw [if_neg h1]
            exact ⟨_, rfl, hafter, husers, rfl, rfl⟩

/-- C21, witness: `phil` is on tier `pro` (five reservations) and holds two
reservations; `ChangeTier(phil, basic)` (one reservation) fails with
`ErrTooManyReservations`, while `bob`, who has no tier, gets tier `basic`. -/
theorem ChangeTier_spec_witness :
    ChangeTier strictPredicates libToy twoTiers tieredDB "phil" "basic" =
        .error Error.ErrTooManyReservations ∧
      ∃ db', ChangeTier strictPredicates libToy twoTiers tieredDB "bob" "basic" = .ok db' ∧
        (tierOfUser twoTiers db' "bob").map (fun t => t.Code) = some "basic" := by
  obtain ⟨t1, h1, _, h2, _⟩ := ChangeTier_spec strictPredicates libToy twoTiers tieredDB "phil"
    "basic" (by decide) (by decide) (by decide) (by decide) (by decide)
  obtain ⟨t2, h3, hc, _, h4⟩ := ChangeTier_spec strictPredicates libToy twoTiers tieredDB "bob"
    "basic" (by decide) (by decide) (by decide) (by decide) (by decide)
  constructor
  · rw [h2]
    have ht1 : t1 = tierOfRow (twoTiers.get ⟨1, by decide⟩) := by
      have : Manager.Tier twoTiers "basic" = .ok (tierOfRow (twoTiers.get ⟨1, by decide⟩)) := rfl
      rw [this] at h1
      injection h1 with h1
      exact h1.symm
    subst ht1
    exact ⟨tierOfRow (proTiers.get ⟨0, by decide⟩), rfl, by decide, by decide⟩
  · obtain ⟨db', hd, ht, _⟩ := h4 (by
      have : ChangeTier strictPredicates libToy twoTiers tieredDB "bob" "basic" =
          .ok (updateUserTierQuery twoTiers tieredDB "basic" "bob") := rfl
      rw [this]
      intro h; cases h)
    exact ⟨db', hd, by rw [ht, Option.map_some', hc]⟩

/-- On C22, `hashed = true`: the username `phil` and the role `user` are allowed and
no user `phil` exists. With a valid hash as the password argument `AddUser`
succeeds, `Authenticate` with that same argument fails and `Authenticate` with the
password the hash was made from returns the user. With an argument that is not a
valid hash, `AddUser` fails with the error of `ValidPasswordHash`. -/
theorem AddUser_hashed_argument :
    (∃ db' u,
      AddUser strictPredicates hasherSalted 10 freshDB "u_1" "st_1" 100 "phil" "$2a$10$mypass"
          RoleUser true = .ok db' ∧
        Authenticate libSalted db' "phil" "$2a$10$mypass" = .error Error.ErrUnauthenticated ∧
        Authenticate libSalted db' "phil" "mypass" = .ok u ∧ u.Name = "phil") ∧
      strictPredicates.AllowedUsername "phil" = true ∧
      strictPredicates.AllowedRole RoleUser = true ∧
      (∀ r ∈ freshDB.users, r.user ≠ "phil") ∧
      AddUser strictPredicates hasherSalted 10 freshDB "u_1" "st_1" 100 "phil" "mypass" RoleUser
        true = .error Error.storage :=
  ⟨⟨_, _, rfl, by rfl, by rfl, by decide⟩, by decide, by decide, by decide, by rfl⟩

/-- On C22, what `AddUser` does in general: it fails with `ErrInvalidArgument` when
the username or the role is not allowed. Otherwise, when the password cannot be
turned into a hash (an invalid hash with `hashed = true`, or a failing
`hashPassword`), it fails with that error. Otherwise, for a role of the column's
list and a fresh id, it fails with the driver's error (not with `ErrUserExists`)
when a user of that name exists, and else appends exactly one row with that name,
role and hash, `provisioned = false` and not deleted; then `Authenticate(username,
p)` returns that user iff `p` verifies against the stored hash and
`ErrUnauthenticated` otherwise. (A failure returns no new state.) -/
theorem AddUser_behaviour (v : Predicates) (lib : Lib) (h : Hasher) (cost : Nat) (db : DB)
    (userID syncTopic : String) (now : Int) (username password : String) (role : Role)
    (hashed : Bool) :
    ((v.AllowedUsername username = false ∨ v.AllowedRole role = false) →
        AddUser v h cost db userID syncTopic now username password role hashed =
          .error Error.ErrInvalidArgument) ∧
      (v.AllowedUsername username = true → v.AllowedRole role = true →
        (∀ e, passwordHash h cost password hashed = .error e →
          AddUser v h cost db userID syncTopic now username password role hashed = .error e) ∧
        ∀ hash, passwordHash h cost password hashed = .ok hash →
          (role = RoleAnonymous ∨ role = RoleAdmin ∨ role = RoleUser) →
          (∀ r ∈ db.users, r.id ≠ userID) →
          ((∃ r ∈ db.users, r.user = username) →
            AddUser v h cost db userID syncTopic now username password role hashed =
              .error Error.sqlite3Error) ∧
          ((∀ r ∈ db.users, r.user ≠ username) →
            ∃ db', AddUser v h cost db userID syncTopic now username password role hashed =
                .ok db' ∧
              db' = { db with users := db.users ++
                [insertedUserRow userID username hash role syncTopic false now] } ∧
              (username ≠ Everyone → lib.UnmarshalPrefs "\x7b\x7d" = true →
                (∀ p, Authenticate lib db' username p =
                  if lib.CompareHashAndPassword hash p then
                    .ok (userOfRow (insertedUserRow userID username hash role syncTopic false now))
                  else .error Error.ErrUnauthenticated) ∧
                ((∀ q, lib.CompareHashAndPassword hash q = true ↔ q = password) →
                  Authenticate lib db' username password =
                    .ok (userOfRow
                      (insertedUserRow userID username hash role syncTopic false now)) ∧
                  ∀ q, q ≠ password →
                    Authenticate lib db' username q = .error Error.ErrUnauthenticated)))) := by
  constructor
  · intro hbad
    unfold AddUser addUserTx
    rcases hbad with hb | hb <;> simp [hb]
  · intro hu hr
    have hval : (!v.AllowedUsername username || !v.AllowedRole role) = false := by simp [hu, hr]
    constructor
    · intro e he
      unfold AddUser addUserTx
      rw [hval, he]
      rfl
    · intro hash hh hrole hid
      have hins := insertUserQuery_eq db userID username hash role syncTopic false now hrole hid
      constructor
      · intro hex
        unfold AddUser addUserTx
        rw [hval, hh]
        simp only [Bool.false_eq_true, if_false, hins, (any_user_eq_true db username).2 hex,
          if_true]
        rfl
      · intro hno
        have hany : db.users.any (fun u => u.user == username) = false := by
          rw [← Bool.not_eq_true, any_user_eq_true]
          rintro ⟨r, hr1, hr2⟩
          exact hno r hr1 hr2
        refine ⟨_, ?_, rfl, ?_⟩
        · unfold AddUser addUserTx
          rw [hval, hh]
          simp only [Bool.false_eq_true, if_false, hins, hany]
        · intro hne hprefs
          have hauth : ∀ p, Authenticate lib
              { db with users := db.users ++
                [insertedUserRow userID username hash role syncTopic false now] } username p =
              if lib.CompareHashAndPassword hash p then
                .ok (userOfRow (insertedUserRow userID username hash role syncTopic false now))
              else .error Error.ErrUnauthenticated := fun p =>
            Authenticate_inserted lib db
              (insertedUserRow userID username hash role syncTopic false now) p hno hne hprefs rfl
          refine ⟨hauth, ?_⟩
          intro hcorrect
          constructor
          · rw [hauth password]
            have : lib.CompareHashAndPassword hash password = true := (hcorrect password).2 rfl
            rw [if_pos this]
          · intro q hq
            rw [hauth q]
            have : ¬ lib.CompareHashAndPassword hash q = true := fun hc => hq ((hcorrect q).1 hc)
            rw [if_neg this]

/-- C22, failing input: `phil` is added with the password `mypass` and the role
`user` (this call succeeds, `Authenticate("phil", "mypass")` returns the user and
`Authenticate("phil", "wrong")` returns `ErrUnauthenticated`), and then `AddUser` is
called for `phil` again. The second call fails, but not with `ErrUserExists`: the
insert violates the unique index, `errors.Is(err, sqlite3.ErrConstraintUnique)` is
false for the driver's error, and the driver's error is returned. In general
`AddUser` returns `ErrUserExists` for no input at all, unless the hashing of the
password returns it. -/
theorem AddUser_existing_name_driver_error :
    (∃ db', AddUser strictPredicates hasherSalted 10 freshDB "u_1" "st_1" 100 "phil" "mypass"
        RoleUser false = .ok db' ∧
      (∃ r ∈ db'.users, r.user = "phil" ∧ r.role = RoleUser ∧ r.provisioned = false ∧
        r.deleted = none) ∧
      (∃ u, Authenticate libSalted db' "phil" "mypass" = .ok u ∧ u.Role = RoleUser) ∧
      Authenticate libSalted db' "phil" "wrong" = .error Error.ErrUnauthenticated ∧
      strictPredicates.AllowedUsername "phil" = true ∧
      strictPredicates.AllowedRole RoleUser = true ∧
      AddUser strictPredicates hasherSalted 10 db' "u_2" "st_2" 101 "phil" "mypass" RoleUser
        false = .error Error.sqlite3Error) ∧
      Error.sqlite3Error ≠ Error.ErrUserExists ∧
      ∀ (v : Predicates) (h : Hasher) (cost : Nat) (db : DB) (userID syncTopic : String)
        (now : Int) (username password : String) (role : Role) (hashed : Bool),
        passwordHash h cost password hashed ≠ .error Error.ErrUserExists →
        AddUser v h cost db userID syncTopic now username password role hashed ≠
          .error Error.ErrUserExists :=
  ⟨⟨_, rfl, ⟨_, List.mem_append_right _ (List.mem_singleton.2 rfl), rfl, rfl, rfl, rfl⟩,
      ⟨_, by rfl, rfl⟩, by rfl, by decide, by decide, by rfl⟩,
    by decide,
    fun v h cost db userID syncTopic now username password role hashed hhash =>
      addUserTx_ne_ErrUserExists v h cost db userID syncTopic now username password role hashed
        false hhash⟩

/-- C24, counterexample: `phil` was added by hand (not provisioned) and holds a
grant that is not provisioned. The configuration names `phil` with another hash and
the role `admin`. The run succeeds; afterwards the user row of `phil` is not what it
was (it carries the configured hash and role and is provisioned), and his grant is
gone. -/
theorem provision_touches_unprovisioned_rows :
    ∃ db', maybeProvisionUsersAccessAndTokens provisionPredicates libSalted hasherSalted 10
        rndByName 100 cfgPhilAdmin manualDB = .ok db' ∧
      (∃ r ∈ manualDB.users, r.user = "phil" ∧ r.provisioned = false ∧ r ∉ db'.users) ∧
      (∃ r ∈ db'.users, r.user = "phil" ∧ r.pass = "$2a$10$new" ∧ r.role = RoleAdmin ∧
        r.provisioned = true) ∧
      ∃ a ∈ manualDB.access, a.user_id = "u_phil" ∧ a.provisioned = false ∧ a ∉ db'.access :=
  ⟨_, rfl, by decide, by decide, by decide⟩

/-- C24, amended: the store has unique user names, user ids and token values, and
the empty topic pattern is not allowed. After a successful run, every user row that
was not provisioned and whose name is not a configured user is present and
identical; every grant row that was not provisioned, and whose user and owner (if
any) are users that are not provisioned and not mentioned in the configuration, is
present and identical; and so is every token row that was not provisioned and
whose user is such a user. -/
theorem provision_keeps_unconfigured_rows (v : Predicates) (lib : Lib) (h : Hasher)
    (cost : Nat) (rnd : String → String × String) (now : Int) (cfg : ProvisionConfig)
    (db db' : DB) (hnames : UserNamesUnique db) (hids : UserIdsUnique db)
    (htok : TokenValuesUnique db) (hpat : v.AllowedTopicPattern "" = false)
    (hrun : maybeProvisionUsersAccessAndTokens v lib h cost rnd now cfg db = .ok db') :
    (∀ r ∈ db.users, r.provisioned = false → r.user ∉ cfg.Users.map (fun u => u.Name) →
        r ∈ db'.users) ∧
      (∀ a ∈ db.access, a.provisioned = false → Unconfigured cfg db a.user_id →
        (∀ o, a.owner_user_id = some o → Unconfigured cfg db o) → a ∈ db'.access) ∧
      (∀ t ∈ db.tokens, t.provisioned = false → Unconfigured cfg db t.user_id →
        t ∈ db'.tokens) := by
  by_cases hen : cfg.ProvisionEnabled = true
  · obtain ⟨E, db0, db1, hE, h0, h1, hu, _, s⟩ :=
      provision_steps true v lib h cost rnd now cfg db db' (fun _ => hpat) hen hrun
    have hprot : ∀ id, Unconfigured cfg db id →
        ∃ r ∈ db.users, r.id = id ∧
          r.user ∉ configNames cfg ++ staleNames (cfg.Users.map fun u => u.Name) E := by
      rintro id ⟨r, hr, hid, hp, hn⟩
      refine ⟨r, hr, hid, ?_⟩
      intro hin
      rcases List.mem_append.1 hin with h2 | h2
      · exact hn h2
      · exact not_stale_of_unprovisioned lib db E _ hE hnames r hr hp h2
    obtain ⟨hacc, htoks⟩ := s.frame hids
    refine ⟨?_, ?_, ?_⟩
    · intro r hr hp hn
      rw [hu]
      have s01 : Steps rnd true ((cfg.Users.map fun u => u.Name) ++
          staleNames (cfg.Users.map fun u => u.Name) E) [] db db1 :=
        (removeStaleUsers_steps rnd true _ [] v _ E db db0
          (fun n hn => List.mem_append_right _ hn) h0).trans
        (addOrUpdateUsers_steps rnd true _ [] v h cost now E cfg.Users db0 db1
          (fun u hu _ => List.mem_append_left _ (List.mem_map.2 ⟨u, hu, rfl⟩)) h1)
      apply s01.user_stays r hr
      intro hin
      rcases List.mem_append.1 hin with h2 | h2
      · exact hn h2
      · exact not_stale_of_unprovisioned lib db E _ hE hnames r hr hp h2
    · intro a ha hp hu1 ho
      exact hacc a ha hp (hprot _ hu1) (fun o e => hprot o (ho o e))
    · intro t ht hp hu1
      apply htoks t ht (hprot _ hu1)
      intro hin
      obtain ⟨tk, htk, e⟩ := List.mem_map.1 hin
      unfold allProvisionedTokens at htk
      obtain ⟨t', ht', e'⟩ := List.mem_map.1 htk
      unfold selectAllProvisionedTokensQuery at ht'
      obtain ⟨ht'1, ht'2⟩ := List.mem_filter.1 ht'
      have hval : t'.token = t.token := by rw [← e, ← e']; rfl
      have := List.inj_on_of_nodup_map htok ht'1 ht hval
      rw [this, hp] at ht'2
      cases ht'2
  · have hdb : db' = db := by
      unfold maybeProvisionUsersAccessAndTokens at hrun
      have hf : cfg.ProvisionEnabled = false := by simpa using hen
      rw [hf] at hrun
      simp only [Bool.not_false, if_true] at hrun
      injection hrun with hrun
      exact hrun.symm
    subst hdb
    exact ⟨fun _ hr _ _ => hr, fun _ ha _ _ _ => ha, fun _ ht _ _ => ht⟩

/-- C24, witness: in the same run the rows of `bob`, whom the configuration does not
mention, are kept: his user row, his grant and his token. -/
theorem provision_keeps_unconfigured_rows_witness :
    ∃ db', maybeProvisionUsersAccessAndTokens provisionPredicates libSalted hasherSalted 10
        rndByName 100 cfgPhilAdmin manualDB = .ok db' ∧
      mkUserRow "u_bob" "bob" RoleUser ∈ db'.users ∧
      mkGrant "u_bob" "bar" PermissionRead ∈ db'.access ∧
      insertedTokenRow 0 "u_bob" "tk_bob" "" 0 "0.0.0.0" false ∈ db'.tokens :=
  ⟨_, rfl,
    (provision_keeps_unconfigured_rows provisionPredicates libSalted hasherSalted 10 rndByName
      100 cfgPhilAdmin manualDB _ (by decide) (by decide) (by decide) (by decide) rfl).1
      _ (by decide) (by decide) (by decide),
    (provision_keeps_unconfigured_rows provisionPredicates libSalted hasherSalted 10 rndByName
      100 cfgPhilAdmin manualDB _ (by decide) (by decide) (by decide) (by decide) rfl).2.1
      _ (by decide) (by decide) ⟨mkUserRow "u_bob" "bob" RoleUser, by decide, rfl, rfl,
        by decide⟩ (fun o e => by cases e),
    (provision_keeps_unconfigured_rows provisionPredicates libSalted hasherSalted 10 rndByName
      100 cfgPhilAdmin manualDB _ (by decide) (by decide) (by decide) (by decide) rfl).2.2
      _ (by decide) (by decide) ⟨mkUserRow "u_bob" "bob" RoleUser, by decide, rfl, rfl,
        by decide⟩⟩

/-- C23: after a successful provisioning run with `ProvisionEnabled`, on a database
with unique user names and ids and a configuration that names each user once, the
user rows other than `*` whose provisioned flag is true are exactly the rows of the
configured users; every configured user other than `*` has exactly one row, with
the configured role and password hash; a user that was provisioned and is not
configured has no row any more, and no user, grant or token row carries its id
(when the run does not draw that id again); the rows of `*` are as before. -/
theorem provision_users_spec (v : Predicates) (lib : Lib) (h : Hasher) (cost : Nat)
    (rnd : String → String × String) (now : Int) (cfg : ProvisionConfig) (db db' : DB)
    (hen : cfg.ProvisionEnabled = true) (hnames : UserNamesUnique db)
    (hids : UserIdsUnique db) (hcfg : (cfg.Users.map fun u => u.Name).Nodup)
    (hhash : ∀ p, h.ValidPasswordHash p ≠ some Error.ErrUserExists)
    (hrun : maybeProvisionUsersAccessAndTokens v lib h cost rnd now cfg db = .ok db') :
    (∀ r ∈ db'.users, r.user ≠ Everyone →
        (r.provisioned = true ↔ r.user ∈ cfg.Users.map fun u => u.Name)) ∧
      (∀ u ∈ cfg.Users, u.Name ≠ Everyone →
        ∃ r, selectUserByNameQuery db' u.Name = [r] ∧ r.provisioned = true ∧
          r.role = u.Role ∧ r.pass = u.Hash) ∧
      (∀ r ∈ db.users, r.provisioned = true → r.user ≠ Everyone →
        r.user ∉ (cfg.Users.map fun u => u.Name) →
          selectUserByNameQuery db' r.user = [] ∧
            ((∀ m, (rnd m).1 ≠ r.id) → Unreferenced r.id db')) ∧
      selectUserByNameQuery db' Everyone = selectUserByNameQuery db Everyone := by
  obtain ⟨E, db0, db1, hE, h0, h1, hu, s1, _⟩ :=
    provision_steps false v lib h cost rnd now cfg db db' (fun hs => by cases hs) hen hrun
  obtain ⟨_, hE2⟩ := Users_mem lib db E hE
  obtain ⟨hsub, hnostale, hrefs⟩ :=
    removeStaleUsers_result v (cfg.Users.map fun u => u.Name) E db db0 h0
  have sA := removeStaleUsers_steps rnd false (staleNames (cfg.Users.map fun u => u.Name) E) []
    v (cfg.Users.map fun u => u.Name) E db db0 (fun n hn => hn) h0
  have sB := addOrUpdateUsers_steps rnd false
    ((cfg.Users.filter fun u => u.Name != Everyone).map fun u => u.Name) [] v h cost now E
    cfg.Users db0 db1
    (fun u hu hne => List.mem_map.2 ⟨u, List.mem_filter.2 ⟨hu, by simpa using hne⟩, rfl⟩) h1
  have hsel : ∀ n, selectUserByNameQuery db' n = selectUserByNameQuery db1 n := by
    intro n
    unfold selectUserByNameQuery
    rw [hu]
  have hcfgnot : ∀ u ∈ cfg.Users,
      u.Name ∉ staleNames (cfg.Users.map fun u => u.Name) E := by
    intro u hu hin
    obtain ⟨_, _, _, _, _, hno⟩ := mem_staleNames.1 hin
    exact hno (List.mem_map.2 ⟨u, hu, rfl⟩)
  have hgood := addOrUpdateUsers_good v lib h cost rnd now E db hE hnames hhash cfg.Users db0
    db1 hcfg (fun u hu _ => sA.users_other u.Name (hcfgnot u hu)) h1
  have hnot : ∀ n, n ∉ (cfg.Users.map fun u => u.Name) →
      n ∉ ((cfg.Users.filter fun u => u.Name != Everyone).map fun u => u.Name) := by
    intro n hn hin
    obtain ⟨u, hu, e⟩ := List.mem_map.1 hin
    exact hn (List.mem_map.2 ⟨u, (List.mem_filter.1 hu).1, e⟩)
  have hstale : ∀ r ∈ db.users, r.provisioned = true → r.user ≠ Everyone →
      r.user ∉ (cfg.Users.map fun u => u.Name) →
      r.user ∈ staleNames (cfg.Users.map fun u => u.Name) E :=
    fun r hr hp hne hno => mem_staleNames.2 ⟨userOfRow r, hE2 hnames r hr, rfl, hne, hp, hno⟩
  refine ⟨?_, ?_, ?_, ?_⟩
  · intro r hr hne
    rw [hu] at hr
    constructor
    · intro hp
      by_contra hno
      have hr0 := sB.user_was r hr (hnot _ hno)
      exact hnostale r hr0 (hstale r (hsub r hr0) hp hne hno)
    · intro hin
      obtain ⟨u, hu1, e⟩ := List.mem_map.1 hin
      have e1 : u.Name = r.user := e
      obtain ⟨r1, hs, hp, _⟩ := hgood u hu1 (by rw [e1]; exact hne)
      have hmem : r ∈ selectUserByNameQuery db1 u.Name :=
        mem_selectUserByNameQuery.2 ⟨hr, e1.symm⟩
      rw [hs] at hmem
      rw [List.mem_singleton.1 hmem]
      exact hp
  · intro u hu1 hne
    rw [hsel]
    exact hgood u hu1 hne
  · intro r hr hp hne hno
    have hst := hstale r hr hp hne hno
    constructor
    · rw [hsel]
      apply selectUserByNameQuery_eq_nil
      intro r1 hr1 e
      have hr0 := sB.user_was r1 hr1 (by rw [e]; exact hnot _ hno)
      exact hnostale r1 hr0 (by rw [e]; exact hst)
    · intro hrnd
      have U0 : Unreferenced r.id db0 := by
        refine ⟨?_, (hrefs r hr hst).1, (hrefs r hr hst).2⟩
        intro r1 hr1 e
        have := eq_of_id_eq hids (hsub r1 hr1) hr e
        exact hnostale r1 hr1 (by rw [this]; exact hst)
      exact s1.unreferenced r.id hrnd (sB.unreferenced r.id hrnd U0)
  · rw [hsel, sB.users_other Everyone, sA.users_other Everyone]
    · intro hin
      obtain ⟨_, _, _, hne, _⟩ := mem_staleNames.1 hin
      exact hne rfl
    · intro hin
      obtain ⟨u, hu1, e⟩ := List.mem_map.1 hin
      have := (List.mem_filter.1 hu1).2
      simp only [bne_iff_ne, ne_eq] at this
      exact this e

/-- C23 on a sample run: `ben` was provisioned and is not configured, `phil` was
added by hand and is configured as `admin` with another hash, `alice` is new. -/
theorem provision_users_spec_witness :
    ∃ db', maybeProvisionUsersAccessAndTokens provisionPredicates libSalted hasherSalted 10
        rndNew 100 cfgPhilAlice staleDB = .ok db' ∧
      (∃ r, selectUserByNameQuery db' "phil" = [r] ∧ r.provisioned = true ∧
        r.role = RoleAdmin ∧ r.pass = "$2a$10$new") ∧
      (∃ r, selectUserByNameQuery db' "alice" = [r] ∧ r.provisioned = true ∧
        r.role = RoleUser ∧ r.pass = "$2a$10$alice") ∧
      selectUserByNameQuery db' "ben" = [] ∧ Unreferenced "u_ben" db' ∧
      selectUserByNameQuery db' Everyone = [mkUserRow "u_everyone" Everyone RoleAnonymous] :=
  have hhash : ∀ p, hasherSalted.ValidPasswordHash p ≠ some Error.ErrUserExists := by
    intro p hp
    unfold hasherSalted at hp
    simp only at hp
    split at hp <;> cases hp
  have hdraw : ∀ m, (rndNew m).1 ≠ "u_ben" := by
    intro m hm
    have hl := congrArg String.length hm
    have e : (rndNew m).1 = "u_new_" ++ m := rfl
    rw [e, String.length_append] at hl
    have h6 : "u_new_".length = 6 := by decide
    have h5 : "u_ben".length = 5 := by decide
    omega
  ⟨_, rfl,
    (provision_users_spec provisionPredicates libSalted hasherSalted 10 rndNew 100 cfgPhilAlice
      staleDB _ rfl (by decide) (by decide) (by decide) hhash rfl).2.1
      (mkConfigUser "phil" "$2a$10$new" RoleAdmin) (by decide) (by decide),
    (provision_users_spec provisionPredicates libSalted hasherSalted 10 rndNew 100 cfgPhilAlice
      staleDB _ rfl (by decide) (by decide) (by decide) hhash rfl).2.1
      (mkConfigUser "alice" "$2a$10$alice" RoleUser) (by decide) (by decide),
    ((provision_users_spec provisionPredicates libSalted hasherSalted 10 rndNew 100 cfgPhilAlice
      staleDB _ rfl (by decide) (by decide) (by decide) hhash rfl).2.2.1
      { mkUserRow "u_ben" "ben" RoleUser with pass := "$2a$10$ben", provisioned := true }
      (by decide) rfl (by decide) (by decide)).1,
    ((provision_users_spec provisionPredicates libSalted hasherSalted 10 rndNew 100 cfgPhilAlice
      staleDB _ rfl (by decide) (by decide) (by decide) hhash rfl).2.2.1
      { mkUserRow "u_ben" "ben" RoleUser with pass := "$2a$10$ben", provisioned := true }
      (by decide) rfl (by decide) (by decide)).2 hdraw,
    (provision_users_spec provisionPredicates libSalted hasherSalted 10 rndNew 100 cfgPhilAlice
      staleDB _ rfl (by decide) (by decide) (by decide) hhash rfl).2.2.2⟩

/-- C25, failing input: `phil` holds sixty tokens with finite expiry times, none of
them provisioned, and the configuration gives him the token `tk_provisioned`. The
run succeeds, `phil` is provisioned, and yet no token row is provisioned
afterwards and no row carries the configured value: the token was inserted with
`expires = 0` and pruned in the same call of `createTokenTx`. (The last sentence
of the claim holds: a run whose configuration gives tokens to a user that is
neither configured nor `*` does not succeed.) -/
theorem provision_prunes_configured_token :
    (∀ (v : Predicates) (lib : Lib) (h : Hasher) (cost : Nat) (rnd : String → String × String)
        (now : Int) (cfg : ProvisionConfig) (db : DB), cfg.ProvisionEnabled = true →
      (∃ e ∈ cfg.Tokens, e.1 ∉ cfg.Users.map (fun u => u.Name) ∧ e.1 ≠ Everyone) →
      ∀ db', maybeProvisionUsersAccessAndTokens v lib h cost rnd now cfg db ≠ .ok db') ∧
    (∃ u ∈ cfgPhilToken.Users, u.Name = "phil") ∧
    (∃ e ∈ cfgPhilToken.Tokens, e.1 = "phil" ∧ ∃ t ∈ e.2, t.Value = "tk_provisioned") ∧
    ∃ db', maybeProvisionUsersAccessAndTokens provisionPredicates libToy hasherSalted 10
        rndByName 100 cfgPhilToken fullDB = .ok db' ∧
      (∃ r ∈ db'.users, r.user = "phil" ∧ r.id = "u_phil" ∧ r.provisioned = true) ∧
      db'.tokens.length = 60 ∧
      (∀ t ∈ db'.tokens, t.provisioned = false) ∧
      (∀ t ∈ db'.tokens, t.token ≠ "tk_provisioned") :=
  ⟨fun v lib h cost rnd now cfg db hen ⟨e, he, h1, h2⟩ db' hrun => by
      obtain ⟨_, _, _, _, _, _, _, _, h3⟩ :=
        provision_parts v lib h cost rnd now cfg db db' hen hrun
      rcases provisionTokens_known_users _ now cfg.Tokens _ db' h3 e he with h4 | h4
      · exact h1 h4
      · exact h2 h4,
    by decide, by decide, _, rfl, by decide, by decide, by decide, by decide⟩

end Ntfy
